import Mathlib

/-!
# The micro-step engine of uscxml (`FastMicroStep.cpp`)

A shallow embedding of `FastMicroStep::step`, `reset` and `markAsCancelled`.

* A `boost::dynamic_bitset<>` is a natural number read in binary: bit `i` of the
  number is bit `i` of the set.
* The arrays `_states` and `_transitions` are lists.  The DOM element of a state
  (of a transition) is identified with the index of the state (of the transition);
  all other DOM elements (executable content, `<data>`, `<invoke>`, `<donedata>`)
  are abstract identifiers.
* The callbacks (`MicroStepCallbacks`) are functions on a host state `H`, which is
  threaded through a step in the order of the calls.  Every call is also appended to
  a trace, together with the program point that makes it.  Callbacks are assumed to
  return; `process` and `invoke` may fail inside the host, which the engine swallows.
* The document index built by `init` is a parameter of the engine (`scxml`).
-/

namespace uscxml

/-! ## Bit sets -/

/-- A `boost::dynamic_bitset<>`, read as a binary number. -/
abbrev Bitset := Nat

/-- Macro `#define BIT_HAS(idx, bitset) (bitset[idx])` -/
def BIT_HAS (idx : Nat) (bitset : Bitset) : Bool := Nat.testBit bitset idx

/-- Macro `#define BIT_SET_AT(idx, bitset) bitset[idx] = true;` -/
def BIT_SET_AT (idx : Nat) (bitset : Bitset) : Bitset := bitset ||| (1 <<< idx)

/-- The operation `a & ~b` on bit sets. -/
def bitAndNot (a b : Bitset) : Bitset := a ^^^ (a &&& b)

/-- Macro `#define BIT_CLEAR(idx, bitset) bitset[idx] = false;` -/
def BIT_CLEAR (idx : Nat) (bitset : Bitset) : Bitset := bitAndNot bitset (1 <<< idx)

/-- Macro `#define BIT_HAS_AND(bitset1, bitset2) bitset1.intersects(bitset2)` -/
def BIT_HAS_AND (bitset1 bitset2 : Bitset) : Bool := (bitset1 &&& bitset2) != 0

/-- Member `dynamic_bitset::any()`. -/
def bitAny (b : Bitset) : Bool := b != 0

/-- Member `dynamic_bitset::count()` of a bit set of the given size. -/
def bitCount (size : Nat) (b : Bitset) : Nat :=
  ((List.range size).filter (fun i => BIT_HAS i b)).length

/-! ## Constants -/

def USCXML_CTX_PRISTINE : Nat := 0x00
def USCXML_CTX_SPONTANEOUS : Nat := 0x01
def USCXML_CTX_INITIALIZED : Nat := 0x02
def USCXML_CTX_TOP_LEVEL_FINAL : Nat := 0x04
def USCXML_CTX_TRANSITION_FOUND : Nat := 0x08
def USCXML_CTX_FINISHED : Nat := 0x10
def USCXML_CTX_STABLE : Nat := 0x20

def USCXML_TRANS_SPONTANEOUS : Nat := 0x01
def USCXML_TRANS_TARGETLESS : Nat := 0x02
def USCXML_TRANS_INTERNAL : Nat := 0x04
def USCXML_TRANS_HISTORY : Nat := 0x08
def USCXML_TRANS_INITIAL : Nat := 0x10

def USCXML_STATE_ATOMIC : Nat := 0x01
def USCXML_STATE_PARALLEL : Nat := 0x02
def USCXML_STATE_COMPOUND : Nat := 0x03
def USCXML_STATE_FINAL : Nat := 0x04
def USCXML_STATE_HISTORY_DEEP : Nat := 0x05
def USCXML_STATE_HISTORY_SHALLOW : Nat := 0x06
def USCXML_STATE_INITIAL : Nat := 0x07
def USCXML_STATE_HAS_HISTORY : Nat := 0x80

/-- Macro `#define USCXML_STATE_MASK(t) (t & 0x7F)` -/
def USCXML_STATE_MASK (t : Nat) : Nat := t &&& 0x7F

/-- Truth of `flags & mask` in a C condition. -/
def hasFlag (flags mask : Nat) : Bool := (flags &&& mask) != 0

/-! ## Data model -/

/-- An abstract DOM element (executable content, data, invoke, donedata). -/
abbrev DOMElement := Nat

/-- An event; an `Event` object that converts to `false` is `none` below. -/
abbrev Event := String

/-- The record `FastMicroStep::State`. -/
structure State where
  type : Nat
  parent : Nat
  ancestors : Bitset
  children : Bitset
  completion : Bitset
  onEntry : List DOMElement
  onExit : List DOMElement
  invoke : List DOMElement
  data : List DOMElement
  doneData : Option DOMElement
deriving Repr, DecidableEq, Inhabited

/-- The record `FastMicroStep::Transition`. -/
structure Transition where
  source : Nat
  target : Bitset
  exitSet : Bitset
  conflicts : Bitset
  event : String
  cond : String
  type : Nat
  onTrans : Option DOMElement
deriving Repr, DecidableEq, Inhabited

/-- The arrays that `init` builds from the document. -/
structure Index where
  states : List State
  transitions : List Transition
deriving Repr, DecidableEq, Inhabited

/-- The values of `InterpreterState` that `step` returns. -/
inductive InterpreterState where
  | USCXML_INITIALIZED
  | USCXML_MICROSTEPPED
  | USCXML_MACROSTEPPED
  | USCXML_IDLE
  | USCXML_CANCELLED
  | USCXML_FINISHED
deriving Repr, DecidableEq, Inhabited

/-- The members of `FastMicroStep`. -/
structure Engine where
  scxml : Index
  states : List State
  transitions : List Transition
  configuration : Bitset
  history : Bitset
  initializedData : Bitset
  invocations : Bitset
  flags : Nat
  microstepConfigurations : List Bitset
  event : Option Event
  isInitialized : Bool
  isCancelled : Bool
deriving Repr, DecidableEq, Inhabited

/-- The program point of a `process` call. -/
inductive Site where
  | completionExit (state : Nat)
  | onExit (state : Nat)
  | onTrans (trans : Nat)
  | onEntry (state : Nat)
  | pseudoTrans (state : Nat) (trans : Nat)
deriving Repr, DecidableEq, Inhabited

/-- The monitor hooks that `step` fires. -/
inductive MonitorHook where
  | beforeCompletion
  | afterCompletion
  | beforeMicroStep
  | afterMicroStep
  | onStableConfiguration
  | beforeProcessingEvent (e : Event)
  | beforeExitingState (state : Nat)
  | afterExitingState (state : Nat)
  | beforeTakingTransition (trans : Nat)
  | afterTakingTransition (trans : Nat)
  | beforeEnteringState (state : Nat)
  | afterEnteringState (state : Nat)
  | reportIssue (message : String)
deriving Repr, DecidableEq, Inhabited

/-- One call of a callback, with the program point where it is needed to tell calls apart:
the state whose invokers are handled, the state being entered. -/
inductive Call where
  | dequeueInternal
  | dequeueExternal (blocking : Bool)
  | isMatched (e : Event) (descriptor : String)
  | isTrue (expr : String)
  | process (site : Site) (content : DOMElement)
  | initData (state : Nat) (data : DOMElement)
  | invoke (state : Nat) (inv : DOMElement)
  | uninvoke (state : Nat) (inv : DOMElement)
  | raiseDoneEvent (entered : Nat) (state : Nat) (doneData : Option DOMElement)
  | monitor (hook : MonitorHook)
deriving Repr, DecidableEq, Inhabited

/-- The interface `MicroStepCallbacks` over a host state `H`. -/
structure MicroStepCallbacks (H : Type) where
  dequeueInternal : H → Option Event × H
  dequeueExternal : H → Bool → Option Event × H
  isMatched : H → Event → String → Bool × H
  isTrue : H → String → Bool × H
  process : H → DOMElement → H
  initData : H → DOMElement → H
  invoke : H → DOMElement → H
  uninvoke : H → DOMElement → H
  raiseDoneEvent : H → Nat → Option DOMElement → H
  monitor : H → MonitorHook → H

/-- The state of a running `step`: the engine, the host and the calls made so far. -/
structure Run (H : Type) where
  eng : Engine
  host : H
  trace : List Call

/-- Macro `#define USCXML_GET_STATE(i) (*_states[i])` -/
def USCXML_GET_STATE (e : Engine) (i : Nat) : State := e.states.getD i default

/-- Macro `#define USCXML_GET_TRANS(i) (*_transitions[i])` -/
def USCXML_GET_TRANS (e : Engine) (i : Nat) : Transition := e.transitions.getD i default

/-- Macro `#define USCXML_NUMBER_STATES _states.size()` -/
def USCXML_NUMBER_STATES (e : Engine) : Nat := e.states.length

/-- Macro `#define USCXML_NUMBER_TRANS _transitions.size()` -/
def USCXML_NUMBER_TRANS (e : Engine) : Nat := e.transitions.length

/-! ## Calls -/

section calls
variable {H : Type} (cb : MicroStepCallbacks H)

/-- Call `_callbacks->process(content)`, failures swallowed. -/
def callProcess (site : Site) (r : Run H) (content : DOMElement) : Run H :=
  { r with host := cb.process r.host content, trace := r.trace ++ [Call.process site content] }

/-- Macro `USCXML_MONITOR_CALLBACK(_callbacks->getMonitor(), hook)` -/
def callMonitor (hook : MonitorHook) (r : Run H) : Run H :=
  { r with host := cb.monitor r.host hook, trace := r.trace ++ [Call.monitor hook] }

/-- Call `_callbacks->initData(data)` -/
def callInitData (state : Nat) (r : Run H) (data : DOMElement) : Run H :=
  { r with host := cb.initData r.host data, trace := r.trace ++ [Call.initData state data] }

/-- Call `_callbacks->invoke(inv)`, failures swallowed. -/
def callInvoke (state : Nat) (r : Run H) (inv : DOMElement) : Run H :=
  { r with host := cb.invoke r.host inv, trace := r.trace ++ [Call.invoke state inv] }

/-- Call `_callbacks->uninvoke(inv)` -/
def callUninvoke (state : Nat) (r : Run H) (inv : DOMElement) : Run H :=
  { r with host := cb.uninvoke r.host inv, trace := r.trace ++ [Call.uninvoke state inv] }

/-- Call `_callbacks->raiseDoneEvent(state, doneData)` while entering the state `entered`. -/
def callRaiseDoneEvent (entered : Nat) (state : Nat) (doneData : Option DOMElement)
    (r : Run H) : Run H :=
  { r with host := cb.raiseDoneEvent r.host state doneData,
           trace := r.trace ++ [Call.raiseDoneEvent entered state doneData] }

end calls

/-- Call `_callbacks->dequeueInternal()`, assigned to `_event`. -/
def callDequeueInternal {H : Type} (cb : MicroStepCallbacks H) (r : Run H) : Run H :=
  { eng := { r.eng with event := (cb.dequeueInternal r.host).1 },
    host := (cb.dequeueInternal r.host).2,
    trace := r.trace ++ [Call.dequeueInternal] }

/-- Call `_callbacks->dequeueExternal(blocking)`, assigned to `_event`. -/
def callDequeueExternal {H : Type} (cb : MicroStepCallbacks H) (blocking : Bool) (r : Run H) :
    Run H :=
  { eng := { r.eng with event := (cb.dequeueExternal r.host blocking).1 },
    host := (cb.dequeueExternal r.host blocking).2,
    trace := r.trace ++ [Call.dequeueExternal blocking] }

/-- Call `_callbacks->isMatched(_event, descriptor)`. -/
def callIsMatched {H : Type} (cb : MicroStepCallbacks H) (e : Event) (descriptor : String)
    (r : Run H) : Bool × Run H :=
  ((cb.isMatched r.host e descriptor).1,
   { r with host := (cb.isMatched r.host e descriptor).2,
            trace := r.trace ++ [Call.isMatched e descriptor] })

/-- Call `_callbacks->isTrue(expr)`. -/
def callIsTrue {H : Type} (cb : MicroStepCallbacks H) (expr : String) (r : Run H) :
    Bool × Run H :=
  ((cb.isTrue r.host expr).1,
   { r with host := (cb.isTrue r.host expr).2, trace := r.trace ++ [Call.isTrue expr] })

/-- Assignment to `_flags`. -/
def Run.setFlags {H : Type} (r : Run H) (flags : Nat) : Run H :=
  { r with eng := { r.eng with flags := flags } }

/-- Assignment to `_configuration`. -/
def Run.setConfiguration {H : Type} (r : Run H) (c : Bitset) : Run H :=
  { r with eng := { r.eng with configuration := c } }

/-- Assignment to `_invocations`. -/
def Run.setInvocations {H : Type} (r : Run H) (c : Bitset) : Run H :=
  { r with eng := { r.eng with invocations := c } }

/-- Assignment to `_initializedData`. -/
def Run.setInitializedData {H : Type} (r : Run H) (c : Bitset) : Run H :=
  { r with eng := { r.eng with initializedData := c } }

/-- The indices `lo, lo+1, ..., hi-1` of a loop `for (k = lo; k < hi; k++)`. -/
def loopRange (lo hi : Nat) : List Nat := List.range' lo (hi - lo)

/-- The indices `n-1, ..., 0` of a loop `i = n; while (i-- > 0)`. -/
def downRange (n : Nat) : List Nat := (List.range n).reverse

/-- A state type that is a history pseudo-state. -/
def isHistoryType (t : Nat) : Bool :=
  USCXML_STATE_MASK t == USCXML_STATE_HISTORY_SHALLOW ||
    USCXML_STATE_MASK t == USCXML_STATE_HISTORY_DEEP

/-- A state type that is "no proper state" for ENTER_STATES (lines 808-810). -/
def isPseudoType (t : Nat) : Bool :=
  USCXML_STATE_MASK t == USCXML_STATE_HISTORY_DEEP ||
    USCXML_STATE_MASK t == USCXML_STATE_HISTORY_SHALLOW ||
    USCXML_STATE_MASK t == USCXML_STATE_INITIAL

/-- A transition type with `USCXML_TRANS_HISTORY | USCXML_TRANS_INITIAL`. -/
def isPseudoTrans (t : Nat) : Bool :=
  hasFlag t (USCXML_TRANS_HISTORY ||| USCXML_TRANS_INITIAL)

/-! ## `FastMicroStep::init`, `reset`, `markAsCancelled` -/

/-- The constructor `FastMicroStep::FastMicroStep`, for the document that `init` will index. -/
def construct (scxml : Index) : Engine :=
  { scxml := scxml, states := [], transitions := [], configuration := 0, history := 0,
    initializedData := 0, invocations := 0, flags := USCXML_CTX_PRISTINE,
    microstepConfigurations := [], event := none, isInitialized := false,
    isCancelled := false }

/-- Effect of `FastMicroStep::init` on the engine: the arrays are filled from the document
and `_isInitialized` is set; the bit sets, resized from empty, hold no bit. -/
def init (e : Engine) : Engine :=
  { e with states := e.scxml.states, transitions := e.scxml.transitions,
           isInitialized := true }

/-- Method `FastMicroStep::markAsCancelled`. -/
def markAsCancelled (e : Engine) : Engine := { e with isCancelled := true }

/-- Method `FastMicroStep::reset`. -/
def reset (e : Engine) : Engine :=
  { e with isCancelled := false, flags := USCXML_CTX_PRISTINE, configuration := 0,
           history := 0, initializedData := 0, invocations := 0 }

/-! ## `FastMicroStep::step` -/

section step
variable {H : Type} (cb : MicroStepCallbacks H)

/-! ### Top-level final: lines 425-460 -/

/-- Body of the loop "exit all remaining states" for the state `i` (lines 431-452). -/
def completionState (r : Run H) (i : Nat) : Run H :=
  let r1 :=
    if BIT_HAS i r.eng.configuration then
      (USCXML_GET_STATE r.eng i).onExit.foldl (callProcess cb (Site.completionExit i)) r
    else r
  if BIT_HAS i r1.eng.invocations then
    let r2 := (USCXML_GET_STATE r1.eng i).invoke.foldl (callUninvoke cb i) r1
    r2.setInvocations (BIT_CLEAR i r2.eng.invocations)
  else r1

/-- The branch `if (_flags & USCXML_CTX_TOP_LEVEL_FINAL)` (lines 425-460). -/
def completeStep (r : Run H) : InterpreterState × Run H :=
  let r1 := callMonitor cb MonitorHook.beforeCompletion r
  let r2 := (downRange (USCXML_NUMBER_STATES r1.eng)).foldl (completionState cb) r1
  let r3 := r2.setFlags (r2.eng.flags ||| USCXML_CTX_FINISHED)
  (InterpreterState.USCXML_FINISHED, callMonitor cb MonitorHook.afterCompletion r3)

/-! ### Invocations: lines 483-506 -/

/-- Body of the loop "manage invocations" for the state `i`. -/
def manageInvocation (r : Run H) (i : Nat) : Run H :=
  let r1 :=
    if !BIT_HAS i r.eng.configuration && BIT_HAS i r.eng.invocations then
      let r2 := (USCXML_GET_STATE r.eng i).invoke.foldl (callUninvoke cb i) r
      r2.setInvocations (BIT_CLEAR i r2.eng.invocations)
    else r
  if BIT_HAS i r1.eng.configuration && !BIT_HAS i r1.eng.invocations then
    let r2 := (USCXML_GET_STATE r1.eng i).invoke.foldl (callInvoke cb i) r1
    r2.setInvocations (BIT_SET_AT i r2.eng.invocations)
  else r1

/-- The loop "manage invocations". -/
def manageInvocations (r : Run H) : Run H :=
  (List.range (USCXML_NUMBER_STATES r.eng)).foldl (manageInvocation cb) r

/-- Lines 508-513: signal the stable configuration once. -/
def signalStable (r : Run H) : Run H :=
  if !hasFlag r.eng.flags USCXML_CTX_STABLE then
    let r1 := callMonitor cb MonitorHook.onStableConfiguration r
    { r1 with eng := { r1.eng with microstepConfigurations := [],
                                   flags := r1.eng.flags ||| USCXML_CTX_STABLE } }
  else r

/-! ### SELECT_TRANSITIONS: lines 531-586 -/

/-- The bit sets local to `step` that the selection loop fills. -/
structure Selection where
  conflicts : Bitset
  targetSet : Bitset
  exitSet : Bitset
  transSet : Bitset
deriving Repr, DecidableEq, Inhabited

/-- The test of line 546: descriptor and event are both empty or both present. -/
def eventKindMatches (t : Transition) (ev : Option Event) : Bool :=
  (t.event.length == 0 && ev.isNone) || (t.event.length != 0 && ev.isSome)

/-- The test of line 549, `!_event || isMatched(_event, event)`, with its host effect. -/
def evalMatched (t : Transition) (r : Run H) : Bool × Run H :=
  match r.eng.event with
  | none => (true, r)
  | some e => callIsMatched cb e t.event r

/-- The test of line 550, `cond.size() == 0 || isTrue(cond)`, with its host effect. -/
def evalCond (t : Transition) (r : Run H) : Bool × Run H :=
  if t.cond.length == 0 then (true, r) else callIsTrue cb t.cond r

/-- Body of the selection loop for the transition `i` (lines 536-569). -/
def selectTransition (p : Run H × Selection) (i : Nat) : Run H × Selection :=
  let t := USCXML_GET_TRANS p.1.eng i
  if isPseudoTrans t.type then p
  else if !BIT_HAS t.source p.1.eng.configuration then p
  else if BIT_HAS i p.2.conflicts then p
  else if !eventKindMatches t p.1.eng.event then p
  else
    let m := evalMatched cb t p.1
    if !m.1 then (m.2, p.2)
    else
      let g := evalCond cb t m.2
      if !g.1 then (g.2, p.2)
      else
        (g.2.setFlags (g.2.eng.flags ||| USCXML_CTX_TRANSITION_FOUND),
         { conflicts := p.2.conflicts ||| t.conflicts,
           targetSet := p.2.targetSet ||| t.target,
           exitSet := p.2.exitSet ||| t.exitSet,
           transSet := BIT_SET_AT i p.2.transSet })

/-- The selection loop over the transitions `0 .. n-1`. -/
def selectLoop (n : Nat) (r : Run H) : Run H × Selection :=
  (List.range n).foldl (selectTransition cb)
    (r, { conflicts := 0, targetSet := 0, exitSet := 0, transSet := 0 })

/-! ### REMEMBER_HISTORY: lines 606-625 -/

/-- Body of the loop for the state `i`. -/
def rememberHistoryState (exitSet : Bitset) (e : Engine) (i : Nat) : Engine :=
  if isHistoryType (USCXML_GET_STATE e i).type then
    if BIT_HAS (USCXML_GET_STATE e i).parent exitSet then
      let tmpStates := (USCXML_GET_STATE e i).completion &&& e.configuration
      { e with history := bitAndNot e.history (USCXML_GET_STATE e i).completion ||| tmpStates }
    else e
  else e

/-- The loop REMEMBER_HISTORY. -/
def rememberHistory (exitSet : Bitset) (e : Engine) : Engine :=
  (List.range e.states.length).foldl (rememberHistoryState exitSet) e

/-! ### ESTABLISH_ENTRYSET: lines 627-739 -/

/-- Body of the loop "iterate for ancestors"; a loop over `find_first` / `find_next` visits
the indices in ascending order and tests the bit as it stands when the index is reached. -/
def addAncestors (e : Engine) (entrySet : Bitset) (i : Nat) : Bitset :=
  if BIT_HAS i entrySet then entrySet ||| (USCXML_GET_STATE e i).ancestors else entrySet

/-- History state `i` with nothing remembered: the default transition (lines 658-676). -/
def historyDefault (e : Engine) (i : Nat) (p : Bitset × Bitset) : Bitset × Bitset :=
  match (List.range e.transitions.length).find? (fun j => (USCXML_GET_TRANS e j).source == i) with
  | none => p
  | some j =>
    let entrySet := p.1 ||| (USCXML_GET_TRANS e j).target
    let entrySet :=
      if USCXML_STATE_MASK (USCXML_GET_STATE e i).type == USCXML_STATE_HISTORY_DEEP &&
          !BIT_HAS_AND (USCXML_GET_TRANS e j).target (USCXML_GET_STATE e i).children then
        match (loopRange (i + 1) e.states.length).find?
            (fun k => BIT_HAS k (USCXML_GET_TRANS e j).target) with
        | some k => entrySet ||| (USCXML_GET_STATE e k).ancestors
        | none => entrySet
      else entrySet
    (entrySet, BIT_SET_AT j p.2)

/-- Lines 688-696: add the history states nested in `j` to the entry set. -/
def addNestedHistories (e : Engine) (j : Nat) (entrySet : Bitset) : Bitset :=
  (loopRange (j + 1) (USCXML_NUMBER_STATES e)).foldl
    (fun es k =>
      if isHistoryType (USCXML_GET_STATE e k).type && BIT_HAS k (USCXML_GET_STATE e j).children
      then BIT_SET_AT k es else es)
    entrySet

/-- History state `i` with a remembered configuration (lines 678-699). -/
def historyRestore (e : Engine) (i : Nat) (entrySet : Bitset) : Bitset :=
  let tmpStates := (USCXML_GET_STATE e i).completion &&& e.history
  let entrySet := entrySet ||| tmpStates
  if (USCXML_GET_STATE e i).type == (USCXML_STATE_HAS_HISTORY ||| USCXML_STATE_HISTORY_DEEP) then
    (loopRange (i + 1) (USCXML_NUMBER_STATES e)).foldl
      (fun es j =>
        if BIT_HAS j (USCXML_GET_STATE e i).completion && BIT_HAS j es &&
            hasFlag (USCXML_GET_STATE e j).type USCXML_STATE_HAS_HISTORY
        then addNestedHistories e j es else es)
      entrySet
  else entrySet

/-- Initial pseudo-state `i`, body for the transition `j` (lines 706-715). -/
def initialTransition (e : Engine) (i : Nat) (p : Bitset × Bitset) (j : Nat) : Bitset × Bitset :=
  if (USCXML_GET_TRANS e j).source == i then
    let entrySet := BIT_CLEAR i p.1 ||| (USCXML_GET_TRANS e j).target
    let entrySet := (loopRange (i + 1) (USCXML_NUMBER_STATES e)).foldl
      (fun es k =>
        if BIT_HAS k (USCXML_GET_TRANS e j).target then es ||| (USCXML_GET_STATE e k).ancestors
        else es)
      entrySet
    (entrySet, BIT_SET_AT j p.2)
  else p

/-- Compound state `i` (lines 719-735). -/
def compoundCompletion (e : Engine) (exitSet : Bitset) (i : Nat) (entrySet : Bitset) : Bitset :=
  if !BIT_HAS_AND entrySet (USCXML_GET_STATE e i).children &&
      (!BIT_HAS_AND e.configuration (USCXML_GET_STATE e i).children ||
        BIT_HAS_AND exitSet (USCXML_GET_STATE e i).children) then
    let entrySet := entrySet ||| (USCXML_GET_STATE e i).completion
    if !BIT_HAS_AND (USCXML_GET_STATE e i).completion (USCXML_GET_STATE e i).children then
      match (loopRange (i + 1) (USCXML_NUMBER_STATES e)).find?
          (fun j => BIT_HAS j (USCXML_GET_STATE e i).completion) with
      | some j => entrySet ||| (USCXML_GET_STATE e j).ancestors
      | none => entrySet
    else entrySet
  else entrySet

/-- Body of the loop "iterate for descendants" for the state `i`, on the pair
`(entrySet, transSet)` (lines 640-739). -/
def addDescendants (e : Engine) (exitSet : Bitset) (p : Bitset × Bitset) (i : Nat) :
    Bitset × Bitset :=
  if BIT_HAS i p.1 then
    let t := USCXML_STATE_MASK (USCXML_GET_STATE e i).type
    if t == USCXML_STATE_FINAL || t == USCXML_STATE_ATOMIC then p
    else if t == USCXML_STATE_PARALLEL then (p.1 ||| (USCXML_GET_STATE e i).completion, p.2)
    else if t == USCXML_STATE_HISTORY_SHALLOW || t == USCXML_STATE_HISTORY_DEEP then
      if !BIT_HAS_AND (USCXML_GET_STATE e i).completion e.history &&
          !BIT_HAS (USCXML_GET_STATE e i).parent e.configuration then
        historyDefault e i p
      else (historyRestore e i p.1, p.2)
    else if t == USCXML_STATE_INITIAL then
      (List.range (USCXML_NUMBER_TRANS e)).foldl (initialTransition e i) p
    else if t == USCXML_STATE_COMPOUND then (compoundCompletion e exitSet i p.1, p.2)
    else p
  else p

/-- ESTABLISH_ENTRYSET: the pair `(entrySet, transSet)` after both loops. -/
def establishEntrySet (e : Engine) (targetSet exitSet transSet : Bitset) : Bitset × Bitset :=
  let entrySet := (List.range e.states.length).foldl (addAncestors e) targetSet
  (List.range e.states.length).foldl (addDescendants e exitSet) (entrySet, transSet)

/-! ### EXIT_STATES: lines 746-767 -/

/-- Body of the loop for the state `i`. -/
def exitState (exitSet : Bitset) (r : Run H) (i : Nat) : Run H :=
  if BIT_HAS i exitSet && BIT_HAS i r.eng.configuration then
    let r1 := callMonitor cb (MonitorHook.beforeExitingState i) r
    let r2 := (USCXML_GET_STATE r1.eng i).onExit.foldl (callProcess cb (Site.onExit i)) r1
    let r3 := r2.setConfiguration (BIT_CLEAR i r2.eng.configuration)
    callMonitor cb (MonitorHook.afterExitingState i) r3
  else r

/-- The loop EXIT_STATES, by descending index. -/
def exitStates (exitSet : Bitset) (r : Run H) : Run H :=
  (downRange (USCXML_NUMBER_STATES r.eng)).foldl (exitState cb exitSet) r

/-! ### TAKE_TRANSITIONS: lines 769-789 -/

/-- The optional call `process(onTrans)` of a transition. -/
def processOnTrans (site : Site) (onTrans : Option DOMElement) (r : Run H) : Run H :=
  match onTrans with
  | some c => callProcess cb site r c
  | none => r

/-- Body of the loop for the transition `i`. -/
def takeTransition (transSet : Bitset) (r : Run H) (i : Nat) : Run H :=
  if BIT_HAS i transSet then
    if !isPseudoTrans (USCXML_GET_TRANS r.eng i).type then
      let r1 := callMonitor cb (MonitorHook.beforeTakingTransition i) r
      let r2 := processOnTrans cb (Site.onTrans i) (USCXML_GET_TRANS r1.eng i).onTrans r1
      callMonitor cb (MonitorHook.afterTakingTransition i) r2
    else r
  else r

/-- The loop TAKE_TRANSITIONS. -/
def takeTransitions (transSet : Bitset) (r : Run H) : Run H :=
  (List.range r.eng.transitions.length).foldl (takeTransition cb transSet) r

/-! ### ENTER_STATES: lines 797-899 -/

/-- Lines 839-858: the history and initial transitions below the entered state `i`,
body for the transition `j`. -/
def takePseudoTransition (transSet : Bitset) (i : Nat) (r : Run H) (j : Nat) : Run H :=
  if BIT_HAS j transSet && isPseudoTrans (USCXML_GET_TRANS r.eng j).type &&
      (USCXML_GET_STATE r.eng (USCXML_GET_TRANS r.eng j).source).parent == i then
    let r1 := callMonitor cb (MonitorHook.beforeTakingTransition j) r
    let r2 := processOnTrans cb (Site.pseudoTrans i j) (USCXML_GET_TRANS r1.eng j).onTrans r1
    callMonitor cb (MonitorHook.afterTakingTransition j) r2
  else r

/-- Lines 880-891: the bit set `tmpStates` computed for the parallel state `j`. -/
def parallelRemainder (e : Engine) (j : Nat) : Bitset :=
  (List.range (USCXML_NUMBER_STATES e)).foldl
    (fun tmpStates k =>
      if BIT_HAS k e.configuration then
        if BIT_HAS j (USCXML_GET_STATE e k).ancestors then
          if USCXML_STATE_MASK (USCXML_GET_STATE e k).type == USCXML_STATE_FINAL then
            tmpStates ^^^ (USCXML_GET_STATE e k).ancestors
          else BIT_SET_AT k tmpStates
        else tmpStates
      else tmpStates)
    0

/-- Lines 877-897: body of the loop over the states `j` after the final state `i` was
entered. -/
def parallelDone (i : Nat) (r : Run H) (j : Nat) : Run H :=
  if USCXML_STATE_MASK (USCXML_GET_STATE r.eng j).type == USCXML_STATE_PARALLEL &&
      BIT_HAS j (USCXML_GET_STATE r.eng i).ancestors then
    if !bitAny (parallelRemainder r.eng j) then
      callRaiseDoneEvent cb i j (USCXML_GET_STATE r.eng j).doneData r
    else r
  else r

/-- Lines 860-898: handle the entered state `i` when it is final. -/
def handleFinal (i : Nat) (r : Run H) : Run H :=
  if USCXML_STATE_MASK (USCXML_GET_STATE r.eng i).type == USCXML_STATE_FINAL then
    let r1 :=
      if bitCount (USCXML_NUMBER_STATES r.eng) (USCXML_GET_STATE r.eng i).ancestors == 1 &&
          BIT_HAS 0 (USCXML_GET_STATE r.eng i).ancestors then
        r.setFlags (r.eng.flags ||| USCXML_CTX_TOP_LEVEL_FINAL)
      else
        callRaiseDoneEvent cb i (USCXML_GET_STATE r.eng i).parent
          (USCXML_GET_STATE r.eng i).doneData r
    (List.range (USCXML_NUMBER_STATES r1.eng)).foldl (parallelDone cb i) r1
  else r

/-- Lines 819-825: initialize the data of the state `i` once. -/
def initializeData (i : Nat) (r : Run H) : Run H :=
  if !BIT_HAS i r.eng.initializedData then
    let r1 := (USCXML_GET_STATE r.eng i).data.foldl (callInitData cb i) r
    r1.setInitializedData (BIT_SET_AT i r1.eng.initializedData)
  else r

/-- Body of the loop ENTER_STATES for the state `i`. -/
def enterState (entrySet transSet : Bitset) (r : Run H) (i : Nat) : Run H :=
  if BIT_HAS i entrySet then
    if BIT_HAS i r.eng.configuration then r
    else if isPseudoType (USCXML_GET_STATE r.eng i).type then r
    else
      let r1 := callMonitor cb (MonitorHook.beforeEnteringState i) r
      let r2 := r1.setConfiguration (BIT_SET_AT i r1.eng.configuration)
      let r3 := initializeData cb i r2
      let r4 := (USCXML_GET_STATE r3.eng i).onEntry.foldl (callProcess cb (Site.onEntry i)) r3
      let r5 := callMonitor cb (MonitorHook.afterEnteringState i) r4
      let r6 := (List.range (USCXML_NUMBER_TRANS r5.eng)).foldl
        (takePseudoTransition cb transSet i) r5
      handleFinal cb i r6
  else r

/-- The loop ENTER_STATES. -/
def enterStates (entrySet transSet : Bitset) (r : Run H) : Run H :=
  (List.range r.eng.states.length).foldl (enterState cb entrySet transSet) r

/-- Lines 902-910: the check for a configuration seen before, and its recording. -/
def recordConfiguration (r : Run H) : Run H :=
  let r1 :=
    if r.eng.microstepConfigurations.contains r.eng.configuration then
      callMonitor cb
        (MonitorHook.reportIssue
          "Reentering same configuration during microstep  - possible endless loop") r
    else r
  if r1.eng.microstepConfigurations.contains r1.eng.configuration then r1
  else { r1 with eng := { r1.eng with
      microstepConfigurations := r1.eng.configuration :: r1.eng.microstepConfigurations } }

/-! ### The body of `step` -/

/-- From the label ESTABLISH_ENTRYSET to the end of `step` (lines 627-913). -/
def microstep (targetSet exitSet transSet : Bitset) (r : Run H) : InterpreterState × Run H :=
  let sets := establishEntrySet r.eng targetSet exitSet transSet
  let r1 := exitStates cb exitSet r
  let r2 := takeTransitions cb sets.2 r1
  let r3 := enterStates cb sets.1 sets.2 r2
  let r4 := callMonitor cb MonitorHook.afterMicroStep r3
  (InterpreterState.USCXML_MICROSTEPPED, recordConfiguration cb r4)

/-- From the label SELECT_TRANSITIONS to the end of `step` (lines 531-913). -/
def selectTransitions (r : Run H) : InterpreterState × Run H :=
  let r0 := r.setFlags (bitAndNot r.eng.flags USCXML_CTX_STABLE)
  let sel := selectLoop cb r0.eng.transitions.length r0
  let exitSet := sel.2.exitSet &&& sel.1.eng.configuration
  if hasFlag sel.1.eng.flags USCXML_CTX_TRANSITION_FOUND then
    let r1 := sel.1.setFlags
      (bitAndNot (sel.1.eng.flags ||| USCXML_CTX_SPONTANEOUS) USCXML_CTX_TRANSITION_FOUND)
    let r2 := callMonitor cb MonitorHook.beforeMicroStep r1
    let r3 : Run H := { r2 with eng := rememberHistory exitSet r2.eng }
    microstep cb sel.2.targetSet exitSet sel.2.transSet r3
  else
    (InterpreterState.USCXML_MACROSTEPPED,
      sel.1.setFlags (bitAndNot sel.1.eng.flags USCXML_CTX_SPONTANEOUS))

/-- Lines 483-529: no internal event is left. -/
def awaitExternal (blocking : Bool) (r : Run H) : InterpreterState × Run H :=
  let r1 := manageInvocations cb r
  let r2 := signalStable cb r1
  let r3 := callDequeueExternal cb blocking r2
  match r3.eng.event with
  | some ev => selectTransitions cb (callMonitor cb (MonitorHook.beforeProcessingEvent ev) r3)
  | none =>
    if r3.eng.isCancelled then
      (InterpreterState.USCXML_CANCELLED,
        r3.setFlags (r3.eng.flags ||| USCXML_CTX_TOP_LEVEL_FINAL))
    else (InterpreterState.USCXML_IDLE, r3)

/-- Method `FastMicroStep::step(bool blocking)`; the calls of the step are the trace of the
result. -/
def step (blocking : Bool) (e : Engine) (h : H) : InterpreterState × Run H :=
  if !e.isInitialized then
    (InterpreterState.USCXML_INITIALIZED, { eng := init e, host := h, trace := [] })
  else if hasFlag e.flags USCXML_CTX_FINISHED then
    (InterpreterState.USCXML_FINISHED, { eng := e, host := h, trace := [] })
  else if hasFlag e.flags USCXML_CTX_TOP_LEVEL_FINAL then
    completeStep cb { eng := e, host := h, trace := [] }
  else if e.flags == USCXML_CTX_PRISTINE then
    let r : Run H :=
      { eng := { e with flags := e.flags ||| (USCXML_CTX_SPONTANEOUS ||| USCXML_CTX_INITIALIZED) },
        host := h, trace := [] }
    microstep cb (USCXML_GET_STATE r.eng 0).completion 0 0
      (callMonitor cb MonitorHook.beforeMicroStep r)
  else if hasFlag e.flags USCXML_CTX_SPONTANEOUS then
    selectTransitions cb { eng := { e with event := none }, host := h, trace := [] }
  else
    let r := callDequeueInternal cb { eng := e, host := h, trace := [] }
    match r.eng.event with
    | some ev => selectTransitions cb (callMonitor cb (MonitorHook.beforeProcessingEvent ev) r)
    | none => awaitExternal cb blocking r

end step

/-! ## A host for running charts -/

/-- A host with two event queues; descriptors match by equality, guards hold iff they are
the text "true", and a done event is queued internally as the index of its state. -/
structure QueueHost where
  internal : List Event
  external : List Event
deriving Repr, DecidableEq, Inhabited

/-- The callbacks of `QueueHost`. -/
def queueCallbacks : MicroStepCallbacks QueueHost :=
  { dequeueInternal := fun h => (h.internal.head?, { h with internal := h.internal.tail })
    dequeueExternal := fun h _ => (h.external.head?, { h with external := h.external.tail })
    isMatched := fun h e d => (e == d, h)
    isTrue := fun h c => (c == "true", h)
    process := fun h _ => h
    initData := fun h _ => h
    invoke := fun h _ => h
    uninvoke := fun h _ => h
    raiseDoneEvent := fun h s _ => { h with internal := h.internal ++ [toString s] }
    monitor := fun h _ => h }

/-! ## Runs -/

/-- What can happen to an engine between and including calls of `step`: a call of `step`,
of `markAsCancelled`, of `reset`, or the environment changing the host state (events
arriving in the queues, the data model changing). -/
inductive Action (H : Type) where
  | step (blocking : Bool)
  | cancel
  | reset
  | env (host : H)

/-- Effect of one action on the engine and the host. -/
def applyAction {H : Type} (cb : MicroStepCallbacks H) (p : Engine × H) : Action H → Engine × H
  | Action.step blocking => ((step cb blocking p.1 p.2).2.eng, (step cb blocking p.1 p.2).2.host)
  | Action.cancel => (markAsCancelled p.1, p.2)
  | Action.reset => (reset p.1, p.2)
  | Action.env host => (p.1, host)

/-- The engine and host after a sequence of actions on a freshly constructed engine. -/
def run {H : Type} (cb : MicroStepCallbacks H) (scxml : Index) (h : H)
    (actions : List (Action H)) : Engine × H :=
  actions.foldl (applyAction cb) (construct scxml, h)

/-! ## Properties of configurations and selections -/

/-- The test of line 862: the only ancestor of the state `i` is the root. -/
def isTopLevel (e : Engine) (i : Nat) : Bool :=
  bitCount (USCXML_NUMBER_STATES e) (USCXML_GET_STATE e i).ancestors == 1 &&
    BIT_HAS 0 (USCXML_GET_STATE e i).ancestors

/-- The transition `t` is enabled for the current event of the run `r`, as lines 546-550
decide it: descriptor and event are both absent, or both present and matched; and the guard
is empty or true.  The host answers in the state it has in `r`. -/
def enabledFor {H : Type} (cb : MicroStepCallbacks H) (t : Transition) (r : Run H) : Bool :=
  eventKindMatches t r.eng.event && (evalMatched cb t r).1 &&
    (evalCond cb t (evalMatched cb t r).2).1

/-- A state without executable content, invokers or data. -/
def plainState (type parent : Nat) (ancestors children completion : Bitset) : State :=
  { type := type, parent := parent, ancestors := ancestors, children := children,
    completion := completion, onEntry := [], onExit := [], invoke := [], data := [],
    doneData := none }

/-- A transition without guard and executable content. -/
def plainTransition (source : Nat) (target exitSet conflicts : Bitset) (event : String)
    (type : Nat) : Transition :=
  { source := source, target := target, exitSet := exitSet, conflicts := conflicts,
    event := event, cond := "", type := type, onTrans := none }

/-- The relations `parent`, `ancestors` and `children` of an index agree as lines 288-305
build them: the root has no ancestor, the ancestors of any other state are its parent and the
ancestors of the parent, and `children` is the converse of `ancestors`. -/
def hierarchyConsistent (idx : Index) : Bool :=
  (List.range idx.states.length).all fun i =>
    (if i == 0 then (idx.states.getD i default).ancestors == 0
     else
      (idx.states.getD i default).parent < i &&
      (idx.states.getD i default).ancestors ==
        BIT_SET_AT (idx.states.getD i default).parent
          (idx.states.getD (idx.states.getD i default).parent default).ancestors) &&
    (List.range idx.states.length).all fun j =>
      BIT_HAS j (idx.states.getD i default).ancestors ==
        BIT_HAS i (idx.states.getD j default).children

/-- The states `j` that are direct children of `i`. -/
def directChildren (e : Engine) (i : Nat) : List Nat :=
  (List.range e.states.length).filter fun j => j != 0 && (USCXML_GET_STATE e j).parent == i

/-- The invariant "an active atomic state has every compound or parallel ancestor active". -/
def atomicAncestorsActive (e : Engine) : Bool :=
  (List.range e.states.length).all fun i =>
    !(BIT_HAS i e.configuration &&
        USCXML_STATE_MASK (USCXML_GET_STATE e i).type == USCXML_STATE_ATOMIC) ||
    (List.range e.states.length).all fun j =>
      !(BIT_HAS j (USCXML_GET_STATE e i).ancestors &&
          (USCXML_STATE_MASK (USCXML_GET_STATE e j).type == USCXML_STATE_COMPOUND ||
           USCXML_STATE_MASK (USCXML_GET_STATE e j).type == USCXML_STATE_PARALLEL)) ||
      BIT_HAS j e.configuration

/-- The invariant "an active compound state has exactly one active direct child". -/
def compoundHasOneChild (e : Engine) : Bool :=
  (List.range e.states.length).all fun i =>
    !(BIT_HAS i e.configuration &&
        USCXML_STATE_MASK (USCXML_GET_STATE e i).type == USCXML_STATE_COMPOUND) ||
    ((directChildren e i).filter fun j => BIT_HAS j e.configuration).length == 1

/-- The invariant "an active parallel state has every direct child other than history
pseudo-states active". -/
def parallelChildrenActive (e : Engine) : Bool :=
  (List.range e.states.length).all fun i =>
    !(BIT_HAS i e.configuration &&
        USCXML_STATE_MASK (USCXML_GET_STATE e i).type == USCXML_STATE_PARALLEL) ||
    (directChildren e i).all fun j =>
      isHistoryType (USCXML_GET_STATE e j).type || BIT_HAS j e.configuration

/-- The calls `raiseDoneEvent(state, ...)` in a trace. -/
def doneEventsFor (state : Nat) (trace : List Call) : List Call :=
  trace.filter fun c =>
    match c with
    | Call.raiseDoneEvent _ s _ => s == state
    | _ => false

/-! ## Charts -/

/-- The index of
`<scxml initial="p"><state id="p" initial="x"><state id="m"><state id="x"/></state></state></scxml>`:
states 0 `scxml`, 1 `p`, 2 `m`, 3 `x`.  The completion of `p` is the state named by its
`initial` attribute, `x`, a grandchild. -/
def chartDeepInitial : Index :=
  { states :=
      [ plainState USCXML_STATE_COMPOUND 0 0b0000 0b1110 0b0010,
        plainState USCXML_STATE_COMPOUND 0 0b0001 0b1100 0b1000,
        plainState USCXML_STATE_COMPOUND 1 0b0011 0b1000 0b1000,
        plainState USCXML_STATE_ATOMIC 2 0b0111 0b0000 0b0000 ],
    transitions := [] }

/-- The index of
`<scxml initial="p"><state id="p" initial="x2"><state id="c1"/><state id="c2"><state id="x1"/>`
`<state id="x2"/></state></state></scxml>`: states 0 `scxml`, 1 `p`, 2 `c1`, 3 `c2`, 4 `x1`,
5 `x2`. -/
def chartGrandchild : Index :=
  { states :=
      [ plainState USCXML_STATE_COMPOUND 0 0b000000 0b111110 0b000010,
        plainState USCXML_STATE_COMPOUND 0 0b000001 0b111100 0b100000,
        plainState USCXML_STATE_ATOMIC 1 0b000011 0b000000 0b000000,
        plainState USCXML_STATE_COMPOUND 1 0b000011 0b110000 0b010000,
        plainState USCXML_STATE_ATOMIC 3 0b001011 0b000000 0b000000,
        plainState USCXML_STATE_ATOMIC 3 0b001011 0b000000 0b000000 ],
    transitions := [] }

/-- The index of
`<scxml initial="c"><state id="c" initial="A"><parallel id="P"><state id="A"><initial>`
`<transition target="a1"/></initial><state id="a1"/></state><state id="B"><state id="b1"/>`
`</state></parallel></state></scxml>`: states 0 `scxml`, 1 `c`, 2 `P`, 3 `A`, 4 the `<initial>`
of `A`, 5 `a1`, 6 `B`, 7 `b1`; transition 0 is the one of the `<initial>` element.  The exit
set and conflicts of an initial transition are never read by `step`. -/
def chartParallelRegion : Index :=
  { states :=
      [ plainState USCXML_STATE_COMPOUND 0 0b00000000 0b11111110 0b00000010,
        plainState USCXML_STATE_COMPOUND 0 0b00000001 0b11111100 0b00001000,
        plainState USCXML_STATE_PARALLEL 1 0b00000011 0b11111000 0b01001000,
        plainState USCXML_STATE_COMPOUND 2 0b00000111 0b00110000 0b00010000,
        plainState USCXML_STATE_INITIAL 3 0b00001111 0b00000000 0b00000000,
        plainState USCXML_STATE_ATOMIC 3 0b00001111 0b00000000 0b00000000,
        plainState USCXML_STATE_COMPOUND 2 0b00000111 0b10000000 0b10000000,
        plainState USCXML_STATE_ATOMIC 6 0b01000111 0b00000000 0b00000000 ],
    transitions :=
      [ plainTransition 4 0b00100000 0 0 ""
          (USCXML_TRANS_SPONTANEOUS ||| USCXML_TRANS_INITIAL) ] }

/-- The index of
`<scxml><parallel id="P"><state id="A"><state id="a1"><transition event="e" target="Af"/>`
`</state><final id="Af"/></state></parallel></scxml>`: states 0 `scxml`, 1 `P`, 2 `A`, 3 `a1`,
4 `Af`.  The parallel `P` has the single region `A`; the transition leaves `a1` for the final
child `Af` of `A`, its exit set being the descendants of `A`. -/
def chartOneRegion : Index :=
  { states :=
      [ plainState USCXML_STATE_COMPOUND 0 0b00000 0b11110 0b00010,
        plainState USCXML_STATE_PARALLEL 0 0b00001 0b11100 0b00100,
        plainState USCXML_STATE_COMPOUND 1 0b00011 0b11000 0b01000,
        plainState USCXML_STATE_ATOMIC 2 0b00111 0b00000 0b00000,
        plainState USCXML_STATE_FINAL 2 0b00111 0b00000 0b00000 ],
    transitions := [ plainTransition 3 0b10000 0b11000 0b1 "e" 0 ] }

/-- The index of `<scxml><final id="f"/></scxml>`: states 0 `scxml`, 1 `f`. -/
def chartTopFinal : Index :=
  { states :=
      [ plainState USCXML_STATE_COMPOUND 0 0b00 0b10 0b10,
        plainState USCXML_STATE_FINAL 0 0b01 0b00 0b00 ],
    transitions := [] }

/-- The index of
`<scxml initial="s"><state id="s"><transition event="e" target="a"/><transition event="e"`
` target="b"/></state><state id="a"/><state id="b"/></scxml>`: states 0 `scxml`, 1 `s`, 2 `a`,
3 `b`; both transitions leave `s`, exit every state below the root and conflict with each
other. -/
def chartConflict : Index :=
  { states :=
      [ plainState USCXML_STATE_COMPOUND 0 0b0000 0b1110 0b0010,
        plainState USCXML_STATE_ATOMIC 0 0b0001 0b0000 0b0000,
        plainState USCXML_STATE_ATOMIC 0 0b0001 0b0000 0b0000,
        plainState USCXML_STATE_ATOMIC 0 0b0001 0b0000 0b0000 ],
    transitions :=
      [ plainTransition 1 0b0100 0b1110 0b11 "e" 0,
        plainTransition 1 0b1000 0b1110 0b11 "e" 0 ] }

/-- The engine for `chartConflict` in the configuration `scxml`, `s`, with the event `e`
current. -/
def conflictRun : Run QueueHost :=
  { eng := { init (construct chartConflict) with
      configuration := 0b0011, flags := USCXML_CTX_INITIALIZED, event := some "e" },
    host := { internal := [], external := [] }, trace := [] }

/-- The index of
`<scxml initial="a"><state id="a"><onexit>10</onexit><transition event="t" target="b">20`
`</transition></state><state id="b"><onentry>30</onentry></state></scxml>`, the numbers
standing for executable content: states 0 `scxml`, 1 `a`, 2 `b`. -/
def chartToggle : Index :=
  { states :=
      [ plainState USCXML_STATE_COMPOUND 0 0b000 0b110 0b010,
        { plainState USCXML_STATE_ATOMIC 0 0b001 0b000 0b000 with onExit := [10] },
        { plainState USCXML_STATE_ATOMIC 0 0b001 0b000 0b000 with onEntry := [30] } ],
    transitions :=
      [ { plainTransition 1 0b100 0b110 0b1 "t" 0 with onTrans := some 20 } ] }

/-- The engine for `chartToggle` at rest in the configuration `scxml`, `a`. -/
def toggleEngine : Engine :=
  { init (construct chartToggle) with configuration := 0b011, flags := USCXML_CTX_INITIALIZED }

/-! ## Notions used in the proofs -/

/-- Engines that differ at most in `_flags`. -/
def SameButFlags (e e2 : Engine) : Prop := e2 = { e with flags := e2.flags }

/-- The two engines have the same document, arrays, and initialisation and cancellation
marks. -/
def Static (e e2 : Engine) : Prop :=
  e2.scxml = e.scxml ∧ e2.states = e.states ∧ e2.transitions = e.transitions ∧
    e2.isInitialized = e.isInitialized ∧ e2.isCancelled = e.isCancelled

/-- A choice among the members of the engine that a step can write. -/
structure Fields where
  configuration : Bool := false
  history : Bool := false
  initializedData : Bool := false
  invocations : Bool := false
  flags : Bool := false
  microstepConfigurations : Bool := false
  event : Bool := false

/-- The engine with the chosen members blanked. -/
def Engine.mask (m : Fields) (e : Engine) : Engine :=
  { e with
    configuration := if m.configuration then 0 else e.configuration
    history := if m.history then 0 else e.history
    initializedData := if m.initializedData then 0 else e.initializedData
    invocations := if m.invocations then 0 else e.invocations
    flags := if m.flags then 0 else e.flags
    microstepConfigurations := if m.microstepConfigurations then [] else e.microstepConfigurations
    event := if m.event then none else e.event }

/-- The engines `e` and `e2` differ at most in the chosen members. -/
def Changes (m : Fields) (e e2 : Engine) : Prop := e2.mask m = e.mask m

/-- Every member chosen by `m` is chosen by `m2`. -/
def Fields.le (m m2 : Fields) : Prop :=
  (m.configuration = true → m2.configuration = true) ∧
  (m.history = true → m2.history = true) ∧
  (m.initializedData = true → m2.initializedData = true) ∧
  (m.invocations = true → m2.invocations = true) ∧
  (m.flags = true → m2.flags = true) ∧
  (m.microstepConfigurations = true → m2.microstepConfigurations = true) ∧
  (m.event = true → m2.event = true)

/-- The members written from the label ESTABLISH_ENTRYSET on. -/
def microstepFields : Fields :=
  { configuration := true, initializedData := true, flags := true,
    microstepConfigurations := true }

/-- The members written from the label SELECT_TRANSITIONS on. -/
def selectionFields : Fields :=
  { configuration := true, history := true, initializedData := true, flags := true,
    microstepConfigurations := true }

/-- The members written by a step of an initialised engine. -/
def stepFields : Fields :=
  { configuration := true, history := true, initializedData := true, invocations := true,
    flags := true, microstepConfigurations := true, event := true }

/-- The run `r2` continues `r` by calls that all satisfy `Q`. -/
def Emits {H : Type} (Q : Call → Prop) (r r2 : Run H) : Prop :=
  ∃ t, r2.trace = r.trace ++ t ∧ ∀ c ∈ t, Q c

/-- The condition under which the body of the selection loop takes the transition `i`. -/
def takes {H : Type} (cb : MicroStepCallbacks H) (p : Run H × Selection) (i : Nat) : Bool :=
  !isPseudoTrans (USCXML_GET_TRANS p.1.eng i).type &&
    BIT_HAS (USCXML_GET_TRANS p.1.eng i).source p.1.eng.configuration &&
    !BIT_HAS i p.2.conflicts &&
    enabledFor cb (USCXML_GET_TRANS p.1.eng i) p.1

/-- The run and the selected sets when the selection loop of `selectTransitions` has ended. -/
def selectionOf {H : Type} (cb : MicroStepCallbacks H) (r : Run H) : Run H × Selection :=
  selectLoop cb r.eng.transitions.length (r.setFlags (bitAndNot r.eng.flags USCXML_CTX_STABLE))

/-- The exit set of `selectTransitions` after line 576. -/
def exitSetOf {H : Type} (cb : MicroStepCallbacks H) (r : Run H) : Bitset :=
  (selectionOf cb r).2.exitSet &&& (selectionOf cb r).1.eng.configuration

/-- The run of `selectTransitions` at the label ESTABLISH_ENTRYSET, when a transition was
found. -/
def beforeEntrySet {H : Type} (cb : MicroStepCallbacks H) (r : Run H) : Run H :=
  { callMonitor cb MonitorHook.beforeMicroStep
      ((selectionOf cb r).1.setFlags
        (bitAndNot ((selectionOf cb r).1.eng.flags ||| USCXML_CTX_SPONTANEOUS)
          USCXML_CTX_TRANSITION_FOUND)) with
    eng := rememberHistory (exitSetOf cb r)
      (callMonitor cb MonitorHook.beforeMicroStep
        ((selectionOf cb r).1.setFlags
          (bitAndNot ((selectionOf cb r).1.eng.flags ||| USCXML_CTX_SPONTANEOUS)
            USCXML_CTX_TRANSITION_FOUND))).eng }

/-- The calls that transition selection makes for the event `ev`. -/
def isSelectCall (ev : Option Event) : Call → Bool
  | Call.isMatched e _ => ev == some e
  | Call.isTrue _ => true
  | _ => false

/-- The calls of the loop "manage invocations". -/
def isInvokeCall : Call → Bool
  | Call.invoke _ _ => true
  | Call.uninvoke _ _ => true
  | _ => false

/-- The calls of the terminal step. -/
def isCompletionCall : Call → Bool
  | Call.monitor MonitorHook.beforeCompletion => true
  | Call.monitor MonitorHook.afterCompletion => true
  | Call.process (Site.completionExit _) _ => true
  | Call.uninvoke _ _ => true
  | _ => false

/-- The calls made while the state `i` is exited. -/
def isExitCall (i : Nat) : Call → Bool
  | Call.monitor (MonitorHook.beforeExitingState j) => j == i
  | Call.monitor (MonitorHook.afterExitingState j) => j == i
  | Call.process (Site.onExit j) _ => j == i
  | _ => false

/-- The calls made while the ordinary transition `i` is taken. -/
def isTakeCall (i : Nat) : Call → Bool
  | Call.monitor (MonitorHook.beforeTakingTransition j) => j == i
  | Call.monitor (MonitorHook.afterTakingTransition j) => j == i
  | Call.process (Site.onTrans j) _ => j == i
  | _ => false

/-- The calls made while the state `i` is entered. -/
def isEnterCall (i : Nat) : Call → Bool
  | Call.monitor (MonitorHook.beforeEnteringState j) => j == i
  | Call.monitor (MonitorHook.afterEnteringState j) => j == i
  | Call.monitor (MonitorHook.beforeTakingTransition _) => true
  | Call.monitor (MonitorHook.afterTakingTransition _) => true
  | Call.initData j _ => j == i
  | Call.process (Site.onEntry j) _ => j == i
  | Call.process (Site.pseudoTrans j _) _ => j == i
  | Call.raiseDoneEvent j _ _ => j == i
  | _ => false

/-- The calls made while the state `i` is entered, before it is handled as a final state. -/
def isEntryCall (i : Nat) : Call → Bool
  | Call.monitor (MonitorHook.beforeEnteringState j) => j == i
  | Call.monitor (MonitorHook.afterEnteringState j) => j == i
  | Call.monitor (MonitorHook.beforeTakingTransition _) => true
  | Call.monitor (MonitorHook.afterTakingTransition _) => true
  | Call.initData j _ => j == i
  | Call.process (Site.onEntry j) _ => j == i
  | Call.process (Site.pseudoTrans j _) _ => j == i
  | _ => false

/-- The run of the body of ENTER_STATES for a state `i` that is entered, at line 860. -/
def enterBody {H : Type} (cb : MicroStepCallbacks H) (transSet : Bitset) (i : Nat)
    (r : Run H) : Run H :=
  let r1 := callMonitor cb (MonitorHook.beforeEnteringState i) r
  let r2 := r1.setConfiguration (BIT_SET_AT i r1.eng.configuration)
  let r3 := initializeData cb i r2
  let r4 := (USCXML_GET_STATE r3.eng i).onEntry.foldl (callProcess cb (Site.onEntry i)) r3
  let r5 := callMonitor cb (MonitorHook.afterEnteringState i) r4
  (List.range (USCXML_NUMBER_TRANS r5.eng)).foldl (takePseudoTransition cb transSet i) r5

/-- The calls that close a micro-step. -/
def isClosingCall : Call → Bool
  | Call.monitor MonitorHook.afterMicroStep => true
  | Call.monitor (MonitorHook.reportIssue _) => true
  | _ => false

/-- The calls made from the label ESTABLISH_ENTRYSET on. -/
def isMicrostepCall (c : Call) : Prop :=
  (∃ i, isExitCall i c = true) ∨ (∃ i, isTakeCall i c = true) ∨
    (∃ i, isEnterCall i c = true) ∨ isClosingCall c = true

/-- The calls made from the label SELECT_TRANSITIONS on, for the event `ev`. -/
def isSelectionStepCall (ev : Option Event) (c : Call) : Prop :=
  isSelectCall ev c = true ∨ c = Call.monitor MonitorHook.beforeMicroStep ∨ isMicrostepCall c

/-- The configuration of `e2` holds, besides states active in `e`, only proper states; the
index is shared. -/
def ProperGrowth (e e2 : Engine) : Prop :=
  Static e e2 ∧ ∀ j, BIT_HAS j e2.configuration = true →
    BIT_HAS j e.configuration = true ∨ isPseudoType (USCXML_GET_STATE e j).type = false

/-- What holds of every engine in a run: before `init` nothing is active and no flag is set;
no pseudo-state is active. -/
def Sound (e : Engine) : Prop :=
  (e.isInitialized = false → e.configuration = 0 ∧ e.flags = 0) ∧
    ∀ j, (BIT_HAS j e.configuration && isPseudoType (USCXML_GET_STATE e j).type) = false

/-- The calls that a step can make before the label ESTABLISH_ENTRYSET. -/
def isPreludeCall : Call → Bool
  | Call.dequeueInternal => true
  | Call.dequeueExternal _ => true
  | Call.isMatched _ _ => true
  | Call.isTrue _ => true
  | Call.invoke _ _ => true
  | Call.uninvoke _ _ => true
  | Call.monitor MonitorHook.onStableConfiguration => true
  | Call.monitor (MonitorHook.beforeProcessingEvent _) => true
  | Call.monitor MonitorHook.beforeMicroStep => true
  | _ => false

/-- The state whose `onExit` block a call runs. -/
def exitIndex : Call → Option Nat
  | Call.process (Site.onExit i) _ => some i
  | _ => none

/-- The ordinary transition whose executable content a call runs. -/
def transIndex : Call → Option Nat
  | Call.process (Site.onTrans j) _ => some j
  | _ => none

/-- The state whose `onEntry` block a call runs. -/
def entryIndex : Call → Option Nat
  | Call.process (Site.onEntry i) _ => some i
  | _ => none

/-- A call that takes an event from one of the queues. -/
def isDequeueCall : Call → Bool
  | Call.dequeueInternal => true
  | Call.dequeueExternal _ => true
  | _ => false

/-- A call by which transitions are selected. -/
def isSelectionCall : Call → Bool
  | Call.isMatched _ _ => true
  | Call.isTrue _ => true
  | _ => false

/-! ## Notions for the claims on completion, cancellation, reset and synchronisation -/

/-- The calls of the terminal step for the state `i`: its `onExit` blocks when it is active,
then `uninvoke` for its invokers when it is marked in `_invocations` (lines 431-452). -/
def completionCalls (e : Engine) (i : Nat) : List Call :=
  (if BIT_HAS i e.configuration then
      (USCXML_GET_STATE e i).onExit.map (Call.process (Site.completionExit i)) else []) ++
    (if BIT_HAS i e.invocations then (USCXML_GET_STATE e i).invoke.map (Call.uninvoke i)
      else [])

/-- A chart with a compound state `p` (1) that has an `onExit` block and an atomic child
`s` (2) that has an `onExit` block and an invoker. -/
def chartInvoke : Index :=
  { states :=
      [ plainState USCXML_STATE_COMPOUND 0 0b000 0b110 0b010,
        { plainState USCXML_STATE_COMPOUND 0 0b001 0b100 0b100 with onExit := [11] },
        { plainState USCXML_STATE_ATOMIC 1 0b011 0b000 0b000 with
            onExit := [12], invoke := [21] } ],
    transitions := [] }

/-- The chart `chartInvoke` run to rest, cancelled, and stepped once more: the step that
returns Cancelled has invoked the invoker of `s` and set TopLevelFinal. -/
def cancelledInvoke : Engine × QueueHost :=
  run queueCallbacks chartInvoke ⟨[], []⟩
    [Action.step false, Action.step false, Action.step false, Action.cancel, Action.step false]

/-- The run of a step that found no internal event, after the call of `dequeueExternal`
(line 515): the invocations are synchronised and the stable configuration is signalled. -/
def atExternal {H : Type} (cb : MicroStepCallbacks H) (blocking : Bool) (e : Engine) (h : H) :
    Run H :=
  callDequeueExternal cb blocking
    (signalStable cb (manageInvocations cb
      (callDequeueInternal cb { eng := e, host := h, trace := [] })))

/-- The event that `dequeueExternal` yields in a step that found no internal event; the host
answers in the state it has after `dequeueInternal`, the `invoke` and `uninvoke` calls and
the monitor call of the step. -/
def externalEvent {H : Type} (cb : MicroStepCallbacks H) (blocking : Bool) (e : Engine)
    (h : H) : Option Event :=
  (atExternal cb blocking e h).eng.event

/-- The members written by a step up to the call of `dequeueExternal`. -/
def syncFields : Fields :=
  { invocations := true, flags := true, microstepConfigurations := true, event := true }

/-- The step reaches the invocation-sync point of line 483: the engine is initialised,
neither Finished nor TopLevelFinal nor pristine, Spontaneous is clear and `dequeueInternal`
yields no event. -/
def reachesSync {H : Type} (cb : MicroStepCallbacks H) (e : Engine) (h : H) : Bool :=
  e.isInitialized && !hasFlag e.flags USCXML_CTX_FINISHED &&
    !hasFlag e.flags USCXML_CTX_TOP_LEVEL_FINAL && e.flags != USCXML_CTX_PRISTINE &&
    !hasFlag e.flags USCXML_CTX_SPONTANEOUS && (cb.dequeueInternal h).1.isNone

/-- What holds of every engine in a run for the document `scxml`: the document is that one,
and once the engine is initialised its arrays are those of the document. -/
def Indexed (scxml : Index) (e : Engine) : Prop :=
  e.scxml = scxml ∧
    (e.isInitialized = true → e.states = scxml.states ∧ e.transitions = scxml.transitions)

/-- The calls of the loop "manage invocations" for the state `i` (lines 486-505): `uninvoke`
for its invokers when it is marked in `_invocations` and not active, `invoke` for them when
it is active and not marked. -/
def invocationCalls (e : Engine) (i : Nat) : List Call :=
  (if !BIT_HAS i e.configuration && BIT_HAS i e.invocations then
      (USCXML_GET_STATE e i).invoke.map (Call.uninvoke i) else []) ++
    (if BIT_HAS i e.configuration && !BIT_HAS i e.invocations then
      (USCXML_GET_STATE e i).invoke.map (Call.invoke i) else [])

/-- What holds of every engine in a run: before `init` nothing is active or marked, and the
bits of `_configuration` and `_invocations` are below the number of states. -/
def InRange (e : Engine) : Prop :=
  (e.isInitialized = false → e.configuration = 0 ∧ e.invocations = 0) ∧
    (∀ j, BIT_HAS j e.configuration = true → j < USCXML_NUMBER_STATES e) ∧
    (∀ j, BIT_HAS j e.invocations = true → j < USCXML_NUMBER_STATES e)

/-- The call of the monitor hook `onStableConfiguration`. -/
def isStableCall : Call → Bool
  | Call.monitor MonitorHook.onStableConfiguration => true
  | _ => false

/-- The step goes through the label SELECT_TRANSITIONS (from line 474, 480 or 517): the
engine is initialised, neither Finished nor TopLevelFinal nor pristine, and Spontaneous is
set or one of the queues yields an event. -/
def passesSelection {H : Type} (cb : MicroStepCallbacks H) (blocking : Bool) (e : Engine)
    (h : H) : Bool :=
  e.isInitialized && !hasFlag e.flags USCXML_CTX_FINISHED &&
    !hasFlag e.flags USCXML_CTX_TOP_LEVEL_FINAL && e.flags != USCXML_CTX_PRISTINE &&
    (hasFlag e.flags USCXML_CTX_SPONTANEOUS || (cb.dequeueInternal h).1.isSome ||
      (externalEvent cb blocking e h).isSome)

/-- No step of the sequence of actions, from the engine and host `p`, goes through the label
SELECT_TRANSITIONS. -/
def selectionFree {H : Type} (cb : MicroStepCallbacks H) : Engine × H → List (Action H) → Bool
  | _, [] => true
  | p, a :: rest =>
    (match a with
      | Action.step blocking => !passesSelection cb blocking p.1 p.2
      | _ => true) && selectionFree cb (applyAction cb p a) rest

/-- Flags with which no step signals the stable configuration before a step has gone through
transition selection: Stable is set, or the engine is pristine, or one of Spontaneous,
TopLevelFinal and Finished is set. -/
def NoSignalDue (flags : Nat) : Prop :=
  hasFlag flags USCXML_CTX_STABLE = true ∨ flags = USCXML_CTX_PRISTINE ∨
    hasFlag flags USCXML_CTX_SPONTANEOUS = true ∨
    hasFlag flags USCXML_CTX_TOP_LEVEL_FINAL = true ∨ hasFlag flags USCXML_CTX_FINISHED = true

/-- The run of a step at the label SELECT_TRANSITIONS when the step goes there (from line
474, 480 or 517), with the event it selects for. -/
def selectionRun {H : Type} (cb : MicroStepCallbacks H) (blocking : Bool) (e : Engine) (h : H) :
    Option (Run H) :=
  if !e.isInitialized || hasFlag e.flags USCXML_CTX_FINISHED ||
      hasFlag e.flags USCXML_CTX_TOP_LEVEL_FINAL || e.flags == USCXML_CTX_PRISTINE then none
  else if hasFlag e.flags USCXML_CTX_SPONTANEOUS then
    some { eng := { e with event := none }, host := h, trace := [] }
  else
    match (cb.dequeueInternal h).1 with
    | some ev =>
      some (callMonitor cb (MonitorHook.beforeProcessingEvent ev)
        (callDequeueInternal cb { eng := e, host := h, trace := [] }))
    | none =>
      match externalEvent cb blocking e h with
      | some ev =>
        some (callMonitor cb (MonitorHook.beforeProcessingEvent ev) (atExternal cb blocking e h))
      | none => none

/-- The set of transitions that the selection loop of a step takes; empty when the step
does not go through the loop. -/
def selectedBy {H : Type} (cb : MicroStepCallbacks H) (blocking : Bool) (e : Engine) (h : H) :
    Bitset :=
  match selectionRun cb blocking e h with
  | some r => (selectionOf cb r).2.transSet
  | none => 0

/-- The flags at the label ESTABLISH_ENTRYSET after a selection that found a transition:
Stable cleared (line 534), TransitionFound set (553), Spontaneous set and TransitionFound
cleared (580-581). -/
def flagsFound (f : Nat) : Nat :=
  bitAndNot ((bitAndNot f USCXML_CTX_STABLE ||| USCXML_CTX_TRANSITION_FOUND) |||
    USCXML_CTX_SPONTANEOUS) USCXML_CTX_TRANSITION_FOUND

/-- The flags after a selection that found no transition: Stable cleared (line 534) and
Spontaneous cleared (584). -/
def flagsNone (f : Nat) : Nat :=
  bitAndNot (bitAndNot f USCXML_CTX_STABLE) USCXML_CTX_SPONTANEOUS

/-- A flat toggle: the root (0) is a compound state without ancestors whose completion is
the atomic state `a`; `a` and `b` are distinct atomic states whose only ancestor is the
root; the transition `t` has the source `a` and the single target `b`, and its exit set
holds `a` and not the root. -/
def flatToggle (idx : Index) (a b t : Nat) : Bool :=
  decide (a < idx.states.length) && decide (b < idx.states.length) &&
    decide (t < idx.transitions.length) && a != 0 && b != 0 && a != b &&
    USCXML_STATE_MASK (idx.states.getD 0 default).type == USCXML_STATE_COMPOUND &&
    (idx.states.getD 0 default).ancestors == 0 &&
    (idx.states.getD 0 default).completion == 1 <<< a &&
    BIT_HAS a (idx.states.getD 0 default).children &&
    BIT_HAS b (idx.states.getD 0 default).children &&
    USCXML_STATE_MASK (idx.states.getD a default).type == USCXML_STATE_ATOMIC &&
    (idx.states.getD a default).ancestors == 1 &&
    USCXML_STATE_MASK (idx.states.getD b default).type == USCXML_STATE_ATOMIC &&
    (idx.states.getD b default).ancestors == 1 &&
    (idx.transitions.getD t default).source == a &&
    (idx.transitions.getD t default).target == 1 <<< b &&
    BIT_HAS a (idx.transitions.getD t default).exitSet &&
    !BIT_HAS 0 (idx.transitions.getD t default).exitSet

/-- The engine of the chart `idx` after `init` and `k` further steps, the host holding the
external events `evs` during the first `m` of them and nothing afterwards. -/
def engineAfter (idx : Index) (evs : List Event) (m : Nat) : Nat → Engine
  | 0 => init (construct idx)
  | k + 1 =>
    (step queueCallbacks false (engineAfter idx evs m k)
      (if k < m then ⟨[], evs⟩ else ⟨[], []⟩)).2.eng

/-- A chart with two atomic states: `a` (1) declares two data elements and goes to `b` (2)
on the event `t`; `b` goes back to `a` on the event `u`. -/
def chartData : Index :=
  { states :=
      [ plainState USCXML_STATE_COMPOUND 0 0b000 0b110 0b010,
        { plainState USCXML_STATE_ATOMIC 0 0b001 0b000 0b000 with data := [41, 42] },
        plainState USCXML_STATE_ATOMIC 0 0b001 0b000 0b000 ],
    transitions :=
      [ plainTransition 1 0b100 0b110 0b11 "t" 0,
        plainTransition 2 0b010 0b110 0b11 "u" 0 ] }

/-- Seven steps. -/
def sevenSteps : List (Action QueueHost) := List.replicate 7 (Action.step false)

/-- The calls `initData` made for the data elements of the state `i`. -/
def isInitDataOf (i : Nat) : Call → Bool
  | Call.initData j _ => j == i
  | _ => false

/-- The calls made by the steps of a sequence of actions, from the engine and host `p`. -/
def stepsTrace {H : Type} (cb : MicroStepCallbacks H) : Engine × H → List (Action H) → List Call
  | _, [] => []
  | p, a :: rest =>
    (match a with
      | Action.step blocking => (step cb blocking p.1 p.2).2.trace
      | _ => []) ++ stepsTrace cb (applyAction cb p a) rest

/-- From the engine `e` to the engine `e2`, with the calls `t` made in between,
`_initializedData` has only grown, and `t` holds either no `initData` call for the state `i`
or exactly one call for each element of `data`, in order, the bit of `i` being clear in `e`
and set in `e2`. -/
def InitOnce (i : Nat) (data : List DOMElement) (e e2 : Engine) (t : List Call) : Prop :=
  (∀ j, BIT_HAS j e.initializedData = true → BIT_HAS j e2.initializedData = true) ∧
    (t.filter (isInitDataOf i) = [] ∨
      (BIT_HAS i e.initializedData = false ∧ BIT_HAS i e2.initializedData = true ∧
        t.filter (isInitDataOf i) = data.map (Call.initData i)))

/-- The run `r2` continues the run `r` with `InitOnce`, on the same index. -/
def InitOnceRun {H : Type} (i : Nat) (r r2 : Run H) : Prop :=
  Static r.eng r2.eng ∧
    ∃ t, r2.trace = r.trace ++ t ∧
      InitOnce i (USCXML_GET_STATE r.eng i).data r.eng r2.eng t

/-! ## The completion of a state: `getCompletion` and lines 272-283 -/

/-- A child node of a state element as the loop "first child state" of `getCompletion`
reads it: whether it is an element node, whether `isState` holds of it, and, for a state,
its place in document order. -/
structure ChildNode where
  isElement : Bool
  isState : Bool
  state : Nat
deriving Repr, DecidableEq, Inhabited

/-- What `getCompletion` reads of a state element, states standing by their place in
document order: the results of `isHistory`, `isParallel`, `getHistoryCompletion` and
`getChildStates`; the states named by the attribute `initial` when it is present; the
`<initial>` child elements; the child nodes. -/
structure StateElement where
  isHistory : Bool
  isParallel : Bool
  historyCompletion : List Nat
  childStates : List Nat
  initialAttr : Option (List Nat)
  initialElems : List Nat
  childNodes : List ChildNode
deriving Repr, DecidableEq, Inhabited

/-- Method `FastMicroStep::getCompletion` (lines 1007-1041). -/
def getCompletion (s : StateElement) : List Nat :=
  if s.isHistory then s.historyCompletion
  else if s.isParallel then s.childStates
  else
    match s.initialAttr with
    | some named => named
    | none =>
      match s.initialElems with
      | i :: _ => [i]
      | [] =>
        match s.childNodes.find? (fun c => c.isElement && c.isState) with
        | some c => [c.state]
        | none => []

/-- The loop of lines 273-282 over the `n` states: the bit `j` of the completion is set when
the state `j` is the front of the list, which is then popped. The result is the bit set and
what is left of the list, which line 283 asserts to be empty. -/
def completionBits (n : Nat) (completion : List Nat) : Bitset × List Nat :=
  (List.range n).foldl
    (fun p j =>
      match p.2 with
      | c :: rest => if c == j then (BIT_SET_AT j p.1, rest) else p
      | [] => p)
    (0, completion)

/-- The state `p` of the index is a compound state with the element `s`, which is neither a
history nor a parallel element and whose attribute `initial` names the single state `c`, a
descendant of `p`; the completion of `p` is the one computed from `s`. -/
def initialNames (idx : Index) (s : StateElement) (p c : Nat) : Bool :=
  decide (p < idx.states.length) && decide (c < idx.states.length) &&
    !s.isHistory && !s.isParallel && s.initialAttr == some [c] &&
    (idx.states.getD p default).completion ==
      (completionBits idx.states.length (getCompletion s)).1 &&
    USCXML_STATE_MASK (idx.states.getD p default).type == USCXML_STATE_COMPOUND &&
    BIT_HAS c (idx.states.getD p default).children

/-- The state `c` is atomic; `p` and its ancestors are not among the descendants of `p`;
every ancestor of `p` is a compound state that has `p` among its descendants and whose
ancestors are ancestors of `p`. -/
def plainEntry (idx : Index) (p c : Nat) : Bool :=
  USCXML_STATE_MASK (idx.states.getD c default).type == USCXML_STATE_ATOMIC &&
    !BIT_HAS p (idx.states.getD p default).children &&
    !BIT_HAS_AND (idx.states.getD p default).ancestors (idx.states.getD p default).children &&
    (List.range idx.states.length).all fun i =>
      !BIT_HAS i (idx.states.getD p default).ancestors ||
        (USCXML_STATE_MASK (idx.states.getD i default).type == USCXML_STATE_COMPOUND &&
          BIT_HAS p (idx.states.getD i default).children &&
          (idx.states.getD i default).ancestors &&& (idx.states.getD p default).ancestors ==
            (idx.states.getD i default).ancestors)

/-- The index of
`<scxml initial="p"><state id="p" initial="p2"><state id="p1"/><state id="p2"/></state>`
`</scxml>`: states 0 `scxml`, 1 `p`, 2 `p1`, 3 `p2`. -/
def chartCompoundInitial : Index :=
  { states :=
      [ plainState USCXML_STATE_COMPOUND 0 0b0000 0b1110 0b0010,
        plainState USCXML_STATE_COMPOUND 0 0b0001 0b1100 0b1000,
        plainState USCXML_STATE_ATOMIC 1 0b0011 0b0000 0b0000,
        plainState USCXML_STATE_ATOMIC 1 0b0011 0b0000 0b0000 ],
    transitions := [] }

/-- The element `p` of `chartCompoundInitial`: the attribute `initial` names `p2` (3); the
child nodes are the states `p1` (2) and `p2` (3). -/
def elementCompoundInitial : StateElement :=
  { isHistory := false, isParallel := false, historyCompletion := [], childStates := [2, 3],
    initialAttr := some [3], initialElems := [],
    childNodes := [⟨true, true, 2⟩, ⟨true, true, 3⟩] }

/-! ## History: what is remembered and what is restored -/

/-- The exit set of a step: the one of line 576 when the step goes through transition
selection, and the empty set otherwise. -/
def exitedBy {H : Type} (cb : MicroStepCallbacks H) (blocking : Bool) (e : Engine) (h : H) :
    Bitset :=
  match selectionRun cb blocking e h with
  | some r => exitSetOf cb r
  | none => 0

/-- No history state whose parent is in the exit set `X` has a state of `M` in its
completion: the loop REMEMBER_HISTORY for `X` does not write the bits of `M`. -/
def memoryKept (e : Engine) (X M : Bitset) : Bool :=
  (List.range e.states.length).all fun i =>
    !(isHistoryType (USCXML_GET_STATE e i).type && BIT_HAS (USCXML_GET_STATE e i).parent X) ||
      !BIT_HAS_AND (USCXML_GET_STATE e i).completion M

/-- The engine after the steps `l`, each given by its argument `blocking` and the host state
it finds. -/
def stepsFrom {H : Type} (cb : MicroStepCallbacks H) (e : Engine) : List (Bool × H) → Engine
  | [] => e
  | s :: rest => stepsFrom cb (step cb s.1 e s.2).2.eng rest

/-- Every step of `l` from the engine `e` has an exit set with `memoryKept` for `M`. -/
def keptAlong {H : Type} (cb : MicroStepCallbacks H) (M : Bitset) (e : Engine) :
    List (Bool × H) → Bool
  | [] => true
  | s :: rest =>
    memoryKept e (exitedBy cb s.1 e s.2) M && keptAlong cb M (step cb s.1 e s.2).2.eng rest

/-- The state `h` is a shallow history state with the parent `C`; `c2` is an atomic state of
its completion, which holds no ancestor of `h`; every ancestor of `h` is a compound state
that has `h` among its descendants and whose ancestors are ancestors of `h`. -/
def shallowHistory (e : Engine) (C h c2 : Nat) : Bool :=
  decide (h < e.states.length) && decide (c2 < e.states.length) &&
    decide (C < e.states.length) &&
    USCXML_STATE_MASK (USCXML_GET_STATE e h).type == USCXML_STATE_HISTORY_SHALLOW &&
    (USCXML_GET_STATE e h).parent == C &&
    BIT_HAS C (USCXML_GET_STATE e h).ancestors &&
    BIT_HAS c2 (USCXML_GET_STATE e h).completion &&
    USCXML_STATE_MASK (USCXML_GET_STATE e c2).type == USCXML_STATE_ATOMIC &&
    !BIT_HAS_AND (USCXML_GET_STATE e h).completion (USCXML_GET_STATE e h).ancestors &&
    (List.range e.states.length).all fun i =>
      !BIT_HAS i (USCXML_GET_STATE e h).ancestors ||
        (USCXML_STATE_MASK (USCXML_GET_STATE e i).type == USCXML_STATE_COMPOUND &&
          BIT_HAS h (USCXML_GET_STATE e i).children &&
          (USCXML_GET_STATE e i).ancestors &&& (USCXML_GET_STATE e h).ancestors ==
            (USCXML_GET_STATE e i).ancestors)

/-- The index of
`<scxml initial="C"><state id="C" initial="c1"><history id="h"><transition target="c1"/>`
`</history><state id="c1"><transition event="a" target="c2"/></state><state id="c2"/>`
`<transition event="out" target="O"/></state><state id="O"><transition event="back"`
`target="h"/></state></scxml>`: states 0 `scxml`, 1 `C`, 2 `h`, 3 `c1`, 4 `c2`, 5 `O`;
transitions 0 the default of `h`, 1 `a`, 2 `out`, 3 `back`. -/
def chartHistory : Index :=
  { states :=
      [ plainState USCXML_STATE_COMPOUND 0 0b000000 0b111110 0b000010,
        plainState USCXML_STATE_COMPOUND 0 0b000001 0b011100 0b001000,
        plainState USCXML_STATE_HISTORY_SHALLOW 1 0b000011 0b000000 0b011000,
        plainState USCXML_STATE_ATOMIC 1 0b000011 0b000000 0b000000,
        plainState USCXML_STATE_ATOMIC 1 0b000011 0b000000 0b000000,
        plainState USCXML_STATE_ATOMIC 0 0b000001 0b000000 0b000000 ],
    transitions :=
      [ plainTransition 2 0b001000 0b000000 0b0000 ""
          (USCXML_TRANS_HISTORY ||| USCXML_TRANS_SPONTANEOUS),
        plainTransition 3 0b010000 0b011100 0b1110 "a" 0,
        plainTransition 1 0b100000 0b111110 0b1110 "out" 0,
        plainTransition 5 0b000100 0b111110 0b1110 "back" 0 ] }

/-- The index of
`<scxml initial="D"><state id="D" initial="C"><history id="hd" type="deep"><transition`
`target="C"/></history><state id="C" initial="c1"><history id="h"><transition target="c1"/>`
`</history><state id="c1"><transition event="a" target="c2"/></state><state id="c2">`
`<transition event="b" target="E"/></state></state><state id="E"><transition event="c"`
`target="F"/></state></state><state id="F"><transition event="d" target="h"/></state>`
`</scxml>`: states 0 `scxml`, 1 `D`, 2 `hd`, 3 `C`, 4 `h`, 5 `c1`, 6 `c2`, 7 `E`, 8 `F`;
transitions 0 and 1 the defaults of `hd` and `h`, 2 `a`, 3 `b`, 4 `c`, 5 `d`. The completion
of the deep history `hd` holds every descendant of `D` that is no history state. -/
def chartNestedHistory : Index :=
  { states :=
      [ plainState USCXML_STATE_COMPOUND 0 0b000000000 0b111111110 0b000000010,
        plainState USCXML_STATE_COMPOUND 0 0b000000001 0b011111100 0b000001000,
        plainState USCXML_STATE_HISTORY_DEEP 1 0b000000011 0b000000000 0b011101000,
        plainState USCXML_STATE_COMPOUND 1 0b000000011 0b001110000 0b000100000,
        plainState USCXML_STATE_HISTORY_SHALLOW 3 0b000001011 0b000000000 0b001100000,
        plainState USCXML_STATE_ATOMIC 3 0b000001011 0b000000000 0b000000000,
        plainState USCXML_STATE_ATOMIC 3 0b000001011 0b000000000 0b000000000,
        plainState USCXML_STATE_ATOMIC 1 0b000000011 0b000000000 0b000000000,
        plainState USCXML_STATE_ATOMIC 0 0b000000001 0b000000000 0b000000000 ],
    transitions :=
      [ plainTransition 2 0b000001000 0 0 ""
          (USCXML_TRANS_HISTORY ||| USCXML_TRANS_SPONTANEOUS),
        plainTransition 4 0b000100000 0 0 ""
          (USCXML_TRANS_HISTORY ||| USCXML_TRANS_SPONTANEOUS),
        plainTransition 5 0b001000000 0b001110000 0b111100 "a" 0,
        plainTransition 6 0b010000000 0b011111100 0b111100 "b" 0,
        plainTransition 7 0b100000000 0b111111110 0b111100 "c" 0,
        plainTransition 8 0b000010000 0b111111110 0b111100 "d" 0 ] }

/-- The engine and host of the chart `idx` after `k` calls of `step`, the first of which
runs `init`, the external queue holding the events `evs` at the start. -/
def afterSteps (idx : Index) (evs : List Event) (k : Nat) : Engine × QueueHost :=
  run queueCallbacks idx ⟨[], evs⟩ (List.replicate k (Action.step false))

/-! ## `isInState` and `getConfiguration`: lines 925-942 -/

/-- Method `FastMicroStep::getConfiguration`: the states whose bit is set in
`_configuration`, in ascending order; the bit set has one bit for each state. -/
def getConfiguration (e : Engine) : List Nat :=
  (List.range (USCXML_NUMBER_STATES e)).filter fun i => BIT_HAS i e.configuration

/-- Method `FastMicroStep::isInState`, for the map `_stateIds` that `init` fills. -/
def isInState (stateIds : String → Option Nat) (e : Engine) (stateId : String) : Bool :=
  match stateIds stateId with
  | none => false
  | some i => BIT_HAS i e.configuration

/-- The members that the terminal step writes. -/
def terminalFields : Fields := { invocations := true, flags := true }

/-- The members that a step through transition selection can have written when the
selection starts. -/
def preludeFields : Fields :=
  { invocations := true, flags := true, microstepConfigurations := true, event := true }

/-! ## The sets of a step -/

/-- The entry set of a step, as it stands when the loop ENTER_STATES starts: computed for
the selected transitions when the step goes through transition selection, and for the
completion of the root, with the flags of line 466, otherwise (the bootstrap). -/
def entrySetOf {H : Type} (cb : MicroStepCallbacks H) (blocking : Bool) (e : Engine) (h : H) :
    Bitset :=
  match selectionRun cb blocking e h with
  | some r =>
    (establishEntrySet (beforeEntrySet cb r).eng (selectionOf cb r).2.targetSet
      (exitSetOf cb r) (selectionOf cb r).2.transSet).1
  | none =>
    (establishEntrySet { e with flags := USCXML_CTX_SPONTANEOUS ||| USCXML_CTX_INITIALIZED }
      (USCXML_GET_STATE e 0).completion 0 0).1

/-- The state `j` is in the exit set of one of the transitions of the set `ts`. -/
def exitedByTaken (e : Engine) (ts : Bitset) (j : Nat) : Bool :=
  (List.range e.transitions.length).any fun i =>
    BIT_HAS i ts && BIT_HAS j (USCXML_GET_TRANS e i).exitSet

/-- The calls made for the entry of the state `i`: the monitor hooks around it, `initData`
for its data, its `onEntry` blocks, the content of the history and initial transitions
below it, and the done events raised when it is entered. -/
def isEntryOf (i : Nat) : Call → Bool
  | Call.monitor (MonitorHook.beforeEnteringState j) => j == i
  | Call.monitor (MonitorHook.afterEnteringState j) => j == i
  | Call.initData j _ => j == i
  | Call.process (Site.onEntry j) _ => j == i
  | Call.process (Site.pseudoTrans j _) _ => j == i
  | Call.raiseDoneEvent j _ _ => j == i
  | _ => false

/-! ## The check for a configuration seen before: lines 902-910 -/

/-- The message of the issue that line 905 reports. -/
def cycleMessage : String :=
  "Reentering same configuration during microstep  - possible endless loop"

/-- A call of the monitor hook `reportIssue`. -/
def isIssueReport : Call → Bool
  | Call.monitor (MonitorHook.reportIssue _) => true
  | _ => false

/-- The members that the lines 902-910 write. -/
def seenFields : Fields := { microstepConfigurations := true }

/-- The step calls `onStableConfiguration`. -/
def signalsStable {H : Type} (cb : MicroStepCallbacks H) (blocking : Bool) (e : Engine)
    (h : H) : Bool :=
  (step cb blocking e h).2.trace.any isStableCall

/-- The configurations that count as seen when a step reaches line 902: none when the step
has called `onStableConfiguration`, and those of `seen` otherwise. -/
def seenAt {H : Type} (cb : MicroStepCallbacks H) (blocking : Bool) (e : Engine) (h : H)
    (seen : List Bitset) : List Bitset :=
  if signalsStable cb blocking e h then [] else seen

/-- In the words of the specification: the configurations produced by the micro-steps of a
sequence of actions since the last call of `onStableConfiguration`, `seen` being the ones
produced before the sequence. A step that returns Microstepped produces the configuration
it leaves; `markAsCancelled`, `reset` and a change of the host produce nothing and are no
stable point. -/
def producedSince {H : Type} (cb : MicroStepCallbacks H) :
    List Bitset → Engine × H → List (Action H) → List Bitset
  | seen, _, [] => seen
  | seen, p, a :: rest =>
    producedSince cb
      (match a with
        | Action.step blocking =>
          if (step cb blocking p.1 p.2).1 = InterpreterState.USCXML_MICROSTEPPED then
            (step cb blocking p.1 p.2).2.eng.configuration :: seenAt cb blocking p.1 p.2 seen
          else seenAt cb blocking p.1 p.2 seen
        | _ => seen)
      (applyAction cb p a) rest

/-! ## A history state without default transition -/

/-- The engine on which the loops of ESTABLISH_ENTRYSET of a step run: the one that
REMEMBER_HISTORY leaves when the step goes through transition selection, and the engine with
the flags of line 466 otherwise (the bootstrap). -/
def entryEngine {H : Type} (cb : MicroStepCallbacks H) (blocking : Bool) (e : Engine) (h : H) :
    Engine :=
  match selectionRun cb blocking e h with
  | some r => (beforeEntrySet cb r).eng
  | none => { e with flags := USCXML_CTX_SPONTANEOUS ||| USCXML_CTX_INITIALIZED }

/-- No transition of the engine has the source `i`. -/
def noTransitionFrom (e : Engine) (i : Nat) : Bool :=
  (List.range e.transitions.length).all fun j => (USCXML_GET_TRANS e j).source != i

/-- The index of
`<scxml initial="O"><state id="C" initial="c1"><history id="h"/><state id="c1"/></state>`
`<state id="O"><transition event="back" target="h"/></state></scxml>`: states 0 `scxml`,
1 `C`, 2 `h`, 3 `c1`, 4 `O`; the only transition is `back`. The history state `h` has no
default transition. -/
def chartNoDefault : Index :=
  { states :=
      [ plainState USCXML_STATE_COMPOUND 0 0b00000 0b11110 0b10000,
        plainState USCXML_STATE_COMPOUND 0 0b00001 0b01100 0b01000,
        plainState USCXML_STATE_HISTORY_SHALLOW 1 0b00011 0b00000 0b01000,
        plainState USCXML_STATE_ATOMIC 1 0b00011 0b00000 0b00000,
        plainState USCXML_STATE_ATOMIC 0 0b00001 0b00000 0b00000 ],
    transitions := [ plainTransition 4 0b00100 0b11110 0b1 "back" 0 ] }

/-! ## The type of a state: lines 249-286 of `init` and 965-971 of `getHistoryCompletion` -/

/-- What `init` reads of the element of a state when it sets the type: the results of the
tests of the lines 251-266 on the element (its tag name is `initial`, `isFinal`, `isHistory`,
`isAtomic`, `isParallel`, `isCompound`), whether its attribute `type` is present and equal to
"deep", and the state of its parent node, `none` when the parent is no element. -/
structure ElementFacts where
  isInitialTag : Bool := false
  isFinal : Bool := false
  isHistory : Bool := false
  isAtomic : Bool := false
  isParallel : Bool := false
  isCompound : Bool := false
  deep : Bool := false
  parent : Option Nat := none
deriving Repr, DecidableEq, Inhabited

/-- The user data `hasHistoryChild` of the element of the history state `i` after the call
`getHistoryCompletion` for it (lines 965-971): the loop over the states skips `i` itself
and sets the user data of the element of `i` to the state `j` whenever the element of `j`
is a history element and a descendant of the parent node of `i`. `none` is the null
pointer; `isDescendant j p` is the result of `DOMUtils::isDescendant` for the element of
the state `j` and the node of `p`. -/
def historyUserData (isDescendant : Nat → Option Nat → Bool) (els : List ElementFacts)
    (i : Nat) : Option Nat :=
  (List.range els.length).foldl
    (fun u j =>
      if j == i then u
      else if isDescendant j (els.getD i default).parent && (els.getD j default).isHistory
      then some j
      else u)
    none

/-- The user data `hasHistoryChild` of the element of the state `i` when line 284 reads it:
`getCompletion` (line 272) calls `getHistoryCompletion` for a history element only (lines
1009-1011), and no other line sets this user data. -/
def hasHistoryChildData (isDescendant : Nat → Option Nat → Bool) (els : List ElementFacts)
    (i : Nat) : Option Nat :=
  if (els.getD i default).isHistory then historyUserData isDescendant els i else none

/-- The type that `init` gives the state `i` (lines 249-286): the kind of the element, and
the flag `USCXML_STATE_HAS_HISTORY` when the user data of its element is the state itself. -/
def stateType (isDescendant : Nat → Option Nat → Bool) (els : List ElementFacts) (i : Nat) :
    Nat :=
  let el := els.getD i default
  let type :=
    if el.isInitialTag then USCXML_STATE_INITIAL
    else if el.isFinal then USCXML_STATE_FINAL
    else if el.isHistory then
      if el.deep then USCXML_STATE_HISTORY_DEEP else USCXML_STATE_HISTORY_SHALLOW
    else if el.isAtomic then USCXML_STATE_ATOMIC
    else if el.isParallel then USCXML_STATE_PARALLEL
    else if el.isCompound then USCXML_STATE_COMPOUND
    else USCXML_STATE_COMPOUND
  if hasHistoryChildData isDescendant els i == some i then type ||| USCXML_STATE_HAS_HISTORY
  else type

/-- In the words of the specification: a direct child of the state `i` is a history
pseudo-state. -/
def hasHistoryChild (els : List ElementFacts) (i : Nat) : Bool :=
  (List.range els.length).any fun j =>
    (els.getD j default).parent == some i && (els.getD j default).isHistory

/-- The elements of `<scxml><state id="C"><history id="h"/><state id="c1"/></state></scxml>`:
states 0 `scxml`, 1 `C`, 2 `h`, 3 `c1`. -/
def docHistoryChild : List ElementFacts :=
  [ { },
    { isCompound := true, parent := some 0 },
    { isHistory := true, parent := some 1 },
    { isAtomic := true, parent := some 1 } ]

/-- The relation `DOMUtils::isDescendant` of the document `docHistoryChild`. -/
def docHistoryChildDescendant (j : Nat) (p : Option Nat) : Bool :=
  match p with
  | some 0 => j == 1 || j == 2 || j == 3
  | some 1 => j == 2 || j == 3
  | _ => false

/-- The elements of `<scxml><state id="C"><history id="h2"/><history id="h1" type="deep"/>`
`<state id="c1"/></state></scxml>` in the order in which `init` numbers them, after
`resortStates` has moved both history children of `C` to the front, the later one first
(`stateTwoHistories`): states 0 `scxml`, 1 `C`, 2 `h1`, 3 `h2`, 4 `c1`. -/
def docTwoHistories : List ElementFacts :=
  [ { },
    { isCompound := true, parent := some 0 },
    { isHistory := true, deep := true, parent := some 1 },
    { isHistory := true, parent := some 1 },
    { isAtomic := true, parent := some 1 } ]

/-- The relation `DOMUtils::isDescendant` of the document `docTwoHistories`. -/
def docTwoHistoriesDescendant (j : Nat) (p : Option Nat) : Bool :=
  match p with
  | some 0 => j == 1 || j == 2 || j == 3 || j == 4
  | some 1 => j == 2 || j == 3 || j == 4
  | _ => false

/-! ## `FastMicroStep::resortStates`: lines 92-156 -/

/-- A node of the document: an element with its tag name, its local name, its attribute
`id` (which only names it here), its attribute `type` (`none` when absent) and its child
nodes in order, or a node that is no element. -/
inductive DOMNode where
  | other : DOMNode
  | element (tagName localName id : String) (type : Option String)
      (children : List DOMNode) : DOMNode
deriving Repr, Inhabited

/-- The test `child->getNodeType() == ELEMENT_NODE && TAGNAME_CAST(child) == xmlPrefix +
"history"` of the lines 109-110 and 127-128. -/
def isHistoryNode (xmlPrefix : String) : DOMNode → Bool
  | DOMNode.element tagName _ _ _ _ => tagName == xmlPrefix ++ "history"
  | DOMNode.other => false

/-- The test of line 146: an element whose local name is `initial`. -/
def isInitialNode : DOMNode → Bool
  | DOMNode.element _ localName _ _ _ => localName == "initial"
  | DOMNode.other => false

/-- One of the three loops of `resortStates` over the children of an element. The loop
visits the children in their order at its start (`tmp` is read before a child is moved, and
a child moves in front of all the others); it resorts each child, and moves it in front of
the first child when the test `moves` holds. The pair holds the children moved so far, the
last one first, and the other children visited so far. -/
def resortPass (resort : DOMNode → DOMNode) (moves : DOMNode → Bool)
    (children : List DOMNode) : List DOMNode :=
  let p := children.foldl
    (fun (p : List DOMNode × List DOMNode) child =>
      if moves (resort child) then (resort child :: p.1, p.2)
      else (p.1, p.2 ++ [resort child]))
    ([], [])
  p.1 ++ p.2

/-- The function `FastMicroStep::resortStates` on a node, with the node it leaves as its
result. `fuel` bounds the depth of the recursion; `iequals` is the comparison of strings
without regard to case. The attribute `type` that the first two loops test is the one of
`element`, the parent of the children they move. -/
def resortStates (iequals : String → String → Bool) (xmlPrefix : String) :
    Nat → DOMNode → DOMNode
  | 0, node => node
  | _ + 1, DOMNode.other => DOMNode.other
  | fuel + 1, DOMNode.element tagName localName id type children =>
    let children := resortPass (resortStates iequals xmlPrefix fuel)
      (fun child => isHistoryNode xmlPrefix child &&
        (!type.isSome || iequals (type.getD "") "shallow")) children
    let children := resortPass (resortStates iequals xmlPrefix fuel)
      (fun child => isHistoryNode xmlPrefix child &&
        type.isSome && iequals (type.getD "") "deep") children
    let children := resortPass (resortStates iequals xmlPrefix fuel) isInitialNode children
    DOMNode.element tagName localName id type children

/-- The attributes `id` of the child elements of a node, in order. -/
def childIds : DOMNode → List String
  | DOMNode.element _ _ _ _ children =>
    children.filterMap fun c =>
      match c with
      | DOMNode.element _ _ id _ _ => some id
      | DOMNode.other => none
  | DOMNode.other => []

/-- The element `<state id="s"><history id="hd" type="deep"/><history id="hs"
type="shallow"/><state id="c"/></state>`. -/
def stateDeepShallow : DOMNode :=
  DOMNode.element "state" "state" "s" none
    [ DOMNode.element "history" "history" "hd" (some "deep") [],
      DOMNode.element "history" "history" "hs" (some "shallow") [],
      DOMNode.element "state" "state" "c" none [] ]

/-- The element `<state id="C"><history id="h2"/><history id="h1" type="deep"/><state
id="c1"/></state>` of the document that `docTwoHistories` indexes. -/
def stateTwoHistories : DOMNode :=
  DOMNode.element "state" "state" "C" none
    [ DOMNode.element "history" "history" "h2" none [],
      DOMNode.element "history" "history" "h1" (some "deep") [],
      DOMNode.element "state" "state" "c1" none [] ]

/-- The document `<scxml>` with the only child `stateDeepShallow`. -/
def docDeepShallow : DOMNode :=
  DOMNode.element "scxml" "scxml" "" none [stateDeepShallow]

/-! ## Deep history -/

/-- The state `h` is a deep history state, its type being the one `init` sets, with the
parent `C`; `c2` is a compound state and `x2` an atomic state below it, both in the
completion of `h`, which holds no ancestor of `h`; every ancestor of `h` is a compound
state that has `h` among its descendants and whose ancestors are ancestors of `h`. -/
def deepHistory (e : Engine) (C h c2 x2 : Nat) : Bool :=
  decide (h < e.states.length) && decide (c2 < e.states.length) &&
    decide (x2 < e.states.length) && decide (C < e.states.length) &&
    (USCXML_GET_STATE e h).type == USCXML_STATE_HISTORY_DEEP &&
    (USCXML_GET_STATE e h).parent == C &&
    BIT_HAS C (USCXML_GET_STATE e h).ancestors &&
    BIT_HAS c2 (USCXML_GET_STATE e h).completion &&
    BIT_HAS x2 (USCXML_GET_STATE e h).completion &&
    USCXML_STATE_MASK (USCXML_GET_STATE e c2).type == USCXML_STATE_COMPOUND &&
    BIT_HAS x2 (USCXML_GET_STATE e c2).children &&
    USCXML_STATE_MASK (USCXML_GET_STATE e x2).type == USCXML_STATE_ATOMIC &&
    !BIT_HAS_AND (USCXML_GET_STATE e h).completion (USCXML_GET_STATE e h).ancestors &&
    (List.range e.states.length).all fun i =>
      !BIT_HAS i (USCXML_GET_STATE e h).ancestors ||
        (USCXML_STATE_MASK (USCXML_GET_STATE e i).type == USCXML_STATE_COMPOUND &&
          BIT_HAS h (USCXML_GET_STATE e i).children &&
          (USCXML_GET_STATE e i).ancestors &&& (USCXML_GET_STATE e h).ancestors ==
            (USCXML_GET_STATE e i).ancestors)

/-- The index of
`<scxml initial="C"><state id="C" initial="c1"><history id="h" type="deep"><transition`
`target="c1"/></history><state id="c1"><transition event="a" target="x2"/></state>`
`<state id="c2" initial="x1"><state id="x1"/><state id="x2"/></state><transition event="out"`
`target="O"/></state><state id="O"><transition event="back" target="h"/></state></scxml>`:
states 0 `scxml`, 1 `C`, 2 `h`, 3 `c1`, 4 `c2`, 5 `x1`, 6 `x2`, 7 `O`; transitions 0 the
default of `h`, 1 `a`, 2 `out`, 3 `back`. The completion of the deep history `h` holds every
descendant of `C` that is no history state. -/
def chartDeepHistory : Index :=
  { states :=
      [ plainState USCXML_STATE_COMPOUND 0 0b00000000 0b11111110 0b00000010,
        plainState USCXML_STATE_COMPOUND 0 0b00000001 0b01111100 0b00001000,
        plainState USCXML_STATE_HISTORY_DEEP 1 0b00000011 0b00000000 0b01111000,
        plainState USCXML_STATE_ATOMIC 1 0b00000011 0b00000000 0b00000000,
        plainState USCXML_STATE_COMPOUND 1 0b00000011 0b01100000 0b00100000,
        plainState USCXML_STATE_ATOMIC 4 0b00010011 0b00000000 0b00000000,
        plainState USCXML_STATE_ATOMIC 4 0b00010011 0b00000000 0b00000000,
        plainState USCXML_STATE_ATOMIC 0 0b00000001 0b00000000 0b00000000 ],
    transitions :=
      [ plainTransition 2 0b00001000 0b00000000 0b0000 ""
          (USCXML_TRANS_HISTORY ||| USCXML_TRANS_SPONTANEOUS),
        plainTransition 3 0b01000000 0b01111100 0b1110 "a" 0,
        plainTransition 1 0b10000000 0b11111110 0b1110 "out" 0,
        plainTransition 7 0b00000100 0b11111110 0b1110 "back" 0 ] }

/-- The index of
`<scxml initial="D"><state id="D" initial="C"><history id="hd" type="deep"><transition`
`target="C"/></history><state id="C" initial="c1"><history id="h" type="deep"><transition`
`target="c1"/></history><state id="c1"><transition event="a" target="x2"/></state>`
`<state id="c2" initial="x1"><state id="x1"/><state id="x2"><transition event="b"`
`target="E"/></state></state></state><state id="E"><transition event="c" target="F"/>`
`</state></state><state id="F"><transition event="d" target="h"/></state></scxml>`:
states 0 `scxml`, 1 `D`, 2 `hd`, 3 `C`, 4 `h`, 5 `c1`, 6 `c2`, 7 `x1`, 8 `x2`, 9 `E`,
10 `F`; transitions 0 and 1 the defaults of `hd` and `h`, 2 `a`, 3 `b`, 4 `c`, 5 `d`. The
completion of the deep history `hd` holds every descendant of `D` that is no history state,
those of `C` among them. -/
def chartNestedDeepHistory : Index :=
  { states :=
      [ plainState USCXML_STATE_COMPOUND 0 0b00000000000 0b11111111110 0b00000000010,
        plainState USCXML_STATE_COMPOUND 0 0b00000000001 0b01111111100 0b00000001000,
        plainState USCXML_STATE_HISTORY_DEEP 1 0b00000000011 0b00000000000 0b01111101000,
        plainState USCXML_STATE_COMPOUND 1 0b00000000011 0b00111110000 0b00000100000,
        plainState USCXML_STATE_HISTORY_DEEP 3 0b00000001011 0b00000000000 0b00111100000,
        plainState USCXML_STATE_ATOMIC 3 0b00000001011 0b00000000000 0b00000000000,
        plainState USCXML_STATE_COMPOUND 3 0b00000001011 0b00110000000 0b00010000000,
        plainState USCXML_STATE_ATOMIC 6 0b00001001011 0b00000000000 0b00000000000,
        plainState USCXML_STATE_ATOMIC 6 0b00001001011 0b00000000000 0b00000000000,
        plainState USCXML_STATE_ATOMIC 1 0b00000000011 0b00000000000 0b00000000000,
        plainState USCXML_STATE_ATOMIC 0 0b00000000001 0b00000000000 0b00000000000 ],
    transitions :=
      [ plainTransition 2 0b00000001000 0 0 ""
          (USCXML_TRANS_HISTORY ||| USCXML_TRANS_SPONTANEOUS),
        plainTransition 4 0b00000100000 0 0 ""
          (USCXML_TRANS_HISTORY ||| USCXML_TRANS_SPONTANEOUS),
        plainTransition 5 0b00100000000 0b00111110000 0b111100 "a" 0,
        plainTransition 8 0b01000000000 0b01111111100 0b111100 "b" 0,
        plainTransition 9 0b10000000000 0b11111111110 0b111100 "c" 0,
        plainTransition 10 0b00000010000 0b11111111110 0b111100 "d" 0 ] }

/-! # Theorems -/

/-! ## Bit sets -/

theorem BIT_HAS_or (a b : Bitset) (j : Nat) : BIT_HAS j (a ||| b) = (BIT_HAS j a || BIT_HAS j b) := by
  simp [BIT_HAS, Nat.testBit_lor]

theorem BIT_HAS_and (a b : Bitset) (j : Nat) : BIT_HAS j (a &&& b) = (BIT_HAS j a && BIT_HAS j b) := by
  simp [BIT_HAS, Nat.testBit_land]

theorem BIT_HAS_zero (j : Nat) : BIT_HAS j 0 = false := by
  simp [BIT_HAS]

theorem BIT_HAS_andNot (a b : Bitset) (j : Nat) :
    BIT_HAS j (bitAndNot a b) = (BIT_HAS j a && !BIT_HAS j b) := by
  simp only [BIT_HAS, bitAndNot, Nat.testBit_xor, Nat.testBit_land]
  cases a.testBit j <;> cases b.testBit j <;> rfl

theorem BIT_HAS_one_shiftLeft (i j : Nat) : BIT_HAS j (1 <<< i) = decide (i = j) := by
  simp [BIT_HAS, Nat.one_shiftLeft, Nat.testBit_two_pow]

theorem BIT_HAS_set (i j : Nat) (b : Bitset) :
    BIT_HAS j (BIT_SET_AT i b) = (decide (i = j) || BIT_HAS j b) := by
  rw [BIT_SET_AT, BIT_HAS_or, BIT_HAS_one_shiftLeft, Bool.or_comm]

theorem BIT_HAS_clear (i j : Nat) (b : Bitset) :
    BIT_HAS j (BIT_CLEAR i b) = (BIT_HAS j b && !decide (i = j)) := by
  rw [BIT_CLEAR, BIT_HAS_andNot, BIT_HAS_one_shiftLeft]

theorem hasFlag_pow (f k : Nat) : hasFlag f (2 ^ k) = f.testBit k := by
  unfold hasFlag
  cases h : f.testBit k
  · have : f &&& 2 ^ k = 0 := by
      apply Nat.eq_of_testBit_eq
      intro i
      rw [Nat.testBit_land, Nat.testBit_two_pow, Nat.zero_testBit]
      by_cases hk : k = i
      · subst hk; simp [h]
      · simp [hk]
    simp [this]
  · have : (f &&& 2 ^ k).testBit k = true := by
      rw [Nat.testBit_land, Nat.testBit_two_pow, h]; simp
    have h0 : f &&& 2 ^ k ≠ 0 := by
      intro h0; rw [h0] at this; simp at this
    simp [h0]

section selection
variable {H : Type} (cb : MicroStepCallbacks H)

theorem SameButFlags.unchanged (e : Engine) : SameButFlags e e := by
  cases e; rfl

theorem SameButFlags.seq {a b c : Engine} (h1 : SameButFlags a b) (h2 : SameButFlags b c) :
    SameButFlags a c := by
  unfold SameButFlags at *
  rw [h2, h1]

theorem SameButFlags.ofSetFlags (e : Engine) (f : Nat) : SameButFlags e { e with flags := f } := by
  rfl

theorem evalMatched_eng (t : Transition) (r : Run H) : (evalMatched cb t r).2.eng = r.eng := by
  unfold evalMatched
  cases r.eng.event <;> rfl

theorem evalCond_eng (t : Transition) (r : Run H) : (evalCond cb t r).2.eng = r.eng := by
  unfold evalCond
  split <;> rfl

theorem selectTransition_eng (p : Run H × Selection) (i : Nat) :
    SameButFlags p.1.eng (selectTransition cb p i).1.eng := by
  unfold selectTransition
  simp only []
  split_ifs
  · exact SameButFlags.unchanged _
  · exact SameButFlags.unchanged _
  · exact SameButFlags.unchanged _
  · exact SameButFlags.unchanged _
  · rw [evalMatched_eng]; exact SameButFlags.unchanged _
  · rw [evalCond_eng, evalMatched_eng]; exact SameButFlags.unchanged _
  · simp only [Run.setFlags, evalCond_eng, evalMatched_eng]
    exact SameButFlags.ofSetFlags _ _

theorem selectLoop_succ (k : Nat) (r : Run H) :
    selectLoop cb (k + 1) r = selectTransition cb (selectLoop cb k r) k := by
  simp [selectLoop, List.range_succ, List.foldl_append]

theorem selectLoop_eng (k : Nat) (r : Run H) : SameButFlags r.eng (selectLoop cb k r).1.eng := by
  induction k with
  | zero => exact SameButFlags.unchanged _
  | succ k ih =>
    rw [selectLoop_succ]
    exact ih.seq (selectTransition_eng cb _ k)

end selection

section selection
variable {H : Type} (cb : MicroStepCallbacks H)

theorem selectTransition_sets (p : Run H × Selection) (i : Nat) :
    (selectTransition cb p i).2 =
      if takes cb p i then
        { conflicts := p.2.conflicts ||| (USCXML_GET_TRANS p.1.eng i).conflicts,
          targetSet := p.2.targetSet ||| (USCXML_GET_TRANS p.1.eng i).target,
          exitSet := p.2.exitSet ||| (USCXML_GET_TRANS p.1.eng i).exitSet,
          transSet := BIT_SET_AT i p.2.transSet }
      else p.2 := by
  unfold selectTransition takes enabledFor
  simp only []
  split_ifs <;> simp_all

theorem SameButFlags.trans_eq {e e2 : Engine} (h : SameButFlags e e2) :
    USCXML_GET_TRANS e2 = USCXML_GET_TRANS e := by
  unfold SameButFlags at h
  funext i
  rw [h]; rfl

theorem SameButFlags.flagsConfiguration {e e2 : Engine} (h : SameButFlags e e2) :
    e2.configuration = e.configuration := by
  unfold SameButFlags at h
  rw [h]

theorem SameButFlags.flagsEvent {e e2 : Engine} (h : SameButFlags e e2) :
    e2.event = e.event := by
  unfold SameButFlags at h
  rw [h]

/-- Bits of `transSet` at or above the loop index are clear. -/
theorem selectLoop_transSet_ge (r : Run H) (k i : Nat) (h : k ≤ i) :
    BIT_HAS i (selectLoop cb k r).2.transSet = false := by
  induction k with
  | zero => simp [selectLoop, BIT_HAS_zero]
  | succ k ih =>
    rw [selectLoop_succ, selectTransition_sets]
    split_ifs
    · simp only [BIT_HAS_set, ih (by omega)]
      simp; omega
    · exact ih (by omega)

/-- Later iterations leave the bits of `transSet` below the loop index alone. -/
theorem selectLoop_transSet_stable (r : Run H) (k n i : Nat) (hik : i < k) (hkn : k ≤ n) :
    BIT_HAS i (selectLoop cb n r).2.transSet = BIT_HAS i (selectLoop cb k r).2.transSet := by
  induction n with
  | zero => omega
  | succ n ih =>
    rcases Nat.eq_or_lt_of_le hkn with h | h
    · rw [h]
    · rw [selectLoop_succ, selectTransition_sets]
      split_ifs
      · simp only [BIT_HAS_set]
        rw [ih (by omega)]
        have : ¬ n = i := by omega
        simp [this]
      · exact ih (by omega)

/-- The running conflict mask holds `i` iff a transition taken so far conflicts with `i`. -/
theorem selectLoop_conflicts (r : Run H) (k i : Nat) :
    BIT_HAS i (selectLoop cb k r).2.conflicts = true ↔
      ∃ j, j < k ∧ BIT_HAS j (selectLoop cb k r).2.transSet = true ∧
        BIT_HAS i (USCXML_GET_TRANS r.eng j).conflicts = true := by
  induction k with
  | zero => simp [selectLoop, BIT_HAS_zero]
  | succ k ih =>
    have hs : ∀ j, j < k → BIT_HAS j (selectLoop cb (k + 1) r).2.transSet =
        BIT_HAS j (selectLoop cb k r).2.transSet :=
      fun j hj => selectLoop_transSet_stable cb r k (k + 1) j hj (by omega)
    have hk : BIT_HAS k (selectLoop cb k r).2.transSet = false :=
      selectLoop_transSet_ge cb r k k (le_refl k)
    have hsucc := selectTransition_sets cb (selectLoop cb k r) k
    rw [← selectLoop_succ] at hsucc
    rw [(selectLoop_eng cb k r).trans_eq] at hsucc
    constructor
    · intro h
      rw [hsucc] at h
      split_ifs at h with ht
      · simp only [BIT_HAS_or, Bool.or_eq_true] at h
        rcases h with h | h
        · obtain ⟨j, hj, hjt, hjc⟩ := ih.mp h
          exact ⟨j, by omega, by rw [hs j hj]; exact hjt, hjc⟩
        · refine ⟨k, by omega, ?_, h⟩
          rw [hsucc, if_pos ht]
          simp [BIT_HAS_set]
      · obtain ⟨j, hj, hjt, hjc⟩ := ih.mp h
        exact ⟨j, by omega, by rw [hs j hj]; exact hjt, hjc⟩
    · rintro ⟨j, hj, hjt, hjc⟩
      rw [hsucc]
      rcases Nat.eq_or_lt_of_le (Nat.lt_succ_iff.mp hj) with h | h
      · subst h
        rw [hsucc] at hjt
        split_ifs at hjt with ht
        · rw [if_pos ht]
          simp [BIT_HAS_or, hjc]
        · rw [hk] at hjt; cases hjt
      · have := ih.mpr ⟨j, h, by rw [← hs j h]; exact hjt, hjc⟩
        split_ifs
        · simp [BIT_HAS_or, this]
        · exact this

/-- The bit of transition `i` in the selected set is decided when the loop reaches `i`. -/
theorem selectLoop_transSet_at (r : Run H) (n i : Nat) (hi : i < n) :
    BIT_HAS i (selectLoop cb n r).2.transSet = takes cb (selectLoop cb i r) i := by
  rw [selectLoop_transSet_stable cb r (i + 1) n i (by omega) (by omega), selectLoop_succ,
    selectTransition_sets]
  split_ifs with h
  · simp [BIT_HAS_set, h]
  · rw [selectLoop_transSet_ge cb r i i (le_refl i)]
    simp at h
    simp [h]

end selection

/-! ## Loops -/

/-- A property that the loop body preserves holds after the loop. -/
theorem foldl_preserves {α β : Type} (P : α → Prop) (f : α → β → α)
    (hf : ∀ a b, P a → P (f a b)) (l : List β) (a : α) (h : P a) : P (l.foldl f a) := by
  induction l generalizing a with
  | nil => exact h
  | cons b l ih => exact ih (f a b) (hf a b h)

/-- A relation between the state before and after that is reflexive, transitive and
established by the loop body holds across the loop. -/
theorem foldl_rel {α β : Type} (R : α → α → Prop) (f : α → β → α)
    (hrefl : ∀ a, R a a) (htrans : ∀ a b c, R a b → R b c → R a c)
    (hf : ∀ a b, R a (f a b)) (l : List β) (a : α) : R a (l.foldl f a) := by
  induction l generalizing a with
  | nil => exact hrefl a
  | cons b l ih => exact htrans _ _ _ (hf a b) (ih (f a b))

/-- An invariant indexed by the list of loop indices handled so far. -/
theorem foldl_prefix {α β : Type} (P : List β → α → Prop) (f : α → β → α) (l : List β)
    (a : α) (h0 : P [] a)
    (hf : ∀ pre b post x, l = pre ++ b :: post → P pre x → P (pre ++ [b]) (f x b)) :
    P l (l.foldl f a) := by
  suffices hgen : ∀ (post pre : List β) (x : α), l = pre ++ post → P pre x →
      P (pre ++ post) (post.foldl f x) by
    simpa using hgen l [] a (by simp) h0
  intro post
  induction post with
  | nil => intro pre x _ hx; simpa using hx
  | cons b post ih =>
    intro pre x hl hx
    have := ih (pre ++ [b]) (f x b) (by simpa using hl) (hf pre b post x hl hx)
    simpa using this

/-! ## Engines that share the index -/

theorem Static.same (e : Engine) : Static e e := ⟨rfl, rfl, rfl, rfl, rfl⟩

theorem Static.chain {a b c : Engine} (h1 : Static a b) (h2 : Static b c) : Static a c := by
  obtain ⟨h11, h12, h13, h14, h15⟩ := h1
  obtain ⟨h21, h22, h23, h24, h25⟩ := h2
  exact ⟨h21.trans h11, h22.trans h12, h23.trans h13, h24.trans h14, h25.trans h15⟩

theorem Static.getState {e e2 : Engine} (h : Static e e2) :
    USCXML_GET_STATE e2 = USCXML_GET_STATE e := by
  funext i; unfold USCXML_GET_STATE; rw [h.2.1]

theorem Static.getTrans {e e2 : Engine} (h : Static e e2) :
    USCXML_GET_TRANS e2 = USCXML_GET_TRANS e := by
  funext i; unfold USCXML_GET_TRANS; rw [h.2.2.1]

theorem Static.numStates {e e2 : Engine} (h : Static e e2) :
    USCXML_NUMBER_STATES e2 = USCXML_NUMBER_STATES e := by
  unfold USCXML_NUMBER_STATES; rw [h.2.1]

theorem Static.numTrans {e e2 : Engine} (h : Static e e2) :
    USCXML_NUMBER_TRANS e2 = USCXML_NUMBER_TRANS e := by
  unfold USCXML_NUMBER_TRANS; rw [h.2.2.1]

theorem SameButFlags.toStatic {e e2 : Engine} (h : SameButFlags e e2) : Static e e2 := by
  unfold SameButFlags at h
  rw [h]; exact ⟨rfl, rfl, rfl, rfl, rfl⟩

/-! ## Calls and their traces -/

section calls
variable {H : Type} (cb : MicroStepCallbacks H)

@[simp]
theorem callProcess_eng (s : Site) (r : Run H) (c : DOMElement) :
    (callProcess cb s r c).eng = r.eng := rfl
@[simp]
theorem callProcess_trace (s : Site) (r : Run H) (c : DOMElement) :
    (callProcess cb s r c).trace = r.trace ++ [Call.process s c] := rfl
@[simp]
theorem callMonitor_eng (k : MonitorHook) (r : Run H) :
    (callMonitor cb k r).eng = r.eng := rfl
@[simp]
theorem callMonitor_trace (k : MonitorHook) (r : Run H) :
    (callMonitor cb k r).trace = r.trace ++ [Call.monitor k] := rfl
@[simp]
theorem callInitData_eng (s : Nat) (r : Run H) (c : DOMElement) :
    (callInitData cb s r c).eng = r.eng := rfl
@[simp]
theorem callInitData_trace (s : Nat) (r : Run H) (c : DOMElement) :
    (callInitData cb s r c).trace = r.trace ++ [Call.initData s c] := rfl
@[simp]
theorem callInvoke_eng (s : Nat) (r : Run H) (c : DOMElement) :
    (callInvoke cb s r c).eng = r.eng := rfl
@[simp]
theorem callInvoke_trace (s : Nat) (r : Run H) (c : DOMElement) :
    (callInvoke cb s r c).trace = r.trace ++ [Call.invoke s c] := rfl
@[simp]
theorem callUninvoke_eng (s : Nat) (r : Run H) (c : DOMElement) :
    (callUninvoke cb s r c).eng = r.eng := rfl
@[simp]
theorem callUninvoke_trace (s : Nat) (r : Run H) (c : DOMElement) :
    (callUninvoke cb s r c).trace = r.trace ++ [Call.uninvoke s c] := rfl
@[simp]
theorem callRaiseDoneEvent_eng (i s : Nat) (d : Option DOMElement) (r : Run H) :
    (callRaiseDoneEvent cb i s d r).eng = r.eng := rfl
@[simp]
theorem callRaiseDoneEvent_trace (i s : Nat) (d : Option DOMElement) (r : Run H) :
    (callRaiseDoneEvent cb i s d r).trace = r.trace ++ [Call.raiseDoneEvent i s d] := rfl
@[simp]
theorem callIsMatched_eng (e : Event) (d : String) (r : Run H) :
    (callIsMatched cb e d r).2.eng = r.eng := rfl
@[simp]
theorem callIsMatched_trace (e : Event) (d : String) (r : Run H) :
    (callIsMatched cb e d r).2.trace = r.trace ++ [Call.isMatched e d] := rfl
@[simp]
theorem callIsTrue_eng (x : String) (r : Run H) :
    (callIsTrue cb x r).2.eng = r.eng := rfl
@[simp]
theorem callIsTrue_trace (x : String) (r : Run H) :
    (callIsTrue cb x r).2.trace = r.trace ++ [Call.isTrue x] := rfl
@[simp]
theorem callDequeueInternal_trace (r : Run H) :
    (callDequeueInternal cb r).trace = r.trace ++ [Call.dequeueInternal] := rfl
@[simp]
theorem callDequeueExternal_trace (b : Bool) (r : Run H) :
    (callDequeueExternal cb b r).trace = r.trace ++ [Call.dequeueExternal b] := rfl
@[simp]
theorem setFlags_trace (r : Run H) (f : Nat) : (r.setFlags f).trace = r.trace := rfl
@[simp]
theorem setConfiguration_trace (r : Run H) (f : Nat) :
    (r.setConfiguration f).trace = r.trace := rfl
@[simp]
theorem setInvocations_trace (r : Run H) (f : Nat) :
    (r.setInvocations f).trace = r.trace := rfl
@[simp]
theorem setInitializedData_trace (r : Run H) (f : Nat) :
    (r.setInitializedData f).trace = r.trace := rfl

/-- A loop of calls, one per element of a list, leaves the engine alone and appends the
calls in the order of the list. -/
theorem foldl_call {β : Type} (f : Run H → β → Run H) (mk : β → Call)
    (heng : ∀ r b, (f r b).eng = r.eng) (htrace : ∀ r b, (f r b).trace = r.trace ++ [mk b])
    (l : List β) (r : Run H) :
    (l.foldl f r).eng = r.eng ∧ (l.foldl f r).trace = r.trace ++ l.map mk := by
  induction l generalizing r with
  | nil => simp
  | cons b l ih =>
    obtain ⟨h1, h2⟩ := ih (f r b)
    simp only [List.foldl_cons, List.map_cons]
    rw [h1, h2, heng, htrace]
    simp

theorem foldl_callProcess (s : Site) (l : List DOMElement) (r : Run H) :
    (l.foldl (callProcess cb s) r).eng = r.eng ∧
      (l.foldl (callProcess cb s) r).trace = r.trace ++ l.map (Call.process s) :=
  foldl_call (callProcess cb s) (Call.process s) (fun _ _ => rfl) (fun _ _ => rfl) l r

theorem foldl_callInitData (s : Nat) (l : List DOMElement) (r : Run H) :
    (l.foldl (callInitData cb s) r).eng = r.eng ∧
      (l.foldl (callInitData cb s) r).trace = r.trace ++ l.map (Call.initData s) :=
  foldl_call (callInitData cb s) (Call.initData s) (fun _ _ => rfl) (fun _ _ => rfl) l r

theorem foldl_callInvoke (s : Nat) (l : List DOMElement) (r : Run H) :
    (l.foldl (callInvoke cb s) r).eng = r.eng ∧
      (l.foldl (callInvoke cb s) r).trace = r.trace ++ l.map (Call.invoke s) :=
  foldl_call (callInvoke cb s) (Call.invoke s) (fun _ _ => rfl) (fun _ _ => rfl) l r

theorem foldl_callUninvoke (s : Nat) (l : List DOMElement) (r : Run H) :
    (l.foldl (callUninvoke cb s) r).eng = r.eng ∧
      (l.foldl (callUninvoke cb s) r).trace = r.trace ++ l.map (Call.uninvoke s) :=
  foldl_call (callUninvoke cb s) (Call.uninvoke s) (fun _ _ => rfl) (fun _ _ => rfl) l r

/-! ## What a phase appends to the trace -/

theorem Emits.nil (Q : Call → Prop) (r : Run H) : Emits Q r r :=
  ⟨[], by simp, by simp⟩

theorem Emits.of_trace_eq (Q : Call → Prop) {r r2 : Run H} (h : r2.trace = r.trace) :
    Emits Q r r2 :=
  ⟨[], by simp [h], by simp⟩

theorem Emits.append {Q : Call → Prop} {a b c : Run H} (h1 : Emits Q a b) (h2 : Emits Q b c) :
    Emits Q a c := by
  obtain ⟨t1, e1, q1⟩ := h1
  obtain ⟨t2, e2, q2⟩ := h2
  refine ⟨t1 ++ t2, by rw [e2, e1, List.append_assoc], ?_⟩
  intro c hc
  rcases List.mem_append.mp hc with h | h
  · exact q1 c h
  · exact q2 c h

theorem Emits.weaken {Q Q2 : Call → Prop} {a b : Run H} (h : Emits Q a b)
    (hq : ∀ c, Q c → Q2 c) : Emits Q2 a b := by
  obtain ⟨t, e, q⟩ := h
  exact ⟨t, e, fun c hc => hq c (q c hc)⟩

theorem Emits.one {Q : Call → Prop} {r r2 : Run H} (c : Call) (h : r2.trace = r.trace ++ [c])
    (hq : Q c) : Emits Q r r2 :=
  ⟨[c], h, by simpa using hq⟩

theorem Emits.many {Q : Call → Prop} {r r2 : Run H} (t : List Call)
    (h : r2.trace = r.trace ++ t) (hq : ∀ c ∈ t, Q c) : Emits Q r r2 :=
  ⟨t, h, hq⟩

theorem Emits.fold {β : Type} (Q : Call → Prop) (f : Run H → β → Run H)
    (hf : ∀ r b, Emits Q r (f r b)) (l : List β) (r : Run H) : Emits Q r (l.foldl f r) :=
  foldl_rel (Emits Q) f (Emits.nil Q) (fun _ _ _ h1 h2 => h1.append h2) hf l r

/-- A call that `r2` made and `r` had not yet made satisfies `Q`. -/
theorem Emits.mem {Q : Call → Prop} {r r2 : Run H} (h : Emits Q r r2) {c : Call}
    (hc : c ∈ r2.trace) : c ∈ r.trace ∨ Q c := by
  obtain ⟨t, e, q⟩ := h
  rw [e] at hc
  rcases List.mem_append.mp hc with h | h
  · exact Or.inl h
  · exact Or.inr (q c h)

theorem Emits.subset {Q : Call → Prop} {r r2 : Run H} (h : Emits Q r r2) {c : Call}
    (hc : c ∈ r.trace) : c ∈ r2.trace := by
  obtain ⟨t, e, _⟩ := h
  rw [e]; exact List.mem_append_left _ hc

theorem Emits.afterMonitor {Q : Call → Prop} {r x : Run H} (k : MonitorHook)
    (hq : Q (Call.monitor k)) (h : Emits Q r x) : Emits Q r (callMonitor cb k x) :=
  h.append (Emits.one (Call.monitor k) rfl hq)

theorem Emits.afterProcess {Q : Call → Prop} {r x : Run H} (s : Site) (c : DOMElement)
    (hq : Q (Call.process s c)) (h : Emits Q r x) : Emits Q r (callProcess cb s x c) :=
  h.append (Emits.one (Call.process s c) rfl hq)

theorem Emits.afterRaiseDoneEvent {Q : Call → Prop} {r x : Run H} (i s : Nat)
    (d : Option DOMElement) (hq : Q (Call.raiseDoneEvent i s d)) (h : Emits Q r x) :
    Emits Q r (callRaiseDoneEvent cb i s d x) :=
  h.append (Emits.one (Call.raiseDoneEvent i s d) rfl hq)

theorem Emits.foldProcess {Q : Call → Prop} {r x : Run H} (s : Site) (l : List DOMElement)
    (hq : ∀ c, Q (Call.process s c)) (h : Emits Q r x) :
    Emits Q r (l.foldl (callProcess cb s) x) := by
  refine h.append (Emits.many _ (foldl_callProcess cb s l x).2 ?_)
  intro c hc
  obtain ⟨b, _, rfl⟩ := List.mem_map.mp hc
  exact hq b

theorem Emits.foldInitData {Q : Call → Prop} {r x : Run H} (s : Nat) (l : List DOMElement)
    (hq : ∀ c, Q (Call.initData s c)) (h : Emits Q r x) :
    Emits Q r (l.foldl (callInitData cb s) x) := by
  refine h.append (Emits.many _ (foldl_callInitData cb s l x).2 ?_)
  intro c hc
  obtain ⟨b, _, rfl⟩ := List.mem_map.mp hc
  exact hq b

theorem Emits.foldInvoke {Q : Call → Prop} {r x : Run H} (s : Nat) (l : List DOMElement)
    (hq : ∀ c, Q (Call.invoke s c)) (h : Emits Q r x) :
    Emits Q r (l.foldl (callInvoke cb s) x) := by
  refine h.append (Emits.many _ (foldl_callInvoke cb s l x).2 ?_)
  intro c hc
  obtain ⟨b, _, rfl⟩ := List.mem_map.mp hc
  exact hq b

theorem Emits.foldUninvoke {Q : Call → Prop} {r x : Run H} (s : Nat) (l : List DOMElement)
    (hq : ∀ c, Q (Call.uninvoke s c)) (h : Emits Q r x) :
    Emits Q r (l.foldl (callUninvoke cb s) x) := by
  refine h.append (Emits.many _ (foldl_callUninvoke cb s l x).2 ?_)
  intro c hc
  obtain ⟨b, _, rfl⟩ := List.mem_map.mp hc
  exact hq b

theorem Emits.withFlags {Q : Call → Prop} {r x : Run H} (f : Nat) (h : Emits Q r x) :
    Emits Q r (x.setFlags f) := h

theorem Emits.setConfiguration {Q : Call → Prop} {r x : Run H} (f : Nat) (h : Emits Q r x) :
    Emits Q r (x.setConfiguration f) := h

theorem Emits.setInvocations {Q : Call → Prop} {r x : Run H} (f : Nat) (h : Emits Q r x) :
    Emits Q r (x.setInvocations f) := h

theorem Emits.setInitializedData {Q : Call → Prop} {r x : Run H} (f : Nat)
    (h : Emits Q r x) : Emits Q r (x.setInitializedData f) := h

theorem Emits.loop {β : Type} {Q : Call → Prop} {r x : Run H} (f : Run H → β → Run H)
    (l : List β) (hf : ∀ y b, Emits Q y (f y b)) (h : Emits Q r x) :
    Emits Q r (l.foldl f x) :=
  h.append (Emits.fold Q f hf l x)

end calls

/-! ## Frames -/

theorem Changes.none (m : Fields) (e : Engine) : Changes m e e := rfl

theorem Changes.andThen {m : Fields} {a b c : Engine} (h1 : Changes m a b) (h2 : Changes m b c) :
    Changes m a c := by
  unfold Changes at *
  rw [h2, h1]

theorem Changes.widen {m m2 : Fields} {e e2 : Engine} (h : Changes m e e2) (hle : m.le m2) :
    Changes m2 e e2 := by
  obtain ⟨l1, l2, l3, l4, l5, l6, l7⟩ := hle
  unfold Changes Engine.mask at *
  simp only [Engine.mk.injEq] at h ⊢
  obtain ⟨h1, h2, h3, h4, h5, h6, h7, h8, h9, h10, h11, h12⟩ := h
  refine ⟨h1, h2, h3, ?_, ?_, ?_, ?_, ?_, ?_, ?_, h11, h12⟩
  · cases hm : m2.configuration
    · cases hm1 : m.configuration
      · simpa [hm1] using h4
      · rw [l1 hm1] at hm; cases hm
    · simp
  · cases hm : m2.history
    · cases hm1 : m.history
      · simpa [hm1] using h5
      · rw [l2 hm1] at hm; cases hm
    · simp
  · cases hm : m2.initializedData
    · cases hm1 : m.initializedData
      · simpa [hm1] using h6
      · rw [l3 hm1] at hm; cases hm
    · simp
  · cases hm : m2.invocations
    · cases hm1 : m.invocations
      · simpa [hm1] using h7
      · rw [l4 hm1] at hm; cases hm
    · simp
  · cases hm : m2.flags
    · cases hm1 : m.flags
      · simpa [hm1] using h8
      · rw [l5 hm1] at hm; cases hm
    · simp
  · cases hm : m2.microstepConfigurations
    · cases hm1 : m.microstepConfigurations
      · simpa [hm1] using h9
      · rw [l6 hm1] at hm; cases hm
    · simp
  · cases hm : m2.event
    · cases hm1 : m.event
      · simpa [hm1] using h10
      · rw [l7 hm1] at hm; cases hm
    · simp

theorem Changes.static {m : Fields} {e e2 : Engine} (h : Changes m e e2) : Static e e2 := by
  unfold Changes Engine.mask at h
  simp only [Engine.mk.injEq] at h
  exact ⟨h.1, h.2.1, h.2.2.1, h.2.2.2.2.2.2.2.2.2.2.1, h.2.2.2.2.2.2.2.2.2.2.2⟩

theorem Changes.configuration_eq {m : Fields} {e e2 : Engine} (h : Changes m e e2)
    (hm : m.configuration = false) : e2.configuration = e.configuration := by
  unfold Changes Engine.mask at h
  simp only [Engine.mk.injEq, hm] at h
  simpa using h.2.2.2.1

theorem Changes.history_eq {m : Fields} {e e2 : Engine} (h : Changes m e e2)
    (hm : m.history = false) : e2.history = e.history := by
  unfold Changes Engine.mask at h
  simp only [Engine.mk.injEq, hm] at h
  simpa using h.2.2.2.2.1

theorem Changes.initializedData_eq {m : Fields} {e e2 : Engine} (h : Changes m e e2)
    (hm : m.initializedData = false) : e2.initializedData = e.initializedData := by
  unfold Changes Engine.mask at h
  simp only [Engine.mk.injEq, hm] at h
  simpa using h.2.2.2.2.2.1

theorem Changes.invocations_eq {m : Fields} {e e2 : Engine} (h : Changes m e e2)
    (hm : m.invocations = false) : e2.invocations = e.invocations := by
  unfold Changes Engine.mask at h
  simp only [Engine.mk.injEq, hm] at h
  simpa using h.2.2.2.2.2.2.1

theorem Changes.flags_eq {m : Fields} {e e2 : Engine} (h : Changes m e e2)
    (hm : m.flags = false) : e2.flags = e.flags := by
  unfold Changes Engine.mask at h
  simp only [Engine.mk.injEq, hm] at h
  simpa using h.2.2.2.2.2.2.2.1

theorem Changes.microstepConfigurations_eq {m : Fields} {e e2 : Engine} (h : Changes m e e2)
    (hm : m.microstepConfigurations = false) :
    e2.microstepConfigurations = e.microstepConfigurations := by
  unfold Changes Engine.mask at h
  simp only [Engine.mk.injEq, hm] at h
  simpa using h.2.2.2.2.2.2.2.2.1

theorem Changes.event_eq {m : Fields} {e e2 : Engine} (h : Changes m e e2)
    (hm : m.event = false) : e2.event = e.event := by
  unfold Changes Engine.mask at h
  simp only [Engine.mk.injEq, hm] at h
  simpa using h.2.2.2.2.2.2.2.2.2.1

/-- A loop whose body changes only the chosen members changes only those. -/
theorem Changes.iterate {H β : Type} (m : Fields) (f : Run H → β → Run H)
    (hf : ∀ r b, Changes m r.eng (f r b).eng) (l : List β) (r : Run H) :
    Changes m r.eng (l.foldl f r).eng :=
  foldl_rel (fun a b : Run H => Changes m a.eng b.eng) f (fun _ => Changes.none m _)
    (fun _ _ _ h1 h2 => h1.andThen h2) hf l r

theorem SameButFlags.changes {e e2 : Engine} (h : SameButFlags e e2) :
    Changes { flags := true } e e2 := by
  unfold SameButFlags at h
  unfold Changes Engine.mask
  rw [h]
  simp

section phases
variable {H : Type} (cb : MicroStepCallbacks H)

/-! ### Terminal step -/

theorem completionState_changes (r : Run H) (i : Nat) :
    Changes { invocations := true } r.eng (completionState cb r i).eng := by
  unfold completionState Changes Engine.mask
  simp only []
  split_ifs <;> simp [Run.setInvocations, (foldl_callProcess cb _ _ _).1,
    (foldl_callUninvoke cb _ _ _).1]

theorem completionState_emits (r : Run H) (i : Nat) :
    Emits (fun c => isCompletionCall c = true) r (completionState cb r i) := by
  unfold completionState
  simp only []
  split_ifs
  · exact Emits.setInvocations _ (Emits.foldUninvoke cb _ _ (fun _ => rfl)
      (Emits.foldProcess cb _ _ (fun _ => rfl) (Emits.nil _ _)))
  · exact Emits.foldProcess cb _ _ (fun _ => rfl) (Emits.nil _ _)
  · exact Emits.setInvocations _ (Emits.foldUninvoke cb _ _ (fun _ => rfl) (Emits.nil _ _))
  · exact Emits.nil _ _

theorem completeStep_result (r : Run H) :
    (completeStep cb r).1 = InterpreterState.USCXML_FINISHED := rfl

theorem completeStep_flags (r : Run H) :
    (completeStep cb r).2.eng.flags = r.eng.flags ||| USCXML_CTX_FINISHED := by
  unfold completeStep
  simp only [callMonitor_eng, Run.setFlags]
  have h := Changes.iterate { invocations := true } (completionState cb)
    (completionState_changes cb) (downRange (USCXML_NUMBER_STATES r.eng))
    (callMonitor cb MonitorHook.beforeCompletion r)
  rw [h.flags_eq rfl]
  rfl

theorem completeStep_changes (r : Run H) :
    Changes { invocations := true, flags := true } r.eng (completeStep cb r).2.eng := by
  have h := Changes.iterate { invocations := true } (completionState cb)
    (completionState_changes cb) (downRange (USCXML_NUMBER_STATES r.eng))
    (callMonitor cb MonitorHook.beforeCompletion r)
  have h2 : Changes { invocations := true, flags := true } r.eng
      ((downRange (USCXML_NUMBER_STATES r.eng)).foldl (completionState cb)
        (callMonitor cb MonitorHook.beforeCompletion r)).eng :=
    h.widen (by simp [Fields.le])
  refine h2.andThen ?_
  unfold completeStep Changes Engine.mask
  simp [Run.setFlags]

theorem completeStep_emits (r : Run H) :
    Emits (fun c => isCompletionCall c = true) r (completeStep cb r).2 := by
  unfold completeStep
  simp only []
  exact Emits.afterMonitor cb _ rfl (Emits.withFlags _ (Emits.loop _ _
    (completionState_emits cb) (Emits.afterMonitor cb _ rfl (Emits.nil _ _))))

/-! ### Invocations and the stable configuration -/

theorem manageInvocation_changes (r : Run H) (i : Nat) :
    Changes { invocations := true } r.eng (manageInvocation cb r i).eng := by
  unfold manageInvocation Changes Engine.mask
  simp only []
  split_ifs <;> simp [Run.setInvocations, (foldl_callInvoke cb _ _ _).1,
    (foldl_callUninvoke cb _ _ _).1]

theorem manageInvocation_emits (r : Run H) (i : Nat) :
    Emits (fun c => isInvokeCall c = true) r (manageInvocation cb r i) := by
  unfold manageInvocation
  simp only []
  split_ifs
  · exact Emits.setInvocations _ (Emits.foldInvoke cb _ _ (fun _ => rfl)
      (Emits.setInvocations _ (Emits.foldUninvoke cb _ _ (fun _ => rfl) (Emits.nil _ _))))
  · exact Emits.setInvocations _ (Emits.foldUninvoke cb _ _ (fun _ => rfl) (Emits.nil _ _))
  · exact Emits.setInvocations _ (Emits.foldInvoke cb _ _ (fun _ => rfl) (Emits.nil _ _))
  · exact Emits.nil _ _

theorem manageInvocations_changes (r : Run H) :
    Changes { invocations := true } r.eng (manageInvocations cb r).eng :=
  Changes.iterate _ _ (manageInvocation_changes cb) _ _

theorem manageInvocations_emits (r : Run H) :
    Emits (fun c => isInvokeCall c = true) r (manageInvocations cb r) :=
  Emits.fold _ _ (manageInvocation_emits cb) _ _

theorem signalStable_changes (r : Run H) :
    Changes { flags := true, microstepConfigurations := true } r.eng (signalStable cb r).eng := by
  unfold signalStable
  split_ifs
  · simp [Changes, Engine.mask]
  · exact Changes.none _ _

theorem signalStable_emits (r : Run H) :
    Emits (fun c => c = Call.monitor MonitorHook.onStableConfiguration) r (signalStable cb r) := by
  unfold signalStable
  split_ifs
  · exact Emits.afterMonitor cb _ rfl (Emits.nil _ _)
  · exact Emits.nil _ _

theorem callDequeueInternal_changes (r : Run H) :
    Changes { event := true } r.eng (callDequeueInternal cb r).eng := by
  unfold callDequeueInternal Changes Engine.mask
  simp

theorem callDequeueExternal_changes (b : Bool) (r : Run H) :
    Changes { event := true } r.eng (callDequeueExternal cb b r).eng := by
  unfold callDequeueExternal Changes Engine.mask
  simp

/-! ### Selection -/

theorem evalMatched_emits (t : Transition) (r : Run H) :
    Emits (fun c => isSelectCall r.eng.event c = true) r (evalMatched cb t r).2 := by
  unfold evalMatched
  cases h : r.eng.event with
  | none => exact Emits.nil _ _
  | some e =>
    exact (Emits.nil _ r).append (Emits.one (Call.isMatched e t.event) rfl (by simp [isSelectCall]))

theorem evalCond_emits (ev : Option Event) (t : Transition) (r : Run H) :
    Emits (fun c => isSelectCall ev c = true) r (evalCond cb t r).2 := by
  unfold evalCond
  split
  · exact Emits.nil _ _
  · exact (Emits.nil _ r).append (Emits.one (Call.isTrue t.cond) rfl rfl)

theorem selectTransition_emits (p : Run H × Selection) (i : Nat) :
    Emits (fun c => isSelectCall p.1.eng.event c = true) p.1 (selectTransition cb p i).1 := by
  unfold selectTransition
  simp only []
  split_ifs
  · exact Emits.nil _ _
  · exact Emits.nil _ _
  · exact Emits.nil _ _
  · exact Emits.nil _ _
  · exact evalMatched_emits cb _ _
  · exact (evalMatched_emits cb _ _).append (evalCond_emits cb _ _ _)
  · exact Emits.withFlags _ ((evalMatched_emits cb _ _).append (evalCond_emits cb _ _ _))

theorem selectLoop_emits (n : Nat) (r : Run H) :
    Emits (fun c => isSelectCall r.eng.event c = true) r (selectLoop cb n r).1 := by
  induction n with
  | zero => exact Emits.nil _ _
  | succ n ih =>
    rw [selectLoop_succ]
    refine ih.append ?_
    have h := selectTransition_emits cb (selectLoop cb n r) n
    rw [(selectLoop_eng cb n r).flagsEvent] at h
    exact h

/-- The selection loop touches no flag except `USCXML_CTX_TRANSITION_FOUND`. -/
theorem selectTransition_flags (p : Run H × Selection) (i k : Nat) (hk : k ≠ 3) :
    (selectTransition cb p i).1.eng.flags.testBit k = p.1.eng.flags.testBit k := by
  unfold selectTransition
  simp only []
  split_ifs
  · rfl
  · rfl
  · rfl
  · rfl
  · rw [evalMatched_eng]
  · rw [evalCond_eng, evalMatched_eng]
  · simp only [Run.setFlags, evalCond_eng, evalMatched_eng, Nat.testBit_lor]
    have : USCXML_CTX_TRANSITION_FOUND = 2 ^ 3 := rfl
    rw [this, Nat.testBit_two_pow]
    simp [Ne.symm hk]

theorem selectLoop_flags (n : Nat) (r : Run H) (k : Nat) (hk : k ≠ 3) :
    (selectLoop cb n r).1.eng.flags.testBit k = r.eng.flags.testBit k := by
  induction n with
  | zero => rfl
  | succ n ih => rw [selectLoop_succ, selectTransition_flags cb _ _ k hk, ih]

/-! ### History -/

theorem rememberHistoryState_changes (x : Bitset) (e : Engine) (i : Nat) :
    Changes { history := true } e (rememberHistoryState x e i) := by
  unfold rememberHistoryState
  split_ifs
  · simp [Changes, Engine.mask]
  · exact Changes.none _ _
  · exact Changes.none _ _

theorem rememberHistory_changes (x : Bitset) (e : Engine) :
    Changes { history := true } e (rememberHistory x e) := by
  unfold rememberHistory
  exact foldl_rel (Changes { history := true }) _ (Changes.none _)
    (fun _ _ _ h1 h2 => h1.andThen h2) (rememberHistoryState_changes x) _ _

end phases

section phases
variable {H : Type} (cb : MicroStepCallbacks H)

/-! ### Exits -/

theorem exitState_changes (x : Bitset) (r : Run H) (i : Nat) :
    Changes { configuration := true } r.eng (exitState cb x r i).eng := by
  unfold exitState
  simp only []
  split_ifs
  · simp [Changes, Engine.mask, Run.setConfiguration, (foldl_callProcess cb _ _ _).1]
  · exact Changes.none _ _

theorem exitState_configuration (x : Bitset) (r : Run H) (i : Nat) :
    (exitState cb x r i).eng.configuration =
      if BIT_HAS i x && BIT_HAS i r.eng.configuration then BIT_CLEAR i r.eng.configuration
      else r.eng.configuration := by
  unfold exitState
  simp only []
  split_ifs
  · simp [Run.setConfiguration, (foldl_callProcess cb _ _ _).1]
  · rfl

theorem exitState_emits (x : Bitset) (r : Run H) (i : Nat) :
    Emits (fun c => isExitCall i c = true) r (exitState cb x r i) := by
  unfold exitState
  simp only []
  split_ifs
  · exact Emits.afterMonitor cb _ (by simp [isExitCall]) (Emits.setConfiguration _
      (Emits.foldProcess cb _ _ (fun _ => by simp [isExitCall])
        (Emits.afterMonitor cb _ (by simp [isExitCall]) (Emits.nil _ _))))
  · exact Emits.nil _ _

theorem exitStates_changes (x : Bitset) (r : Run H) :
    Changes { configuration := true } r.eng (exitStates cb x r).eng :=
  Changes.iterate _ _ (exitState_changes cb x) _ _

theorem exitStates_subset (x : Bitset) (r : Run H) (j : Nat)
    (h : BIT_HAS j (exitStates cb x r).eng.configuration = true) :
    BIT_HAS j r.eng.configuration = true := by
  unfold exitStates at h
  revert h
  refine foldl_rel (fun a b : Run H => BIT_HAS j b.eng.configuration = true →
    BIT_HAS j a.eng.configuration = true) (exitState cb x) (fun _ h => h)
    (fun _ _ _ h1 h2 h => h1 (h2 h)) ?_ _ r
  intro a i h
  rw [exitState_configuration] at h
  split_ifs at h
  · rw [BIT_HAS_clear] at h
    simp at h
    exact h.1
  · exact h

theorem exitStates_emits (x : Bitset) (r : Run H) :
    Emits (fun c => ∃ i, isExitCall i c = true) r (exitStates cb x r) :=
  Emits.fold _ _ (fun y i => (exitState_emits cb x y i).weaken (fun _ h => ⟨i, h⟩)) _ _

/-! ### Ordinary transitions -/

theorem processOnTrans_eng (s : Site) (o : Option DOMElement) (r : Run H) :
    (processOnTrans cb s o r).eng = r.eng := by
  unfold processOnTrans
  cases o <;> rfl

theorem Emits.afterOnTrans {Q : Call → Prop} {r x : Run H} (s : Site) (o : Option DOMElement)
    (hq : ∀ c, Q (Call.process s c)) (h : Emits Q r x) :
    Emits Q r (processOnTrans cb s o x) := by
  unfold processOnTrans
  cases o with
  | none => exact h
  | some c => exact Emits.afterProcess cb s c (hq c) h

theorem takeTransition_eng (ts : Bitset) (r : Run H) (i : Nat) :
    (takeTransition cb ts r i).eng = r.eng := by
  unfold takeTransition
  simp only []
  split_ifs
  · simp [processOnTrans_eng]
  · rfl
  · rfl

theorem takeTransition_emits (ts : Bitset) (r : Run H) (i : Nat) :
    Emits (fun c => isTakeCall i c = true) r (takeTransition cb ts r i) := by
  unfold takeTransition
  simp only []
  split_ifs
  · exact Emits.afterMonitor cb _ (by simp [isTakeCall]) (Emits.afterOnTrans cb _ _
      (fun _ => by simp [isTakeCall])
      (Emits.afterMonitor cb _ (by simp [isTakeCall]) (Emits.nil _ _)))
  · exact Emits.nil _ _
  · exact Emits.nil _ _

theorem takeTransitions_eng (ts : Bitset) (r : Run H) :
    (takeTransitions cb ts r).eng = r.eng := by
  unfold takeTransitions
  exact foldl_rel (fun a b : Run H => b.eng = a.eng) (takeTransition cb ts) (fun _ => rfl)
    (fun _ _ _ h1 h2 => h2.trans h1) (takeTransition_eng cb ts) _ r

theorem takeTransitions_emits (ts : Bitset) (r : Run H) :
    Emits (fun c => ∃ i, isTakeCall i c = true) r (takeTransitions cb ts r) :=
  Emits.fold _ _ (fun y i => (takeTransition_emits cb ts y i).weaken (fun _ h => ⟨i, h⟩)) _ _

/-! ### Entries -/

theorem takePseudoTransition_eng (ts : Bitset) (i : Nat) (r : Run H) (j : Nat) :
    (takePseudoTransition cb ts i r j).eng = r.eng := by
  unfold takePseudoTransition
  simp only []
  split_ifs
  · simp [processOnTrans_eng]
  · rfl

theorem enterCall_of_entryCall {i : Nat} {c : Call} (h : isEntryCall i c = true) :
    isEnterCall i c = true := by
  cases c with
  | monitor k => cases k <;> exact h
  | process s x => cases s <;> exact h
  | initData j x => exact h
  | _ => cases h

theorem takePseudoTransition_emits (ts : Bitset) (i : Nat) (r : Run H) (j : Nat) :
    Emits (fun c => isEntryCall i c = true) r (takePseudoTransition cb ts i r j) := by
  unfold takePseudoTransition
  simp only []
  split_ifs
  · exact Emits.afterMonitor cb _ (by simp [isEntryCall]) (Emits.afterOnTrans cb _ _
      (fun _ => by simp [isEntryCall])
      (Emits.afterMonitor cb _ (by simp [isEntryCall]) (Emits.nil _ _)))
  · exact Emits.nil _ _

theorem takePseudoTransitions_eng (ts : Bitset) (i : Nat) (l : List Nat) (r : Run H) :
    (l.foldl (takePseudoTransition cb ts i) r).eng = r.eng :=
  foldl_rel (fun a b : Run H => b.eng = a.eng) (takePseudoTransition cb ts i) (fun _ => rfl)
    (fun _ _ _ h1 h2 => h2.trans h1) (takePseudoTransition_eng cb ts i) _ r

theorem parallelDone_eng (i : Nat) (r : Run H) (j : Nat) :
    (parallelDone cb i r j).eng = r.eng := by
  unfold parallelDone
  split_ifs <;> rfl

theorem parallelDone_emits (i : Nat) (r : Run H) (j : Nat) :
    Emits (fun c => isEnterCall i c = true) r (parallelDone cb i r j) := by
  unfold parallelDone
  split_ifs
  · exact Emits.afterRaiseDoneEvent cb _ _ _ (by simp [isEnterCall]) (Emits.nil _ _)
  · exact Emits.nil _ _
  · exact Emits.nil _ _

theorem parallelDones_eng (i : Nat) (l : List Nat) (r : Run H) :
    (l.foldl (parallelDone cb i) r).eng = r.eng :=
  foldl_rel (fun a b : Run H => b.eng = a.eng) (parallelDone cb i) (fun _ => rfl)
    (fun _ _ _ h1 h2 => h2.trans h1) (parallelDone_eng cb i) _ r

theorem handleFinal_changes (i : Nat) (r : Run H) :
    Changes { flags := true } r.eng (handleFinal cb i r).eng := by
  unfold handleFinal
  simp only []
  split_ifs
  · rw [parallelDones_eng]
    simp [Changes, Engine.mask, Run.setFlags]
  · rw [parallelDones_eng]
    exact Changes.none _ _
  · exact Changes.none _ _

theorem handleFinal_emits (i : Nat) (r : Run H) :
    Emits (fun c => isEnterCall i c = true) r (handleFinal cb i r) := by
  unfold handleFinal
  simp only []
  split_ifs
  · exact Emits.loop _ _ (parallelDone_emits cb i) (Emits.withFlags _ (Emits.nil _ _))
  · exact Emits.loop _ _ (parallelDone_emits cb i)
      (Emits.afterRaiseDoneEvent cb _ _ _ (by simp [isEnterCall]) (Emits.nil _ _))
  · exact Emits.nil _ _

theorem initializeData_changes (i : Nat) (r : Run H) :
    Changes { initializedData := true } r.eng (initializeData cb i r).eng := by
  unfold initializeData
  simp only []
  split_ifs
  · simp [Changes, Engine.mask, Run.setInitializedData, (foldl_callInitData cb _ _ _).1]
  · exact Changes.none _ _

theorem initializeData_emits (i : Nat) (r : Run H) :
    Emits (fun c => isEntryCall i c = true) r (initializeData cb i r) := by
  unfold initializeData
  simp only []
  split_ifs
  · exact Emits.setInitializedData _ (Emits.foldInitData cb _ _
      (fun _ => by simp [isEntryCall]) (Emits.nil _ _))
  · exact Emits.nil _ _

theorem enterBody_changes (ts : Bitset) (i : Nat) (r : Run H) :
    Changes { configuration := true, initializedData := true } r.eng
      (enterBody cb ts i r).eng := by
  unfold enterBody
  simp only []
  rw [takePseudoTransitions_eng, callMonitor_eng, (foldl_callProcess cb _ _ _).1]
  refine Changes.andThen ?_ ((initializeData_changes cb i _).widen (by simp [Fields.le]))
  simp [Changes, Engine.mask, Run.setConfiguration]

/-- The body of ENTER_STATES first announces the state and then makes entry calls. -/
theorem enterBody_trace (ts : Bitset) (i : Nat) (r : Run H) :
    ∃ t, (enterBody cb ts i r).trace =
        r.trace ++ Call.monitor (MonitorHook.beforeEnteringState i) :: t ∧
      ∀ c ∈ t, isEntryCall i c = true := by
  have h : Emits (fun c => isEntryCall i c = true)
      (callMonitor cb (MonitorHook.beforeEnteringState i) r) (enterBody cb ts i r) := by
    unfold enterBody
    simp only []
    refine Emits.loop _ _ (takePseudoTransition_emits cb ts i) ?_
    refine Emits.afterMonitor cb _ (by simp [isEntryCall]) ?_
    refine Emits.foldProcess cb _ _ (fun _ => by simp [isEntryCall]) ?_
    refine Emits.append ?_ (initializeData_emits cb i _)
    exact Emits.setConfiguration _ (Emits.nil _ _)
  obtain ⟨t, ht, hq⟩ := h
  exact ⟨t, by rw [ht, callMonitor_trace]; simp, hq⟩

theorem enterState_enter (es ts : Bitset) (r : Run H) (i : Nat)
    (h : (BIT_HAS i es && !BIT_HAS i r.eng.configuration &&
      !isPseudoType (USCXML_GET_STATE r.eng i).type) = true) :
    enterState cb es ts r i = handleFinal cb i (enterBody cb ts i r) := by
  simp only [Bool.and_eq_true, Bool.not_eq_true'] at h
  unfold enterState enterBody
  simp [h.1.1, h.1.2, h.2]

theorem enterState_skip (es ts : Bitset) (r : Run H) (i : Nat)
    (h : (BIT_HAS i es && !BIT_HAS i r.eng.configuration &&
      !isPseudoType (USCXML_GET_STATE r.eng i).type) = false) :
    enterState cb es ts r i = r := by
  unfold enterState
  simp only []
  split_ifs with h1 h2 h3
  · rfl
  · rfl
  · simp [h1, h2, h3] at h
  · rfl

theorem enterState_changes (es ts : Bitset) (r : Run H) (i : Nat) :
    Changes { configuration := true, initializedData := true, flags := true } r.eng
      (enterState cb es ts r i).eng := by
  unfold enterState
  simp only []
  split_ifs
  · exact Changes.none _ _
  · exact Changes.none _ _
  · refine Changes.andThen ?_ ((handleFinal_changes cb i _).widen (by simp [Fields.le]))
    rw [takePseudoTransitions_eng, callMonitor_eng, (foldl_callProcess cb _ _ _).1]
    refine Changes.andThen ?_ ((initializeData_changes cb i _).widen (by simp [Fields.le]))
    simp [Changes, Engine.mask, Run.setConfiguration]
  · exact Changes.none _ _

theorem enterState_emits (es ts : Bitset) (r : Run H) (i : Nat) :
    Emits (fun c => isEnterCall i c = true) r (enterState cb es ts r i) := by
  unfold enterState
  simp only []
  split_ifs
  · exact Emits.nil _ _
  · exact Emits.nil _ _
  · refine Emits.append ?_ (handleFinal_emits cb i _)
    refine Emits.loop _ _
      (fun y j => (takePseudoTransition_emits cb ts i y j).weaken (fun _ h => enterCall_of_entryCall h)) ?_
    refine Emits.afterMonitor cb _ (by simp [isEnterCall]) ?_
    refine Emits.foldProcess cb _ _ (fun _ => by simp [isEnterCall]) ?_
    refine Emits.append ?_ ((initializeData_emits cb i _).weaken (fun _ h => enterCall_of_entryCall h))
    exact Emits.setConfiguration _ (Emits.afterMonitor cb _ (by simp [isEnterCall])
      (Emits.nil _ _))
  · exact Emits.nil _ _

/-- The configuration after the body of ENTER_STATES for the state `i`. -/
theorem enterState_configuration (es ts : Bitset) (r : Run H) (i : Nat) :
    (enterState cb es ts r i).eng.configuration =
      if BIT_HAS i es && !BIT_HAS i r.eng.configuration &&
          !isPseudoType (USCXML_GET_STATE r.eng i).type
      then BIT_SET_AT i r.eng.configuration else r.eng.configuration := by
  unfold enterState
  simp only []
  split_ifs
  all_goals first
    | rfl
    | (exfalso; simp_all; done)
    | skip
  rw [(handleFinal_changes cb i _).configuration_eq rfl, takePseudoTransitions_eng,
    callMonitor_eng, (foldl_callProcess cb _ _ _).1,
    (initializeData_changes cb i _).configuration_eq rfl]
  rfl

theorem enterStates_changes (es ts : Bitset) (r : Run H) :
    Changes { configuration := true, initializedData := true, flags := true } r.eng
      (enterStates cb es ts r).eng :=
  Changes.iterate _ _ (enterState_changes cb es ts) _ _

theorem enterStates_emits (es ts : Bitset) (r : Run H) :
    Emits (fun c => ∃ i, isEnterCall i c = true) r (enterStates cb es ts r) :=
  Emits.fold _ _ (fun y i => (enterState_emits cb es ts y i).weaken (fun _ h => ⟨i, h⟩)) _ _

/-! ### Closing a micro-step -/

theorem recordConfiguration_changes (r : Run H) :
    Changes { microstepConfigurations := true } r.eng (recordConfiguration cb r).eng := by
  unfold recordConfiguration
  simp only []
  split_ifs <;> simp [Changes, Engine.mask]

theorem recordConfiguration_emits (r : Run H) :
    Emits (fun c => isClosingCall c = true) r (recordConfiguration cb r) := by
  unfold recordConfiguration
  simp only []
  split_ifs
  all_goals first
    | exact Emits.nil _ _
    | exact Emits.afterMonitor cb _ rfl (Emits.nil _ _)

end phases

section steps
variable {H : Type} (cb : MicroStepCallbacks H)

/-! ### From ESTABLISH_ENTRYSET on -/

theorem microstep_result (t x ts : Bitset) (r : Run H) :
    (microstep cb t x ts r).1 = InterpreterState.USCXML_MICROSTEPPED := rfl

theorem microstep_changes (t x ts : Bitset) (r : Run H) :
    Changes microstepFields r.eng (microstep cb t x ts r).2.eng := by
  unfold microstep
  simp only []
  refine Changes.andThen ?_ ((recordConfiguration_changes cb _).widen (by simp [Fields.le, microstepFields, selectionFields]))
  rw [callMonitor_eng]
  refine Changes.andThen ?_ ((enterStates_changes cb _ _ _).widen (by simp [Fields.le, microstepFields, selectionFields]))
  rw [takeTransitions_eng]
  exact (exitStates_changes cb _ _).widen (by simp [Fields.le, microstepFields, selectionFields])

theorem microstep_emits (t x ts : Bitset) (r : Run H) :
    Emits isMicrostepCall r (microstep cb t x ts r).2 := by
  unfold microstep
  simp only []
  refine Emits.append ?_ ((recordConfiguration_emits cb _).weaken
    (fun c h => Or.inr (Or.inr (Or.inr h))))
  refine Emits.afterMonitor cb _ (Or.inr (Or.inr (Or.inr rfl))) ?_
  refine Emits.append ?_ ((enterStates_emits cb _ _ _).weaken
    (fun c h => Or.inr (Or.inr (Or.inl h))))
  refine Emits.append ?_ ((takeTransitions_emits cb _ _).weaken (fun c h => Or.inr (Or.inl h)))
  exact (exitStates_emits cb _ _).weaken (fun c h => Or.inl h)

/-! ### From SELECT_TRANSITIONS on -/

theorem selectTransitions_changes (r : Run H) :
    Changes selectionFields r.eng (selectTransitions cb r).2.eng := by
  unfold selectTransitions
  simp only []
  have h0 : Changes selectionFields r.eng
      (selectLoop cb r.eng.transitions.length
        (r.setFlags (bitAndNot r.eng.flags USCXML_CTX_STABLE))).1.eng := by
    refine Changes.andThen ?_ ((selectLoop_eng cb _ _).changes.widen (by simp [Fields.le, microstepFields, selectionFields]))
    simp [Changes, Engine.mask, Run.setFlags, selectionFields]
  split_ifs
  · refine Changes.andThen ?_ ((microstep_changes cb _ _ _ _).widen (by simp [Fields.le, microstepFields, selectionFields]))
    refine Changes.andThen ?_ ((rememberHistory_changes _ _).widen (by simp [Fields.le, microstepFields, selectionFields]))
    rw [callMonitor_eng]
    refine h0.andThen ?_
    simp [Changes, Engine.mask, Run.setFlags, selectionFields]
  · refine h0.andThen ?_
    simp [Changes, Engine.mask, Run.setFlags, selectionFields]

theorem selectTransitions_emits (r : Run H) :
    Emits (isSelectionStepCall r.eng.event) r (selectTransitions cb r).2 := by
  unfold selectTransitions
  simp only []
  have h0 : Emits (isSelectionStepCall r.eng.event) r
      (selectLoop cb r.eng.transitions.length
        (r.setFlags (bitAndNot r.eng.flags USCXML_CTX_STABLE))).1 :=
    Emits.append (Emits.withFlags _ (Emits.nil _ _))
      ((selectLoop_emits cb _ _).weaken (fun c h => Or.inl h))
  split_ifs
  · refine Emits.append ?_ ((microstep_emits cb _ _ _ _).weaken (fun c h => Or.inr (Or.inr h)))
    refine Emits.append (b := callMonitor cb MonitorHook.beforeMicroStep _) ?_
      (Emits.of_trace_eq _ rfl)
    exact Emits.afterMonitor cb _ (Or.inr (Or.inl rfl)) (Emits.withFlags _ h0)
  · exact Emits.withFlags _ h0

theorem selectTransitions_result (r : Run H) :
    (selectTransitions cb r).1 = InterpreterState.USCXML_MICROSTEPPED ∨
      (selectTransitions cb r).1 = InterpreterState.USCXML_MACROSTEPPED := by
  unfold selectTransitions
  simp only []
  split_ifs
  · exact Or.inl rfl
  · exact Or.inr rfl

end steps

section steps
variable {H : Type} (cb : MicroStepCallbacks H)

theorem selectTransitions_found (r : Run H)
    (h : hasFlag (selectionOf cb r).1.eng.flags USCXML_CTX_TRANSITION_FOUND = true) :
    selectTransitions cb r =
      microstep cb (selectionOf cb r).2.targetSet (exitSetOf cb r) (selectionOf cb r).2.transSet
        (beforeEntrySet cb r) := by
  unfold selectTransitions
  simp only []
  split_ifs with h1
  · rfl
  · exact (h1 h).elim

theorem selectTransitions_none (r : Run H)
    (h : hasFlag (selectionOf cb r).1.eng.flags USCXML_CTX_TRANSITION_FOUND = false) :
    selectTransitions cb r =
      (InterpreterState.USCXML_MACROSTEPPED,
        (selectionOf cb r).1.setFlags
          (bitAndNot (selectionOf cb r).1.eng.flags USCXML_CTX_SPONTANEOUS)) := by
  unfold selectTransitions
  simp only []
  split_ifs with h1
  · exact absurd (h1.symm.trans h) (by simp)
  · rfl

theorem selectionOf_changes (r : Run H) :
    Changes { flags := true } r.eng (selectionOf cb r).1.eng := by
  unfold selectionOf
  refine Changes.andThen ?_ (selectLoop_eng cb _ _).changes
  simp [Changes, Engine.mask, Run.setFlags]

theorem selectionOf_emits (r : Run H) :
    Emits (fun c => isSelectCall r.eng.event c = true) r (selectionOf cb r).1 := by
  unfold selectionOf
  exact Emits.append (Emits.withFlags _ (Emits.nil _ _)) (selectLoop_emits cb _ _)

theorem beforeEntrySet_changes (r : Run H) :
    Changes { history := true, flags := true } r.eng (beforeEntrySet cb r).eng := by
  unfold beforeEntrySet
  simp only []
  refine Changes.andThen ?_ ((rememberHistory_changes _ _).widen (by simp [Fields.le]))
  rw [callMonitor_eng]
  refine Changes.andThen ((selectionOf_changes cb r).widen (by simp [Fields.le])) ?_
  simp [Changes, Engine.mask, Run.setFlags]

theorem beforeEntrySet_trace (r : Run H) :
    (beforeEntrySet cb r).trace =
      (selectionOf cb r).1.trace ++ [Call.monitor MonitorHook.beforeMicroStep] := rfl

theorem beforeEntrySet_emits (r : Run H) :
    Emits (fun c => isSelectCall r.eng.event c = true ∨
      c = Call.monitor MonitorHook.beforeMicroStep) r (beforeEntrySet cb r) := by
  obtain ⟨t, ht, hq⟩ := selectionOf_emits cb r
  refine ⟨t ++ [Call.monitor MonitorHook.beforeMicroStep], ?_, ?_⟩
  · rw [beforeEntrySet_trace, ht, List.append_assoc]
  · intro c hc
    rcases List.mem_append.mp hc with h | h
    · exact Or.inl (hq c h)
    · exact Or.inr (by simpa using h)

/-! ### Proper states only -/

theorem ProperGrowth.stay (e : Engine) : ProperGrowth e e :=
  ⟨Static.same e, fun _ h => Or.inl h⟩

theorem ProperGrowth.compose {a b c : Engine} (h1 : ProperGrowth a b) (h2 : ProperGrowth b c) :
    ProperGrowth a c := by
  refine ⟨h1.1.chain h2.1, ?_⟩
  intro j hj
  rcases h2.2 j hj with h | h
  · exact h1.2 j h
  · rw [h1.1.getState] at h
    exact Or.inr h

theorem Changes.proper {m : Fields} {e e2 : Engine} (h : Changes m e e2)
    (hm : m.configuration = false) : ProperGrowth e e2 := by
  refine ⟨h.static, ?_⟩
  intro j hj
  rw [h.configuration_eq hm] at hj
  exact Or.inl hj

theorem exitStates_proper (x : Bitset) (r : Run H) :
    ProperGrowth r.eng (exitStates cb x r).eng :=
  ⟨(exitStates_changes cb x r).static, fun j hj => Or.inl (exitStates_subset cb x r j hj)⟩

theorem enterState_proper (es ts : Bitset) (r : Run H) (i : Nat) :
    ProperGrowth r.eng (enterState cb es ts r i).eng := by
  refine ⟨(enterState_changes cb es ts r i).static, ?_⟩
  intro j hj
  rw [enterState_configuration] at hj
  split_ifs at hj with h
  · rw [BIT_HAS_set] at hj
    simp only [Bool.or_eq_true, decide_eq_true_eq] at hj
    rcases hj with hj | hj
    · subst hj
      simp only [Bool.and_eq_true, Bool.not_eq_true'] at h
      exact Or.inr h.2
    · exact Or.inl hj
  · exact Or.inl hj

theorem enterStates_proper (es ts : Bitset) (r : Run H) :
    ProperGrowth r.eng (enterStates cb es ts r).eng :=
  foldl_rel (fun a b : Run H => ProperGrowth a.eng b.eng) (enterState cb es ts)
    (fun _ => ProperGrowth.stay _) (fun _ _ _ h1 h2 => h1.compose h2)
    (enterState_proper cb es ts) _ r

theorem microstep_proper (t x ts : Bitset) (r : Run H) :
    ProperGrowth r.eng (microstep cb t x ts r).2.eng := by
  unfold microstep
  simp only []
  refine ProperGrowth.compose ?_ ((recordConfiguration_changes cb _).proper rfl)
  rw [callMonitor_eng]
  refine ProperGrowth.compose ?_ (enterStates_proper cb _ _ _)
  rw [takeTransitions_eng]
  exact exitStates_proper cb _ _

theorem selectTransitions_proper (r : Run H) :
    ProperGrowth r.eng (selectTransitions cb r).2.eng := by
  cases h : hasFlag (selectionOf cb r).1.eng.flags USCXML_CTX_TRANSITION_FOUND
  · rw [selectTransitions_none cb r h]
    refine ProperGrowth.compose ((selectionOf_changes cb r).proper rfl) ?_
    exact Changes.proper (m := { flags := true }) (by simp [Changes, Engine.mask, Run.setFlags])
      rfl
  · rw [selectTransitions_found cb r h]
    exact ((beforeEntrySet_changes cb r).proper rfl).compose (microstep_proper cb _ _ _ _)

/-! ### The branches of `step` -/

theorem step_uninitialized (b : Bool) (e : Engine) (h : H) (hi : e.isInitialized = false) :
    step cb b e h =
      (InterpreterState.USCXML_INITIALIZED, { eng := init e, host := h, trace := [] }) := by
  unfold step
  simp [hi]

theorem step_finished (b : Bool) (e : Engine) (h : H) (hi : e.isInitialized = true)
    (hf : hasFlag e.flags USCXML_CTX_FINISHED = true) :
    step cb b e h =
      (InterpreterState.USCXML_FINISHED, { eng := e, host := h, trace := [] }) := by
  unfold step
  simp [hi, hf]

theorem step_topLevelFinal (b : Bool) (e : Engine) (h : H) (hi : e.isInitialized = true)
    (hf : hasFlag e.flags USCXML_CTX_FINISHED = false)
    (ht : hasFlag e.flags USCXML_CTX_TOP_LEVEL_FINAL = true) :
    step cb b e h = completeStep cb { eng := e, host := h, trace := [] } := by
  unfold step
  simp [hi, hf, ht]

theorem step_pristine (b : Bool) (e : Engine) (h : H) (hi : e.isInitialized = true)
    (hp : e.flags = USCXML_CTX_PRISTINE) :
    step cb b e h =
      microstep cb (USCXML_GET_STATE e 0).completion 0 0
        (callMonitor cb MonitorHook.beforeMicroStep
          { eng := { e with flags := USCXML_CTX_SPONTANEOUS ||| USCXML_CTX_INITIALIZED },
            host := h, trace := [] }) := by
  unfold step
  simp only [hi, hp]
  rfl

theorem step_spontaneous (b : Bool) (e : Engine) (h : H) (hi : e.isInitialized = true)
    (hf : hasFlag e.flags USCXML_CTX_FINISHED = false)
    (ht : hasFlag e.flags USCXML_CTX_TOP_LEVEL_FINAL = false)
    (hs : hasFlag e.flags USCXML_CTX_SPONTANEOUS = true) :
    step cb b e h =
      selectTransitions cb { eng := { e with event := none }, host := h, trace := [] } := by
  have hp : (e.flags == USCXML_CTX_PRISTINE) = false := by
    cases hp : e.flags == USCXML_CTX_PRISTINE
    · rfl
    · rw [beq_iff_eq] at hp
      rw [hp] at hs
      cases hs
  unfold step
  simp [hi, hf, ht, hs, hp]

theorem step_internal (b : Bool) (e : Engine) (h : H) (hi : e.isInitialized = true)
    (hf : hasFlag e.flags USCXML_CTX_FINISHED = false)
    (ht : hasFlag e.flags USCXML_CTX_TOP_LEVEL_FINAL = false)
    (hp : e.flags ≠ USCXML_CTX_PRISTINE)
    (hs : hasFlag e.flags USCXML_CTX_SPONTANEOUS = false) (ev : Event)
    (hev : (cb.dequeueInternal h).1 = some ev) :
    step cb b e h =
      selectTransitions cb (callMonitor cb (MonitorHook.beforeProcessingEvent ev)
        (callDequeueInternal cb { eng := e, host := h, trace := [] })) := by
  unfold step
  simp only [hi, hf, ht, hs, beq_iff_eq, hp]
  simp only [callDequeueInternal, hev]
  rfl

theorem step_external (b : Bool) (e : Engine) (h : H) (hi : e.isInitialized = true)
    (hf : hasFlag e.flags USCXML_CTX_FINISHED = false)
    (ht : hasFlag e.flags USCXML_CTX_TOP_LEVEL_FINAL = false)
    (hp : e.flags ≠ USCXML_CTX_PRISTINE)
    (hs : hasFlag e.flags USCXML_CTX_SPONTANEOUS = false)
    (hev : (cb.dequeueInternal h).1 = none) :
    step cb b e h =
      awaitExternal cb b (callDequeueInternal cb { eng := e, host := h, trace := [] }) := by
  unfold step
  simp only [hi, hf, ht, hs, beq_iff_eq, hp]
  simp only [callDequeueInternal, hev]
  rfl

/-- The run of `awaitExternal` when `dequeueExternal` has returned. -/
theorem awaitExternal_event (b : Bool) (r : Run H) (ev : Event)
    (hev : (callDequeueExternal cb b (signalStable cb (manageInvocations cb r))).eng.event =
      some ev) :
    awaitExternal cb b r =
      selectTransitions cb (callMonitor cb (MonitorHook.beforeProcessingEvent ev)
        (callDequeueExternal cb b (signalStable cb (manageInvocations cb r)))) := by
  unfold awaitExternal
  simp only [hev]

theorem awaitExternal_cancelled (b : Bool) (r : Run H)
    (hev : (callDequeueExternal cb b (signalStable cb (manageInvocations cb r))).eng.event =
      none)
    (hc : (callDequeueExternal cb b
      (signalStable cb (manageInvocations cb r))).eng.isCancelled = true) :
    awaitExternal cb b r =
      (InterpreterState.USCXML_CANCELLED,
        (callDequeueExternal cb b (signalStable cb (manageInvocations cb r))).setFlags
          ((callDequeueExternal cb b (signalStable cb (manageInvocations cb r))).eng.flags |||
            USCXML_CTX_TOP_LEVEL_FINAL)) := by
  unfold awaitExternal
  simp only [hev, hc]
  rfl

theorem awaitExternal_idle (b : Bool) (r : Run H)
    (hev : (callDequeueExternal cb b (signalStable cb (manageInvocations cb r))).eng.event =
      none)
    (hc : (callDequeueExternal cb b
      (signalStable cb (manageInvocations cb r))).eng.isCancelled = false) :
    awaitExternal cb b r =
      (InterpreterState.USCXML_IDLE,
        callDequeueExternal cb b (signalStable cb (manageInvocations cb r))) := by
  unfold awaitExternal
  simp only [hev, hc]
  rfl

theorem awaitExternal_proper (b : Bool) (r : Run H) :
    ProperGrowth r.eng (awaitExternal cb b r).2.eng := by
  have h3 : ProperGrowth r.eng
      (callDequeueExternal cb b (signalStable cb (manageInvocations cb r))).eng :=
    (((manageInvocations_changes cb r).proper rfl).compose
      ((signalStable_changes cb _).proper rfl)).compose
      ((callDequeueExternal_changes cb b _).proper rfl)
  cases hev : (callDequeueExternal cb b (signalStable cb (manageInvocations cb r))).eng.event with
  | some ev =>
    rw [awaitExternal_event cb b r ev hev]
    exact h3.compose (selectTransitions_proper cb _)
  | none =>
    cases hc : (callDequeueExternal cb b
      (signalStable cb (manageInvocations cb r))).eng.isCancelled
    · rw [awaitExternal_idle cb b r hev hc]
      exact h3
    · rw [awaitExternal_cancelled cb b r hev hc]
      refine h3.compose ?_
      exact Changes.proper (m := { flags := true })
        (by simp [Changes, Engine.mask, Run.setFlags]) rfl

/-- A step of an initialised engine keeps the index and adds only proper states to the
configuration. -/
theorem step_proper (b : Bool) (e : Engine) (h : H) (hi : e.isInitialized = true) :
    ProperGrowth e (step cb b e h).2.eng := by
  cases hf : hasFlag e.flags USCXML_CTX_FINISHED
  swap
  · rw [step_finished cb b e h hi hf]
    exact ProperGrowth.stay _
  cases ht : hasFlag e.flags USCXML_CTX_TOP_LEVEL_FINAL
  swap
  · rw [step_topLevelFinal cb b e h hi hf ht]
    exact (completeStep_changes cb _).proper rfl
  by_cases hp : e.flags = USCXML_CTX_PRISTINE
  · rw [step_pristine cb b e h hi hp]
    refine ProperGrowth.compose ?_ (microstep_proper cb _ _ _ _)
    exact Changes.proper (m := { flags := true }) (by simp [Changes, Engine.mask]) rfl
  cases hs : hasFlag e.flags USCXML_CTX_SPONTANEOUS
  swap
  · rw [step_spontaneous cb b e h hi hf ht hs]
    refine ProperGrowth.compose ?_ (selectTransitions_proper cb _)
    exact Changes.proper (m := { event := true }) (by simp [Changes, Engine.mask]) rfl
  cases hev : (cb.dequeueInternal h).1 with
  | some ev =>
    rw [step_internal cb b e h hi hf ht hp hs ev hev]
    exact ((callDequeueInternal_changes cb { eng := e, host := h, trace := [] }).proper
      rfl).compose (selectTransitions_proper cb _)
  | none =>
    rw [step_external cb b e h hi hf ht hp hs hev]
    exact ((callDequeueInternal_changes cb { eng := e, host := h, trace := [] }).proper
      rfl).compose (awaitExternal_proper cb b _)

end steps

section runs
variable {H : Type} (cb : MicroStepCallbacks H)

theorem Sound.construct (scxml : Index) : Sound (construct scxml) := by
  refine ⟨fun _ => ⟨rfl, rfl⟩, fun j => ?_⟩
  simp [uscxml.construct, BIT_HAS_zero]

theorem Sound.step (b : Bool) (e : Engine) (h : H) (hs : Sound e) :
    Sound (step cb b e h).2.eng := by
  cases hi : e.isInitialized
  · rw [step_uninitialized cb b e h hi]
    obtain ⟨hc, _⟩ := hs.1 hi
    refine ⟨fun h => by simp [init] at h, fun j => ?_⟩
    simp [init, hc, BIT_HAS_zero]
  · obtain ⟨hst, hgrow⟩ := step_proper cb b e h hi
    refine ⟨fun h => ?_, fun j => ?_⟩
    · rw [hst.2.2.2.1, hi] at h
      cases h
    · cases hj : BIT_HAS j (uscxml.step cb b e h).2.eng.configuration
      · rfl
      · rw [hst.getState]
        rcases hgrow j hj with h1 | h1
        · have := hs.2 j
          rw [h1] at this
          simpa using this
        · simp [h1]

theorem Sound.applyAction (p : Engine × H) (a : Action H) (hs : Sound p.1) :
    Sound (applyAction cb p a).1 := by
  cases a with
  | step b => exact Sound.step cb b p.1 p.2 hs
  | cancel =>
    refine ⟨fun h => hs.1 h, fun j => ?_⟩
    exact hs.2 j
  | reset =>
    refine ⟨fun _ => ⟨rfl, rfl⟩, fun j => ?_⟩
    simp [uscxml.applyAction, reset, BIT_HAS_zero]
  | env host => exact hs

theorem Sound.run (scxml : Index) (h : H) (actions : List (Action H)) :
    Sound (run cb scxml h actions).1 := by
  unfold uscxml.run
  exact foldl_preserves (fun p : Engine × H => Sound p.1) (uscxml.applyAction cb)
    (fun p a hp => Sound.applyAction cb p a hp) actions _ (Sound.construct scxml)

/-- An engine of a run that has a flag set has been initialised. -/
theorem Sound.initialized {e : Engine} (hs : Sound e) (m : Nat)
    (hf : hasFlag e.flags m = true) : e.isInitialized = true := by
  cases hi : e.isInitialized
  · rw [(hs.1 hi).2] at hf
    simp [hasFlag] at hf
  · rfl

end runs

/-! ### Kinds of calls -/

theorem isMicrostepCall.microNotDequeue {c : Call} (h : isMicrostepCall c) :
    isDequeueCall c = false := by
  rcases h with ⟨i, h⟩ | ⟨i, h⟩ | ⟨i, h⟩ | h <;> cases c <;> first | rfl | cases h

theorem isMicrostepCall.microNotSelection {c : Call} (h : isMicrostepCall c) :
    isSelectionCall c = false := by
  rcases h with ⟨i, h⟩ | ⟨i, h⟩ | ⟨i, h⟩ | h <;> cases c <;> first | rfl | cases h

theorem isSelectionStepCall.stepNotDequeue {ev : Option Event} {c : Call}
    (h : isSelectionStepCall ev c) : isDequeueCall c = false := by
  rcases h with h | rfl | h
  · cases c <;> first | rfl | cases h
  · rfl
  · exact h.microNotDequeue

theorem isSelectionStepCall.matched {ev : Option Event} {e : Event} {d : String}
    (h : isSelectionStepCall ev (Call.isMatched e d)) : ev = some e := by
  rcases h with h | h | h
  · simpa [isSelectCall] using h
  · cases h
  · cases h.microNotSelection

theorem isCompletionCall.completionNotDequeue {c : Call} (h : isCompletionCall c = true) :
    isDequeueCall c = false := by
  cases c <;> first | rfl | cases h

theorem isCompletionCall.completionNotSelection {c : Call} (h : isCompletionCall c = true) :
    isSelectionCall c = false := by
  cases c <;> first | rfl | cases h

theorem isInvokeCall.invokeNotDequeue {c : Call} (h : isInvokeCall c = true) :
    isDequeueCall c = false := by
  cases c <;> first | rfl | cases h

section sources
variable {H : Type} (cb : MicroStepCallbacks H)

theorem selectTransitions_event (r : Run H) :
    (selectTransitions cb r).2.eng.event = r.eng.event :=
  (selectTransitions_changes cb r).event_eq rfl

/-- The trace of `awaitExternal`: calls that dequeue nothing, then `dequeueExternal`, then
calls that dequeue nothing. -/
theorem awaitExternal_trace (b : Bool) (r : Run H) :
    ∃ mid rest, (awaitExternal cb b r).2.trace =
        r.trace ++ (mid ++ Call.dequeueExternal b :: rest) ∧
      (∀ c ∈ mid, isDequeueCall c = false) ∧ (∀ c ∈ rest, isDequeueCall c = false) ∧
      (∀ c ∈ mid, isSelectionCall c = false) := by
  obtain ⟨t1, ht1, hq1⟩ := manageInvocations_emits cb r
  obtain ⟨t2, ht2, hq2⟩ := signalStable_emits cb (manageInvocations cb r)
  have hx : (callDequeueExternal cb b (signalStable cb (manageInvocations cb r))).trace =
      r.trace ++ ((t1 ++ t2) ++ [Call.dequeueExternal b]) := by
    rw [callDequeueExternal_trace, ht2, ht1]
    simp
  have hmid : ∀ c ∈ t1 ++ t2, isDequeueCall c = false ∧ isSelectionCall c = false := by
    intro c hc
    rcases List.mem_append.mp hc with h | h
    · have := hq1 c h
      cases c <;> first | exact ⟨rfl, rfl⟩ | cases this
    · rw [hq2 c h]; exact ⟨rfl, rfl⟩
  cases hev : (callDequeueExternal cb b (signalStable cb (manageInvocations cb r))).eng.event with
  | some ev =>
    rw [awaitExternal_event cb b r ev hev]
    obtain ⟨t3, ht3, hq3⟩ := selectTransitions_emits cb
      (callMonitor cb (MonitorHook.beforeProcessingEvent ev)
        (callDequeueExternal cb b (signalStable cb (manageInvocations cb r))))
    refine ⟨t1 ++ t2, Call.monitor (MonitorHook.beforeProcessingEvent ev) :: t3, ?_,
      fun c hc => (hmid c hc).1, ?_, fun c hc => (hmid c hc).2⟩
    · rw [ht3, callMonitor_trace, hx]
      simp
    · intro c hc
      rcases List.mem_cons.mp hc with h | h
      · rw [h]; rfl
      · exact (hq3 c h).stepNotDequeue
  | none =>
    cases hc : (callDequeueExternal cb b
      (signalStable cb (manageInvocations cb r))).eng.isCancelled
    · rw [awaitExternal_idle cb b r hev hc]
      exact ⟨t1 ++ t2, [], by rw [hx], fun c hc => (hmid c hc).1, by simp,
        fun c hc => (hmid c hc).2⟩
    · rw [awaitExternal_cancelled cb b r hev hc]
      exact ⟨t1 ++ t2, [], by rw [setFlags_trace, hx], fun c hc => (hmid c hc).1, by simp,
        fun c hc => (hmid c hc).2⟩

/-- Unless the step starts by `dequeueInternal` returning nothing, it never calls
`dequeueExternal`. -/
theorem step_no_external (b : Bool) (e : Engine) (h : H)
    (hne : ¬ (e.isInitialized = true ∧ hasFlag e.flags USCXML_CTX_FINISHED = false ∧
      hasFlag e.flags USCXML_CTX_TOP_LEVEL_FINAL = false ∧ e.flags ≠ USCXML_CTX_PRISTINE ∧
      hasFlag e.flags USCXML_CTX_SPONTANEOUS = false ∧ (cb.dequeueInternal h).1 = none))
    (b2 : Bool) : Call.dequeueExternal b2 ∉ (step cb b e h).2.trace := by
  intro hmem
  cases hi : e.isInitialized
  · rw [step_uninitialized cb b e h hi] at hmem
    cases hmem
  cases hf : hasFlag e.flags USCXML_CTX_FINISHED
  swap
  · rw [step_finished cb b e h hi hf] at hmem
    cases hmem
  cases ht : hasFlag e.flags USCXML_CTX_TOP_LEVEL_FINAL
  swap
  · rw [step_topLevelFinal cb b e h hi hf ht] at hmem
    rcases (completeStep_emits cb _).mem hmem with h1 | h1
    · cases h1
    · cases h1
  by_cases hp : e.flags = USCXML_CTX_PRISTINE
  · rw [step_pristine cb b e h hi hp] at hmem
    rcases (microstep_emits cb _ _ _ _).mem hmem with h1 | h1
    · simp at h1
    · cases h1.microNotDequeue
  cases hs : hasFlag e.flags USCXML_CTX_SPONTANEOUS
  swap
  · rw [step_spontaneous cb b e h hi hf ht hs] at hmem
    rcases (selectTransitions_emits cb _).mem hmem with h1 | h1
    · cases h1
    · cases h1.stepNotDequeue
  cases hev : (cb.dequeueInternal h).1 with
  | some ev =>
    rw [step_internal cb b e h hi hf ht hp hs ev hev] at hmem
    rcases (selectTransitions_emits cb _).mem hmem with h1 | h1
    · simp at h1
    · cases h1.stepNotDequeue
  | none => exact hne ⟨hi, hf, ht, hp, hs, hev⟩

end sources

section order
variable {H : Type} (cb : MicroStepCallbacks H)

/-- A loop over indices in the order `R`, whose body for the index `i` makes calls of the
class `Q i` with keys in the order `R`, makes calls whose keys are in the order `R`. -/
theorem foldl_sorted (key : Call → Option Nat) (R : Nat → Nat → Prop)
    (Q : Nat → Call → Prop) (f : Run H → Nat → Run H)
    (hbody : ∀ r i, ∃ t, (f r i).trace = r.trace ++ t ∧ (∀ c ∈ t, Q i c) ∧
      (t.filterMap key).Pairwise R)
    (hkey : ∀ i c k, Q i c → key c = some k → k = i)
    (l : List Nat) (hl : l.Pairwise R) (r : Run H) :
    ∃ t, (l.foldl f r).trace = r.trace ++ t ∧ (∀ c ∈ t, ∃ i ∈ l, Q i c) ∧
      (t.filterMap key).Pairwise R := by
  induction l generalizing r with
  | nil => exact ⟨[], by simp, by simp, by simp⟩
  | cons i l ih =>
    obtain ⟨t1, e1, q1, p1⟩ := hbody r i
    obtain ⟨t2, e2, q2, p2⟩ := ih (List.pairwise_cons.mp hl).2 (f r i)
    refine ⟨t1 ++ t2, ?_, ?_, ?_⟩
    · rw [List.foldl_cons, e2, e1, List.append_assoc]
    · intro c hc
      rcases List.mem_append.mp hc with h | h
      · exact ⟨i, List.mem_cons_self _ _, q1 c h⟩
      · obtain ⟨j, hj, hq⟩ := q2 c h
        exact ⟨j, List.mem_cons_of_mem _ hj, hq⟩
    · rw [List.filterMap_append, List.pairwise_append]
      refine ⟨p1, p2, ?_⟩
      intro a ha b hb
      obtain ⟨c1, hc1, hk1⟩ := List.mem_filterMap.mp ha
      obtain ⟨c2, hc2, hk2⟩ := List.mem_filterMap.mp hb
      obtain ⟨j, hj, hq⟩ := q2 c2 hc2
      rw [hkey i c1 a (q1 c1 hc1) hk1, hkey j c2 b hq hk2]
      exact (List.pairwise_cons.mp hl).1 j hj

theorem pairwise_of_all_eq (R : Nat → Nat → Prop) (i : Nat) (hR : R i i) (l : List Nat)
    (h : ∀ k ∈ l, k = i) : l.Pairwise R := by
  induction l with
  | nil => exact List.Pairwise.nil
  | cons a l ih =>
    refine List.pairwise_cons.mpr ⟨?_, ih (fun k hk => h k (List.mem_cons_of_mem _ hk))⟩
    intro b hb
    rw [h a (List.mem_cons_self _ _), h b (List.mem_cons_of_mem _ hb)]
    exact hR

theorem exitIndex_of_call {i : Nat} {c : Call} {k : Nat} (h : isExitCall i c = true)
    (hk : exitIndex c = some k) : k = i := by
  cases c with
  | process s x =>
    cases s <;> simp_all [exitIndex, isExitCall]
  | _ => cases hk

theorem transIndex_of_call {i : Nat} {c : Call} {k : Nat} (h : isTakeCall i c = true)
    (hk : transIndex c = some k) : k = i := by
  cases c with
  | process s x =>
    cases s <;> simp_all [transIndex, isTakeCall]
  | _ => cases hk

theorem entryIndex_of_call {i : Nat} {c : Call} {k : Nat} (h : isEnterCall i c = true)
    (hk : entryIndex c = some k) : k = i := by
  cases c with
  | process s x =>
    cases s <;> simp_all [entryIndex, isEnterCall]
  | _ => cases hk

theorem downRange_pairwise (n : Nat) : (downRange n).Pairwise (fun a b => a ≥ b) := by
  unfold downRange
  rw [List.pairwise_reverse]
  exact (List.pairwise_lt_range n).imp (fun h => Nat.le_of_lt h)

theorem exitStates_sorted (x : Bitset) (r : Run H) :
    ∃ t, (exitStates cb x r).trace = r.trace ++ t ∧ (∀ c ∈ t, ∃ i, isExitCall i c = true) ∧
      (t.filterMap exitIndex).Pairwise (fun a b => a ≥ b) := by
  obtain ⟨t, h1, h2, h3⟩ := foldl_sorted exitIndex (fun a b => a ≥ b)
    (fun i c => isExitCall i c = true) (exitState cb x)
    (fun y i => by
      obtain ⟨t, ht, hq⟩ := exitState_emits cb x y i
      refine ⟨t, ht, hq, pairwise_of_all_eq (fun a b => a ≥ b) i (le_refl i) _ ?_⟩
      intro k hk
      obtain ⟨c, hc, hkc⟩ := List.mem_filterMap.mp hk
      exact exitIndex_of_call (hq c hc) hkc)
    (fun i c k h hk => exitIndex_of_call h hk) (downRange (USCXML_NUMBER_STATES r.eng))
    (downRange_pairwise _) r
  exact ⟨t, h1, fun c hc => (h2 c hc).imp (fun i hi => hi.2), h3⟩

theorem enterStates_sorted (es ts : Bitset) (r : Run H) :
    ∃ t, (enterStates cb es ts r).trace = r.trace ++ t ∧
      (∀ c ∈ t, ∃ i, isEnterCall i c = true) ∧
      (t.filterMap entryIndex).Pairwise (fun a b => a ≤ b) := by
  obtain ⟨t, h1, h2, h3⟩ := foldl_sorted entryIndex (fun a b => a ≤ b)
    (fun i c => isEnterCall i c = true) (enterState cb es ts)
    (fun y i => by
      obtain ⟨t, ht, hq⟩ := enterState_emits cb es ts y i
      refine ⟨t, ht, hq, pairwise_of_all_eq (fun a b => a ≤ b) i (le_refl i) _ ?_⟩
      intro k hk
      obtain ⟨c, hc, hkc⟩ := List.mem_filterMap.mp hk
      exact entryIndex_of_call (hq c hc) hkc)
    (fun i c k h hk => entryIndex_of_call h hk) (List.range r.eng.states.length)
    ((List.pairwise_lt_range _).imp (fun h => Nat.le_of_lt h)) r
  exact ⟨t, h1, fun c hc => (h2 c hc).imp (fun i hi => hi.2), h3⟩

/-- The body of TAKE_TRANSITIONS runs the content of at most one transition. -/
theorem takeTransition_keys (ts : Bitset) (r : Run H) (i : Nat) :
    ∃ t, (takeTransition cb ts r i).trace = r.trace ++ t ∧
      (∀ c ∈ t, isTakeCall i c = true) ∧ (t.filterMap transIndex).Pairwise (fun a b => a < b) := by
  obtain ⟨t, ht, hq⟩ := takeTransition_emits cb ts r i
  refine ⟨t, ht, hq, ?_⟩
  have hlen : (t.filterMap transIndex).length ≤ 1 := by
    have htr := ht
    unfold takeTransition at htr
    simp only [] at htr
    split_ifs at htr
    · cases ho : (USCXML_GET_TRANS (callMonitor cb (MonitorHook.beforeTakingTransition i) r).eng i).onTrans with
      | none =>
        rw [ho] at htr
        simp only [processOnTrans, callMonitor_trace, List.append_assoc,
          List.append_cancel_left_eq] at htr
        rw [← htr]
        simp [transIndex]
      | some x =>
        rw [ho] at htr
        simp only [processOnTrans, callMonitor_trace, callProcess_trace, List.append_assoc,
          List.append_cancel_left_eq] at htr
        rw [← htr]
        simp [transIndex]
    · have : t = [] := by simpa using htr
      simp [this]
    · have : t = [] := by simpa using htr
      simp [this]
  match hm : t.filterMap transIndex, hlen with
  | [], _ => exact List.Pairwise.nil
  | [a], _ => exact List.pairwise_singleton _ _
  | _ :: _ :: _, h => simp at h

theorem takeTransitions_sorted (ts : Bitset) (r : Run H) :
    ∃ t, (takeTransitions cb ts r).trace = r.trace ++ t ∧
      (∀ c ∈ t, ∃ i, isTakeCall i c = true) ∧
      (t.filterMap transIndex).Pairwise (fun a b => a < b) := by
  obtain ⟨t, h1, h2, h3⟩ := foldl_sorted transIndex (fun a b => a < b)
    (fun i c => isTakeCall i c = true) (takeTransition cb ts)
    (takeTransition_keys cb ts)
    (fun i c k h hk => transIndex_of_call h hk) (List.range r.eng.transitions.length)
    (List.pairwise_lt_range _) r
  exact ⟨t, h1, fun c hc => (h2 c hc).imp (fun i hi => hi.2), h3⟩

end order

section decomposition
variable {H : Type} (cb : MicroStepCallbacks H)

theorem testBit_andNot (a b k : Nat) :
    (bitAndNot a b).testBit k = (a.testBit k && !b.testBit k) :=
  BIT_HAS_andNot a b k

theorem hasFlag_topLevelFinal (f : Nat) :
    hasFlag f USCXML_CTX_TOP_LEVEL_FINAL = f.testBit 2 :=
  hasFlag_pow f 2

theorem beforeEntrySet_topLevelFinal (r : Run H) :
    hasFlag (beforeEntrySet cb r).eng.flags USCXML_CTX_TOP_LEVEL_FINAL =
      hasFlag r.eng.flags USCXML_CTX_TOP_LEVEL_FINAL := by
  rw [hasFlag_topLevelFinal, hasFlag_topLevelFinal]
  unfold beforeEntrySet
  simp only []
  rw [(rememberHistory_changes _ _).flags_eq rfl]
  simp only [callMonitor_eng, Run.setFlags]
  rw [testBit_andNot, Nat.testBit_lor]
  unfold selectionOf
  rw [selectLoop_flags cb _ _ 2 (by decide)]
  simp only [Run.setFlags]
  rw [testBit_andNot]
  have h1 : USCXML_CTX_SPONTANEOUS.testBit 2 = false := by decide
  have h2 : USCXML_CTX_TRANSITION_FOUND.testBit 2 = false := by decide
  have h3 : USCXML_CTX_STABLE.testBit 2 = false := by decide
  simp [h1, h2, h3]

theorem isPreludeCall_of_select {ev : Option Event} {c : Call}
    (h : isSelectCall ev c = true ∨ c = Call.monitor MonitorHook.beforeMicroStep) :
    isPreludeCall c = true := by
  rcases h with h | rfl
  · cases c <;> first | rfl | cases h
  · rfl

/-- A run of `selectTransitions` that returns Microstepped is a micro-step from the run
`beforeEntrySet`. -/
theorem selectTransitions_microstepped (r : Run H)
    (hres : (selectTransitions cb r).1 = InterpreterState.USCXML_MICROSTEPPED) :
    selectTransitions cb r =
      microstep cb (selectionOf cb r).2.targetSet (exitSetOf cb r) (selectionOf cb r).2.transSet
        (beforeEntrySet cb r) := by
  cases h : hasFlag (selectionOf cb r).1.eng.flags USCXML_CTX_TRANSITION_FOUND
  · rw [selectTransitions_none cb r h] at hres
    cases hres
  · exact selectTransitions_found cb r h

theorem beforeEntrySet_prelude (r : Run H) (hr : ∀ c ∈ r.trace, isPreludeCall c = true) :
    ∀ c ∈ (beforeEntrySet cb r).trace, isPreludeCall c = true := by
  intro c hc
  rcases (beforeEntrySet_emits cb r).mem hc with h | h
  · exact hr c h
  · exact isPreludeCall_of_select h

theorem signalStable_topLevelFinal (r : Run H) :
    hasFlag (signalStable cb r).eng.flags USCXML_CTX_TOP_LEVEL_FINAL =
      hasFlag r.eng.flags USCXML_CTX_TOP_LEVEL_FINAL := by
  unfold signalStable
  split_ifs
  · rw [hasFlag_topLevelFinal, hasFlag_topLevelFinal]
    simp only [callMonitor_eng, Nat.testBit_lor]
    have h3 : USCXML_CTX_STABLE.testBit 2 = false := by decide
    simp [h3]
  · rfl

/-- The run of `awaitExternal` just after `dequeueExternal`. -/
theorem afterDequeueExternal (b : Bool) (r : Run H)
    (hr : ∀ c ∈ r.trace, isPreludeCall c = true) :
    Static r.eng (callDequeueExternal cb b (signalStable cb (manageInvocations cb r))).eng ∧
      (∀ c ∈ (callDequeueExternal cb b (signalStable cb (manageInvocations cb r))).trace,
        isPreludeCall c = true) ∧
      hasFlag (callDequeueExternal cb b (signalStable cb (manageInvocations cb r))).eng.flags
        USCXML_CTX_TOP_LEVEL_FINAL = hasFlag r.eng.flags USCXML_CTX_TOP_LEVEL_FINAL := by
  refine ⟨?_, ?_, ?_⟩
  · exact ((manageInvocations_changes cb r).static.chain
      (signalStable_changes cb _).static).chain (callDequeueExternal_changes cb b _).static
  · intro c hc
    rw [callDequeueExternal_trace] at hc
    rcases List.mem_append.mp hc with h1 | h1
    · rcases (signalStable_emits cb _).mem h1 with h2 | h2
      · rcases (manageInvocations_emits cb r).mem h2 with h3 | h3
        · exact hr c h3
        · cases c <;> first | rfl | cases h3
      · rw [h2]; rfl
    · have : c = Call.dequeueExternal b := by simpa using h1
      rw [this]; rfl
  · rw [(callDequeueExternal_changes cb b _).flags_eq rfl, signalStable_topLevelFinal,
      (manageInvocations_changes cb r).flags_eq rfl]

/-- A step that returns Microstepped is a micro-step (lines 627-913) from a run of the
initialised engine in which only dequeuing, invocation, selection and announcing calls
were made and in which TopLevelFinal is clear. -/
theorem step_microstepped (b : Bool) (e : Engine) (h : H)
    (hres : (step cb b e h).1 = InterpreterState.USCXML_MICROSTEPPED) :
    ∃ t x ts r, step cb b e h = microstep cb t x ts r ∧ Static e r.eng ∧
      (∀ c ∈ r.trace, isPreludeCall c = true) ∧
      hasFlag r.eng.flags USCXML_CTX_TOP_LEVEL_FINAL = false ∧ e.isInitialized = true := by
  cases hi : e.isInitialized
  · rw [step_uninitialized cb b e h hi] at hres
    cases hres
  cases hf : hasFlag e.flags USCXML_CTX_FINISHED
  swap
  · rw [step_finished cb b e h hi hf] at hres
    cases hres
  cases ht : hasFlag e.flags USCXML_CTX_TOP_LEVEL_FINAL
  swap
  · rw [step_topLevelFinal cb b e h hi hf ht] at hres
    cases hres
  by_cases hp : e.flags = USCXML_CTX_PRISTINE
  · refine ⟨_, _, _, _, step_pristine cb b e h hi hp, ⟨rfl, rfl, rfl, rfl, rfl⟩, ?_, ?_, rfl⟩
    · intro c hc
      have : c = Call.monitor MonitorHook.beforeMicroStep := by simpa using hc
      rw [this]; rfl
    · show hasFlag (USCXML_CTX_SPONTANEOUS ||| USCXML_CTX_INITIALIZED)
        USCXML_CTX_TOP_LEVEL_FINAL = false
      decide
  cases hs : hasFlag e.flags USCXML_CTX_SPONTANEOUS
  swap
  · rw [step_spontaneous cb b e h hi hf ht hs] at hres ⊢
    refine ⟨_, _, _, _, selectTransitions_microstepped cb _ hres, ?_, ?_, ?_, rfl⟩
    · exact (beforeEntrySet_changes cb _).static
    · exact beforeEntrySet_prelude cb _ (by simp)
    · rw [beforeEntrySet_topLevelFinal]; exact ht
  cases hev : (cb.dequeueInternal h).1 with
  | some ev =>
    rw [step_internal cb b e h hi hf ht hp hs ev hev] at hres ⊢
    refine ⟨_, _, _, _, selectTransitions_microstepped cb _ hres, ?_, ?_, ?_, rfl⟩
    · exact (beforeEntrySet_changes cb _).static
    · refine beforeEntrySet_prelude cb _ ?_
      intro c hc
      simp only [callMonitor_trace, callDequeueInternal_trace, List.nil_append,
        List.cons_append, List.mem_cons, List.mem_singleton, List.not_mem_nil, or_false] at hc
      rcases hc with rfl | rfl <;> rfl
    · rw [beforeEntrySet_topLevelFinal]; exact ht
  | none =>
    rw [step_external cb b e h hi hf ht hp hs hev] at hres ⊢
    obtain ⟨h1, h2, h3⟩ := afterDequeueExternal cb b
      (callDequeueInternal cb { eng := e, host := h, trace := [] })
      (by intro c hc; have : c = Call.dequeueInternal := by simpa using hc
          rw [this]; rfl)
    cases hx : (callDequeueExternal cb b (signalStable cb (manageInvocations cb
        (callDequeueInternal cb { eng := e, host := h, trace := [] })))).eng.event with
    | none =>
      cases hc : (callDequeueExternal cb b (signalStable cb (manageInvocations cb
          (callDequeueInternal cb { eng := e, host := h, trace := [] })))).eng.isCancelled
      · rw [awaitExternal_idle cb b _ hx hc] at hres
        cases hres
      · rw [awaitExternal_cancelled cb b _ hx hc] at hres
        cases hres
    | some ev =>
      rw [awaitExternal_event cb b _ ev hx] at hres ⊢
      refine ⟨_, _, _, _, selectTransitions_microstepped cb _ hres, ?_, ?_, ?_, rfl⟩
      · exact ((callDequeueInternal_changes cb
          { eng := e, host := h, trace := [] }).static.chain h1).chain
          (beforeEntrySet_changes cb _).static
      · refine beforeEntrySet_prelude cb _ ?_
        intro c hc
        rw [callMonitor_trace] at hc
        rcases List.mem_append.mp hc with h4 | h4
        · exact h2 c h4
        · have : c = Call.monitor (MonitorHook.beforeProcessingEvent ev) := by simpa using h4
          rw [this]; rfl
      · rw [beforeEntrySet_topLevelFinal]
        exact h3.trans ht

end decomposition

section order
variable {H : Type} (cb : MicroStepCallbacks H)

/-- The trace of a micro-step: the calls of EXIT_STATES, of TAKE_TRANSITIONS, of
ENTER_STATES and the closing calls, each loop running its blocks in the order of its
indices. -/
theorem microstep_trace (t x ts : Bitset) (r : Run H) :
    ∃ tX tT tN tC, (microstep cb t x ts r).2.trace = r.trace ++ tX ++ tT ++ tN ++ tC ∧
      (∀ c ∈ tX, ∃ i, isExitCall i c = true) ∧
      (tX.filterMap exitIndex).Pairwise (fun a b => a ≥ b) ∧
      (∀ c ∈ tT, ∃ i, isTakeCall i c = true) ∧
      (tT.filterMap transIndex).Pairwise (fun a b => a < b) ∧
      (∀ c ∈ tN, ∃ i, isEnterCall i c = true) ∧
      (tN.filterMap entryIndex).Pairwise (fun a b => a ≤ b) ∧
      (∀ c ∈ tC, isClosingCall c = true) := by
  obtain ⟨tX, eX, qX, pX⟩ := exitStates_sorted cb x r
  obtain ⟨tT, eT, qT, pT⟩ := takeTransitions_sorted cb
    (establishEntrySet r.eng t x ts).2 (exitStates cb x r)
  obtain ⟨tN, eN, qN, pN⟩ := enterStates_sorted cb (establishEntrySet r.eng t x ts).1
    (establishEntrySet r.eng t x ts).2
    (takeTransitions cb (establishEntrySet r.eng t x ts).2 (exitStates cb x r))
  obtain ⟨tC, eC, qC⟩ := recordConfiguration_emits cb
    (callMonitor cb MonitorHook.afterMicroStep
      (enterStates cb (establishEntrySet r.eng t x ts).1 (establishEntrySet r.eng t x ts).2
        (takeTransitions cb (establishEntrySet r.eng t x ts).2 (exitStates cb x r))))
  refine ⟨tX, tT, tN, Call.monitor MonitorHook.afterMicroStep :: tC, ?_, qX, pX, qT, pT, qN, pN,
    ?_⟩
  · unfold microstep
    simp only []
    rw [eC, callMonitor_trace, eN, eT, eX]
    simp
  · intro c hc
    rcases List.mem_cons.mp hc with h | h
    · rw [h]; rfl
    · exact qC c h

theorem isPreludeCall.preludeIndices {c : Call} (h : isPreludeCall c = true) :
    exitIndex c = none ∧ transIndex c = none ∧ entryIndex c = none := by
  cases c <;> first | exact ⟨rfl, rfl, rfl⟩ | cases h

theorem isExitCall.exitIndices {i : Nat} {c : Call} (h : isExitCall i c = true) :
    transIndex c = none ∧ entryIndex c = none := by
  cases c with
  | process s x => cases s <;> first | exact ⟨rfl, rfl⟩ | cases h
  | _ => exact ⟨rfl, rfl⟩

theorem isTakeCall.takeIndices {i : Nat} {c : Call} (h : isTakeCall i c = true) :
    exitIndex c = none ∧ entryIndex c = none := by
  cases c with
  | process s x => cases s <;> first | exact ⟨rfl, rfl⟩ | cases h
  | _ => exact ⟨rfl, rfl⟩

theorem isEnterCall.enterIndices {i : Nat} {c : Call} (h : isEnterCall i c = true) :
    exitIndex c = none ∧ transIndex c = none := by
  cases c with
  | process s x => cases s <;> first | exact ⟨rfl, rfl⟩ | cases h
  | _ => exact ⟨rfl, rfl⟩

theorem isClosingCall.closingIndices {c : Call} (h : isClosingCall c = true) :
    exitIndex c = none ∧ transIndex c = none ∧ entryIndex c = none := by
  cases c <;> first | exact ⟨rfl, rfl, rfl⟩ | cases h

theorem filterMap_none {α β : Type} (f : α → Option β) (l : List α)
    (h : ∀ a ∈ l, f a = none) : l.filterMap f = [] := by
  induction l with
  | nil => rfl
  | cons a l ih =>
    rw [List.filterMap_cons, h a (List.mem_cons_self _ _)]
    exact ih (fun b hb => h b (List.mem_cons_of_mem _ hb))

end order

section finals
variable {H : Type} (cb : MicroStepCallbacks H)

theorem foldl_fixed {α β : Type} (f : α → β → α) (l : List β) (a : α)
    (h : ∀ b ∈ l, f a b = a) : l.foldl f a = a := by
  induction l with
  | nil => rfl
  | cons b l ih =>
    rw [List.foldl_cons, h b (List.mem_cons_self _ _)]
    exact ih (fun x hx => h x (List.mem_cons_of_mem _ hx))

theorem Static.isTopLevel {e e2 : Engine} (h : Static e e2) (i : Nat) :
    isTopLevel e2 i = isTopLevel e i := by
  unfold uscxml.isTopLevel
  rw [h.getState, h.numStates]

/-- A bit set of count one that holds bit 0 holds no other bit below its size. -/
theorem bitCount_one (n : Nat) (a : Bitset) (j : Nat) (hc : bitCount n a = 1)
    (h0 : BIT_HAS 0 a = true) (hj : j < n) (hja : BIT_HAS j a = true) : j = 0 := by
  unfold bitCount at hc
  obtain ⟨x, hx⟩ := List.length_eq_one.mp hc
  have hn : 0 < n := by omega
  have m0 : 0 ∈ (List.range n).filter (fun i => BIT_HAS i a) :=
    List.mem_filter.mpr ⟨List.mem_range.mpr hn, h0⟩
  have mj : j ∈ (List.range n).filter (fun i => BIT_HAS i a) :=
    List.mem_filter.mpr ⟨List.mem_range.mpr hj, hja⟩
  rw [hx] at m0 mj
  rw [List.mem_singleton] at m0 mj
  rw [mj, ← m0]

/-- A top-level final state of a chart whose root is not a parallel state: the flag is set
and nothing is raised. -/
theorem handleFinal_topLevel (i : Nat) (r : Run H)
    (hfin : USCXML_STATE_MASK (USCXML_GET_STATE r.eng i).type = USCXML_STATE_FINAL)
    (htop : isTopLevel r.eng i = true)
    (hroot : USCXML_STATE_MASK (USCXML_GET_STATE r.eng 0).type ≠ USCXML_STATE_PARALLEL) :
    handleFinal cb i r = r.setFlags (r.eng.flags ||| USCXML_CTX_TOP_LEVEL_FINAL) := by
  have htop2 := htop
  unfold isTopLevel at htop
  unfold handleFinal
  simp only [hfin, beq_self_eq_true, if_true, htop]
  apply foldl_fixed
  intro j hj
  unfold parallelDone
  simp only [Bool.and_eq_true, beq_iff_eq, decide_eq_true_eq] at htop
  have hjn : j < USCXML_NUMBER_STATES r.eng := List.mem_range.mp hj
  have hg : ∀ k, USCXML_GET_STATE (r.setFlags (r.eng.flags ||| USCXML_CTX_TOP_LEVEL_FINAL)).eng k =
      USCXML_GET_STATE r.eng k := fun _ => rfl
  simp only [hg]
  by_cases hja : BIT_HAS j (USCXML_GET_STATE r.eng i).ancestors = true
  · have hj0 := bitCount_one _ _ j htop.1 htop.2 hjn hja
    subst hj0
    have : (USCXML_STATE_MASK (USCXML_GET_STATE r.eng 0).type == USCXML_STATE_PARALLEL) =
        false := by simpa using hroot
    simp [this]
  · simp [hja]

/-- A top-level final state sets the flag, whatever the type of the root. -/
theorem handleFinal_topLevel_flags (i : Nat) (r : Run H)
    (hfin : USCXML_STATE_MASK (USCXML_GET_STATE r.eng i).type = USCXML_STATE_FINAL)
    (htop : isTopLevel r.eng i = true) :
    (handleFinal cb i r).eng.flags = r.eng.flags ||| USCXML_CTX_TOP_LEVEL_FINAL := by
  unfold isTopLevel at htop
  unfold handleFinal
  simp only [hfin, beq_self_eq_true, if_true, htop]
  rw [parallelDones_eng]
  rfl

theorem handleFinal_nested (i : Nat) (r : Run H)
    (hfin : USCXML_STATE_MASK (USCXML_GET_STATE r.eng i).type = USCXML_STATE_FINAL)
    (htop : isTopLevel r.eng i = false) :
    handleFinal cb i r =
      (List.range (USCXML_NUMBER_STATES r.eng)).foldl (parallelDone cb i)
        (callRaiseDoneEvent cb i (USCXML_GET_STATE r.eng i).parent
          (USCXML_GET_STATE r.eng i).doneData r) := by
  unfold isTopLevel at htop
  unfold handleFinal
  simp only [hfin, beq_self_eq_true, if_true, htop]
  rfl

theorem handleFinal_other (i : Nat) (r : Run H)
    (hfin : USCXML_STATE_MASK (USCXML_GET_STATE r.eng i).type ≠ USCXML_STATE_FINAL) :
    handleFinal cb i r = r := by
  unfold handleFinal
  have : (USCXML_STATE_MASK (USCXML_GET_STATE r.eng i).type == USCXML_STATE_FINAL) = false := by
    simpa using hfin
  simp [this]

theorem hasFlag_or_self (f m : Nat) (hm : hasFlag m m = true) : hasFlag (f ||| m) m = true := by
  unfold hasFlag at *
  have : (f ||| m) &&& m = m := by
    apply Nat.eq_of_testBit_eq
    intro k
    simp only [Nat.testBit_land, Nat.testBit_lor]
    cases f.testBit k <;> cases m.testBit k <;> rfl
  rw [this]
  have h2 : m &&& m = m := Nat.and_self m
  rw [h2] at hm
  exact hm

end finals

section finals
variable {H : Type} (cb : MicroStepCallbacks H)

theorem isEntryCall_raise {i j s : Nat} {d : Option DOMElement} :
    isEntryCall i (Call.raiseDoneEvent j s d) = false := rfl

theorem isEnterCall_raise {i j s : Nat} {d : Option DOMElement}
    (h : isEnterCall i (Call.raiseDoneEvent j s d) = true) : j = i := by
  simpa [isEnterCall] using h

theorem isEnterCall_before {i j : Nat}
    (h : isEnterCall i (Call.monitor (MonitorHook.beforeEnteringState j)) = true) : j = i := by
  simpa [isEnterCall] using h

theorem parallelDones_emits (i : Nat) (l : List Nat) (r : Run H) :
    Emits (fun c => isEnterCall i c = true) r (l.foldl (parallelDone cb i) r) :=
  Emits.fold _ _ (parallelDone_emits cb i) l r

/-- What the body of ENTER_STATES does for the state `i` with regard to final states, in an
engine that shares the index of `E`. -/
theorem enterState_final (es ts : Bitset) (r : Run H) (i : Nat) (E : Engine)
    (hE : Static E r.eng) :
    ∃ t, (enterState cb es ts r i).trace = r.trace ++ t ∧
      (∀ c ∈ t, isEnterCall i c = true) ∧
      (Call.monitor (MonitorHook.beforeEnteringState i) ∈ t →
        USCXML_STATE_MASK (USCXML_GET_STATE E i).type = USCXML_STATE_FINAL →
        (isTopLevel E i = true →
          hasFlag (enterState cb es ts r i).eng.flags USCXML_CTX_TOP_LEVEL_FINAL = true ∧
            (USCXML_STATE_MASK (USCXML_GET_STATE E 0).type ≠ USCXML_STATE_PARALLEL →
              ∀ s d, Call.raiseDoneEvent i s d ∉ t)) ∧
        (isTopLevel E i = false →
          Call.raiseDoneEvent i (USCXML_GET_STATE E i).parent (USCXML_GET_STATE E i).doneData
            ∈ t)) ∧
      (hasFlag r.eng.flags USCXML_CTX_TOP_LEVEL_FINAL = true →
        hasFlag (enterState cb es ts r i).eng.flags USCXML_CTX_TOP_LEVEL_FINAL = true) ∧
      (hasFlag (enterState cb es ts r i).eng.flags USCXML_CTX_TOP_LEVEL_FINAL = true →
        hasFlag r.eng.flags USCXML_CTX_TOP_LEVEL_FINAL = true ∨
          (Call.monitor (MonitorHook.beforeEnteringState i) ∈ t ∧
            USCXML_STATE_MASK (USCXML_GET_STATE E i).type = USCXML_STATE_FINAL ∧
            isTopLevel E i = true)) := by
  cases hc : (BIT_HAS i es && !BIT_HAS i r.eng.configuration &&
      !isPseudoType (USCXML_GET_STATE r.eng i).type)
  · rw [enterState_skip cb es ts r i hc]
    exact ⟨[], by simp, by simp, by simp, fun h => h, fun h => Or.inl h⟩
  · rw [enterState_enter cb es ts r i hc]
    obtain ⟨tb, htb, hqb⟩ := enterBody_trace cb ts i r
    have hch := enterBody_changes cb ts i r
    have hst : Static E (enterBody cb ts i r).eng := hE.chain hch.static
    have hfl : (enterBody cb ts i r).eng.flags = r.eng.flags := hch.flags_eq rfl
    have hnr : ∀ s d, Call.raiseDoneEvent i s d ∉
        Call.monitor (MonitorHook.beforeEnteringState i) :: tb := by
      intro s d hm
      rcases List.mem_cons.mp hm with h1 | h1
      · cases h1
      · have := hqb _ h1
        rw [isEntryCall_raise] at this
        cases this
    have hcl : ∀ c ∈ Call.monitor (MonitorHook.beforeEnteringState i) :: tb,
        isEnterCall i c = true := by
      intro c hm
      rcases List.mem_cons.mp hm with h1 | h1
      · rw [h1]; simp [isEnterCall]
      · exact enterCall_of_entryCall (hqb c h1)
    by_cases hfin : USCXML_STATE_MASK (USCXML_GET_STATE E i).type = USCXML_STATE_FINAL
    · cases htop : isTopLevel E i
      · -- a final state below another state
        have h1 := handleFinal_nested cb i (enterBody cb ts i r)
          (by rw [hst.getState]; exact hfin) (by rw [hst.isTopLevel]; exact htop)
        rw [h1]
        obtain ⟨tp, htp, hqp⟩ := parallelDones_emits cb i
          (List.range (USCXML_NUMBER_STATES (enterBody cb ts i r).eng))
          (callRaiseDoneEvent cb i (USCXML_GET_STATE (enterBody cb ts i r).eng i).parent
            (USCXML_GET_STATE (enterBody cb ts i r).eng i).doneData (enterBody cb ts i r))
        have hflags : ((List.range (USCXML_NUMBER_STATES (enterBody cb ts i r).eng)).foldl
            (parallelDone cb i)
            (callRaiseDoneEvent cb i (USCXML_GET_STATE (enterBody cb ts i r).eng i).parent
              (USCXML_GET_STATE (enterBody cb ts i r).eng i).doneData
              (enterBody cb ts i r))).eng.flags = r.eng.flags := by
          rw [parallelDones_eng, callRaiseDoneEvent_eng, hfl]
        refine ⟨Call.monitor (MonitorHook.beforeEnteringState i) :: tb ++
          Call.raiseDoneEvent i (USCXML_GET_STATE E i).parent (USCXML_GET_STATE E i).doneData
            :: tp, ?_, ?_, ?_, ?_, ?_⟩
        · rw [htp, callRaiseDoneEvent_trace, htb, hst.getState]
          simp
        · intro c hm
          rcases List.mem_append.mp hm with h2 | h2
          · exact hcl c h2
          · rcases List.mem_cons.mp h2 with h3 | h3
            · rw [h3]; simp [isEnterCall]
            · exact hqp c h3
        · intro _ _
          refine ⟨fun h => (by cases h), fun _ => ?_⟩
          exact List.mem_append_right _ (List.mem_cons_self _ _)
        · intro h; rw [hflags]; exact h
        · intro h; rw [hflags] at h; exact Or.inl h
      · -- a final state whose only ancestor is the root
        have hfl2 := handleFinal_topLevel_flags cb i (enterBody cb ts i r)
          (by rw [hst.getState]; exact hfin) (by rw [hst.isTopLevel]; exact htop)
        have hset : hasFlag (handleFinal cb i (enterBody cb ts i r)).eng.flags
            USCXML_CTX_TOP_LEVEL_FINAL = true := by
          rw [hfl2]
          exact hasFlag_or_self _ _ (by decide)
        obtain ⟨tp, htp, hqp⟩ := handleFinal_emits cb i (enterBody cb ts i r)
        refine ⟨Call.monitor (MonitorHook.beforeEnteringState i) :: tb ++ tp, ?_, ?_, ?_, ?_,
          ?_⟩
        · rw [htp, htb]
          simp
        · intro c hm
          rcases List.mem_append.mp hm with h2 | h2
          · exact hcl c h2
          · exact hqp c h2
        · intro _ _
          refine ⟨fun _ => ⟨hset, fun hroot => ?_⟩, fun h => (by cases h)⟩
          have h1 := handleFinal_topLevel cb i (enterBody cb ts i r)
            (by rw [hst.getState]; exact hfin) (by rw [hst.isTopLevel]; exact htop)
            (by rw [hst.getState]; exact hroot)
          have htp0 : tp = [] := by
            rw [h1, setFlags_trace] at htp
            simpa using htp
          rw [htp0, List.append_nil]
          exact hnr
        · intro _; exact hset
        · intro _
          exact Or.inr ⟨List.mem_append_left _ (List.mem_cons_self _ _), hfin, rfl⟩
    · have h1 := handleFinal_other cb i (enterBody cb ts i r)
        (by rw [hst.getState]; exact hfin)
      rw [h1]
      refine ⟨Call.monitor (MonitorHook.beforeEnteringState i) :: tb, htb, hcl, ?_, ?_, ?_⟩
      · intro _ h; exact absurd h hfin
      · intro h; rw [hfl]; exact h
      · intro h; rw [hfl] at h; exact Or.inl h

end finals

section finals
variable {H : Type} (cb : MicroStepCallbacks H)

/-- The loop ENTER_STATES with regard to final states. -/
theorem enterStates_finals (es ts : Bitset) (r0 : Run H) (E : Engine)
    (hE : Static E r0.eng) :
    ∃ t, (enterStates cb es ts r0).trace = r0.trace ++ t ∧
      (∀ c ∈ t, ∃ i, isEnterCall i c = true) ∧
      (∀ i, Call.monitor (MonitorHook.beforeEnteringState i) ∈ t →
        USCXML_STATE_MASK (USCXML_GET_STATE E i).type = USCXML_STATE_FINAL →
        (isTopLevel E i = true →
          hasFlag (enterStates cb es ts r0).eng.flags USCXML_CTX_TOP_LEVEL_FINAL = true ∧
            (USCXML_STATE_MASK (USCXML_GET_STATE E 0).type ≠ USCXML_STATE_PARALLEL →
              ∀ s d, Call.raiseDoneEvent i s d ∉ t)) ∧
        (isTopLevel E i = false →
          Call.raiseDoneEvent i (USCXML_GET_STATE E i).parent (USCXML_GET_STATE E i).doneData
            ∈ t)) ∧
      (hasFlag (enterStates cb es ts r0).eng.flags USCXML_CTX_TOP_LEVEL_FINAL = true →
        hasFlag r0.eng.flags USCXML_CTX_TOP_LEVEL_FINAL = true ∨
          ∃ i, Call.monitor (MonitorHook.beforeEnteringState i) ∈ t ∧
            USCXML_STATE_MASK (USCXML_GET_STATE E i).type = USCXML_STATE_FINAL ∧
            isTopLevel E i = true) := by
  have key := foldl_prefix
    (fun (pre : List Nat) (r : Run H) => Static E r.eng ∧
      ∃ t, r.trace = r0.trace ++ t ∧
      (∀ c ∈ t, ∃ i ∈ pre, isEnterCall i c = true) ∧
      (∀ i, Call.monitor (MonitorHook.beforeEnteringState i) ∈ t →
        USCXML_STATE_MASK (USCXML_GET_STATE E i).type = USCXML_STATE_FINAL →
        (isTopLevel E i = true →
          hasFlag r.eng.flags USCXML_CTX_TOP_LEVEL_FINAL = true ∧
            (USCXML_STATE_MASK (USCXML_GET_STATE E 0).type ≠ USCXML_STATE_PARALLEL →
              ∀ s d, Call.raiseDoneEvent i s d ∉ t)) ∧
        (isTopLevel E i = false →
          Call.raiseDoneEvent i (USCXML_GET_STATE E i).parent (USCXML_GET_STATE E i).doneData
            ∈ t)) ∧
      (hasFlag r.eng.flags USCXML_CTX_TOP_LEVEL_FINAL = true →
        hasFlag r0.eng.flags USCXML_CTX_TOP_LEVEL_FINAL = true ∨
          ∃ i, Call.monitor (MonitorHook.beforeEnteringState i) ∈ t ∧
            USCXML_STATE_MASK (USCXML_GET_STATE E i).type = USCXML_STATE_FINAL ∧
            isTopLevel E i = true))
    (enterState cb es ts) (List.range r0.eng.states.length) r0
    ⟨hE, [], by simp, by simp, by simp, fun h => Or.inl h⟩
    (by
      intro pre i post r hl ⟨hst, t, ht, hcl, hfin, hflag⟩
      have hnd : i ∉ pre := by
        have := List.nodup_range r0.eng.states.length
        rw [hl] at this
        have h2 := (List.nodup_append.mp this).2.2
        intro hi
        exact h2 hi (List.mem_cons_self _ _)
      obtain ⟨ti, hti, hcli, hfini, hmono, hnew⟩ := enterState_final cb es ts r i E hst
      refine ⟨hst.chain (enterState_changes cb es ts r i).static, t ++ ti, ?_, ?_, ?_, ?_⟩
      · rw [hti, ht, List.append_assoc]
      · intro c hc
        rcases List.mem_append.mp hc with h | h
        · obtain ⟨j, hj, hq⟩ := hcl c h
          exact ⟨j, List.mem_append_left _ hj, hq⟩
        · exact ⟨i, List.mem_append_right _ (List.mem_singleton.mpr rfl), hcli c h⟩
      · intro j hj hjf
        rcases List.mem_append.mp hj with h | h
        · -- the state `j` was entered by an earlier iteration
          obtain ⟨k, hk, hq⟩ := hcl _ h
          have hjk : j = k := isEnterCall_before hq
          have hji : j ≠ i := by
            intro hji
            rw [hji] at hjk
            rw [hjk] at hnd
            exact hnd hk
          obtain ⟨h1, h2⟩ := hfin j h hjf
          refine ⟨fun htop => ⟨hmono (h1 htop).1, ?_⟩,
            fun htop => List.mem_append_left _ (h2 htop)⟩
          intro hroot s d hm
          rcases List.mem_append.mp hm with h3 | h3
          · exact (h1 htop).2 hroot s d h3
          · exact hji (isEnterCall_raise (hcli _ h3))
        · -- the state `j` is the state of this iteration
          have hji : j = i := isEnterCall_before (hcli _ h)
          subst hji
          obtain ⟨h1, h2⟩ := hfini h hjf
          refine ⟨fun htop => ⟨(h1 htop).1, ?_⟩,
            fun htop => List.mem_append_right _ (h2 htop)⟩
          intro hroot s d hm
          rcases List.mem_append.mp hm with h3 | h3
          · obtain ⟨k, hk, hq⟩ := hcl _ h3
            have : j = k := isEnterCall_raise hq
            rw [this] at hnd
            exact hnd hk
          · exact (h1 htop).2 hroot s d h3
      · intro hf
        rcases hnew hf with h | ⟨h1, h2, h3⟩
        · rcases hflag h with h4 | ⟨j, hj1, hj2, hj3⟩
          · exact Or.inl h4
          · exact Or.inr ⟨j, List.mem_append_left _ hj1, hj2, hj3⟩
        · exact Or.inr ⟨i, List.mem_append_right _ h1, h2, h3⟩)
  obtain ⟨_, t, ht, hcl, hfin, hflag⟩ := key
  exact ⟨t, ht, fun c hc => (hcl c hc).imp (fun i hi => hi.2), hfin, hflag⟩

theorem not_enter_of_prelude {c : Call} (h : isPreludeCall c = true) :
    (∀ i, c ≠ Call.monitor (MonitorHook.beforeEnteringState i)) ∧
      ∀ i s d, c ≠ Call.raiseDoneEvent i s d := by
  constructor
  · intro i hc; rw [hc] at h; cases h
  · intro i s d hc; rw [hc] at h; cases h

theorem not_enter_of_exit {j : Nat} {c : Call} (h : isExitCall j c = true) :
    (∀ i, c ≠ Call.monitor (MonitorHook.beforeEnteringState i)) ∧
      ∀ i s d, c ≠ Call.raiseDoneEvent i s d := by
  constructor
  · intro i hc; rw [hc] at h; cases h
  · intro i s d hc; rw [hc] at h; cases h

theorem not_enter_of_take {j : Nat} {c : Call} (h : isTakeCall j c = true) :
    (∀ i, c ≠ Call.monitor (MonitorHook.beforeEnteringState i)) ∧
      ∀ i s d, c ≠ Call.raiseDoneEvent i s d := by
  constructor
  · intro i hc; rw [hc] at h; cases h
  · intro i s d hc; rw [hc] at h; cases h

theorem not_enter_of_closing {c : Call} (h : isClosingCall c = true) :
    (∀ i, c ≠ Call.monitor (MonitorHook.beforeEnteringState i)) ∧
      ∀ i s d, c ≠ Call.raiseDoneEvent i s d := by
  constructor
  · intro i hc; rw [hc] at h; cases h
  · intro i s d hc; rw [hc] at h; cases h

/-- A micro-step with regard to final states, from a run in which no state was entered
yet. -/
theorem microstep_finals (t x ts : Bitset) (r : Run H) (E : Engine) (hE : Static E r.eng)
    (hpre : ∀ c ∈ r.trace, isPreludeCall c = true) :
    (∀ i, Call.monitor (MonitorHook.beforeEnteringState i) ∈ (microstep cb t x ts r).2.trace →
        USCXML_STATE_MASK (USCXML_GET_STATE E i).type = USCXML_STATE_FINAL →
        (isTopLevel E i = true →
          hasFlag (microstep cb t x ts r).2.eng.flags USCXML_CTX_TOP_LEVEL_FINAL = true ∧
            (USCXML_STATE_MASK (USCXML_GET_STATE E 0).type ≠ USCXML_STATE_PARALLEL →
              ∀ s d, Call.raiseDoneEvent i s d ∉ (microstep cb t x ts r).2.trace)) ∧
        (isTopLevel E i = false →
          Call.raiseDoneEvent i (USCXML_GET_STATE E i).parent (USCXML_GET_STATE E i).doneData
            ∈ (microstep cb t x ts r).2.trace)) ∧
      (hasFlag (microstep cb t x ts r).2.eng.flags USCXML_CTX_TOP_LEVEL_FINAL = true →
        hasFlag r.eng.flags USCXML_CTX_TOP_LEVEL_FINAL = true ∨
          ∃ i, Call.monitor (MonitorHook.beforeEnteringState i) ∈
              (microstep cb t x ts r).2.trace ∧
            USCXML_STATE_MASK (USCXML_GET_STATE E i).type = USCXML_STATE_FINAL ∧
            isTopLevel E i = true) := by
  obtain ⟨tX, eX, qX⟩ := exitStates_emits cb x r
  obtain ⟨tT, eT, qT⟩ := takeTransitions_emits cb (establishEntrySet r.eng t x ts).2
    (exitStates cb x r)
  have hst0 : Static E
      (takeTransitions cb (establishEntrySet r.eng t x ts).2 (exitStates cb x r)).eng := by
    rw [takeTransitions_eng]
    exact hE.chain (exitStates_changes cb x r).static
  have hfl0 : (takeTransitions cb (establishEntrySet r.eng t x ts).2
      (exitStates cb x r)).eng.flags = r.eng.flags := by
    rw [takeTransitions_eng]
    exact (exitStates_changes cb x r).flags_eq rfl
  obtain ⟨tN, eN, qN, hfin, hflag⟩ := enterStates_finals cb (establishEntrySet r.eng t x ts).1
    (establishEntrySet r.eng t x ts).2
    (takeTransitions cb (establishEntrySet r.eng t x ts).2 (exitStates cb x r)) E hst0
  obtain ⟨tC, eC, qC⟩ := recordConfiguration_emits cb
    (callMonitor cb MonitorHook.afterMicroStep
      (enterStates cb (establishEntrySet r.eng t x ts).1 (establishEntrySet r.eng t x ts).2
        (takeTransitions cb (establishEntrySet r.eng t x ts).2 (exitStates cb x r))))
  have htrace : (microstep cb t x ts r).2.trace =
      (r.trace ++ tX ++ tT) ++ tN ++ (Call.monitor MonitorHook.afterMicroStep :: tC) := by
    unfold microstep
    simp only []
    rw [eC, callMonitor_trace, eN, eT, eX]
    simp
  have hflags : (microstep cb t x ts r).2.eng.flags =
      (enterStates cb (establishEntrySet r.eng t x ts).1 (establishEntrySet r.eng t x ts).2
        (takeTransitions cb (establishEntrySet r.eng t x ts).2 (exitStates cb x r))).eng.flags := by
    unfold microstep
    simp only []
    rw [(recordConfiguration_changes cb _).flags_eq rfl, callMonitor_eng]
  -- calls outside ENTER_STATES neither enter a state nor raise a done event
  have hout : ∀ c, c ∈ r.trace ++ tX ++ tT ∨ c ∈ Call.monitor MonitorHook.afterMicroStep :: tC →
      (∀ i, c ≠ Call.monitor (MonitorHook.beforeEnteringState i)) ∧
        ∀ i s d, c ≠ Call.raiseDoneEvent i s d := by
    intro c hc
    rcases hc with hc | hc
    · rcases List.mem_append.mp hc with h1 | h1
      · rcases List.mem_append.mp h1 with h2 | h2
        · exact not_enter_of_prelude (hpre c h2)
        · obtain ⟨j, hj⟩ := qX c h2
          exact not_enter_of_exit hj
      · obtain ⟨j, hj⟩ := qT c h1
        exact not_enter_of_take hj
    · rcases List.mem_cons.mp hc with h1 | h1
      · rw [h1]; exact not_enter_of_closing rfl
      · exact not_enter_of_closing (qC c h1)
  have hmem : ∀ c, ((∃ i, c = Call.monitor (MonitorHook.beforeEnteringState i)) ∨
      ∃ i s d, c = Call.raiseDoneEvent i s d) →
      (c ∈ (microstep cb t x ts r).2.trace ↔ c ∈ tN) := by
    intro c hc
    rw [htrace]
    constructor
    · intro hm
      rcases List.mem_append.mp hm with h1 | h1
      · rcases List.mem_append.mp h1 with h2 | h2
        · rcases hc with ⟨i, hi⟩ | ⟨i, s, d, hi⟩
          · exact absurd hi ((hout c (Or.inl h2)).1 i)
          · exact absurd hi ((hout c (Or.inl h2)).2 i s d)
        · exact h2
      · rcases hc with ⟨i, hi⟩ | ⟨i, s, d, hi⟩
        · exact absurd hi ((hout c (Or.inr h1)).1 i)
        · exact absurd hi ((hout c (Or.inr h1)).2 i s d)
    · intro hm
      exact List.mem_append_left _ (List.mem_append_right _ hm)
  refine ⟨?_, ?_⟩
  · intro i hi hf
    rw [hmem _ (Or.inl ⟨i, rfl⟩)] at hi
    obtain ⟨h1, h2⟩ := hfin i hi hf
    refine ⟨fun htop => ⟨by rw [hflags]; exact (h1 htop).1, ?_⟩, fun htop => ?_⟩
    · intro hroot s d hm
      rw [hmem _ (Or.inr ⟨i, s, d, rfl⟩)] at hm
      exact (h1 htop).2 hroot s d hm
    · rw [hmem _ (Or.inr ⟨i, _, _, rfl⟩)]
      exact h2 htop
  · intro hf
    rw [hflags] at hf
    rcases hflag hf with h | ⟨i, h1, h2, h3⟩
    · rw [hfl0] at h
      exact Or.inl h
    · exact Or.inr ⟨i, by rw [hmem _ (Or.inl ⟨i, rfl⟩)]; exact h1, h2, h3⟩

end finals

section finals
variable {H : Type} (cb : MicroStepCallbacks H)

theorem selectTransitions_quiet (r : Run H) (hr : ∀ c ∈ r.trace, isPreludeCall c = true)
    (hres : (selectTransitions cb r).1 ≠ InterpreterState.USCXML_MICROSTEPPED) :
    ∀ c ∈ (selectTransitions cb r).2.trace, isPreludeCall c = true := by
  cases h : hasFlag (selectionOf cb r).1.eng.flags USCXML_CTX_TRANSITION_FOUND
  · rw [selectTransitions_none cb r h]
    intro c hc
    rw [setFlags_trace] at hc
    rcases (selectionOf_emits cb r).mem hc with h1 | h1
    · exact hr c h1
    · exact isPreludeCall_of_select (Or.inl h1)
  · rw [selectTransitions_found cb r h] at hres
    exact absurd rfl hres

/-- A step that does not return Microstepped makes only calls that precede a micro-step, or
the calls of the terminal step. -/
theorem step_quiet (b : Bool) (e : Engine) (h : H)
    (hres : (step cb b e h).1 ≠ InterpreterState.USCXML_MICROSTEPPED) :
    ∀ c ∈ (step cb b e h).2.trace, isPreludeCall c = true ∨ isCompletionCall c = true := by
  cases hi : e.isInitialized
  · rw [step_uninitialized cb b e h hi]
    simp
  cases hf : hasFlag e.flags USCXML_CTX_FINISHED
  swap
  · rw [step_finished cb b e h hi hf]
    simp
  cases ht : hasFlag e.flags USCXML_CTX_TOP_LEVEL_FINAL
  swap
  · rw [step_topLevelFinal cb b e h hi hf ht]
    intro c hc
    rcases (completeStep_emits cb _).mem hc with h1 | h1
    · cases h1
    · exact Or.inr h1
  by_cases hp : e.flags = USCXML_CTX_PRISTINE
  · rw [step_pristine cb b e h hi hp] at hres
    exact absurd rfl hres
  cases hs : hasFlag e.flags USCXML_CTX_SPONTANEOUS
  swap
  · rw [step_spontaneous cb b e h hi hf ht hs] at hres ⊢
    intro c hc
    exact Or.inl (selectTransitions_quiet cb _ (by simp) hres c hc)
  cases hev : (cb.dequeueInternal h).1 with
  | some ev =>
    rw [step_internal cb b e h hi hf ht hp hs ev hev] at hres ⊢
    intro c hc
    refine Or.inl (selectTransitions_quiet cb _ ?_ hres c hc)
    intro c hc
    simp only [callMonitor_trace, callDequeueInternal_trace, List.nil_append,
      List.cons_append, List.mem_cons, List.mem_singleton, List.not_mem_nil, or_false] at hc
    rcases hc with rfl | rfl <;> rfl
  | none =>
    rw [step_external cb b e h hi hf ht hp hs hev] at hres ⊢
    obtain ⟨_, h2, _⟩ := afterDequeueExternal cb b
      (callDequeueInternal cb { eng := e, host := h, trace := [] })
      (by intro c hc; have : c = Call.dequeueInternal := by simpa using hc
          rw [this]; rfl)
    cases hx : (callDequeueExternal cb b (signalStable cb (manageInvocations cb
        (callDequeueInternal cb { eng := e, host := h, trace := [] })))).eng.event with
    | none =>
      cases hc : (callDequeueExternal cb b (signalStable cb (manageInvocations cb
          (callDequeueInternal cb { eng := e, host := h, trace := [] })))).eng.isCancelled
      · rw [awaitExternal_idle cb b _ hx hc]
        exact fun c hc => Or.inl (h2 c hc)
      · rw [awaitExternal_cancelled cb b _ hx hc]
        exact fun c hc => Or.inl (h2 c hc)
    | some ev =>
      rw [awaitExternal_event cb b _ ev hx] at hres ⊢
      intro c hc
      refine Or.inl (selectTransitions_quiet cb _ ?_ hres c hc)
      intro c hc
      rw [callMonitor_trace] at hc
      rcases List.mem_append.mp hc with h4 | h4
      · exact h2 c h4
      · have : c = Call.monitor (MonitorHook.beforeProcessingEvent ev) := by simpa using h4
        rw [this]; rfl

end finals

section

variable {H : Type} (cb : MicroStepCallbacks H)

theorem BIT_CLEAR_absent (i : Nat) (b : Bitset) (h : BIT_HAS i b = false) : BIT_CLEAR i b = b := by
  apply Nat.eq_of_testBit_eq
  intro j
  have := BIT_HAS_clear i j b
  simp only [BIT_HAS] at this h ⊢
  rw [this]
  by_cases hij : i = j
  · subst hij; simp [h]
  · simp [hij]

theorem BIT_SET_AT_present (i : Nat) (b : Bitset) (h : BIT_HAS i b = true) : BIT_SET_AT i b = b := by
  apply Nat.eq_of_testBit_eq
  intro j
  have := BIT_HAS_set i j b
  simp only [BIT_HAS] at this h ⊢
  rw [this]
  by_cases hij : i = j
  · subst hij; simp [h]
  · simp [hij]

theorem flatMap_agree {α β : Type} (f g : α → List β) (l : List α) (h : ∀ a ∈ l, f a = g a) :
    l.flatMap f = l.flatMap g := by
  induction l with
  | nil => rfl
  | cons a l ih =>
    simp only [List.flatMap_cons]
    rw [h a (List.mem_cons_self _ _), ih (fun x hx => h x (List.mem_cons_of_mem _ hx))]

theorem completionState_eng (r : Run H) (i : Nat) :
    (completionState cb r i).eng =
      { r.eng with invocations := BIT_CLEAR i r.eng.invocations } := by
  unfold completionState
  by_cases hc : BIT_HAS i r.eng.configuration = true
  · by_cases hv : BIT_HAS i r.eng.invocations = true
    · simp [hc, hv, (foldl_callProcess cb _ _ _).1, (foldl_callUninvoke cb _ _ _).1,
        Run.setInvocations]
    · have hv2 : BIT_HAS i r.eng.invocations = false := by simpa using hv
      simp [hc, hv2, (foldl_callProcess cb _ _ _).1, BIT_CLEAR_absent]
  · have hc2 : BIT_HAS i r.eng.configuration = false := by simpa using hc
    by_cases hv : BIT_HAS i r.eng.invocations = true
    · simp [hc2, hv, (foldl_callUninvoke cb _ _ _).1, Run.setInvocations]
    · have hv2 : BIT_HAS i r.eng.invocations = false := by simpa using hv
      simp [hc2, hv2, BIT_CLEAR_absent]

theorem completionState_trace (r : Run H) (i : Nat) :
    (completionState cb r i).trace = r.trace ++ completionCalls r.eng i := by
  unfold completionState completionCalls
  by_cases hc : BIT_HAS i r.eng.configuration = true
  · by_cases hv : BIT_HAS i r.eng.invocations = true
    · simp [hc, hv, (foldl_callProcess cb _ _ _).1, (foldl_callProcess cb _ _ _).2,
        (foldl_callUninvoke cb _ _ _).2, Run.setInvocations]
    · have hv2 : BIT_HAS i r.eng.invocations = false := by simpa using hv
      simp [hc, hv2, (foldl_callProcess cb _ _ _).1, (foldl_callProcess cb _ _ _).2]
  · have hc2 : BIT_HAS i r.eng.configuration = false := by simpa using hc
    by_cases hv : BIT_HAS i r.eng.invocations = true
    · simp [hc2, hv, (foldl_callUninvoke cb _ _ _).2, Run.setInvocations]
    · have hv2 : BIT_HAS i r.eng.invocations = false := by simpa using hv
      simp [hc2, hv2]

/-- The loop of the terminal step over a list of distinct states. -/
theorem completionStates_fold (l : List Nat) (hl : l.Nodup) (r : Run H) :
    (l.foldl (completionState cb) r).trace = r.trace ++ l.flatMap (completionCalls r.eng) ∧
    (∀ j, BIT_HAS j (l.foldl (completionState cb) r).eng.invocations =
      (BIT_HAS j r.eng.invocations && !decide (j ∈ l))) ∧
    Changes { invocations := true } r.eng (l.foldl (completionState cb) r).eng := by
  induction l generalizing r with
  | nil => simp [Changes.none]
  | cons i l ih =>
    have hnd := List.nodup_cons.mp hl
    obtain ⟨h1, h2, h3⟩ := ih hnd.2 (completionState cb r i)
    simp only [List.foldl_cons, List.flatMap_cons]
    refine ⟨?_, ?_, ?_⟩
    · rw [h1, completionState_trace, List.append_assoc]
      congr 2
      apply flatMap_agree
      intro j hj
      have hji : i ≠ j := fun hEq => hnd.1 (hEq ▸ hj)
      unfold completionCalls
      rw [completionState_eng]
      simp [BIT_HAS_clear, hji, USCXML_GET_STATE]
    · intro j
      rw [h2, completionState_eng]
      simp only [BIT_HAS_clear, List.mem_cons]
      by_cases hij : i = j
      · subst hij; simp
      · have hji : ¬ j = i := fun hEq => hij hEq.symm
        simp [hij, hji]
    · exact Changes.andThen (completionState_changes cb r i) h3

theorem completeStep_exact (r : Run H) :
    (completeStep cb r).2.trace =
      r.trace ++ Call.monitor MonitorHook.beforeCompletion ::
        ((downRange (USCXML_NUMBER_STATES r.eng)).flatMap (completionCalls r.eng) ++
          [Call.monitor MonitorHook.afterCompletion]) ∧
    (∀ j, BIT_HAS j (completeStep cb r).2.eng.invocations =
      (BIT_HAS j r.eng.invocations && decide (USCXML_NUMBER_STATES r.eng ≤ j))) := by
  have hnd : (downRange (USCXML_NUMBER_STATES r.eng)).Nodup := by
    unfold downRange
    exact List.nodup_reverse.mpr (List.nodup_range _)
  obtain ⟨h1, h2, _⟩ := completionStates_fold cb _ hnd
    (callMonitor cb MonitorHook.beforeCompletion r)
  unfold completeStep
  simp only [callMonitor_eng, callMonitor_trace, Run.setFlags] at h1 h2 ⊢
  refine ⟨?_, ?_⟩
  · rw [h1]; simp
  · intro j
    rw [h2 j]
    by_cases hj : j < USCXML_NUMBER_STATES r.eng
    · have : ¬ USCXML_NUMBER_STATES r.eng ≤ j := by omega
      simp [downRange, hj, this]
    · have : USCXML_NUMBER_STATES r.eng ≤ j := by omega
      simp [downRange, hj, this]

end

section

variable {H : Type} (cb : MicroStepCallbacks H)

theorem hasFlag_zero (m : Nat) : hasFlag 0 m = false := by
  simp [hasFlag]

/-- The branches of `step`. -/
theorem step_cases (b : Bool) (e : Engine) (h : H) :
    (e.isInitialized = false ∧
      step cb b e h =
        (InterpreterState.USCXML_INITIALIZED, { eng := init e, host := h, trace := [] })) ∨
    (e.isInitialized = true ∧ hasFlag e.flags USCXML_CTX_FINISHED = true ∧
      step cb b e h = (InterpreterState.USCXML_FINISHED, { eng := e, host := h, trace := [] })) ∨
    (e.isInitialized = true ∧ hasFlag e.flags USCXML_CTX_FINISHED = false ∧
      hasFlag e.flags USCXML_CTX_TOP_LEVEL_FINAL = true ∧
      step cb b e h = completeStep cb { eng := e, host := h, trace := [] }) ∨
    (e.isInitialized = true ∧ e.flags = USCXML_CTX_PRISTINE ∧
      step cb b e h =
        microstep cb (USCXML_GET_STATE e 0).completion 0 0
          (callMonitor cb MonitorHook.beforeMicroStep
            { eng := { e with flags := USCXML_CTX_SPONTANEOUS ||| USCXML_CTX_INITIALIZED },
              host := h, trace := [] })) ∨
    (reachesSync cb e h = false ∧ e.isInitialized = true ∧
      hasFlag e.flags USCXML_CTX_FINISHED = false ∧
      hasFlag e.flags USCXML_CTX_TOP_LEVEL_FINAL = false ∧ e.flags ≠ USCXML_CTX_PRISTINE ∧
      hasFlag e.flags USCXML_CTX_SPONTANEOUS = true ∧
      step cb b e h = selectTransitions cb { eng := { e with event := none }, host := h, trace := [] }) ∨
    (reachesSync cb e h = false ∧ e.isInitialized = true ∧
      hasFlag e.flags USCXML_CTX_FINISHED = false ∧
      hasFlag e.flags USCXML_CTX_TOP_LEVEL_FINAL = false ∧ e.flags ≠ USCXML_CTX_PRISTINE ∧
      hasFlag e.flags USCXML_CTX_SPONTANEOUS = false ∧
      ∃ ev, (cb.dequeueInternal h).1 = some ev ∧
        step cb b e h =
          selectTransitions cb (callMonitor cb (MonitorHook.beforeProcessingEvent ev)
            (callDequeueInternal cb { eng := e, host := h, trace := [] }))) ∨
    (reachesSync cb e h = true ∧
      ∃ ev, externalEvent cb b e h = some ev ∧
        step cb b e h =
          selectTransitions cb (callMonitor cb (MonitorHook.beforeProcessingEvent ev)
            (atExternal cb b e h))) ∨
    (reachesSync cb e h = true ∧ externalEvent cb b e h = none ∧ e.isCancelled = true ∧
      step cb b e h =
        (InterpreterState.USCXML_CANCELLED,
          (atExternal cb b e h).setFlags
            ((atExternal cb b e h).eng.flags ||| USCXML_CTX_TOP_LEVEL_FINAL))) ∨
    (reachesSync cb e h = true ∧ externalEvent cb b e h = none ∧ e.isCancelled = false ∧
      step cb b e h = (InterpreterState.USCXML_IDLE, atExternal cb b e h)) := by
  rcases Bool.eq_false_or_eq_true e.isInitialized with hi | hi
  swap
  · exact Or.inl ⟨hi, step_uninitialized cb b e h hi⟩
  rcases Bool.eq_false_or_eq_true (hasFlag e.flags USCXML_CTX_FINISHED) with hf | hf
  · right; left
    exact ⟨hi, hf, step_finished cb b e h hi hf⟩
  rcases Bool.eq_false_or_eq_true (hasFlag e.flags USCXML_CTX_TOP_LEVEL_FINAL) with ht | ht
  · right; right; left
    exact ⟨hi, hf, ht, step_topLevelFinal cb b e h hi hf ht⟩
  by_cases hp : e.flags = USCXML_CTX_PRISTINE
  · right; right; right; left
    exact ⟨hi, hp, step_pristine cb b e h hi hp⟩
  rcases Bool.eq_false_or_eq_true (hasFlag e.flags USCXML_CTX_SPONTANEOUS) with hs | hs
  · right; right; right; right; left
    refine ⟨?_, hi, hf, ht, hp, hs, step_spontaneous cb b e h hi hf ht hs⟩
    simp [reachesSync, hs]
  cases hev : (cb.dequeueInternal h).1 with
  | some ev =>
    right; right; right; right; right; left
    refine ⟨?_, hi, hf, ht, hp, hs, ev, rfl, step_internal cb b e h hi hf ht hp hs ev hev⟩
    simp [reachesSync, hev]
  | none =>
    have hsync : reachesSync cb e h = true := by
      simp [reachesSync, hi, hf, ht, hs, hev, hp]
    have hstep := step_external cb b e h hi hf ht hp hs hev
    have hcan : (atExternal cb b e h).eng.isCancelled = e.isCancelled := by
      have := (afterDequeueExternal cb b
        (callDequeueInternal cb { eng := e, host := h, trace := [] }) (by simp [isPreludeCall])).1
      exact this.2.2.2.2.trans (callDequeueInternal_changes cb _).static.2.2.2.2
    rcases hx : externalEvent cb b e h with _ | ev
    · rcases Bool.eq_false_or_eq_true e.isCancelled with hc | hc
      · right; right; right; right; right; right; right; left
        refine ⟨hsync, rfl, hc, ?_⟩
        rw [hstep]
        exact awaitExternal_cancelled cb b _ hx (hcan.trans hc)
      · right; right; right; right; right; right; right; right
        refine ⟨hsync, rfl, hc, ?_⟩
        rw [hstep]
        exact awaitExternal_idle cb b _ hx (hcan.trans hc)
    · right; right; right; right; right; right; left
      refine ⟨hsync, ev, rfl, ?_⟩
      rw [hstep]
      exact awaitExternal_event cb b _ ev hx

/-- The members of the engine that a step leaves alone up to the call of `dequeueExternal`. -/
theorem atExternal_changes (b : Bool) (e : Engine) (h : H) :
    Changes syncFields e (atExternal cb b e h).eng := by
  unfold atExternal
  refine Changes.andThen (Changes.andThen (Changes.andThen
    ((callDequeueInternal_changes cb { eng := e, host := h, trace := [] }).widen ?_)
    ((manageInvocations_changes cb _).widen ?_)) ((signalStable_changes cb _).widen ?_))
    ((callDequeueExternal_changes cb b _).widen ?_) <;> simp [Fields.le, syncFields]

/-- A step leaves the cancellation mark alone. -/
theorem step_isCancelled (b : Bool) (e : Engine) (h : H) :
    (step cb b e h).2.eng.isCancelled = e.isCancelled := by
  cases hi : e.isInitialized
  · rw [step_uninitialized cb b e h hi]
    rfl
  · exact (step_proper cb b e h hi).1.2.2.2.2

theorem concat_split {α : Type} (l : List α) (a c : α) (hac : a ≠ c) (P : List α → Prop) :
    (∃ pre post, l ++ [a] = pre ++ c :: post ∧ P post) ↔
      ∃ pre post, l = pre ++ c :: post ∧ P (post ++ [a]) := by
  constructor
  · rintro ⟨pre, post, heq, hp⟩
    rcases List.eq_nil_or_concat post with hnil | ⟨L, x, hL⟩
    · subst hnil
      have h2 : l ++ [a] = pre ++ [c] := heq
      have := (List.append_inj' h2 rfl).2
      simp at this
      exact absurd this hac
    · subst hL
      have h2 : l ++ [a] = (pre ++ c :: L) ++ [x] := by simpa using heq
      have h3 := List.append_inj' h2 rfl
      have hx : a = x := by simpa using h3.2
      subst hx
      exact ⟨pre, L, h3.1, by simpa using hp⟩
  · rintro ⟨pre, post, heq, hp⟩
    exact ⟨pre, post ++ [a], by simp [heq], hp⟩

/-- The cancellation mark of a run: `markAsCancelled` was called and `reset` was not called
after it. -/
theorem run_isCancelled (scxml : Index) (h : H) (actions : List (Action H)) :
    (run cb scxml h actions).1.isCancelled = true ↔
      ∃ pre post, actions = pre ++ Action.cancel :: post ∧ ∀ a ∈ post, a ≠ Action.reset := by
  induction actions using List.reverseRecOn with
  | nil =>
    simp [run, construct]
  | append_singleton l a ih =>
    have hrun : run cb scxml h (l ++ [a]) = applyAction cb (run cb scxml h l) a := by
      simp [run, List.foldl_append]
    rw [hrun]
    cases a with
    | step b =>
      rw [concat_split l (Action.step b) Action.cancel (by simp)
        (fun post => ∀ a ∈ post, a ≠ Action.reset)]
      simp only [applyAction, step_isCancelled, ih]
      constructor
      · rintro ⟨pre, post, h1, h2⟩
        refine ⟨pre, post, h1, ?_⟩
        intro a ha
        rcases List.mem_append.mp ha with h3 | h3
        · exact h2 a h3
        · simp at h3; subst h3; simp
      · rintro ⟨pre, post, h1, h2⟩
        exact ⟨pre, post, h1, fun a ha => h2 a (List.mem_append_left _ ha)⟩
    | env host =>
      rw [concat_split l (Action.env host) Action.cancel (by simp)
        (fun post => ∀ a ∈ post, a ≠ Action.reset)]
      simp only [applyAction, ih]
      constructor
      · rintro ⟨pre, post, h1, h2⟩
        refine ⟨pre, post, h1, ?_⟩
        intro a ha
        rcases List.mem_append.mp ha with h3 | h3
        · exact h2 a h3
        · simp at h3; subst h3; simp
      · rintro ⟨pre, post, h1, h2⟩
        exact ⟨pre, post, h1, fun a ha => h2 a (List.mem_append_left _ ha)⟩
    | cancel =>
      simp only [applyAction, markAsCancelled, true_iff]
      exact ⟨l, [], rfl, by simp⟩
    | reset =>
      rw [concat_split l Action.reset Action.cancel (by simp)
        (fun post => ∀ a ∈ post, a ≠ Action.reset)]
      simp only [applyAction, reset]
      constructor
      · intro hc; cases hc
      · rintro ⟨pre, post, _, h2⟩
        exact absurd rfl (h2 Action.reset (by simp))

end

section

variable {H : Type} (cb : MicroStepCallbacks H)

theorem hasFlag_or (f g m : Nat) : hasFlag (f ||| g) m = (hasFlag f m || hasFlag g m) := by
  unfold hasFlag
  have h1 : (f ||| g) &&& m = (f &&& m) ||| (g &&& m) := by
    apply Nat.eq_of_testBit_eq
    intro i
    simp only [Nat.testBit_and, Nat.testBit_or]
    cases f.testBit i <;> cases g.testBit i <;> simp
  rw [h1]
  by_cases hf : f &&& m = 0
  · by_cases hg : g &&& m = 0
    · simp [hf, hg]
    · simp [hf, hg]
  · have : (f &&& m) ||| (g &&& m) ≠ 0 := by
      intro h0
      apply hf
      apply Nat.eq_of_testBit_eq
      intro i
      have := congrArg (fun x => Nat.testBit x i) h0
      simp only [Nat.testBit_or, Nat.zero_testBit, Bool.or_eq_false_iff] at this
      simp [this.1]
    have e1 : ((f &&& m) ||| (g &&& m) != 0) = true := bne_iff_ne.mpr this
    have e2 : (f &&& m != 0) = true := bne_iff_ne.mpr hf
    rw [e1, e2]
    rfl

theorem hasFlag_andNot (f g m : Nat) (hgm : g &&& m = 0) :
    hasFlag (bitAndNot f g) m = hasFlag f m := by
  unfold hasFlag
  have h1 : bitAndNot f g &&& m = f &&& m := by
    apply Nat.eq_of_testBit_eq
    intro i
    have hb := BIT_HAS_andNot f g i
    simp only [BIT_HAS] at hb
    have hg : (g &&& m).testBit i = false := by rw [hgm]; exact Nat.zero_testBit i
    rw [Nat.testBit_and] at hg
    simp only [Nat.testBit_and, hb]
    cases hgi : g.testBit i <;> cases hmi : m.testBit i <;> simp_all
  rw [h1]

theorem or_flag_present (f m : Nat) (k : Nat) (hm : m = 2 ^ k) (h : hasFlag f m = true) :
    f ||| m = f := by
  subst hm
  rw [hasFlag_pow] at h
  apply Nat.eq_of_testBit_eq
  intro i
  simp only [Nat.testBit_or, Nat.testBit_two_pow]
  by_cases hki : k = i
  · subst hki; simp [h]
  · simp [hki]

theorem signalStable_flags (r : Run H) :
    (signalStable cb r).eng.flags = r.eng.flags ||| USCXML_CTX_STABLE := by
  unfold signalStable
  rcases Bool.eq_false_or_eq_true (hasFlag r.eng.flags USCXML_CTX_STABLE) with hs | hs
  · simp only [hs, Bool.not_true, Bool.false_eq_true, if_false]
    exact (or_flag_present _ _ 5 (by decide) hs).symm
  · simp [hs]

theorem atExternal_flags (b : Bool) (e : Engine) (h : H) :
    (atExternal cb b e h).eng.flags = e.flags ||| USCXML_CTX_STABLE := by
  unfold atExternal
  rw [(callDequeueExternal_changes cb b _).flags_eq rfl, signalStable_flags,
    (manageInvocations_changes cb _).flags_eq rfl,
    (callDequeueInternal_changes cb _).flags_eq rfl]

theorem atExternal_host_event (b : Bool) (e : Engine) (h : H) :
    (atExternal cb b e h).eng.event = externalEvent cb b e h := rfl

theorem reachesSync_iff (e : Engine) (h : H) :
    reachesSync cb e h = true ↔
      e.isInitialized = true ∧ hasFlag e.flags USCXML_CTX_FINISHED = false ∧
      hasFlag e.flags USCXML_CTX_TOP_LEVEL_FINAL = false ∧ e.flags ≠ USCXML_CTX_PRISTINE ∧
      hasFlag e.flags USCXML_CTX_SPONTANEOUS = false ∧ (cb.dequeueInternal h).1 = none := by
  unfold reachesSync
  simp only [Bool.and_eq_true, Bool.not_eq_true', bne_iff_ne, ne_eq, Option.isNone_iff_eq_none]
  tauto

/-- The result of a step, by branch. -/
theorem step_result_cases (b : Bool) (e : Engine) (h : H) :
    ((step cb b e h).1 = InterpreterState.USCXML_CANCELLED ↔
      reachesSync cb e h = true ∧ externalEvent cb b e h = none ∧ e.isCancelled = true) ∧
    ((step cb b e h).1 = InterpreterState.USCXML_IDLE ↔
      reachesSync cb e h = true ∧ externalEvent cb b e h = none ∧ e.isCancelled = false) := by
  rcases step_cases cb b e h with h1 | h1 | h1 | h1 | h1 | h1 | h1 | h1 | h1
  · obtain ⟨hi, hs⟩ := h1
    rw [hs]
    simp [reachesSync, hi]
  · obtain ⟨hi, hf, hs⟩ := h1
    rw [hs]
    simp [reachesSync, hi, hf]
  · obtain ⟨hi, hf, ht, hs⟩ := h1
    rw [hs]
    simp [reachesSync, hi, hf, ht, completeStep_result]
  · obtain ⟨hi, hp, hs⟩ := h1
    rw [hs]
    simp [reachesSync, hi, hp, microstep_result]
  · obtain ⟨hn, _, _, _, _, _, hs⟩ := h1
    rw [hs]
    rcases selectTransitions_result cb { eng := { e with event := none }, host := h, trace := [] }
      with hr | hr <;> simp [hr, hn]
  · obtain ⟨hn, _, _, _, _, _, ev, _, hs⟩ := h1
    rw [hs]
    rcases selectTransitions_result cb (callMonitor cb (MonitorHook.beforeProcessingEvent ev)
      (callDequeueInternal cb { eng := e, host := h, trace := [] }))
      with hr | hr <;> simp [hr, hn]
  · obtain ⟨_, ev, hx, hs⟩ := h1
    rw [hs]
    rcases selectTransitions_result cb (callMonitor cb (MonitorHook.beforeProcessingEvent ev)
      (atExternal cb b e h))
      with hr | hr <;> simp [hr, hx]
  · obtain ⟨hy, hx, hc, hs⟩ := h1
    rw [hs]
    simp [hy, hx, hc]
  · obtain ⟨hy, hx, hc, hs⟩ := h1
    rw [hs]
    simp [hy, hx, hc]

end

section

variable {H : Type} (cb : MicroStepCallbacks H)

/-! ### The configuration after the loops EXIT_STATES and ENTER_STATES -/

theorem exitStates_fold_configuration (x : Bitset) (l : List Nat) (r : Run H) (j : Nat) :
    BIT_HAS j (l.foldl (exitState cb x) r).eng.configuration =
      (BIT_HAS j r.eng.configuration && !(decide (j ∈ l) && BIT_HAS j x)) := by
  induction l generalizing r with
  | nil => simp
  | cons i l ih =>
    simp only [List.foldl_cons]
    rw [ih, exitState_configuration]
    by_cases hij : i = j
    · subst hij
      cases hx : BIT_HAS i x <;> cases hc : BIT_HAS i r.eng.configuration <;>
        simp [hx, hc, BIT_HAS_clear]
    · have hji : ¬ j = i := fun hEq => hij hEq.symm
      cases hx : BIT_HAS i x <;> cases hc : BIT_HAS i r.eng.configuration <;>
        simp [hx, hc, BIT_HAS_clear, hij, hji]

theorem exitStates_configuration (x : Bitset) (r : Run H) (j : Nat) :
    BIT_HAS j (exitStates cb x r).eng.configuration =
      (BIT_HAS j r.eng.configuration &&
        !(decide (j < USCXML_NUMBER_STATES r.eng) && BIT_HAS j x)) := by
  unfold exitStates
  rw [exitStates_fold_configuration]
  simp [downRange]

theorem enterStates_fold_configuration (es ts : Bitset) (l : List Nat) (r : Run H) (j : Nat) :
    BIT_HAS j (l.foldl (enterState cb es ts) r).eng.configuration =
      (BIT_HAS j r.eng.configuration ||
        (decide (j ∈ l) && BIT_HAS j es && !isPseudoType (USCXML_GET_STATE r.eng j).type)) := by
  induction l generalizing r with
  | nil => simp
  | cons i l ih =>
    simp only [List.foldl_cons]
    rw [ih, enterState_configuration, (enterState_changes cb es ts r i).static.getState]
    by_cases hij : i = j
    · subst hij
      cases hx : BIT_HAS i es <;> cases hc : BIT_HAS i r.eng.configuration <;>
        cases hp : isPseudoType (USCXML_GET_STATE r.eng i).type <;>
        simp [hx, hc, hp, BIT_HAS_set]
    · have hji : ¬ j = i := fun hEq => hij hEq.symm
      cases hx : BIT_HAS i es <;> cases hc : BIT_HAS i r.eng.configuration <;>
        cases hp : isPseudoType (USCXML_GET_STATE r.eng i).type <;>
        simp [hx, hc, hp, BIT_HAS_set, hij, hji]

theorem enterStates_configuration (es ts : Bitset) (r : Run H) (j : Nat) :
    BIT_HAS j (enterStates cb es ts r).eng.configuration =
      (BIT_HAS j r.eng.configuration ||
        (decide (j < USCXML_NUMBER_STATES r.eng) && BIT_HAS j es &&
          !isPseudoType (USCXML_GET_STATE r.eng j).type)) := by
  unfold enterStates
  rw [enterStates_fold_configuration]
  simp [USCXML_NUMBER_STATES]

/-- The configuration after a micro-step: the states of the exit set are removed, then the
proper states of the entry set are added. -/
theorem microstep_configuration (t x ts : Bitset) (r : Run H) (j : Nat) :
    BIT_HAS j (microstep cb t x ts r).2.eng.configuration =
      ((BIT_HAS j r.eng.configuration &&
          !(decide (j < USCXML_NUMBER_STATES r.eng) && BIT_HAS j x)) ||
        (decide (j < USCXML_NUMBER_STATES r.eng) &&
          BIT_HAS j (establishEntrySet r.eng t x ts).1 &&
          !isPseudoType (USCXML_GET_STATE r.eng j).type)) := by
  unfold microstep
  simp only
  rw [(recordConfiguration_changes cb _).configuration_eq rfl, callMonitor_eng,
    enterStates_configuration, takeTransitions_eng, exitStates_configuration,
    (exitStates_changes cb x r).static.getState, (exitStates_changes cb x r).static.numStates]

end

section

variable {H : Type} (cb : MicroStepCallbacks H)

/-! ### Bits that ESTABLISH_ENTRYSET keeps -/

theorem BIT_HAS_or_left {a : Bitset} (b : Bitset) {j : Nat} (h : BIT_HAS j a = true) :
    BIT_HAS j (a ||| b) = true := by
  rw [BIT_HAS_or, h]; rfl

theorem BIT_HAS_or_right (a : Bitset) {b : Bitset} {j : Nat} (h : BIT_HAS j b = true) :
    BIT_HAS j (a ||| b) = true := by
  rw [BIT_HAS_or, h]; simp

theorem addAncestors_keeps (e : Engine) (es : Bitset) (i j : Nat) (h : BIT_HAS j es = true) :
    BIT_HAS j (addAncestors e es i) = true := by
  unfold addAncestors
  split_ifs
  · exact BIT_HAS_or_left _ h
  · exact h

theorem addAncestors_fold_keeps (e : Engine) (l : List Nat) (es : Bitset) (j : Nat)
    (h : BIT_HAS j es = true) : BIT_HAS j (l.foldl (addAncestors e) es) = true :=
  foldl_preserves (fun x => BIT_HAS j x = true) _ (fun a b ha => addAncestors_keeps e a b j ha)
    l es h

theorem historyDefault_keeps (e : Engine) (i : Nat) (p : Bitset × Bitset) (j : Nat)
    (h : BIT_HAS j p.1 = true) : BIT_HAS j (historyDefault e i p).1 = true := by
  unfold historyDefault
  split
  · exact h
  · split_ifs
    · split
      · exact BIT_HAS_or_left _ (BIT_HAS_or_left _ h)
      · exact BIT_HAS_or_left _ h
    · exact BIT_HAS_or_left _ h

theorem addNestedHistories_keeps (e : Engine) (k : Nat) (es : Bitset) (j : Nat)
    (h : BIT_HAS j es = true) : BIT_HAS j (addNestedHistories e k es) = true := by
  unfold addNestedHistories
  refine foldl_preserves (fun x => BIT_HAS j x = true) _ ?_ _ es h
  intro a b ha
  split_ifs
  · rw [BIT_HAS_set, ha]; simp
  · exact ha

theorem historyRestore_keeps (e : Engine) (i : Nat) (es : Bitset) (j : Nat)
    (h : BIT_HAS j es = true) : BIT_HAS j (historyRestore e i es) = true := by
  unfold historyRestore
  dsimp only
  split_ifs
  · refine foldl_preserves (fun x => BIT_HAS j x = true) _ ?_ _ _ (BIT_HAS_or_left _ h)
    intro a b ha
    split_ifs
    · exact addNestedHistories_keeps e b a j ha
    · exact ha
  · exact BIT_HAS_or_left _ h

theorem initialTransition_keeps (e : Engine) (i : Nat) (p : Bitset × Bitset) (k j : Nat)
    (hij : i ≠ j) (h : BIT_HAS j p.1 = true) :
    BIT_HAS j (initialTransition e i p k).1 = true := by
  unfold initialTransition
  split_ifs
  · dsimp only
    refine foldl_preserves (fun x => BIT_HAS j x = true) _ ?_ _ _ ?_
    · intro a b ha
      split_ifs
      · exact BIT_HAS_or_left _ ha
      · exact ha
    · apply BIT_HAS_or_left
      rw [BIT_HAS_clear, h]
      simp [hij]
  · exact h

theorem compoundCompletion_keeps (e : Engine) (x : Bitset) (i : Nat) (es : Bitset) (j : Nat)
    (h : BIT_HAS j es = true) : BIT_HAS j (compoundCompletion e x i es) = true := by
  unfold compoundCompletion
  split_ifs
  · split
    · exact BIT_HAS_or_left _ (BIT_HAS_or_left _ h)
    · exact BIT_HAS_or_left _ h
  · exact BIT_HAS_or_left _ h
  · exact h

/-- The loop "iterate for descendants" removes from the entry set only the Initial
pseudo-state it is at. -/
theorem addDescendants_keeps (e : Engine) (x : Bitset) (p : Bitset × Bitset) (i j : Nat)
    (hj : USCXML_STATE_MASK (USCXML_GET_STATE e j).type ≠ USCXML_STATE_INITIAL)
    (h : BIT_HAS j p.1 = true) : BIT_HAS j (addDescendants e x p i).1 = true := by
  unfold addDescendants
  dsimp only
  split_ifs with h1 h2 h3 h4 h5 h6 h7
  · exact h
  · exact BIT_HAS_or_left _ h
  · exact historyDefault_keeps e i p j h
  · exact historyRestore_keeps e i p.1 j h
  · have hij : i ≠ j := by
      intro hEq
      subst hEq
      exact hj (by simpa using h6)
    exact foldl_preserves (fun q : Bitset × Bitset => BIT_HAS j q.1 = true) _
      (fun a b ha => initialTransition_keeps e i a b j hij ha) _ p h
  · exact compoundCompletion_keeps e x i p.1 j h
  · exact h
  · exact h

theorem establishEntrySet_keeps (e : Engine) (t x ts : Bitset) (j : Nat)
    (hj : USCXML_STATE_MASK (USCXML_GET_STATE e j).type ≠ USCXML_STATE_INITIAL)
    (h : BIT_HAS j t = true) : BIT_HAS j (establishEntrySet e t x ts).1 = true := by
  unfold establishEntrySet
  exact foldl_preserves (fun q : Bitset × Bitset => BIT_HAS j q.1 = true) _
    (fun a b ha => addDescendants_keeps e x a b j hj ha) _ _
    (addAncestors_fold_keeps e _ t j h)

theorem isPseudoType_initial {t : Nat} (h : isPseudoType t = false) :
    USCXML_STATE_MASK t ≠ USCXML_STATE_INITIAL := by
  intro hEq
  simp [isPseudoType, hEq] at h

/-- The proper states of the target set are active after the micro-step. -/
theorem microstep_enters_targets (t x ts : Bitset) (r : Run H) (j : Nat)
    (hj : j < USCXML_NUMBER_STATES r.eng) (ht : BIT_HAS j t = true)
    (hp : isPseudoType (USCXML_GET_STATE r.eng j).type = false) :
    BIT_HAS j (microstep cb t x ts r).2.eng.configuration = true := by
  rw [microstep_configuration]
  simp [hj, hp, establishEntrySet_keeps r.eng t x ts j (isPseudoType_initial hp) ht]

end

section

variable {H : Type} (cb : MicroStepCallbacks H)

theorem Indexed.atConstruct (scxml : Index) : Indexed scxml (construct scxml) :=
  ⟨rfl, fun h => by simp [uscxml.construct] at h⟩

theorem Indexed.afterStep {scxml : Index} (b : Bool) (e : Engine) (h : H) (hx : Indexed scxml e) :
    Indexed scxml (step cb b e h).2.eng := by
  rcases Bool.eq_false_or_eq_true e.isInitialized with hi | hi
  · obtain ⟨h1, h2, h3, h4, _⟩ := (step_proper cb b e h hi).1
    refine ⟨h1.trans hx.1, fun _ => ?_⟩
    rw [h2, h3]
    exact hx.2 hi
  · rw [step_uninitialized cb b e h hi]
    refine ⟨hx.1, fun _ => ?_⟩
    simp [init, hx.1]

theorem Indexed.afterAction {scxml : Index} (p : Engine × H) (a : Action H)
    (hx : Indexed scxml p.1) : Indexed scxml (applyAction cb p a).1 := by
  cases a with
  | step b => exact Indexed.afterStep cb b p.1 p.2 hx
  | cancel => exact hx
  | reset => exact hx
  | env host => exact hx

theorem Indexed.afterActions {scxml : Index} (l : List (Action H)) (p : Engine × H)
    (hx : Indexed scxml p.1) : Indexed scxml (l.foldl (uscxml.applyAction cb) p).1 :=
  foldl_preserves (fun p : Engine × H => Indexed scxml p.1) (uscxml.applyAction cb)
    (fun p a hp => Indexed.afterAction cb p a hp) l p hx

theorem Indexed.ofRun (scxml : Index) (h : H) (actions : List (Action H)) :
    Indexed scxml (run cb scxml h actions).1 :=
  Indexed.afterActions cb actions _ (Indexed.atConstruct scxml)

/-- After `reset`, an initialised engine of a run differs from the freshly initialised one
at most in `_microstepConfigurations` and `_event`. -/
theorem reset_run (scxml : Index) (h : H) (actions : List (Action H))
    (hi : (run cb scxml h actions).1.isInitialized = true) :
    reset (run cb scxml h actions).1 =
      { init (construct scxml) with
        microstepConfigurations := (run cb scxml h actions).1.microstepConfigurations,
        event := (run cb scxml h actions).1.event } := by
  obtain ⟨h1, h2⟩ := Indexed.ofRun cb scxml h actions
  obtain ⟨h3, h4⟩ := h2 hi
  generalize run cb scxml h actions = p at *
  obtain ⟨e, hh⟩ := p
  cases e
  simp only [reset, init, construct] at *
  subst h1 h3 h4 hi
  rfl

end

section

variable {H : Type} (cb : MicroStepCallbacks H)

/-! ### `initData` is called once -/

theorem InitOnce.comp {i : Nat} {d : List DOMElement} {e1 e2 e3 : Engine} {t1 t2 : List Call}
    (h1 : InitOnce i d e1 e2 t1) (h2 : InitOnce i d e2 e3 t2) :
    InitOnce i d e1 e3 (t1 ++ t2) := by
  obtain ⟨m1, c1⟩ := h1
  obtain ⟨m2, c2⟩ := h2
  refine ⟨fun j hj => m2 j (m1 j hj), ?_⟩
  rw [List.filter_append]
  rcases c1 with c1 | ⟨a1, b1, c1⟩
  · rcases c2 with c2 | ⟨a2, b2, c2⟩
    · left; rw [c1, c2]; rfl
    · right
      refine ⟨?_, b2, by rw [c1, c2]; rfl⟩
      cases hb : BIT_HAS i e1.initializedData
      · rfl
      · rw [m1 i hb] at a2; cases a2
  · rcases c2 with c2 | ⟨a2, _, _⟩
    · right
      exact ⟨a1, m2 i b1, by rw [c1, c2]; simp⟩
    · rw [b1] at a2; cases a2

theorem InitOnce.quiet (i : Nat) (d : List DOMElement) {e e2 : Engine} {t : List Call}
    (he : e2.initializedData = e.initializedData) (ht : ∀ c ∈ t, isInitDataOf i c = false) :
    InitOnce i d e e2 t := by
  refine ⟨fun j hj => by rw [he]; exact hj, Or.inl ?_⟩
  rw [List.filter_eq_nil_iff]
  intro c hc
  simp [ht c hc]

theorem InitOnceRun.idle (i : Nat) (r : Run H) : InitOnceRun i r r :=
  ⟨Static.same _, [], by simp, InitOnce.quiet i _ rfl (by simp)⟩

theorem InitOnceRun.then {i : Nat} {a b c : Run H} (h1 : InitOnceRun i a b)
    (h2 : InitOnceRun i b c) : InitOnceRun i a c := by
  obtain ⟨s1, t1, e1, o1⟩ := h1
  obtain ⟨s2, t2, e2, o2⟩ := h2
  refine ⟨s1.chain s2, t1 ++ t2, by rw [e2, e1, List.append_assoc], ?_⟩
  rw [s1.getState] at o2
  exact o1.comp o2

/-- A piece of a step that leaves `_initializedData` alone and makes no `initData` call. -/
theorem InitOnceRun.ofEmits {i : Nat} {m : Fields} {Q : Call → Prop} {r r2 : Run H}
    (hc : Changes m r.eng r2.eng) (hm : m.initializedData = false) (he : Emits Q r r2)
    (hq : ∀ c, Q c → isInitDataOf i c = false) : InitOnceRun i r r2 := by
  obtain ⟨t, ht, hall⟩ := he
  exact ⟨hc.static, t, ht, InitOnce.quiet i _ (hc.initializedData_eq hm)
    (fun c hcm => hq c (hall c hcm))⟩

theorem InitOnceRun.iterateOnce {β : Type} (i : Nat) (f : Run H → β → Run H)
    (hf : ∀ r b, InitOnceRun i r (f r b)) (l : List β) (r : Run H) :
    InitOnceRun i r (l.foldl f r) :=
  foldl_rel (InitOnceRun i) f (InitOnceRun.idle i) (fun _ _ _ h1 h2 => h1.then h2) hf l r

theorem filter_initData_same (i : Nat) (d : List DOMElement) :
    (d.map (Call.initData i)).filter (isInitDataOf i) = d.map (Call.initData i) := by
  rw [List.filter_eq_self]
  intro c hc
  obtain ⟨x, _, hx⟩ := List.mem_map.mp hc
  subst hx
  simp [isInitDataOf]

theorem filter_initData_other (k i : Nat) (hki : k ≠ i) (d : List DOMElement) :
    (d.map (Call.initData k)).filter (isInitDataOf i) = [] := by
  rw [List.filter_eq_nil_iff]
  intro c hc
  obtain ⟨x, _, hx⟩ := List.mem_map.mp hc
  subst hx
  simp [isInitDataOf, hki]

theorem initializeData_once (k i : Nat) (r : Run H) :
    InitOnceRun i r (initializeData cb k r) := by
  refine ⟨(initializeData_changes cb k r).static, ?_⟩
  unfold initializeData
  split_ifs with hb
  · have hb2 : BIT_HAS k r.eng.initializedData = false := by simpa using hb
    obtain ⟨hfe, hft⟩ := foldl_callInitData cb k (USCXML_GET_STATE r.eng k).data r
    refine ⟨(USCXML_GET_STATE r.eng k).data.map (Call.initData k), hft, ?_, ?_⟩
    · intro j hj
      simp only [Run.setInitializedData, hfe, BIT_HAS_set, hj, Bool.or_true]
    · by_cases hki : k = i
      · subst hki
        right
        refine ⟨hb2, ?_, filter_initData_same _ _⟩
        simp [Run.setInitializedData, BIT_HAS_set]
      · left
        exact filter_initData_other k i hki _
  · exact ⟨[], by simp, InitOnce.quiet i _ rfl (by simp)⟩

theorem takePseudoTransition_emitsQ (Q : Call → Prop) (hm : ∀ k, Q (Call.monitor k))
    (hp : ∀ s c, Q (Call.process s c)) (ts : Bitset) (i : Nat) (r : Run H) (j : Nat) :
    Emits Q r (takePseudoTransition cb ts i r j) := by
  unfold takePseudoTransition
  simp only []
  split_ifs
  · exact Emits.afterMonitor cb _ (hm _) (Emits.afterOnTrans cb _ _
      (fun _ => hp _ _) (Emits.afterMonitor cb _ (hm _) (Emits.nil _ _)))
  · exact Emits.nil _ _

theorem handleFinal_emitsQ (Q : Call → Prop) (hr : ∀ a b c, Q (Call.raiseDoneEvent a b c))
    (i : Nat) (r : Run H) : Emits Q r (handleFinal cb i r) := by
  have hpd : ∀ y j, Emits Q y (parallelDone cb i y j) := by
    intro y j
    unfold parallelDone
    split_ifs
    · exact Emits.afterRaiseDoneEvent cb _ _ _ (hr _ _ _) (Emits.nil _ _)
    · exact Emits.nil _ _
    · exact Emits.nil _ _
  unfold handleFinal
  simp only []
  split_ifs
  · exact Emits.loop _ _ hpd (Emits.withFlags _ (Emits.nil _ _))
  · exact Emits.loop _ _ hpd
      (Emits.afterRaiseDoneEvent cb _ _ _ (hr _ _ _) (Emits.nil _ _))
  · exact Emits.nil _ _

theorem callMonitor_once (i : Nat) (k : MonitorHook) (r : Run H) :
    InitOnceRun i r (callMonitor cb k r) :=
  InitOnceRun.ofEmits (m := {}) (Changes.none _ _) rfl
    (Emits.afterMonitor cb k (Q := fun c => isInitDataOf i c = false) rfl (Emits.nil _ r))
    (fun _ h => h)

theorem foldProcess_once (i : Nat) (s : Site) (l : List DOMElement) (r : Run H) :
    InitOnceRun i r (l.foldl (callProcess cb s) r) :=
  InitOnceRun.ofEmits (m := {}) (by rw [Changes, (foldl_callProcess cb _ _ _).1]) rfl
    (Emits.foldProcess cb (Q := fun c => isInitDataOf i c = false) s l (fun _ => rfl)
      (Emits.nil _ r))
    (fun _ h => h)

theorem setConfiguration_once (i : Nat) (c : Bitset) (r : Run H) :
    InitOnceRun i r (r.setConfiguration c) :=
  InitOnceRun.ofEmits (m := { configuration := true })
    (by simp [Changes, Engine.mask, Run.setConfiguration]) rfl
    (Emits.setConfiguration (Q := fun c => isInitDataOf i c = false) c (Emits.nil _ r))
    (fun _ h => h)

theorem setFlags_once (i : Nat) (c : Nat) (r : Run H) :
    InitOnceRun i r (r.setFlags c) :=
  InitOnceRun.ofEmits (m := { flags := true })
    (by simp [Changes, Engine.mask, Run.setFlags]) rfl
    (Emits.withFlags (Q := fun c => isInitDataOf i c = false) c (Emits.nil _ r))
    (fun _ h => h)

theorem takePseudoTransition_once (ts : Bitset) (i k : Nat) (r : Run H) (j : Nat) :
    InitOnceRun i r (takePseudoTransition cb ts k r j) :=
  InitOnceRun.ofEmits (m := {}) (by rw [Changes, takePseudoTransition_eng]) rfl
    (takePseudoTransition_emitsQ cb (fun c => isInitDataOf i c = false) (fun _ => rfl)
      (fun _ _ => rfl) ts k r j)
    (fun _ h => h)

theorem handleFinal_once (i k : Nat) (r : Run H) : InitOnceRun i r (handleFinal cb k r) :=
  InitOnceRun.ofEmits (handleFinal_changes cb k r) rfl
    (handleFinal_emitsQ cb (fun c => isInitDataOf i c = false) (fun _ _ _ => rfl) k r)
    (fun _ h => h)

theorem enterState_once (es ts : Bitset) (i : Nat) (r : Run H) (k : Nat) :
    InitOnceRun i r (enterState cb es ts r k) := by
  unfold enterState
  simp only []
  split_ifs
  · exact InitOnceRun.idle i r
  · exact InitOnceRun.idle i r
  · refine InitOnceRun.then ?_ (handleFinal_once cb i k _)
    refine InitOnceRun.then ?_ (InitOnceRun.iterateOnce i _
      (fun y j => takePseudoTransition_once cb ts i k y j) _ _)
    refine InitOnceRun.then ?_ (callMonitor_once cb i _ _)
    refine InitOnceRun.then ?_ (foldProcess_once cb i _ _ _)
    refine InitOnceRun.then ?_ (initializeData_once cb k i _)
    exact InitOnceRun.then (callMonitor_once cb i _ _) (setConfiguration_once i _ _)
  · exact InitOnceRun.idle i r

theorem enterStates_once (es ts : Bitset) (i : Nat) (r : Run H) :
    InitOnceRun i r (enterStates cb es ts r) :=
  InitOnceRun.iterateOnce i _ (fun y k => enterState_once cb es ts i y k) _ r

theorem exitCall_not_initData {i k : Nat} {c : Call} (h : isExitCall k c = true) :
    isInitDataOf i c = false := by
  cases c <;> simp_all [isExitCall, isInitDataOf]

theorem takeCall_not_initData {i k : Nat} {c : Call} (h : isTakeCall k c = true) :
    isInitDataOf i c = false := by
  cases c <;> simp_all [isTakeCall, isInitDataOf]

theorem closingCall_not_initData {i : Nat} {c : Call} (h : isClosingCall c = true) :
    isInitDataOf i c = false := by
  cases c <;> simp_all [isClosingCall, isInitDataOf]

theorem selectCall_not_initData {i : Nat} {ev : Option Event} {c : Call}
    (h : isSelectCall ev c = true) : isInitDataOf i c = false := by
  cases c <;> simp_all [isSelectCall, isInitDataOf]

theorem completionCall_not_initData {i : Nat} {c : Call} (h : isCompletionCall c = true) :
    isInitDataOf i c = false := by
  cases c <;> simp_all [isCompletionCall, isInitDataOf]

theorem invokeCall_not_initData {i : Nat} {c : Call} (h : isInvokeCall c = true) :
    isInitDataOf i c = false := by
  cases c <;> simp_all [isInvokeCall, isInitDataOf]

theorem microstep_once (i : Nat) (t x ts : Bitset) (r : Run H) :
    InitOnceRun i r (microstep cb t x ts r).2 := by
  unfold microstep
  simp only
  refine InitOnceRun.then ?_ (InitOnceRun.ofEmits (recordConfiguration_changes cb _) rfl
    (recordConfiguration_emits cb _) (fun _ h => closingCall_not_initData h))
  refine InitOnceRun.then ?_ (callMonitor_once cb i _ _)
  refine InitOnceRun.then ?_ (enterStates_once cb _ _ i _)
  refine InitOnceRun.then ?_ (InitOnceRun.ofEmits (m := {})
    (by rw [Changes, takeTransitions_eng]) rfl (takeTransitions_emits cb _ _)
    (fun _ h => takeCall_not_initData h.choose_spec))
  exact InitOnceRun.ofEmits (exitStates_changes cb x r) rfl (exitStates_emits cb x r)
    (fun _ h => exitCall_not_initData h.choose_spec)

theorem selectTransitions_once (i : Nat) (r : Run H) :
    InitOnceRun i r (selectTransitions cb r).2 := by
  cases h : hasFlag (selectionOf cb r).1.eng.flags USCXML_CTX_TRANSITION_FOUND
  · rw [selectTransitions_none cb r h]
    exact InitOnceRun.then
      (InitOnceRun.ofEmits (selectionOf_changes cb r) rfl (selectionOf_emits cb r)
        (fun _ h => selectCall_not_initData h))
      (setFlags_once i _ _)
  · rw [selectTransitions_found cb r h]
    refine InitOnceRun.then ?_ (microstep_once cb i _ _ _ _)
    refine InitOnceRun.ofEmits (beforeEntrySet_changes cb r) rfl (beforeEntrySet_emits cb r) ?_
    intro c hc
    rcases hc with hc | hc
    · exact selectCall_not_initData hc
    · subst hc; rfl

theorem atExternal_once (i : Nat) (b : Bool) (e : Engine) (h : H) :
    InitOnceRun i { eng := e, host := h, trace := [] } (atExternal cb b e h) := by
  unfold atExternal
  refine InitOnceRun.then (InitOnceRun.then (InitOnceRun.then
    (InitOnceRun.ofEmits (Q := fun c => c = Call.dequeueInternal)
      (callDequeueInternal_changes cb { eng := e, host := h, trace := [] }) rfl
      ⟨[Call.dequeueInternal], rfl, by simp⟩ (fun c hc => by subst hc; rfl))
    (InitOnceRun.ofEmits (manageInvocations_changes cb _) rfl (manageInvocations_emits cb _)
      (fun _ h => invokeCall_not_initData h)))
    (InitOnceRun.ofEmits (signalStable_changes cb _) rfl (signalStable_emits cb _)
      (fun c hc => by subst hc; rfl)))
    (InitOnceRun.ofEmits (Q := fun c => c = Call.dequeueExternal b)
      (callDequeueExternal_changes cb b _) rfl
      ⟨[Call.dequeueExternal b], rfl, by simp⟩ (fun c hc => by subst hc; rfl))

/-- A step of an initialised engine initialises the data of a state at most once. -/
theorem step_once (i : Nat) (b : Bool) (e : Engine) (h : H) (hi : e.isInitialized = true) :
    InitOnceRun i { eng := e, host := h, trace := [] } (step cb b e h).2 := by
  rcases step_cases cb b e h with h1 | h1 | h1 | h1 | h1 | h1 | h1 | h1 | h1
  · rw [hi] at h1; cases h1.1
  · rw [h1.2.2]
    exact InitOnceRun.idle i _
  · rw [h1.2.2.2]
    exact InitOnceRun.ofEmits (completeStep_changes cb _) rfl (completeStep_emits cb _)
      (fun _ h => completionCall_not_initData h)
  · rw [h1.2.2]
    refine InitOnceRun.then ?_ (microstep_once cb i _ _ _ _)
    exact InitOnceRun.then (a := { eng := e, host := h, trace := [] })
      (setFlags_once i (USCXML_CTX_SPONTANEOUS ||| USCXML_CTX_INITIALIZED) _)
      (callMonitor_once cb i _ _)
  · rw [h1.2.2.2.2.2.2]
    refine InitOnceRun.then ?_ (selectTransitions_once cb i _)
    exact InitOnceRun.ofEmits (m := { event := true }) (Q := fun _ => False)
      (by simp [Changes, Engine.mask]) rfl ⟨[], by simp, by simp⟩ (fun _ h => h.elim)
  · obtain ⟨_, _, _, _, _, _, ev, _, hs⟩ := h1
    rw [hs]
    refine InitOnceRun.then ?_ (selectTransitions_once cb i _)
    refine InitOnceRun.then ?_ (callMonitor_once cb i _ _)
    exact InitOnceRun.ofEmits (Q := fun c => c = Call.dequeueInternal)
      (callDequeueInternal_changes cb { eng := e, host := h, trace := [] }) rfl
      ⟨[Call.dequeueInternal], rfl, by simp⟩ (fun c hc => by subst hc; rfl)
  · obtain ⟨_, ev, _, hs⟩ := h1
    rw [hs]
    refine InitOnceRun.then ?_ (selectTransitions_once cb i _)
    exact InitOnceRun.then (atExternal_once cb i b e h) (callMonitor_once cb i _ _)
  · rw [h1.2.2.2]
    exact InitOnceRun.then (atExternal_once cb i b e h) (setFlags_once i _ _)
  · rw [h1.2.2.2]
    exact atExternal_once cb i b e h

/-- Over a sequence of actions without `reset`, for the document `scxml`. -/
theorem steps_once (scxml : Index) (i : Nat) (seg : List (Action H)) (p : Engine × H)
    (hx : Indexed scxml p.1) (hseg : ∀ a ∈ seg, a ≠ Action.reset) :
    InitOnce i (scxml.states.getD i default).data p.1 (seg.foldl (applyAction cb) p).1
      (stepsTrace cb p seg) := by
  induction seg generalizing p with
  | nil => exact InitOnce.quiet i _ rfl (by simp [stepsTrace])
  | cons a rest ih =>
    have hrest : ∀ a ∈ rest, a ≠ Action.reset := fun x hxm => hseg x (List.mem_cons_of_mem _ hxm)
    have hnext := ih (applyAction cb p a) (Indexed.afterAction cb p a hx) hrest
    simp only [List.foldl_cons, stepsTrace]
    refine InitOnce.comp ?_ hnext
    cases a with
    | step b =>
      simp only [applyAction]
      rcases Bool.eq_false_or_eq_true p.1.isInitialized with hi | hi
      · obtain ⟨_, t, ht, ho⟩ := step_once cb i b p.1 p.2 hi
        have hd : (USCXML_GET_STATE p.1 i).data = (scxml.states.getD i default).data := by
          unfold USCXML_GET_STATE
          rw [(hx.2 hi).1]
        rw [hd] at ho
        have ht2 : (step cb b p.1 p.2).2.trace = t := by simpa using ht
        rw [ht2]
        exact ho
      · rw [step_uninitialized cb b p.1 p.2 hi]
        exact InitOnce.quiet i _ rfl (by simp)
    | cancel => exact InitOnce.quiet i _ rfl (by simp)
    | reset => exact absurd rfl (hseg Action.reset (List.mem_cons_self _ _))
    | env host => exact InitOnce.quiet i _ rfl (by simp)

end

section

variable {H : Type} (cb : MicroStepCallbacks H)

/-! ### The loop "manage invocations" -/

theorem Emits.filter_eq {Q : Call → Prop} {p : Call → Bool} {r r2 : Run H} (h : Emits Q r r2)
    (hq : ∀ c, Q c → p c = false) : r2.trace.filter p = r.trace.filter p := by
  obtain ⟨t, ht, hall⟩ := h
  rw [ht, List.filter_append]
  have : t.filter p = [] := by
    rw [List.filter_eq_nil_iff]
    intro c hc
    simp [hq c (hall c hc)]
  rw [this, List.append_nil]

theorem manageInvocation_eng (r : Run H) (i : Nat) :
    (manageInvocation cb r i).eng =
      { r.eng with invocations :=
          if BIT_HAS i r.eng.configuration then BIT_SET_AT i r.eng.invocations
          else BIT_CLEAR i r.eng.invocations } := by
  unfold manageInvocation
  rcases Bool.eq_false_or_eq_true (BIT_HAS i r.eng.configuration) with hc | hc <;>
    rcases Bool.eq_false_or_eq_true (BIT_HAS i r.eng.invocations) with hv | hv
  · simp [hc, hv, BIT_SET_AT_present]
  · simp [hc, hv, (foldl_callInvoke cb _ _ _).1, Run.setInvocations]
  · simp [hc, hv, (foldl_callUninvoke cb _ _ _).1, Run.setInvocations]
  · simp [hc, hv, BIT_CLEAR_absent]

theorem manageInvocation_trace (r : Run H) (i : Nat) :
    (manageInvocation cb r i).trace = r.trace ++ invocationCalls r.eng i := by
  unfold manageInvocation invocationCalls
  rcases Bool.eq_false_or_eq_true (BIT_HAS i r.eng.configuration) with hc | hc <;>
    rcases Bool.eq_false_or_eq_true (BIT_HAS i r.eng.invocations) with hv | hv
  · simp [hc, hv]
  · simp [hc, hv, (foldl_callInvoke cb _ _ _).2, Run.setInvocations]
  · simp [hc, hv, (foldl_callUninvoke cb _ _ _).1, (foldl_callUninvoke cb _ _ _).2,
      Run.setInvocations]
  · simp [hc, hv]

/-- The loop "manage invocations" over a list of distinct states. -/
theorem manageInvocations_fold (l : List Nat) (hl : l.Nodup) (r : Run H) :
    (l.foldl (manageInvocation cb) r).trace = r.trace ++ l.flatMap (invocationCalls r.eng) ∧
    (∀ j, BIT_HAS j (l.foldl (manageInvocation cb) r).eng.invocations =
      if j ∈ l then BIT_HAS j r.eng.configuration else BIT_HAS j r.eng.invocations) := by
  induction l generalizing r with
  | nil => simp
  | cons i l ih =>
    have hnd := List.nodup_cons.mp hl
    obtain ⟨h1, h2⟩ := ih hnd.2 (manageInvocation cb r i)
    simp only [List.foldl_cons, List.flatMap_cons]
    refine ⟨?_, ?_⟩
    · rw [h1, manageInvocation_trace, List.append_assoc]
      congr 2
      apply flatMap_agree
      intro j hj
      have hji : i ≠ j := fun hEq => hnd.1 (hEq ▸ hj)
      have hc : (manageInvocation cb r i).eng.configuration = r.eng.configuration :=
        (manageInvocation_changes cb r i).configuration_eq rfl
      have hg := (manageInvocation_changes cb r i).static.getState
      have hv : BIT_HAS j (manageInvocation cb r i).eng.invocations =
          BIT_HAS j r.eng.invocations := by
        rw [manageInvocation_eng]
        dsimp only
        split_ifs <;> simp [BIT_HAS_clear, BIT_HAS_set, hji]
      unfold invocationCalls
      rw [hc, hg, hv]
    · intro j
      rw [h2, manageInvocation_eng]
      by_cases hij : i = j
      · subst hij
        simp only [hnd.1, if_false, List.mem_cons, true_or, if_true]
        split_ifs with hc
        · simp [BIT_HAS_set, hc]
        · simp [BIT_HAS_clear]
          simpa using hc
      · have hji : ¬ j = i := fun hEq => hij hEq.symm
        by_cases hjl : j ∈ l
        · simp [hjl]
        · simp only [hjl, if_false, List.mem_cons, hji, or_self]
          split_ifs <;> simp [BIT_HAS_set, BIT_HAS_clear, hij]

theorem manageInvocations_exact (r : Run H) :
    (manageInvocations cb r).trace =
      r.trace ++ (List.range (USCXML_NUMBER_STATES r.eng)).flatMap (invocationCalls r.eng) ∧
    (∀ j, BIT_HAS j (manageInvocations cb r).eng.invocations =
      if j < USCXML_NUMBER_STATES r.eng then BIT_HAS j r.eng.configuration
      else BIT_HAS j r.eng.invocations) := by
  obtain ⟨h1, h2⟩ := manageInvocations_fold cb _ (List.nodup_range (USCXML_NUMBER_STATES r.eng)) r
  refine ⟨h1, fun j => ?_⟩
  have := h2 j
  simpa [manageInvocations] using this

theorem invocationCalls_filter (e : Engine) (i : Nat) :
    (invocationCalls e i).filter isInvokeCall = invocationCalls e i := by
  rw [List.filter_eq_self]
  intro c hc
  unfold invocationCalls at hc
  rcases List.mem_append.mp hc with h1 | h1
  · split_ifs at h1
    · obtain ⟨x, _, hx⟩ := List.mem_map.mp h1
      subst hx; rfl
    · cases h1
  · split_ifs at h1
    · obtain ⟨x, _, hx⟩ := List.mem_map.mp h1
      subst hx; rfl
    · cases h1

theorem flatMap_filter_self {α : Type} (p : Call → Bool) (g : α → List Call) (l : List α)
    (h : ∀ a, (g a).filter p = g a) : (l.flatMap g).filter p = l.flatMap g := by
  induction l with
  | nil => rfl
  | cons a l ih => simp only [List.flatMap_cons, List.filter_append, h a, ih]

theorem atExternal_invocations (b : Bool) (e : Engine) (h : H) (j : Nat) :
    BIT_HAS j (atExternal cb b e h).eng.invocations =
      if j < USCXML_NUMBER_STATES e then BIT_HAS j e.configuration
      else BIT_HAS j e.invocations := by
  unfold atExternal
  rw [(callDequeueExternal_changes cb b _).invocations_eq rfl,
    (signalStable_changes cb _).invocations_eq rfl,
    (manageInvocations_exact cb _).2 j]
  rfl

theorem atExternal_invokeCalls (b : Bool) (e : Engine) (h : H) :
    (atExternal cb b e h).trace.filter isInvokeCall =
      (List.range (USCXML_NUMBER_STATES e)).flatMap (invocationCalls e) := by
  unfold atExternal
  rw [callDequeueExternal_trace, List.filter_append,
    (signalStable_emits cb _).filter_eq (p := isInvokeCall) (fun c hc => by subst hc; rfl),
    (manageInvocations_exact cb _).1, List.filter_append, callDequeueInternal_trace]
  have hf := flatMap_filter_self isInvokeCall (invocationCalls e)
    (List.range (USCXML_NUMBER_STATES e)) (invocationCalls_filter e)
  have he : invocationCalls
      (callDequeueInternal cb { eng := e, host := h, trace := [] }).eng = invocationCalls e := rfl
  have hn : USCXML_NUMBER_STATES
      (callDequeueInternal cb { eng := e, host := h, trace := [] }).eng =
        USCXML_NUMBER_STATES e := rfl
  rw [he, hn, hf]
  simp [isInvokeCall]

theorem selectionStepCall_not_invoke {ev : Option Event} {c : Call}
    (h : isSelectionStepCall ev c) : isInvokeCall c = false := by
  rcases h with h | h | h | h | h | h
  · cases c <;> simp_all [isSelectCall, isInvokeCall]
  · subst h; rfl
  · obtain ⟨i, hi⟩ := h
    cases c <;> simp_all [isExitCall, isInvokeCall]
  · obtain ⟨i, hi⟩ := h
    cases c <;> simp_all [isTakeCall, isInvokeCall]
  · obtain ⟨i, hi⟩ := h
    cases c <;> simp_all [isEnterCall, isInvokeCall]
  · cases c <;> simp_all [isClosingCall, isInvokeCall]

/-- A step that reaches the invocation-sync point: `_invocations` and the `invoke` and
`uninvoke` calls are those of the loop "manage invocations". -/
theorem step_sync (b : Bool) (e : Engine) (h : H) (hs : reachesSync cb e h = true) :
    (step cb b e h).2.eng.invocations = (atExternal cb b e h).eng.invocations ∧
    (step cb b e h).2.trace.filter isInvokeCall =
      (atExternal cb b e h).trace.filter isInvokeCall := by
  rcases step_cases cb b e h with h1 | h1 | h1 | h1 | h1 | h1 | h1 | h1 | h1
  · simp [reachesSync, h1.1] at hs
  · simp [reachesSync, h1.2.1] at hs
  · simp [reachesSync, h1.2.2.1] at hs
  · simp [reachesSync, h1.2.1] at hs
  · rw [h1.1] at hs; cases hs
  · rw [h1.1] at hs; cases hs
  · obtain ⟨_, ev, _, hstep⟩ := h1
    rw [hstep]
    refine ⟨?_, ?_⟩
    · rw [(selectTransitions_changes cb _).invocations_eq rfl]
      rfl
    · rw [(selectTransitions_emits cb _).filter_eq (p := isInvokeCall)
        (fun c hc => selectionStepCall_not_invoke hc)]
      simp [isInvokeCall]
  · rw [h1.2.2.2]
    exact ⟨rfl, rfl⟩
  · rw [h1.2.2.2]
    exact ⟨rfl, rfl⟩

end

section

variable {H : Type} (cb : MicroStepCallbacks H)

/-! ### The bits of the configuration and of the invocations are state indices -/

theorem microstep_bound (t x ts : Bitset) (r : Run H)
    (hb : ∀ j, BIT_HAS j r.eng.configuration = true → j < USCXML_NUMBER_STATES r.eng) (j : Nat)
    (hj : BIT_HAS j (microstep cb t x ts r).2.eng.configuration = true) :
    j < USCXML_NUMBER_STATES r.eng := by
  rw [microstep_configuration] at hj
  by_cases hlt : j < USCXML_NUMBER_STATES r.eng
  · exact hlt
  · simp only [hlt, decide_False, Bool.false_and, Bool.not_false, Bool.and_true,
      Bool.or_false] at hj
    exact hb j hj

theorem selectTransitions_bound (r : Run H)
    (hb : ∀ j, BIT_HAS j r.eng.configuration = true → j < USCXML_NUMBER_STATES r.eng) (j : Nat)
    (hj : BIT_HAS j (selectTransitions cb r).2.eng.configuration = true) :
    j < USCXML_NUMBER_STATES r.eng := by
  cases h : hasFlag (selectionOf cb r).1.eng.flags USCXML_CTX_TRANSITION_FOUND
  · rw [selectTransitions_none cb r h] at hj
    apply hb
    have hc : ((selectionOf cb r).1.setFlags
        (bitAndNot (selectionOf cb r).1.eng.flags USCXML_CTX_SPONTANEOUS)).eng.configuration =
          r.eng.configuration := (selectionOf_changes cb r).configuration_eq rfl
    rw [hc] at hj
    exact hj
  · rw [selectTransitions_found cb r h] at hj
    have hc := (beforeEntrySet_changes cb r).configuration_eq rfl
    have hn := (beforeEntrySet_changes cb r).static.numStates
    rw [← hn]
    refine microstep_bound cb _ _ _ _ ?_ j hj
    intro k hk
    rw [hc] at hk
    rw [hn]
    exact hb k hk

theorem InRange.afterInitStep (b : Bool) (e : Engine) (h : H) (hi : e.isInitialized = true)
    (hr : InRange e) : InRange (step cb b e h).2.eng := by
  obtain ⟨_, hc, hv⟩ := hr
  have hst := (step_proper cb b e h hi).1
  have hn : USCXML_NUMBER_STATES (step cb b e h).2.eng = USCXML_NUMBER_STATES e := hst.numStates
  refine ⟨fun h0 => ?_, ?_, ?_⟩
  · rw [hst.2.2.2.1, hi] at h0
    cases h0
  · rw [hn]
    rcases step_cases cb b e h with h1 | h1 | h1 | h1 | h1 | h1 | h1 | h1 | h1
    · rw [hi] at h1; cases h1.1
    · rw [h1.2.2]; exact hc
    · rw [h1.2.2.2, (completeStep_changes cb _).configuration_eq rfl]; exact hc
    · rw [h1.2.2]
      intro j hj
      refine microstep_bound cb _ _ _ _ ?_ j hj
      exact hc
    · rw [h1.2.2.2.2.2.2]
      intro j hj
      exact selectTransitions_bound cb _ hc j hj
    · obtain ⟨_, _, _, _, _, _, ev, _, hs⟩ := h1
      rw [hs]
      intro j hj
      exact selectTransitions_bound cb _ hc j hj
    · obtain ⟨_, ev, _, hs⟩ := h1
      rw [hs]
      intro j hj
      have hcx := (atExternal_changes cb b e h).configuration_eq rfl
      have hnx := (atExternal_changes cb b e h).static.numStates
      rw [← hnx]
      refine selectTransitions_bound cb
        (callMonitor cb (MonitorHook.beforeProcessingEvent ev) (atExternal cb b e h)) ?_ j hj
      intro k hk
      rw [callMonitor_eng, hcx] at hk
      rw [callMonitor_eng, hnx]
      exact hc k hk
    · rw [h1.2.2.2]
      intro j hj
      have hcx := (atExternal_changes cb b e h).configuration_eq rfl
      exact hc j (by rw [← hcx]; exact hj)
    · rw [h1.2.2.2]
      intro j hj
      have hcx := (atExternal_changes cb b e h).configuration_eq rfl
      exact hc j (by rw [← hcx]; exact hj)
  · rw [hn]
    by_cases hs : reachesSync cb e h = true
    · intro j hj
      rw [(step_sync cb b e h hs).1, atExternal_invocations] at hj
      split_ifs at hj with hlt
      · exact hlt
      · exact hv j hj
    · have hs2 : reachesSync cb e h = false := by simpa using hs
      rcases step_cases cb b e h with h1 | h1 | h1 | h1 | h1 | h1 | h1 | h1 | h1
      · rw [hi] at h1; cases h1.1
      · rw [h1.2.2]; exact hv
      · rw [h1.2.2.2]
        intro j hj
        rw [(completeStep_exact cb _).2 j] at hj
        simp only [Bool.and_eq_true] at hj
        exact hv j hj.1
      · rw [h1.2.2, (microstep_changes cb _ _ _ _).invocations_eq rfl]
        exact hv
      · rw [h1.2.2.2.2.2.2, (selectTransitions_changes cb _).invocations_eq rfl]
        exact hv
      · obtain ⟨_, _, _, _, _, _, ev, _, hst2⟩ := h1
        rw [hst2, (selectTransitions_changes cb _).invocations_eq rfl]
        exact hv
      · rw [h1.1] at hs2; cases hs2
      · rw [h1.1] at hs2; cases hs2
      · rw [h1.1] at hs2; cases hs2

theorem InRange.ofConstruct (scxml : Index) : InRange (construct scxml) := by
  refine ⟨fun _ => ⟨rfl, rfl⟩, fun j hj => ?_, fun j hj => ?_⟩ <;>
    simp [construct, BIT_HAS_zero] at hj

theorem InRange.afterAnyStep (b : Bool) (e : Engine) (h : H) (hr : InRange e) :
    InRange (step cb b e h).2.eng := by
  rcases Bool.eq_false_or_eq_true e.isInitialized with hi | hi
  · exact InRange.afterInitStep cb b e h hi hr
  · rw [step_uninitialized cb b e h hi]
    obtain ⟨hc, hv⟩ := hr.1 hi
    refine ⟨fun h0 => by simp [init] at h0, fun j hj => ?_, fun j hj => ?_⟩
    · simp [init, hc, BIT_HAS_zero] at hj
    · simp [init, hv, BIT_HAS_zero] at hj

theorem InRange.afterAnyAction (p : Engine × H) (a : Action H) (hr : InRange p.1) :
    InRange (applyAction cb p a).1 := by
  cases a with
  | step b => exact InRange.afterAnyStep cb b p.1 p.2 hr
  | cancel => exact hr
  | reset =>
    refine ⟨fun _ => ⟨rfl, rfl⟩, fun j hj => ?_, fun j hj => ?_⟩ <;>
      simp [uscxml.applyAction, reset, BIT_HAS_zero] at hj
  | env host => exact hr

theorem InRange.ofAnyRun (scxml : Index) (h : H) (actions : List (Action H)) :
    InRange (run cb scxml h actions).1 := by
  unfold uscxml.run
  exact foldl_preserves (fun p : Engine × H => InRange p.1) (uscxml.applyAction cb)
    (fun p a hp => InRange.afterAnyAction cb p a hp) actions _ (InRange.ofConstruct scxml)

end

section

variable {H : Type} (cb : MicroStepCallbacks H)

/-! ### Flags through a micro-step and through transition selection -/

theorem handleFinal_flagBit (i : Nat) (r : Run H) (k : Nat) (hk : k ≠ 2) :
    (handleFinal cb i r).eng.flags.testBit k = r.eng.flags.testBit k := by
  unfold handleFinal
  simp only []
  split_ifs
  · rw [parallelDones_eng]
    simp only [Run.setFlags, Nat.testBit_lor]
    have : USCXML_CTX_TOP_LEVEL_FINAL.testBit k = false := by
      rw [show USCXML_CTX_TOP_LEVEL_FINAL = 2 ^ 2 from rfl, Nat.testBit_two_pow]
      simp [Ne.symm hk]
    rw [this, Bool.or_false]
  · rw [parallelDones_eng]
    rfl
  · rfl

theorem enterState_flagBit (es ts : Bitset) (r : Run H) (i : Nat) (k : Nat) (hk : k ≠ 2) :
    (enterState cb es ts r i).eng.flags.testBit k = r.eng.flags.testBit k := by
  unfold enterState
  simp only []
  split_ifs
  · rfl
  · rfl
  · rw [handleFinal_flagBit cb i _ k hk, takePseudoTransitions_eng, callMonitor_eng,
      (foldl_callProcess cb _ _ _).1, (initializeData_changes cb i _).flags_eq rfl]
    rfl
  · rfl

theorem enterStates_flagBit (es ts : Bitset) (r : Run H) (k : Nat) (hk : k ≠ 2) :
    (enterStates cb es ts r).eng.flags.testBit k = r.eng.flags.testBit k :=
  foldl_rel (fun a b : Run H => b.eng.flags.testBit k = a.eng.flags.testBit k)
    (enterState cb es ts) (fun _ => rfl) (fun _ _ _ h1 h2 => h2.trans h1)
    (fun a i => enterState_flagBit cb es ts a i k hk) _ r

/-- A micro-step changes no flag but TopLevelFinal. -/
theorem microstep_flagBit (t x ts : Bitset) (r : Run H) (k : Nat) (hk : k ≠ 2) :
    (microstep cb t x ts r).2.eng.flags.testBit k = r.eng.flags.testBit k := by
  unfold microstep
  simp only
  rw [(recordConfiguration_changes cb _).flags_eq rfl, callMonitor_eng,
    enterStates_flagBit cb _ _ _ k hk, takeTransitions_eng,
    (exitStates_changes cb x r).flags_eq rfl]

theorem hasFlag_stable (f : Nat) : hasFlag f USCXML_CTX_STABLE = f.testBit 5 :=
  hasFlag_pow f 5

theorem hasFlag_spontaneous (f : Nat) : hasFlag f USCXML_CTX_SPONTANEOUS = f.testBit 0 :=
  hasFlag_pow f 0

theorem hasFlag_finished (f : Nat) : hasFlag f USCXML_CTX_FINISHED = f.testBit 4 :=
  hasFlag_pow f 4

theorem selectionOf_stable (r : Run H) :
    (selectionOf cb r).1.eng.flags.testBit 5 = false := by
  unfold selectionOf
  rw [selectLoop_flags cb _ _ 5 (by decide)]
  simp only [Run.setFlags]
  rw [testBit_andNot]
  have h3 : USCXML_CTX_STABLE.testBit 5 = true := by decide
  simp [h3]

/-- Transition selection leaves Stable clear. -/
theorem selectTransitions_stable (r : Run H) :
    hasFlag (selectTransitions cb r).2.eng.flags USCXML_CTX_STABLE = false := by
  rw [hasFlag_stable]
  cases h : hasFlag (selectionOf cb r).1.eng.flags USCXML_CTX_TRANSITION_FOUND
  · rw [selectTransitions_none cb r h]
    simp only [Run.setFlags]
    rw [testBit_andNot, selectionOf_stable]
    rfl
  · rw [selectTransitions_found cb r h, microstep_flagBit cb _ _ _ _ 5 (by decide)]
    unfold beforeEntrySet
    simp only []
    rw [(rememberHistory_changes _ _).flags_eq rfl]
    simp only [callMonitor_eng, Run.setFlags]
    rw [testBit_andNot, Nat.testBit_lor, selectionOf_stable]
    have h1 : USCXML_CTX_SPONTANEOUS.testBit 5 = false := by decide
    simp [h1]

/-- A micro-step found by transition selection leaves Spontaneous set. -/
theorem selectTransitions_spontaneous (r : Run H)
    (hres : (selectTransitions cb r).1 = InterpreterState.USCXML_MICROSTEPPED) :
    hasFlag (selectTransitions cb r).2.eng.flags USCXML_CTX_SPONTANEOUS = true := by
  rw [hasFlag_spontaneous, selectTransitions_microstepped cb r hres,
    microstep_flagBit cb _ _ _ _ 0 (by decide)]
  unfold beforeEntrySet
  simp only []
  rw [(rememberHistory_changes _ _).flags_eq rfl]
  simp only [callMonitor_eng, Run.setFlags]
  rw [testBit_andNot, Nat.testBit_lor]
  have h1 : USCXML_CTX_SPONTANEOUS.testBit 0 = true := by decide
  have h2 : USCXML_CTX_TRANSITION_FOUND.testBit 0 = false := by decide
  simp [h1, h2]

/-! ### The calls of `onStableConfiguration` -/

theorem signalStable_trace (r : Run H) :
    (signalStable cb r).trace =
      r.trace ++ (if hasFlag r.eng.flags USCXML_CTX_STABLE then []
        else [Call.monitor MonitorHook.onStableConfiguration]) := by
  unfold signalStable
  rcases Bool.eq_false_or_eq_true (hasFlag r.eng.flags USCXML_CTX_STABLE) with hs | hs <;>
    simp [hs]

theorem atExternal_stableCalls (b : Bool) (e : Engine) (h : H) :
    (atExternal cb b e h).trace.filter isStableCall =
      if hasFlag e.flags USCXML_CTX_STABLE then []
      else [Call.monitor MonitorHook.onStableConfiguration] := by
  unfold atExternal
  rw [callDequeueExternal_trace, List.filter_append, signalStable_trace, List.filter_append,
    (manageInvocations_emits cb _).filter_eq (p := isStableCall)
      (fun c hc => by cases c <;> simp_all [isInvokeCall, isStableCall]),
    (manageInvocations_changes cb _).flags_eq rfl, callDequeueInternal_trace,
    (callDequeueInternal_changes cb _).flags_eq rfl]
  split_ifs <;> simp [isStableCall]

theorem microstepCall_not_stable {c : Call} (h : isMicrostepCall c) : isStableCall c = false := by
  rcases h with h | h | h | h
  · obtain ⟨i, hi⟩ := h
    cases c with
    | monitor k => cases k <;> simp_all [isExitCall, isStableCall]
    | _ => simp_all [isExitCall, isStableCall]
  · obtain ⟨i, hi⟩ := h
    cases c with
    | monitor k => cases k <;> simp_all [isTakeCall, isStableCall]
    | _ => simp_all [isTakeCall, isStableCall]
  · obtain ⟨i, hi⟩ := h
    cases c with
    | monitor k => cases k <;> simp_all [isEnterCall, isStableCall]
    | _ => simp_all [isEnterCall, isStableCall]
  · cases c with
    | monitor k => cases k <;> simp_all [isClosingCall, isStableCall]
    | _ => simp_all [isClosingCall, isStableCall]

theorem selectionStepCall_not_stable {ev : Option Event} {c : Call}
    (h : isSelectionStepCall ev c) : isStableCall c = false := by
  rcases h with h | h | h
  · cases c <;> simp_all [isSelectCall, isStableCall]
  · subst h; rfl
  · exact microstepCall_not_stable h

theorem completionCall_not_stable {c : Call} (h : isCompletionCall c = true) :
    isStableCall c = false := by
  cases c with
  | monitor k => cases k <;> simp_all [isCompletionCall, isStableCall]
  | _ => simp_all [isCompletionCall, isStableCall]

/-- The calls of `onStableConfiguration` in a step: one when the sync point is reached with
Stable clear, none otherwise. -/
theorem step_stableCalls (b : Bool) (e : Engine) (h : H) :
    (step cb b e h).2.trace.filter isStableCall =
      if reachesSync cb e h && !hasFlag e.flags USCXML_CTX_STABLE then
        [Call.monitor MonitorHook.onStableConfiguration]
      else [] := by
  rcases step_cases cb b e h with h1 | h1 | h1 | h1 | h1 | h1 | h1 | h1 | h1
  · rw [h1.2]
    simp [reachesSync, h1.1]
  · rw [h1.2.2]
    simp [reachesSync, h1.2.1]
  · rw [h1.2.2.2, (completeStep_emits cb _).filter_eq (p := isStableCall)
      (fun c hc => completionCall_not_stable hc)]
    simp [reachesSync, h1.2.2.1]
  · rw [h1.2.2, (microstep_emits cb _ _ _ _).filter_eq (p := isStableCall)
      (fun c hc => microstepCall_not_stable hc)]
    simp [reachesSync, h1.2.1, isStableCall]
  · rw [h1.2.2.2.2.2.2, (selectTransitions_emits cb _).filter_eq (p := isStableCall)
      (fun c hc => selectionStepCall_not_stable hc), h1.1]
    simp
  · obtain ⟨hn, _, _, _, _, _, ev, _, hs⟩ := h1
    rw [hs, (selectTransitions_emits cb _).filter_eq (p := isStableCall)
      (fun c hc => selectionStepCall_not_stable hc), hn]
    simp [isStableCall]
  · obtain ⟨hy, ev, _, hs⟩ := h1
    rw [hs, (selectTransitions_emits cb _).filter_eq (p := isStableCall)
      (fun c hc => selectionStepCall_not_stable hc), hy, callMonitor_trace, List.filter_append,
      atExternal_stableCalls]
    split_ifs <;> simp_all [isStableCall]
  · rw [h1.2.2.2, h1.1]
    simp only [setFlags_trace, atExternal_stableCalls]
    split_ifs <;> simp_all
  · rw [h1.2.2.2, h1.1, atExternal_stableCalls]
    split_ifs <;> simp_all

theorem passesSelection_of_sync (b : Bool) (e : Engine) (h : H)
    (hs : reachesSync cb e h = true) :
    passesSelection cb b e h = (externalEvent cb b e h).isSome := by
  obtain ⟨hi, hf, ht, hp, hsp, hev⟩ := (reachesSync_iff cb e h).mp hs
  simp [passesSelection, hi, hf, ht, hp, hsp, hev]

/-- A step that does not go through transition selection, taken with flags for which no
signal is due, makes no call of `onStableConfiguration` and leaves such flags. -/
theorem step_settled (b : Bool) (e : Engine) (h : H) (hj : NoSignalDue e.flags)
    (hn : passesSelection cb b e h = false) :
    NoSignalDue (step cb b e h).2.eng.flags ∧
      (step cb b e h).2.trace.filter isStableCall = [] := by
  have hstable : reachesSync cb e h = true → hasFlag e.flags USCXML_CTX_STABLE = true := by
    intro hs
    obtain ⟨_, hf, ht, hp, hsp, _⟩ := (reachesSync_iff cb e h).mp hs
    rcases hj with h1 | h1 | h1 | h1 | h1
    · exact h1
    · exact absurd h1 hp
    · rw [hsp] at h1; cases h1
    · rw [ht] at h1; cases h1
    · rw [hf] at h1; cases h1
  refine ⟨?_, ?_⟩
  · rcases step_cases cb b e h with h1 | h1 | h1 | h1 | h1 | h1 | h1 | h1 | h1
    · rw [h1.2]; exact hj
    · rw [h1.2.2]; exact hj
    · rw [h1.2.2.2, completeStep_flags]
      exact Or.inr (Or.inr (Or.inr (Or.inr (hasFlag_or_self _ _ (by decide)))))
    · refine Or.inr (Or.inr (Or.inl ?_))
      rw [h1.2.2, hasFlag_spontaneous, microstep_flagBit cb _ _ _ _ 0 (by decide)]
      show (USCXML_CTX_SPONTANEOUS ||| USCXML_CTX_INITIALIZED).testBit 0 = true
      decide
    · obtain ⟨_, hi, hf, ht, hp, hsp, _⟩ := h1
      simp [passesSelection, hi, hf, ht, hp, hsp] at hn
    · obtain ⟨_, hi, hf, ht, hp, hsp, ev, hev, _⟩ := h1
      simp [passesSelection, hi, hf, ht, hp, hsp, hev] at hn
    · obtain ⟨hy, ev, hx, _⟩ := h1
      rw [passesSelection_of_sync cb b e h hy, hx] at hn
      cases hn
    · rw [h1.2.2.2]
      exact Or.inr (Or.inr (Or.inr (Or.inl (hasFlag_or_self _ _ (by decide)))))
    · rw [h1.2.2.2, atExternal_flags]
      exact Or.inl (hasFlag_or_self _ _ (by decide))
  · rw [step_stableCalls]
    rcases Bool.eq_false_or_eq_true (reachesSync cb e h) with hs | hs
    · simp [hs, hstable hs]
    · simp [hs]

/-- Over a sequence of actions in which no step goes through transition selection. -/
theorem steps_settled (seg : List (Action H)) (p : Engine × H) (hj : NoSignalDue p.1.flags)
    (hfree : selectionFree cb p seg = true) :
    (stepsTrace cb p seg).filter isStableCall = [] := by
  induction seg generalizing p with
  | nil => rfl
  | cons a rest ih =>
    simp only [selectionFree, Bool.and_eq_true] at hfree
    simp only [stepsTrace, List.filter_append]
    cases a with
    | step b =>
      have hn : passesSelection cb b p.1 p.2 = false := by simpa using hfree.1
      obtain ⟨h1, h2⟩ := step_settled cb b p.1 p.2 hj hn
      rw [h2, ih _ h1 hfree.2]
      rfl
    | cancel =>
      rw [ih (applyAction cb p Action.cancel) hj hfree.2]
      rfl
    | reset =>
      rw [ih (applyAction cb p Action.reset) (Or.inr (Or.inl rfl)) hfree.2]
      rfl
    | env host =>
      rw [ih (applyAction cb p (Action.env host)) hj hfree.2]
      rfl

end

section

variable {H : Type} (cb : MicroStepCallbacks H)

/-! ### A loop that changes its state at one index only -/

theorem foldl_single {α : Type} (f : α → Nat → α) (l : List Nat) (a : Nat) (x y : α)
    (ha : a ∈ l) (h1 : ∀ i ∈ l, i ≠ a → f x i = x) (h2 : f x a = y)
    (h3 : ∀ i ∈ l, f y i = y) : l.foldl f x = y := by
  induction l with
  | nil => cases ha
  | cons i l ih =>
    simp only [List.foldl_cons]
    by_cases hia : i = a
    · subst hia
      rw [h2]
      exact foldl_fixed f l y (fun b hb => h3 b (List.mem_cons_of_mem _ hb))
    · rw [h1 i (List.mem_cons_self _ _) hia]
      have ha2 : a ∈ l := by
        rcases List.mem_cons.mp ha with h | h
        · exact absurd h.symm hia
        · exact h
      exact ih ha2 (fun j hj hja => h1 j (List.mem_cons_of_mem _ hj) hja)
        (fun j hj => h3 j (List.mem_cons_of_mem _ hj))

/-! ### What the selection loop leaves -/

theorem selectTransition_flags_exact (p : Run H × Selection) (i : Nat) :
    (selectTransition cb p i).1.eng.flags =
      if takes cb p i then p.1.eng.flags ||| USCXML_CTX_TRANSITION_FOUND
      else p.1.eng.flags := by
  unfold selectTransition takes enabledFor
  simp only []
  split_ifs <;> simp_all [Run.setFlags, evalCond_eng, evalMatched_eng]

theorem BIT_SET_AT_ne_zero (i : Nat) (b : Bitset) : BIT_SET_AT i b ≠ 0 := by
  intro h
  have := BIT_HAS_set i i b
  rw [h, BIT_HAS_zero] at this
  simp at this

theorem or_or_self (a b : Nat) : (a ||| b) ||| b = a ||| b := by
  apply Nat.eq_of_testBit_eq
  intro k
  simp only [Nat.testBit_lor]
  cases a.testBit k <;> cases b.testBit k <;> rfl

/-- The flags after the selection loop: TransitionFound is added iff a transition was
taken. -/
theorem selectLoop_flags_exact (n : Nat) (r : Run H) :
    (selectLoop cb n r).1.eng.flags =
      if (selectLoop cb n r).2.transSet = 0 then r.eng.flags
      else r.eng.flags ||| USCXML_CTX_TRANSITION_FOUND := by
  induction n with
  | zero => simp [selectLoop]
  | succ n ih =>
    rw [selectLoop_succ, selectTransition_flags_exact, selectTransition_sets]
    by_cases ht : takes cb (selectLoop cb n r) n = true
    · simp only [ht, if_true, BIT_SET_AT_ne_zero, if_false]
      rw [ih]
      split_ifs
      · rfl
      · exact or_or_self _ _
    · simp only [ht, if_false]
      exact ih

/-- The target set after the selection loop is the union of the targets of the transitions
taken; likewise the exit set. -/
theorem selectLoop_sets (n : Nat) (r : Run H) (j : Nat) :
    (BIT_HAS j (selectLoop cb n r).2.targetSet = true ↔
      ∃ i, i < n ∧ BIT_HAS i (selectLoop cb n r).2.transSet = true ∧
        BIT_HAS j (USCXML_GET_TRANS r.eng i).target = true) ∧
    (BIT_HAS j (selectLoop cb n r).2.exitSet = true ↔
      ∃ i, i < n ∧ BIT_HAS i (selectLoop cb n r).2.transSet = true ∧
        BIT_HAS j (USCXML_GET_TRANS r.eng i).exitSet = true) := by
  induction n with
  | zero => simp [selectLoop, BIT_HAS_zero]
  | succ n ih =>
    have hg : USCXML_GET_TRANS (selectLoop cb n r).1.eng = USCXML_GET_TRANS r.eng :=
      (selectLoop_eng cb n r).trans_eq
    have hge : BIT_HAS n (selectLoop cb n r).2.transSet = false :=
      selectLoop_transSet_ge cb r n n (le_refl _)
    rw [selectLoop_succ, selectTransition_sets]
    rcases Bool.eq_false_or_eq_true (takes cb (selectLoop cb n r) n) with ht | ht
    · simp only [ht, if_true, BIT_HAS_or, BIT_HAS_set, Bool.or_eq_true, hg, decide_eq_true_eq]
      constructor
      · constructor
        · rintro (h1 | h1)
          · obtain ⟨i, hi, h2, h3⟩ := ih.1.mp h1
            exact ⟨i, by omega, Or.inr h2, h3⟩
          · exact ⟨n, by omega, Or.inl rfl, h1⟩
        · rintro ⟨i, hi, h2, h3⟩
          rcases h2 with h2 | h2
          · subst h2; exact Or.inr h3
          · have hin : i < n := by
              rcases Nat.lt_or_ge i n with h | h
              · exact h
              · have : i = n := by omega
                subst this
                rw [hge] at h2; cases h2
            exact Or.inl (ih.1.mpr ⟨i, hin, h2, h3⟩)
      · constructor
        · rintro (h1 | h1)
          · obtain ⟨i, hi, h2, h3⟩ := ih.2.mp h1
            exact ⟨i, by omega, Or.inr h2, h3⟩
          · exact ⟨n, by omega, Or.inl rfl, h1⟩
        · rintro ⟨i, hi, h2, h3⟩
          rcases h2 with h2 | h2
          · subst h2; exact Or.inr h3
          · have hin : i < n := by
              rcases Nat.lt_or_ge i n with h | h
              · exact h
              · have : i = n := by omega
                subst this
                rw [hge] at h2; cases h2
            exact Or.inl (ih.2.mpr ⟨i, hin, h2, h3⟩)
    · simp only [ht, Bool.false_eq_true, if_false]
      constructor
      · rw [ih.1]
        constructor
        · rintro ⟨i, hi, h2, h3⟩
          exact ⟨i, by omega, h2, h3⟩
        · rintro ⟨i, hi, h2, h3⟩
          have hin : i < n := by
            rcases Nat.lt_or_ge i n with h | h
            · exact h
            · have : i = n := by omega
              subst this
              rw [hge] at h2; cases h2
          exact ⟨i, hin, h2, h3⟩
      · rw [ih.2]
        constructor
        · rintro ⟨i, hi, h2, h3⟩
          exact ⟨i, by omega, h2, h3⟩
        · rintro ⟨i, hi, h2, h3⟩
          have hin : i < n := by
            rcases Nat.lt_or_ge i n with h | h
            · exact h
            · have : i = n := by omega
              subst this
              rw [hge] at h2; cases h2
          exact ⟨i, hin, h2, h3⟩

end

section

variable {H : Type} (cb : MicroStepCallbacks H)

/-! ### Bit sets -/

theorem or_absorb (a b : Bitset) (h : ∀ j, BIT_HAS j b = true → BIT_HAS j a = true) :
    a ||| b = a := by
  apply Nat.eq_of_testBit_eq
  intro k
  have hk := h k
  simp only [BIT_HAS] at hk
  rw [Nat.testBit_lor]
  cases hb : b.testBit k
  · simp
  · simp [hk hb]

theorem BIT_HAS_AND_iff (a b : Bitset) :
    BIT_HAS_AND a b = true ↔ ∃ j, BIT_HAS j a = true ∧ BIT_HAS j b = true := by
  unfold BIT_HAS_AND
  rw [bne_iff_ne]
  constructor
  · intro h
    by_contra hne
    apply h
    apply Nat.eq_of_testBit_eq
    intro k
    rw [Nat.zero_testBit, Nat.testBit_and]
    cases ha : a.testBit k
    · rfl
    · cases hb : b.testBit k
      · rfl
      · exact absurd ⟨k, ha, hb⟩ hne
  · rintro ⟨j, ha, hb⟩ h0
    have := congrArg (fun x => Nat.testBit x j) h0
    simp only [BIT_HAS] at ha hb
    simp [Nat.testBit_and, ha, hb] at this

theorem BIT_HAS_AND_false (a b : Bitset) :
    BIT_HAS_AND a b = false ↔ ∀ j, BIT_HAS j a = true → BIT_HAS j b = false := by
  rw [← Bool.not_eq_true, BIT_HAS_AND_iff]
  constructor
  · intro h j ha
    cases hb : BIT_HAS j b
    · rfl
    · exact absurd ⟨j, ha, hb⟩ h
  · rintro h ⟨j, ha, hb⟩
    rw [h j ha] at hb
    cases hb

theorem bit_eq_of_forall {a b : Bitset} (h : ∀ j, BIT_HAS j a = BIT_HAS j b) : a = b :=
  Nat.eq_of_testBit_eq h

/-! ### Transition selection that takes nothing, or one transition -/

theorem selectionOf_eng (r : Run H) :
    (selectionOf cb r).1.eng = { r.eng with flags := (selectionOf cb r).1.eng.flags } := by
  have h := selectLoop_eng cb r.eng.transitions.length
    (r.setFlags (bitAndNot r.eng.flags USCXML_CTX_STABLE))
  unfold SameButFlags at h
  unfold selectionOf
  rw [h]
  rfl

theorem selectionOf_flags (r : Run H) :
    (selectionOf cb r).1.eng.flags =
      if (selectionOf cb r).2.transSet = 0 then bitAndNot r.eng.flags USCXML_CTX_STABLE
      else bitAndNot r.eng.flags USCXML_CTX_STABLE ||| USCXML_CTX_TRANSITION_FOUND := by
  unfold selectionOf
  rw [selectLoop_flags_exact]
  rfl

/-- Transition selection that takes no transition. -/
theorem selectTransitions_nothing (r : Run H)
    (hf : hasFlag r.eng.flags USCXML_CTX_TRANSITION_FOUND = false)
    (h0 : (selectionOf cb r).2.transSet = 0) :
    (selectTransitions cb r).1 = InterpreterState.USCXML_MACROSTEPPED ∧
    (selectTransitions cb r).2.eng =
      { r.eng with flags := flagsNone r.eng.flags } := by
  have hfl := selectionOf_flags cb r
  rw [if_pos h0] at hfl
  have hnf : hasFlag (selectionOf cb r).1.eng.flags USCXML_CTX_TRANSITION_FOUND = false := by
    rw [hfl, hasFlag_andNot _ _ _ (by decide)]
    exact hf
  rw [selectTransitions_none cb r hnf]
  refine ⟨rfl, ?_⟩
  simp only [Run.setFlags]
  rw [hfl, selectionOf_eng]
  rfl

/-- Transition selection that takes exactly the transition `t`. -/
theorem selectTransitions_one (r : Run H) (t : Nat) (ht : t < r.eng.transitions.length)
    (h1 : (selectionOf cb r).2.transSet = 1 <<< t) :
    selectTransitions cb r =
      microstep cb (USCXML_GET_TRANS r.eng t).target
        ((USCXML_GET_TRANS r.eng t).exitSet &&& r.eng.configuration) (1 <<< t)
        (beforeEntrySet cb r) ∧
    (beforeEntrySet cb r).eng =
      rememberHistory ((USCXML_GET_TRANS r.eng t).exitSet &&& r.eng.configuration)
        { r.eng with flags := flagsFound r.eng.flags } := by
  have hne : (selectionOf cb r).2.transSet ≠ 0 := by
    rw [h1]
    intro h0
    have := BIT_HAS_one_shiftLeft t t
    rw [h0, BIT_HAS_zero] at this
    simp at this
  have hfl := selectionOf_flags cb r
  rw [if_neg hne] at hfl
  have hfound : hasFlag (selectionOf cb r).1.eng.flags USCXML_CTX_TRANSITION_FOUND = true := by
    rw [hfl]
    exact hasFlag_or_self _ _ (by decide)
  have hsets := fun j => selectLoop_sets cb r.eng.transitions.length
    (r.setFlags (bitAndNot r.eng.flags USCXML_CTX_STABLE)) j
  have hpick : ∀ (f : Transition → Bitset) (s : Bitset),
      (∀ j, BIT_HAS j s = true ↔ ∃ i, i < r.eng.transitions.length ∧
        BIT_HAS i (selectionOf cb r).2.transSet = true ∧
        BIT_HAS j (f (USCXML_GET_TRANS r.eng i)) = true) →
      s = f (USCXML_GET_TRANS r.eng t) := by
    intro f s hs
    apply bit_eq_of_forall
    intro j
    rw [Bool.eq_iff_iff, hs j]
    constructor
    · rintro ⟨i, _, h2, h3⟩
      rw [h1, BIT_HAS_one_shiftLeft] at h2
      have : t = i := by simpa using h2
      subst this
      exact h3
    · intro h3
      refine ⟨t, ht, ?_, h3⟩
      rw [h1, BIT_HAS_one_shiftLeft]
      simp
  have htarget : (selectionOf cb r).2.targetSet = (USCXML_GET_TRANS r.eng t).target :=
    hpick (fun x => x.target) _ (fun j => (hsets j).1)
  have hexit : (selectionOf cb r).2.exitSet = (USCXML_GET_TRANS r.eng t).exitSet :=
    hpick (fun x => x.exitSet) _ (fun j => (hsets j).2)
  have hcfg : (selectionOf cb r).1.eng.configuration = r.eng.configuration :=
    (selectionOf_changes cb r).configuration_eq rfl
  have hx : exitSetOf cb r =
      (USCXML_GET_TRANS r.eng t).exitSet &&& r.eng.configuration := by
    unfold exitSetOf
    rw [hexit, hcfg]
  refine ⟨?_, ?_⟩
  · rw [selectTransitions_found cb r hfound, htarget, hx, h1]
  · unfold beforeEntrySet
    simp only [callMonitor_eng, Run.setFlags]
    rw [hx, hfl, selectionOf_eng]
    rfl

end

section

variable {H : Type} (cb : MicroStepCallbacks H)

/-! ### A micro-step that enters no final state -/

theorem enterState_flags_same (es ts : Bitset) (r : Run H) (i : Nat)
    (hfin : BIT_HAS i es = true →
      USCXML_STATE_MASK (USCXML_GET_STATE r.eng i).type ≠ USCXML_STATE_FINAL) :
    (enterState cb es ts r i).eng.flags = r.eng.flags := by
  rcases Bool.eq_false_or_eq_true (BIT_HAS i es && !BIT_HAS i r.eng.configuration &&
      !isPseudoType (USCXML_GET_STATE r.eng i).type) with h | h
  · rw [enterState_enter cb es ts r i h]
    have hes : BIT_HAS i es = true := by
      simp only [Bool.and_eq_true] at h
      exact h.1.1
    have hst := (enterBody_changes cb ts i r).static
    rw [handleFinal_other cb i _ (by rw [hst.getState]; exact hfin hes)]
    exact (enterBody_changes cb ts i r).flags_eq rfl
  · rw [enterState_skip cb es ts r i h]

theorem enterStates_flags_same (es ts : Bitset) (r : Run H)
    (hfin : ∀ i, i < USCXML_NUMBER_STATES r.eng → BIT_HAS i es = true →
      USCXML_STATE_MASK (USCXML_GET_STATE r.eng i).type ≠ USCXML_STATE_FINAL) :
    (enterStates cb es ts r).eng.flags = r.eng.flags := by
  unfold enterStates
  have key : ∀ (l : List Nat) (x : Run H), Static r.eng x.eng →
      (∀ i ∈ l, i < USCXML_NUMBER_STATES r.eng) →
      (l.foldl (enterState cb es ts) x).eng.flags = x.eng.flags := by
    intro l
    induction l with
    | nil => intro x _ _; rfl
    | cons i l ih =>
      intro x hx hl
      simp only [List.foldl_cons]
      rw [ih (enterState cb es ts x i) (hx.chain (enterState_changes cb es ts x i).static)
        (fun j hj => hl j (List.mem_cons_of_mem _ hj))]
      apply enterState_flags_same
      rw [hx.getState]
      exact hfin i (hl i (List.mem_cons_self _ _))
  exact key _ r (Static.same _) (fun i hi => by simpa [USCXML_NUMBER_STATES] using hi)

/-- A micro-step whose entry set holds no final state leaves the flags alone. -/
theorem microstep_flags_same (t x ts : Bitset) (r : Run H)
    (hfin : ∀ i, i < USCXML_NUMBER_STATES r.eng →
      BIT_HAS i (establishEntrySet r.eng t x ts).1 = true →
      USCXML_STATE_MASK (USCXML_GET_STATE r.eng i).type ≠ USCXML_STATE_FINAL) :
    (microstep cb t x ts r).2.eng.flags = r.eng.flags := by
  unfold microstep
  simp only
  rw [(recordConfiguration_changes cb _).flags_eq rfl, callMonitor_eng, enterStates_flags_same,
    takeTransitions_eng, (exitStates_changes cb x r).flags_eq rfl]
  intro i hi hes
  rw [takeTransitions_eng, (exitStates_changes cb x r).static.getState]
  rw [takeTransitions_eng, (exitStates_changes cb x r).static.numStates] at hi
  exact hfin i hi hes

/-- A micro-step leaves the history, the invocations and the index alone. -/
theorem microstep_rest (t x ts : Bitset) (r : Run H) :
    (microstep cb t x ts r).2.eng.history = r.eng.history ∧
    (microstep cb t x ts r).2.eng.invocations = r.eng.invocations ∧
    Static r.eng (microstep cb t x ts r).2.eng :=
  ⟨(microstep_changes cb t x ts r).history_eq rfl,
    (microstep_changes cb t x ts r).invocations_eq rfl, (microstep_changes cb t x ts r).static⟩

/-! ### The body of the loop "iterate for descendants", by case -/

theorem addDescendants_absent (e : Engine) (x : Bitset) (p : Bitset × Bitset) (i : Nat)
    (h : BIT_HAS i p.1 = false) : addDescendants e x p i = p := by
  unfold addDescendants
  simp [h]

theorem addDescendants_atomic (e : Engine) (x : Bitset) (p : Bitset × Bitset) (i : Nat)
    (h : USCXML_STATE_MASK (USCXML_GET_STATE e i).type = USCXML_STATE_ATOMIC) :
    addDescendants e x p i = p := by
  unfold addDescendants
  simp [h]

theorem addDescendants_final (e : Engine) (x : Bitset) (p : Bitset × Bitset) (i : Nat)
    (h : USCXML_STATE_MASK (USCXML_GET_STATE e i).type = USCXML_STATE_FINAL) :
    addDescendants e x p i = p := by
  unfold addDescendants
  simp [h]

theorem addDescendants_compound (e : Engine) (x : Bitset) (p : Bitset × Bitset) (i : Nat)
    (h : USCXML_STATE_MASK (USCXML_GET_STATE e i).type = USCXML_STATE_COMPOUND)
    (hi : BIT_HAS i p.1 = true) :
    addDescendants e x p i = (compoundCompletion e x i p.1, p.2) := by
  unfold addDescendants
  simp only [hi, if_true, h]
  rfl

theorem addDescendants_compound_skip (e : Engine) (x : Bitset) (p : Bitset × Bitset) (i : Nat)
    (h : USCXML_STATE_MASK (USCXML_GET_STATE e i).type = USCXML_STATE_COMPOUND)
    (hc : BIT_HAS_AND p.1 (USCXML_GET_STATE e i).children = true) :
    addDescendants e x p i = p := by
  rcases Bool.eq_false_or_eq_true (BIT_HAS i p.1) with hi | hi
  · rw [addDescendants_compound e x p i h hi]
    unfold compoundCompletion
    simp [hc]
  · exact addDescendants_absent e x p i hi

/-- A compound state entered by default: no descendant of it is in the entry set, and none
is active or one is being exited; its completion names one of its descendants. -/
theorem addDescendants_compound_default (e : Engine) (x : Bitset) (p : Bitset × Bitset)
    (i : Nat) (h : USCXML_STATE_MASK (USCXML_GET_STATE e i).type = USCXML_STATE_COMPOUND)
    (hi : BIT_HAS i p.1 = true)
    (hc : BIT_HAS_AND p.1 (USCXML_GET_STATE e i).children = false)
    (ha : BIT_HAS_AND e.configuration (USCXML_GET_STATE e i).children = false ∨
      BIT_HAS_AND x (USCXML_GET_STATE e i).children = true)
    (hd : BIT_HAS_AND (USCXML_GET_STATE e i).completion (USCXML_GET_STATE e i).children = true) :
    addDescendants e x p i = (p.1 ||| (USCXML_GET_STATE e i).completion, p.2) := by
  rw [addDescendants_compound e x p i h hi]
  unfold compoundCompletion
  rcases ha with ha | ha <;> simp [hc, ha, hd]

/-- A shallow history state with a remembered configuration, or whose parent is active. -/
theorem addDescendants_shallow (e : Engine) (x : Bitset) (p : Bitset × Bitset) (i : Nat)
    (h : USCXML_STATE_MASK (USCXML_GET_STATE e i).type = USCXML_STATE_HISTORY_SHALLOW)
    (hi : BIT_HAS i p.1 = true)
    (hm : BIT_HAS_AND (USCXML_GET_STATE e i).completion e.history = true ∨
      BIT_HAS (USCXML_GET_STATE e i).parent e.configuration = true) :
    addDescendants e x p i =
      (p.1 ||| ((USCXML_GET_STATE e i).completion &&& e.history), p.2) := by
  have hty : (USCXML_GET_STATE e i).type ≠
      (USCXML_STATE_HAS_HISTORY ||| USCXML_STATE_HISTORY_DEEP) := by
    intro hEq
    rw [hEq] at h
    revert h
    decide
  unfold addDescendants
  simp only [hi, if_true, h]
  unfold historyRestore
  rcases hm with hm | hm <;> simp [hm, hty] <;> rfl

end

section

variable {H : Type} (cb : MicroStepCallbacks H)

/-! ### The entry set for a single target -/

/-- The entry set for the single target `x`: the loop for ancestors adds the ancestors of
`x`, a set closed under ancestors; the loop for descendants changes the set at `x` only. -/
theorem establishEntrySet_single (e : Engine) (X ts : Bitset) (x : Nat)
    (hx : x < e.states.length) (ES2 : Bitset)
    (hclosed : ∀ i, i < e.states.length →
      BIT_HAS i (1 <<< x ||| (USCXML_GET_STATE e x).ancestors) = true →
      ∀ j, BIT_HAS j (USCXML_GET_STATE e i).ancestors = true →
        BIT_HAS j (1 <<< x ||| (USCXML_GET_STATE e x).ancestors) = true)
    (hother : ∀ i, i < e.states.length → i ≠ x →
      addDescendants e X (1 <<< x ||| (USCXML_GET_STATE e x).ancestors, ts) i =
        (1 <<< x ||| (USCXML_GET_STATE e x).ancestors, ts))
    (hat : addDescendants e X (1 <<< x ||| (USCXML_GET_STATE e x).ancestors, ts) x = (ES2, ts))
    (hafter : ∀ i, i < e.states.length → addDescendants e X (ES2, ts) i = (ES2, ts)) :
    establishEntrySet e (1 <<< x) X ts = (ES2, ts) := by
  unfold establishEntrySet
  have hmem : x ∈ List.range e.states.length := List.mem_range.mpr hx
  have h1 : (List.range e.states.length).foldl (addAncestors e) (1 <<< x) =
      1 <<< x ||| (USCXML_GET_STATE e x).ancestors := by
    refine foldl_single (addAncestors e) _ x _ _ hmem ?_ ?_ ?_
    · intro i _ hix
      unfold addAncestors
      rw [BIT_HAS_one_shiftLeft]
      simp [Ne.symm hix]
    · unfold addAncestors
      rw [BIT_HAS_one_shiftLeft]
      simp
    · intro i hi
      unfold addAncestors
      split_ifs with hb
      · exact or_absorb _ _ (hclosed i (List.mem_range.mp hi) hb)
      · rfl
  simp only
  rw [h1]
  exact foldl_single (addDescendants e X) _ x _ _ hmem
    (fun i hi hix => hother i (List.mem_range.mp hi) hix) hat
    (fun i hi => hafter i (List.mem_range.mp hi))

/-! ### The step and its selection -/

theorem selectionRun_guard (b : Bool) (e : Engine) (h : H)
    (hi : e.isInitialized = true) (hf : hasFlag e.flags USCXML_CTX_FINISHED = false)
    (ht : hasFlag e.flags USCXML_CTX_TOP_LEVEL_FINAL = false)
    (hp : e.flags ≠ USCXML_CTX_PRISTINE) :
    selectionRun cb b e h =
      if hasFlag e.flags USCXML_CTX_SPONTANEOUS then
        some { eng := { e with event := none }, host := h, trace := [] }
      else
        match (cb.dequeueInternal h).1 with
        | some ev =>
          some (callMonitor cb (MonitorHook.beforeProcessingEvent ev)
            (callDequeueInternal cb { eng := e, host := h, trace := [] }))
        | none =>
          match externalEvent cb b e h with
          | some ev =>
            some (callMonitor cb (MonitorHook.beforeProcessingEvent ev) (atExternal cb b e h))
          | none => none := by
  have hcond : (!e.isInitialized || hasFlag e.flags USCXML_CTX_FINISHED ||
      hasFlag e.flags USCXML_CTX_TOP_LEVEL_FINAL || e.flags == USCXML_CTX_PRISTINE) = false := by
    simp [hi, hf, ht, hp]
  unfold selectionRun
  rw [hcond]
  rfl

theorem selectionRun_spontaneous (b : Bool) (e : Engine) (h : H)
    (hi : e.isInitialized = true) (hf : hasFlag e.flags USCXML_CTX_FINISHED = false)
    (ht : hasFlag e.flags USCXML_CTX_TOP_LEVEL_FINAL = false)
    (hs : hasFlag e.flags USCXML_CTX_SPONTANEOUS = true) :
    selectionRun cb b e h = some { eng := { e with event := none }, host := h, trace := [] } := by
  have hp : e.flags ≠ USCXML_CTX_PRISTINE := by
    intro h0
    rw [h0] at hs
    revert hs
    decide
  rw [selectionRun_guard cb b e h hi hf ht hp, hs]
  rfl

theorem selectionRun_internal (b : Bool) (e : Engine) (h : H) (ev : Event)
    (hi : e.isInitialized = true) (hf : hasFlag e.flags USCXML_CTX_FINISHED = false)
    (ht : hasFlag e.flags USCXML_CTX_TOP_LEVEL_FINAL = false)
    (hp : e.flags ≠ USCXML_CTX_PRISTINE)
    (hs : hasFlag e.flags USCXML_CTX_SPONTANEOUS = false)
    (hev : (cb.dequeueInternal h).1 = some ev) :
    selectionRun cb b e h =
      some (callMonitor cb (MonitorHook.beforeProcessingEvent ev)
        (callDequeueInternal cb { eng := e, host := h, trace := [] })) := by
  rw [selectionRun_guard cb b e h hi hf ht hp, hs, hev]
  rfl

theorem selectionRun_external (b : Bool) (e : Engine) (h : H) (ev : Event)
    (hi : e.isInitialized = true) (hf : hasFlag e.flags USCXML_CTX_FINISHED = false)
    (ht : hasFlag e.flags USCXML_CTX_TOP_LEVEL_FINAL = false)
    (hp : e.flags ≠ USCXML_CTX_PRISTINE)
    (hs : hasFlag e.flags USCXML_CTX_SPONTANEOUS = false)
    (hev : (cb.dequeueInternal h).1 = none) (hx : externalEvent cb b e h = some ev) :
    selectionRun cb b e h =
      some (callMonitor cb (MonitorHook.beforeProcessingEvent ev) (atExternal cb b e h)) := by
  rw [selectionRun_guard cb b e h hi hf ht hp, hs, hev, hx]
  rfl

theorem selectionRun_step (b : Bool) (e : Engine) (h : H) (r : Run H)
    (hr : selectionRun cb b e h = some r) : step cb b e h = selectTransitions cb r := by
  rcases step_cases cb b e h with h1 | h1 | h1 | h1 | h1 | h1 | h1 | h1 | h1
  · simp [selectionRun, h1.1] at hr
  · simp [selectionRun, h1.2.1] at hr
  · simp [selectionRun, h1.2.2.1] at hr
  · simp [selectionRun, h1.2.1] at hr
  · obtain ⟨_, hi, hf, ht, hp, hs, hst⟩ := h1
    rw [selectionRun_spontaneous cb b e h hi hf ht hs] at hr
    cases hr
    exact hst
  · obtain ⟨_, hi, hf, ht, hp, hs, ev, hev, hst⟩ := h1
    rw [selectionRun_internal cb b e h ev hi hf ht hp hs hev] at hr
    cases hr
    exact hst
  · obtain ⟨hy, ev, hx, hst⟩ := h1
    obtain ⟨hi, hf, ht, hp, hs, hev⟩ := (reachesSync_iff cb e h).mp hy
    rw [selectionRun_external cb b e h ev hi hf ht hp hs hev hx] at hr
    cases hr
    exact hst
  · obtain ⟨hy, hx, _, _⟩ := h1
    obtain ⟨hi, hf, ht, hp, hs, hev⟩ := (reachesSync_iff cb e h).mp hy
    rw [selectionRun_guard cb b e h hi hf ht hp, hs, hev, hx] at hr
    cases hr
  · obtain ⟨hy, hx, _, _⟩ := h1
    obtain ⟨hi, hf, ht, hp, hs, hev⟩ := (reachesSync_iff cb e h).mp hy
    rw [selectionRun_guard cb b e h hi hf ht hp, hs, hev, hx] at hr
    cases hr

end

section

variable {H : Type} (cb : MicroStepCallbacks H)

/-! ### Entering an atomic child of the root -/

theorem BIT_HAS_one (j : Nat) : BIT_HAS j 1 = decide (0 = j) := by
  have := BIT_HAS_one_shiftLeft 0 j
  simpa using this

/-- The entry set for an atomic state `b` whose only ancestor is the root, a compound
state: `b` and the root. -/
theorem entrySet_flat (e : Engine) (X ts : Bitset) (b : Nat) (hb : b < e.states.length)
    (hb0 : b ≠ 0)
    (hroot : USCXML_STATE_MASK (USCXML_GET_STATE e 0).type = USCXML_STATE_COMPOUND)
    (hra : (USCXML_GET_STATE e 0).ancestors = 0)
    (hcb : BIT_HAS b (USCXML_GET_STATE e 0).children = true)
    (htb : USCXML_STATE_MASK (USCXML_GET_STATE e b).type = USCXML_STATE_ATOMIC)
    (hab : (USCXML_GET_STATE e b).ancestors = 1) :
    establishEntrySet e (1 <<< b) X ts = (1 <<< b ||| 1, ts) := by
  have hbits : ∀ i, BIT_HAS i (1 <<< b ||| 1) = (decide (b = i) || decide (0 = i)) := by
    intro i
    rw [BIT_HAS_or, BIT_HAS_one_shiftLeft, BIT_HAS_one]
  have hskip : ∀ i, i < e.states.length →
      addDescendants e X (1 <<< b ||| 1, ts) i = (1 <<< b ||| 1, ts) := by
    intro i _
    by_cases hib : i = b
    · subst hib
      exact addDescendants_atomic e X _ i htb
    · by_cases hi0 : i = 0
      · subst hi0
        apply addDescendants_compound_skip e X _ 0 hroot
        rw [BIT_HAS_AND_iff]
        exact ⟨b, by rw [hbits]; simp, hcb⟩
      · apply addDescendants_absent
        show BIT_HAS i (1 <<< b ||| 1) = false
        rw [hbits]
        simp [Ne.symm hib, Ne.symm hi0]
  have h := establishEntrySet_single e X ts b hb (1 <<< b ||| 1)
  rw [hab] at h
  refine h ?_ (fun i hi _ => hskip i hi) (hskip b hb) hskip
  intro i _ hi j hj
  rw [hbits] at hi
  simp only [Bool.or_eq_true, decide_eq_true_eq] at hi
  rcases hi with hi | hi
  · subst hi
    rw [hab] at hj
    exact BIT_HAS_or_right _ hj
  · subst hi
    rw [hra, BIT_HAS_zero] at hj
    cases hj

theorem isPseudoType_of_atomic {t : Nat} (h : USCXML_STATE_MASK t = USCXML_STATE_ATOMIC) :
    isPseudoType t = false := by
  simp [isPseudoType, h]
  decide

theorem isPseudoType_of_compound {t : Nat}
    (h : USCXML_STATE_MASK t = USCXML_STATE_COMPOUND) : isPseudoType t = false := by
  simp [isPseudoType, h]
  decide

/-- A micro-step whose only target is an atomic child `b` of the root: afterwards the states
of the exit set are inactive and the root and `b` are active; the flags are unchanged. -/
theorem microstep_flat (X ts : Bitset) (r : Run H) (b : Nat)
    (hb : b < r.eng.states.length) (hb0 : b ≠ 0)
    (hroot : USCXML_STATE_MASK (USCXML_GET_STATE r.eng 0).type = USCXML_STATE_COMPOUND)
    (hra : (USCXML_GET_STATE r.eng 0).ancestors = 0)
    (hcb : BIT_HAS b (USCXML_GET_STATE r.eng 0).children = true)
    (htb : USCXML_STATE_MASK (USCXML_GET_STATE r.eng b).type = USCXML_STATE_ATOMIC)
    (hab : (USCXML_GET_STATE r.eng b).ancestors = 1) :
    (∀ j, BIT_HAS j (microstep cb (1 <<< b) X ts r).2.eng.configuration =
      ((BIT_HAS j r.eng.configuration && !(decide (j < r.eng.states.length) && BIT_HAS j X)) ||
        decide (j = b) || decide (j = 0))) ∧
    (microstep cb (1 <<< b) X ts r).2.eng.flags = r.eng.flags := by
  have hes := entrySet_flat r.eng X ts b hb hb0 hroot hra hcb htb hab
  have hbits : ∀ i, BIT_HAS i (1 <<< b ||| 1) = (decide (b = i) || decide (0 = i)) := by
    intro i
    rw [BIT_HAS_or, BIT_HAS_one_shiftLeft, BIT_HAS_one]
  have h0 : 0 < r.eng.states.length := by omega
  refine ⟨fun j => ?_, ?_⟩
  · rw [microstep_configuration, hes, hbits]
    by_cases hjb : j = b
    · subst hjb
      simp [USCXML_NUMBER_STATES, hb, isPseudoType_of_atomic htb]
    · by_cases hj0 : j = 0
      · subst hj0
        simp [USCXML_NUMBER_STATES, h0, isPseudoType_of_compound hroot]
      · simp [USCXML_NUMBER_STATES, hjb, hj0, Ne.symm hjb, Ne.symm hj0]
  · apply microstep_flags_same
    intro i _ hi
    rw [hes, hbits] at hi
    simp only [Bool.or_eq_true, decide_eq_true_eq] at hi
    rcases hi with hi | hi
    · subst hi
      rw [htb]
      decide
    · subst hi
      rw [hroot]
      decide

end

section

variable {H : Type} (cb : MicroStepCallbacks H)

/-! ### Steps of an engine at rest -/

/-- A step with Spontaneous set whose selection takes no transition returns Macrostepped and
changes only the event and the flags. -/
theorem step_macro (b : Bool) (e : Engine) (h : H)
    (hi : e.isInitialized = true) (hf : hasFlag e.flags USCXML_CTX_FINISHED = false)
    (ht : hasFlag e.flags USCXML_CTX_TOP_LEVEL_FINAL = false)
    (hs : hasFlag e.flags USCXML_CTX_SPONTANEOUS = true)
    (hfound : hasFlag e.flags USCXML_CTX_TRANSITION_FOUND = false)
    (hsel : selectedBy cb b e h = 0) :
    (step cb b e h).1 = InterpreterState.USCXML_MACROSTEPPED ∧
    (step cb b e h).2.eng = { e with event := none, flags := flagsNone e.flags } := by
  have hr := selectionRun_spontaneous cb b e h hi hf ht hs
  have h0 : (selectionOf cb { eng := { e with event := none }, host := h, trace := [] }).2.transSet
      = 0 := by
    unfold selectedBy at hsel
    rw [hr] at hsel
    exact hsel
  rw [selectionRun_step cb b e h _ hr]
  exact selectTransitions_nothing cb _ hfound h0

/-- A step that finds both queues empty, of an engine not cancelled, returns Idle. -/
theorem step_idle (b : Bool) (e : Engine) (h : H)
    (hi : e.isInitialized = true) (hf : hasFlag e.flags USCXML_CTX_FINISHED = false)
    (ht : hasFlag e.flags USCXML_CTX_TOP_LEVEL_FINAL = false)
    (hp : e.flags ≠ USCXML_CTX_PRISTINE)
    (hs : hasFlag e.flags USCXML_CTX_SPONTANEOUS = false)
    (hev : (cb.dequeueInternal h).1 = none) (hx : externalEvent cb b e h = none)
    (hc : e.isCancelled = false) :
    (step cb b e h).1 = InterpreterState.USCXML_IDLE ∧
    (step cb b e h).2.eng.configuration = e.configuration := by
  have hsync := (reachesSync_iff cb e h).mpr ⟨hi, hf, ht, hp, hs, hev⟩
  have hres := ((step_result_cases cb b e h).2).mpr ⟨hsync, hx, hc⟩
  refine ⟨hres, ?_⟩
  rcases step_cases cb b e h with h1 | h1 | h1 | h1 | h1 | h1 | h1 | h1 | h1
  · rw [h1.2] at hres; cases hres
  · rw [h1.2.2] at hres; cases hres
  · rw [h1.2.2.2] at hres; cases hres
  · rw [h1.2.2] at hres; cases hres
  · rw [h1.1] at hsync; cases hsync
  · rw [h1.1] at hsync; cases hsync
  · obtain ⟨_, ev, hx2, _⟩ := h1
    rw [hx] at hx2; cases hx2
  · rw [h1.2.2.1] at hc; cases hc
  · rw [h1.2.2.2]
    exact (atExternal_changes cb b e h).configuration_eq rfl

/-- A step that finds no internal event, takes an external event and selects exactly the
transition `t` for it. -/
theorem step_external_one (b : Bool) (e : Engine) (h : H) (ev : Event) (t : Nat)
    (hi : e.isInitialized = true) (hf : hasFlag e.flags USCXML_CTX_FINISHED = false)
    (ht : hasFlag e.flags USCXML_CTX_TOP_LEVEL_FINAL = false)
    (hp : e.flags ≠ USCXML_CTX_PRISTINE)
    (hs : hasFlag e.flags USCXML_CTX_SPONTANEOUS = false)
    (hev : (cb.dequeueInternal h).1 = none) (hx : externalEvent cb b e h = some ev)
    (htn : t < e.transitions.length) (hsel : selectedBy cb b e h = 1 <<< t) :
    ∃ r : Run H,
      step cb b e h =
        microstep cb (USCXML_GET_TRANS e t).target
          ((USCXML_GET_TRANS e t).exitSet &&& e.configuration) (1 <<< t) r ∧
      Static e r.eng ∧ r.eng.configuration = e.configuration ∧
      r.eng.flags = flagsFound (e.flags ||| USCXML_CTX_STABLE) := by
  have hr := selectionRun_external cb b e h ev hi hf ht hp hs hev hx
  have hst := (atExternal_changes cb b e h).static
  have hcfg := (atExternal_changes cb b e h).configuration_eq rfl
  have hfl := atExternal_flags cb b e h
  have h1 : (selectionOf cb (callMonitor cb (MonitorHook.beforeProcessingEvent ev)
      (atExternal cb b e h))).2.transSet = 1 <<< t := by
    unfold selectedBy at hsel
    rw [hr] at hsel
    exact hsel
  have htn2 : t < (callMonitor cb (MonitorHook.beforeProcessingEvent ev)
      (atExternal cb b e h)).eng.transitions.length := by
    rw [callMonitor_eng, hst.2.2.1]
    exact htn
  obtain ⟨hm, hb⟩ := selectTransitions_one cb _ t htn2 h1
  refine ⟨beforeEntrySet cb (callMonitor cb (MonitorHook.beforeProcessingEvent ev)
    (atExternal cb b e h)), ?_, ?_, ?_, ?_⟩
  · rw [selectionRun_step cb b e h _ hr, hm, callMonitor_eng, hst.getTrans, hcfg]
  · rw [hb]
    refine Static.chain ?_ (rememberHistory_changes _ _).static
    exact ⟨hst.1, hst.2.1, hst.2.2.1, hst.2.2.2.1, hst.2.2.2.2⟩
  · rw [hb, (rememberHistory_changes _ _).configuration_eq rfl]
    exact hcfg
  · rw [hb, (rememberHistory_changes _ _).flags_eq rfl]
    show flagsFound (atExternal cb b e h).eng.flags = _
    rw [hfl]

theorem BIT_HAS_pair (x j : Nat) :
    BIT_HAS j (1 ||| 1 <<< x) = (decide (j = x) || decide (j = 0)) := by
  rw [BIT_HAS_or, BIT_HAS_one, BIT_HAS_one_shiftLeft]
  by_cases h1 : j = x
  · subst h1; simp
  · by_cases h2 : j = 0
    · subst h2; simp
    · have h3 : ¬ x = j := fun hEq => h1 hEq.symm
      have h4 : ¬ 0 = j := fun hEq => h2 hEq.symm
      simp [h1, h2, h3, h4]

theorem config_pair (c : Bitset) (x : Nat)
    (h : ∀ j, BIT_HAS j c = (decide (j = x) || decide (j = 0))) : c = 1 ||| 1 <<< x := by
  apply bit_eq_of_forall
  intro j
  rw [h j, BIT_HAS_pair]

/-- The bootstrap step of an index whose root is a compound state with the atomic child `a`
as completion: it returns Microstepped, activates the root and `a`, and leaves the flags
Spontaneous and Initialized. -/
theorem bootstrap_flat (b : Bool) (e : Engine) (h : H) (a : Nat)
    (hi : e.isInitialized = true) (hp : e.flags = USCXML_CTX_PRISTINE)
    (hc : e.configuration = 0) (ha : a < e.states.length) (ha0 : a ≠ 0)
    (hroot : USCXML_STATE_MASK (USCXML_GET_STATE e 0).type = USCXML_STATE_COMPOUND)
    (hra : (USCXML_GET_STATE e 0).ancestors = 0)
    (hcompl : (USCXML_GET_STATE e 0).completion = 1 <<< a)
    (hca : BIT_HAS a (USCXML_GET_STATE e 0).children = true)
    (hta : USCXML_STATE_MASK (USCXML_GET_STATE e a).type = USCXML_STATE_ATOMIC)
    (haa : (USCXML_GET_STATE e a).ancestors = 1) :
    (step cb b e h).1 = InterpreterState.USCXML_MICROSTEPPED ∧
    (step cb b e h).2.eng.configuration = 1 ||| 1 <<< a ∧
    (step cb b e h).2.eng.flags = USCXML_CTX_SPONTANEOUS ||| USCXML_CTX_INITIALIZED ∧
    Static e (step cb b e h).2.eng := by
  have hstep := step_pristine cb b e h hi hp
  rw [hcompl] at hstep
  obtain ⟨h1, h2⟩ := microstep_flat cb 0 0
    (callMonitor cb MonitorHook.beforeMicroStep
      { eng := { e with flags := USCXML_CTX_SPONTANEOUS ||| USCXML_CTX_INITIALIZED },
        host := h, trace := [] }) a ha ha0 hroot hra hca hta haa
  rw [hstep]
  refine ⟨rfl, ?_, h2, ?_⟩
  · apply config_pair
    intro j
    rw [h1 j]
    simp [hc, BIT_HAS_zero]
  · exact Static.chain (a := e)
      (b := { e with flags := USCXML_CTX_SPONTANEOUS ||| USCXML_CTX_INITIALIZED })
      ⟨rfl, rfl, rfl, rfl, rfl⟩ (microstep_changes cb _ _ _ _).static

end

section

variable {H : Type} (cb : MicroStepCallbacks H)

/-! ### The completion computed from the attribute `initial` -/

/-- With an attribute `initial`, a state that is neither a history nor a parallel state
completes to the states the attribute names, whatever its children are. -/
theorem getCompletion_attribute (s : StateElement) (named : List Nat)
    (hh : s.isHistory = false) (hp : s.isParallel = false) (ha : s.initialAttr = some named) :
    getCompletion s = named := by
  unfold getCompletion
  simp [hh, hp, ha]

/-- Without an attribute `initial` and without an `<initial>` element, the completion is the
first child state. -/
theorem getCompletion_firstChild (s : StateElement) (c : ChildNode) (rest : List ChildNode)
    (hh : s.isHistory = false) (hp : s.isParallel = false) (ha : s.initialAttr = none)
    (hi : s.initialElems = []) (hn : s.childNodes = c :: rest) (he : c.isElement = true)
    (hs : c.isState = true) : getCompletion s = [c.state] := by
  unfold getCompletion
  simp [hh, hp, ha, hi, hn, he, hs]

/-- The completion bit set of a list with the single state `c`. -/
theorem completionBits_single (n c : Nat) (hc : c < n) :
    completionBits n [c] = (1 <<< c, []) := by
  unfold completionBits
  refine foldl_single _ (List.range n) c _ _ (List.mem_range.mpr hc) ?_ ?_ ?_
  · intro i _ hic
    have : (c == i) = false := by simpa using (fun hEq : c = i => hic hEq.symm)
    simp [this]
  · simp [BIT_SET_AT]
  · intro i _
    rfl

/-! ### Entering a compound state by default -/

/-- The entry set for the single target `p`, a compound state with compound ancestors whose
completion is its atomic descendant `c`: `p`, its ancestors and `c`. -/
theorem entrySet_default (e : Engine) (X ts : Bitset) (p c : Nat)
    (hp : p < e.states.length)
    (htp : USCXML_STATE_MASK (USCXML_GET_STATE e p).type = USCXML_STATE_COMPOUND)
    (hcompl : (USCXML_GET_STATE e p).completion = 1 <<< c)
    (hcp : BIT_HAS c (USCXML_GET_STATE e p).children = true)
    (htc : USCXML_STATE_MASK (USCXML_GET_STATE e c).type = USCXML_STATE_ATOMIC)
    (hpp : BIT_HAS p (USCXML_GET_STATE e p).children = false)
    (hap : BIT_HAS_AND (USCXML_GET_STATE e p).ancestors (USCXML_GET_STATE e p).children = false)
    (hanc : ∀ i, i < e.states.length → BIT_HAS i (USCXML_GET_STATE e p).ancestors = true →
      USCXML_STATE_MASK (USCXML_GET_STATE e i).type = USCXML_STATE_COMPOUND ∧
      BIT_HAS p (USCXML_GET_STATE e i).children = true ∧
      ∀ j, BIT_HAS j (USCXML_GET_STATE e i).ancestors = true →
        BIT_HAS j (USCXML_GET_STATE e p).ancestors = true)
    (ha : BIT_HAS_AND e.configuration (USCXML_GET_STATE e p).children = false ∨
      BIT_HAS_AND X (USCXML_GET_STATE e p).children = true) :
    establishEntrySet e (1 <<< p) X ts =
      (1 <<< p ||| (USCXML_GET_STATE e p).ancestors ||| 1 <<< c, ts) := by
  have hb1 : ∀ i, BIT_HAS i (1 <<< p ||| (USCXML_GET_STATE e p).ancestors) =
      (decide (p = i) || BIT_HAS i (USCXML_GET_STATE e p).ancestors) := by
    intro i
    rw [BIT_HAS_or, BIT_HAS_one_shiftLeft]
  have hb2 : ∀ i, BIT_HAS i (1 <<< p ||| (USCXML_GET_STATE e p).ancestors ||| 1 <<< c) =
      (decide (p = i) || BIT_HAS i (USCXML_GET_STATE e p).ancestors || decide (c = i)) := by
    intro i
    rw [BIT_HAS_or, hb1, BIT_HAS_one_shiftLeft]
  refine establishEntrySet_single e X ts p hp _ ?_ ?_ ?_ ?_
  · intro i hi hin j hj
    rw [hb1] at hin ⊢
    simp only [Bool.or_eq_true, decide_eq_true_eq] at hin ⊢
    rcases hin with hin | hin
    · subst hin
      exact Or.inr hj
    · exact Or.inr ((hanc i hi hin).2.2 j hj)
  · intro i hi hip
    rcases Bool.eq_false_or_eq_true (BIT_HAS i (USCXML_GET_STATE e p).ancestors) with hia | hia
    · apply addDescendants_compound_skip e X _ i (hanc i hi hia).1
      rw [BIT_HAS_AND_iff]
      exact ⟨p, by rw [hb1]; simp, (hanc i hi hia).2.1⟩
    · apply addDescendants_absent
      show BIT_HAS i (1 <<< p ||| (USCXML_GET_STATE e p).ancestors) = false
      rw [hb1, hia]
      simp [Ne.symm hip]
  · rw [addDescendants_compound_default e X _ p htp (by rw [hb1]; simp) ?_ ha ?_, hcompl]
    · rw [BIT_HAS_AND_false]
      intro j hj
      rw [hb1] at hj
      simp only [Bool.or_eq_true, decide_eq_true_eq] at hj
      rcases hj with hj | hj
      · subst hj
        exact hpp
      · exact (BIT_HAS_AND_false _ _).mp hap j hj
    · rw [hcompl, BIT_HAS_AND_iff]
      exact ⟨c, by rw [BIT_HAS_one_shiftLeft]; simp, hcp⟩
  · intro i hi
    by_cases hic : i = c
    · subst hic
      exact addDescendants_atomic e X _ i htc
    · by_cases hip : i = p
      · subst hip
        apply addDescendants_compound_skip e X _ i htp
        rw [BIT_HAS_AND_iff]
        exact ⟨c, by rw [hb2]; simp, hcp⟩
      · rcases Bool.eq_false_or_eq_true (BIT_HAS i (USCXML_GET_STATE e p).ancestors) with
          hia | hia
        · apply addDescendants_compound_skip e X _ i (hanc i hi hia).1
          rw [BIT_HAS_AND_iff]
          exact ⟨p, by rw [hb2]; simp, (hanc i hi hia).2.1⟩
        · apply addDescendants_absent
          show BIT_HAS i (1 <<< p ||| (USCXML_GET_STATE e p).ancestors ||| 1 <<< c) = false
          rw [hb2, hia]
          simp [Ne.symm hip, Ne.symm hic]

/-- A micro-step whose only target is such a state `p`: afterwards a state is active when it
was active and is not exited, or is `p`, `c` or an ancestor of `p`; the flags are
unchanged. -/
theorem microstep_default (X ts : Bitset) (r : Run H) (p c : Nat)
    (hp : p < r.eng.states.length) (hc : c < r.eng.states.length)
    (htp : USCXML_STATE_MASK (USCXML_GET_STATE r.eng p).type = USCXML_STATE_COMPOUND)
    (hcompl : (USCXML_GET_STATE r.eng p).completion = 1 <<< c)
    (hcp : BIT_HAS c (USCXML_GET_STATE r.eng p).children = true)
    (htc : USCXML_STATE_MASK (USCXML_GET_STATE r.eng c).type = USCXML_STATE_ATOMIC)
    (hpp : BIT_HAS p (USCXML_GET_STATE r.eng p).children = false)
    (hap : BIT_HAS_AND (USCXML_GET_STATE r.eng p).ancestors
      (USCXML_GET_STATE r.eng p).children = false)
    (hanc : ∀ i, i < r.eng.states.length →
      BIT_HAS i (USCXML_GET_STATE r.eng p).ancestors = true →
      USCXML_STATE_MASK (USCXML_GET_STATE r.eng i).type = USCXML_STATE_COMPOUND ∧
      BIT_HAS p (USCXML_GET_STATE r.eng i).children = true ∧
      ∀ j, BIT_HAS j (USCXML_GET_STATE r.eng i).ancestors = true →
        BIT_HAS j (USCXML_GET_STATE r.eng p).ancestors = true)
    (ha : BIT_HAS_AND r.eng.configuration (USCXML_GET_STATE r.eng p).children = false ∨
      BIT_HAS_AND X (USCXML_GET_STATE r.eng p).children = true) :
    (∀ j, BIT_HAS j (microstep cb (1 <<< p) X ts r).2.eng.configuration =
      ((BIT_HAS j r.eng.configuration && !(decide (j < r.eng.states.length) && BIT_HAS j X)) ||
        (decide (j < r.eng.states.length) &&
          (decide (j = p) || decide (j = c) ||
            BIT_HAS j (USCXML_GET_STATE r.eng p).ancestors)))) ∧
    (microstep cb (1 <<< p) X ts r).2.eng.flags = r.eng.flags := by
  have hes := entrySet_default r.eng X ts p c hp htp hcompl hcp htc hpp hap hanc ha
  have hb2 : ∀ i, BIT_HAS i (1 <<< p ||| (USCXML_GET_STATE r.eng p).ancestors ||| 1 <<< c) =
      (decide (p = i) || BIT_HAS i (USCXML_GET_STATE r.eng p).ancestors || decide (c = i)) := by
    intro i
    rw [BIT_HAS_or, BIT_HAS_or, BIT_HAS_one_shiftLeft, BIT_HAS_one_shiftLeft]
  refine ⟨fun j => ?_, ?_⟩
  · rw [microstep_configuration, hes, hb2]
    by_cases hjn : j < r.eng.states.length
    · by_cases hjp : j = p
      · subst hjp
        simp [USCXML_NUMBER_STATES, hjn, isPseudoType_of_compound htp]
      · by_cases hjc : j = c
        · subst hjc
          simp [USCXML_NUMBER_STATES, hjn, isPseudoType_of_atomic htc]
        · rcases Bool.eq_false_or_eq_true (BIT_HAS j (USCXML_GET_STATE r.eng p).ancestors) with
            hja | hja
          · simp [USCXML_NUMBER_STATES, hjn, hja, isPseudoType_of_compound (hanc j hjn hja).1]
          · simp [USCXML_NUMBER_STATES, hjn, hja, hjp, hjc, Ne.symm hjp, Ne.symm hjc]
    · simp [USCXML_NUMBER_STATES, hjn]
  · apply microstep_flags_same
    intro i hi hin
    rw [hes, hb2] at hin
    simp only [Bool.or_eq_true, decide_eq_true_eq] at hin
    rcases hin with (hin | hin) | hin
    · subst hin
      rw [htp]
      decide
    · rw [(hanc i hi hin).1]
      decide
    · subst hin
      rw [htc]
      decide

end

section

variable {H : Type} (cb : MicroStepCallbacks H)

/-! ### The class of charts with a state entered by default -/

theorem subset_of_and_eq {a b : Bitset} (h : a &&& b = a) (j : Nat)
    (hj : BIT_HAS j a = true) : BIT_HAS j b = true := by
  rw [← h, BIT_HAS_and] at hj
  simp only [Bool.and_eq_true] at hj
  exact hj.2

/-- What `initialNames` says, member by member. -/
theorem initialNames_facts {idx : Index} {s : StateElement} {p c : Nat}
    (h : initialNames idx s p c = true) :
    p < idx.states.length ∧ c < idx.states.length ∧ s.isHistory = false ∧
    s.isParallel = false ∧ s.initialAttr = some [c] ∧
    (idx.states.getD p default).completion =
      (completionBits idx.states.length (getCompletion s)).1 ∧
    USCXML_STATE_MASK (idx.states.getD p default).type = USCXML_STATE_COMPOUND ∧
    BIT_HAS c (idx.states.getD p default).children = true := by
  simp only [initialNames, Bool.and_eq_true, decide_eq_true_eq, beq_iff_eq,
    Bool.not_eq_true'] at h
  obtain ⟨⟨⟨⟨⟨⟨⟨h1, h2⟩, h3⟩, h4⟩, h5⟩, h6⟩, h7⟩, h8⟩ := h
  exact ⟨h1, h2, h3, h4, h5, h6, h7, h8⟩

/-- The completion of a state whose attribute `initial` names `c`. -/
theorem initialNames_completion {idx : Index} {s : StateElement} {p c : Nat}
    (h : initialNames idx s p c = true) :
    (idx.states.getD p default).completion = 1 <<< c := by
  obtain ⟨_, h2, h3, h4, h5, h6, _, _⟩ := initialNames_facts h
  rw [h6, getCompletion_attribute s [c] h3 h4 h5, completionBits_single _ c h2]

/-- What `plainEntry` says, member by member. -/
theorem plainEntry_facts {idx : Index} {p c : Nat} (h : plainEntry idx p c = true) :
    USCXML_STATE_MASK (idx.states.getD c default).type = USCXML_STATE_ATOMIC ∧
    BIT_HAS p (idx.states.getD p default).children = false ∧
    BIT_HAS_AND (idx.states.getD p default).ancestors
      (idx.states.getD p default).children = false ∧
    ∀ i, i < idx.states.length → BIT_HAS i (idx.states.getD p default).ancestors = true →
      USCXML_STATE_MASK (idx.states.getD i default).type = USCXML_STATE_COMPOUND ∧
      BIT_HAS p (idx.states.getD i default).children = true ∧
      ∀ j, BIT_HAS j (idx.states.getD i default).ancestors = true →
        BIT_HAS j (idx.states.getD p default).ancestors = true := by
  simp only [plainEntry, Bool.and_eq_true, beq_iff_eq, Bool.not_eq_true', List.all_eq_true,
    List.mem_range, Bool.or_eq_true] at h
  obtain ⟨⟨⟨h1, h2⟩, h3⟩, h4⟩ := h
  refine ⟨h1, h2, h3, ?_⟩
  intro i hi hia
  rcases h4 i hi with h5 | h5
  · rw [hia] at h5
    cases h5
  · exact ⟨h5.1.1, h5.1.2, fun j hj => subset_of_and_eq h5.2 j hj⟩

/-- The bootstrap step of an engine whose root completes to such a state `p`. -/
theorem bootstrap_default (b : Bool) (e : Engine) (h : H) (p c : Nat)
    (hi : e.isInitialized = true) (hf : e.flags = USCXML_CTX_PRISTINE)
    (hcfg : e.configuration = 0)
    (hroot : (USCXML_GET_STATE e 0).completion = 1 <<< p)
    (hp : p < e.states.length) (hc : c < e.states.length)
    (htp : USCXML_STATE_MASK (USCXML_GET_STATE e p).type = USCXML_STATE_COMPOUND)
    (hcompl : (USCXML_GET_STATE e p).completion = 1 <<< c)
    (hcp : BIT_HAS c (USCXML_GET_STATE e p).children = true)
    (htc : USCXML_STATE_MASK (USCXML_GET_STATE e c).type = USCXML_STATE_ATOMIC)
    (hpp : BIT_HAS p (USCXML_GET_STATE e p).children = false)
    (hap : BIT_HAS_AND (USCXML_GET_STATE e p).ancestors (USCXML_GET_STATE e p).children = false)
    (hanc : ∀ i, i < e.states.length → BIT_HAS i (USCXML_GET_STATE e p).ancestors = true →
      USCXML_STATE_MASK (USCXML_GET_STATE e i).type = USCXML_STATE_COMPOUND ∧
      BIT_HAS p (USCXML_GET_STATE e i).children = true ∧
      ∀ j, BIT_HAS j (USCXML_GET_STATE e i).ancestors = true →
        BIT_HAS j (USCXML_GET_STATE e p).ancestors = true) :
    (step cb b e h).1 = InterpreterState.USCXML_MICROSTEPPED ∧
    (∀ j, BIT_HAS j (step cb b e h).2.eng.configuration =
      (decide (j < e.states.length) &&
        (decide (j = p) || decide (j = c) || BIT_HAS j (USCXML_GET_STATE e p).ancestors))) ∧
    (step cb b e h).2.eng.flags = USCXML_CTX_SPONTANEOUS ||| USCXML_CTX_INITIALIZED ∧
    Static e (step cb b e h).2.eng := by
  have hstep := step_pristine cb b e h hi hf
  rw [hroot] at hstep
  obtain ⟨h1, h2⟩ := microstep_default cb 0 0
    (callMonitor cb MonitorHook.beforeMicroStep
      { eng := { e with flags := USCXML_CTX_SPONTANEOUS ||| USCXML_CTX_INITIALIZED },
        host := h, trace := [] }) p c hp hc htp hcompl hcp htc hpp hap hanc
    (Or.inl (by
      show BIT_HAS_AND e.configuration _ = false
      rw [hcfg]
      simp [BIT_HAS_AND]))
  rw [hstep]
  refine ⟨rfl, ?_, h2, ?_⟩
  · intro j
    rw [h1 j]
    show ((BIT_HAS j e.configuration && _) || _) = _
    rw [hcfg, BIT_HAS_zero]
    simp
    rfl
  · exact Static.chain (a := e)
      (b := { e with flags := USCXML_CTX_SPONTANEOUS ||| USCXML_CTX_INITIALIZED })
      ⟨rfl, rfl, rfl, rfl, rfl⟩ (microstep_changes cb _ _ _ _).static

end

section

variable {H : Type} (cb : MicroStepCallbacks H)

/-! ### REMEMBER_HISTORY, bit by bit -/

theorem foldl_invariant_mem {α : Type} (P : α → Prop) (f : α → Nat → α) (l : List Nat)
    (hf : ∀ a, ∀ b ∈ l, P a → P (f a b)) (a : α) (h : P a) : P (l.foldl f a) := by
  induction l generalizing a with
  | nil => exact h
  | cons b l ih =>
    exact ih (fun x y hy => hf x y (List.mem_cons_of_mem _ hy)) (f a b)
      (hf a b (List.mem_cons_self _ _) h)

/-- A property that the loop body establishes at the index `a` and keeps afterwards, under
an invariant, holds after the loop. -/
theorem foldl_establish {α : Type} (f : α → Nat → α) (l : List Nat) (a : Nat)
    (Inv Q : α → Prop) (ha : a ∈ l) (hinv : ∀ x i, Inv x → Inv (f x i))
    (hest : ∀ x, Inv x → Q (f x a)) (hkeep : ∀ x i, Inv x → Q x → Q (f x i))
    (x : α) (hx : Inv x) : Q (l.foldl f x) := by
  induction l generalizing x with
  | nil => cases ha
  | cons i l ih =>
    simp only [List.foldl_cons]
    by_cases hia : i = a
    · subst hia
      exact (foldl_preserves (fun y => Inv y ∧ Q y) f
        (fun y j hy => ⟨hinv y j hy.1, hkeep y j hy.1 hy.2⟩) l (f x i)
        ⟨hinv x i hx, hest x hx⟩).2
    · have ha2 : a ∈ l := by
        rcases List.mem_cons.mp ha with h | h
        · exact absurd h.symm hia
        · exact h
      exact ih ha2 (f x i) (hinv x i hx)

/-- The bit `j` of `_history` after the body of REMEMBER_HISTORY for the state `i`. -/
theorem rememberHistoryState_bit (X : Bitset) (e : Engine) (i j : Nat) :
    BIT_HAS j (rememberHistoryState X e i).history =
      if (isHistoryType (USCXML_GET_STATE e i).type &&
          BIT_HAS (USCXML_GET_STATE e i).parent X &&
          BIT_HAS j (USCXML_GET_STATE e i).completion) = true
      then BIT_HAS j e.configuration else BIT_HAS j e.history := by
  unfold rememberHistoryState
  rcases Bool.eq_false_or_eq_true (isHistoryType (USCXML_GET_STATE e i).type) with h1 | h1
  · rcases Bool.eq_false_or_eq_true (BIT_HAS (USCXML_GET_STATE e i).parent X) with h2 | h2
    · simp only [h1, h2, if_true, Bool.true_and]
      rw [BIT_HAS_or, BIT_HAS_andNot, BIT_HAS_and]
      cases BIT_HAS j (USCXML_GET_STATE e i).completion <;> simp
    · simp [h1, h2]
  · simp [h1]

/-- When the parent of the history state `h` is in the exit set, REMEMBER_HISTORY leaves in
`_history`, on the completion of `h`, the configuration. -/
theorem rememberHistory_records (X : Bitset) (e : Engine) (h : Nat)
    (hh : h < e.states.length) (hty : isHistoryType (USCXML_GET_STATE e h).type = true)
    (hpar : BIT_HAS (USCXML_GET_STATE e h).parent X = true) :
    (USCXML_GET_STATE e h).completion &&& (rememberHistory X e).history =
      (USCXML_GET_STATE e h).completion &&& e.configuration := by
  have key : ∀ j, BIT_HAS j (USCXML_GET_STATE e h).completion = true →
      BIT_HAS j (rememberHistory X e).history = BIT_HAS j e.configuration := by
    unfold rememberHistory
    refine foldl_establish (rememberHistoryState X) (List.range e.states.length) h
      (fun x => Changes { history := true } e x)
      (fun x => ∀ j, BIT_HAS j (USCXML_GET_STATE e h).completion = true →
        BIT_HAS j x.history = BIT_HAS j e.configuration)
      (List.mem_range.mpr hh) ?_ ?_ ?_ e (Changes.none _ _)
    · intro x i hx
      exact hx.andThen (rememberHistoryState_changes X x i)
    · intro x hx j hj
      rw [rememberHistoryState_bit, hx.static.getState, hty, hpar, hj]
      simp [hx.configuration_eq rfl]
    · intro x i hx hq j hj
      rw [rememberHistoryState_bit]
      split_ifs
      · rw [hx.configuration_eq rfl]
      · exact hq j hj
  apply bit_eq_of_forall
  intro j
  rw [BIT_HAS_and, BIT_HAS_and]
  rcases Bool.eq_false_or_eq_true (BIT_HAS j (USCXML_GET_STATE e h).completion) with hj | hj
  · rw [key j hj]
  · rw [hj]
    rfl

/-- REMEMBER_HISTORY with an exit set that has `memoryKept` for `M` leaves the bits of `M`
in `_history`. -/
theorem rememberHistory_keeps (X M : Bitset) (e : Engine) (hk : memoryKept e X M = true) :
    M &&& (rememberHistory X e).history = M &&& e.history := by
  simp only [memoryKept, List.all_eq_true, List.mem_range, Bool.or_eq_true,
    Bool.not_eq_true'] at hk
  have key : Changes { history := true } e (rememberHistory X e) ∧
      ∀ j, BIT_HAS j M = true → BIT_HAS j (rememberHistory X e).history = BIT_HAS j e.history := by
    unfold rememberHistory
    refine foldl_invariant_mem
      (fun x => Changes { history := true } e x ∧
        ∀ j, BIT_HAS j M = true → BIT_HAS j x.history = BIT_HAS j e.history)
      (rememberHistoryState X) (List.range e.states.length) ?_ e
      ⟨Changes.none _ _, fun _ _ => rfl⟩
    intro x i hi hx
    refine ⟨hx.1.andThen (rememberHistoryState_changes X x i), ?_⟩
    intro j hj
    rw [rememberHistoryState_bit, hx.1.static.getState]
    split_ifs with hc
    · exfalso
      simp only [Bool.and_eq_true] at hc
      rcases hk i (List.mem_range.mp hi) with h1 | h1
      · rw [hc.1.1, hc.1.2] at h1
        cases h1
      · have := (BIT_HAS_AND_false _ _).mp h1 j hc.2
        rw [hj] at this
        cases this
    · exact hx.2 j hj
  apply bit_eq_of_forall
  intro j
  rw [BIT_HAS_and, BIT_HAS_and]
  rcases Bool.eq_false_or_eq_true (BIT_HAS j M) with hj | hj
  · rw [key.2 j hj]
  · rw [hj]
    rfl

end

section

variable {H : Type} (cb : MicroStepCallbacks H)

/-! ### What a step does to `_history` -/

/-- The run at the label SELECT_TRANSITIONS differs from the engine of the step at most in
the invocations, the flags, the seen configurations and the event. -/
theorem selectionRun_changes (b : Bool) (e : Engine) (h : H) (r : Run H)
    (hr : selectionRun cb b e h = some r) : Changes syncFields e r.eng := by
  rcases step_cases cb b e h with h1 | h1 | h1 | h1 | h1 | h1 | h1 | h1 | h1
  · simp [selectionRun, h1.1] at hr
  · simp [selectionRun, h1.2.1] at hr
  · simp [selectionRun, h1.2.2.1] at hr
  · simp [selectionRun, h1.2.1] at hr
  · obtain ⟨_, hi, hf, ht, hp, hs, _⟩ := h1
    rw [selectionRun_spontaneous cb b e h hi hf ht hs] at hr
    cases hr
    simp [Changes, Engine.mask, syncFields]
  · obtain ⟨_, hi, hf, ht, hp, hs, ev, hev, _⟩ := h1
    rw [selectionRun_internal cb b e h ev hi hf ht hp hs hev] at hr
    cases hr
    rw [callMonitor_eng]
    exact (callDequeueInternal_changes cb { eng := e, host := h, trace := [] }).widen
      (by simp [Fields.le, syncFields])
  · obtain ⟨hy, ev, hx, _⟩ := h1
    obtain ⟨hi, hf, ht, hp, hs, hev⟩ := (reachesSync_iff cb e h).mp hy
    rw [selectionRun_external cb b e h ev hi hf ht hp hs hev hx] at hr
    cases hr
    rw [callMonitor_eng]
    exact atExternal_changes cb b e h
  · obtain ⟨hy, hx, _, _⟩ := h1
    obtain ⟨hi, hf, ht, hp, hs, hev⟩ := (reachesSync_iff cb e h).mp hy
    rw [selectionRun_guard cb b e h hi hf ht hp, hs, hev, hx] at hr
    cases hr
  · obtain ⟨hy, hx, _, _⟩ := h1
    obtain ⟨hi, hf, ht, hp, hs, hev⟩ := (reachesSync_iff cb e h).mp hy
    rw [selectionRun_guard cb b e h hi hf ht hp, hs, hev, hx] at hr
    cases hr

/-- A step that does not go through transition selection leaves `_history`. -/
theorem step_history_none (b : Bool) (e : Engine) (h : H)
    (hr : selectionRun cb b e h = none) : (step cb b e h).2.eng.history = e.history := by
  rcases step_cases cb b e h with h1 | h1 | h1 | h1 | h1 | h1 | h1 | h1 | h1
  · rw [h1.2]
    rfl
  · rw [h1.2.2]
  · rw [h1.2.2.2]
    exact (completeStep_changes cb _).history_eq rfl
  · rw [h1.2.2]
    exact (microstep_changes cb _ _ _ _).history_eq rfl
  · obtain ⟨_, hi, hf, ht, hp, hs, _⟩ := h1
    rw [selectionRun_spontaneous cb b e h hi hf ht hs] at hr
    cases hr
  · obtain ⟨_, hi, hf, ht, hp, hs, ev, hev, _⟩ := h1
    rw [selectionRun_internal cb b e h ev hi hf ht hp hs hev] at hr
    cases hr
  · obtain ⟨hy, ev, hx, _⟩ := h1
    obtain ⟨hi, hf, ht, hp, hs, hev⟩ := (reachesSync_iff cb e h).mp hy
    rw [selectionRun_external cb b e h ev hi hf ht hp hs hev hx] at hr
    cases hr
  · rw [h1.2.2.2]
    exact (atExternal_changes cb b e h).history_eq rfl
  · rw [h1.2.2.2]
    exact (atExternal_changes cb b e h).history_eq rfl

/-- The engine on which a step runs the loop REMEMBER_HISTORY. -/
theorem beforeEntrySet_remembers (r : Run H) :
    ∃ e0 : Engine, Changes { flags := true } r.eng e0 ∧
      (beforeEntrySet cb r).eng = rememberHistory (exitSetOf cb r) e0 := by
  refine ⟨(callMonitor cb MonitorHook.beforeMicroStep
      ((selectionOf cb r).1.setFlags
        (bitAndNot ((selectionOf cb r).1.eng.flags ||| USCXML_CTX_SPONTANEOUS)
          USCXML_CTX_TRANSITION_FOUND))).eng, ?_, rfl⟩
  rw [callMonitor_eng]
  refine Changes.andThen (selectionOf_changes cb r) ?_
  simp [Changes, Engine.mask, Run.setFlags]

/-- The history after a step that goes through transition selection: unchanged, or the one
that REMEMBER_HISTORY leaves for the exit set of the step. -/
theorem step_history_some (b : Bool) (e : Engine) (h : H) (r : Run H)
    (hr : selectionRun cb b e h = some r) :
    (hasFlag (selectionOf cb r).1.eng.flags USCXML_CTX_TRANSITION_FOUND = false ∧
      (step cb b e h).2.eng.history = e.history) ∨
    (hasFlag (selectionOf cb r).1.eng.flags USCXML_CTX_TRANSITION_FOUND = true ∧
      ∃ e0 : Engine, Static e e0 ∧ e0.configuration = e.configuration ∧
        e0.history = e.history ∧
        (step cb b e h).2.eng.history = (rememberHistory (exitSetOf cb r) e0).history) := by
  have hc := selectionRun_changes cb b e h r hr
  rw [selectionRun_step cb b e h r hr]
  rcases Bool.eq_false_or_eq_true
    (hasFlag (selectionOf cb r).1.eng.flags USCXML_CTX_TRANSITION_FOUND) with hf | hf
  · right
    refine ⟨hf, ?_⟩
    obtain ⟨e0, h0, h1⟩ := beforeEntrySet_remembers cb r
    refine ⟨e0, hc.static.chain h0.static, ?_, ?_, ?_⟩
    · rw [h0.configuration_eq rfl, hc.configuration_eq rfl]
    · rw [h0.history_eq rfl, hc.history_eq rfl]
    · rw [selectTransitions_found cb r hf, (microstep_changes cb _ _ _ _).history_eq rfl, h1]
  · left
    refine ⟨hf, ?_⟩
    rw [selectTransitions_none cb r hf]
    show (selectionOf cb r).1.eng.history = e.history
    rw [(selectionOf_changes cb r).history_eq rfl, hc.history_eq rfl]

theorem exitedBy_some (b : Bool) (e : Engine) (h : H) (r : Run H)
    (hr : selectionRun cb b e h = some r) : exitedBy cb b e h = exitSetOf cb r := by
  unfold exitedBy
  rw [hr]

theorem memoryKept_congr {e e0 : Engine} (hs : Static e e0) (X M : Bitset) :
    memoryKept e0 X M = memoryKept e X M := by
  unfold memoryKept
  rw [hs.getState, hs.2.1]

/-- A step whose exit set has `memoryKept` for `M` leaves the bits of `M` in `_history`. -/
theorem step_keeps (b : Bool) (e : Engine) (h : H) (M : Bitset)
    (hk : memoryKept e (exitedBy cb b e h) M = true) :
    M &&& (step cb b e h).2.eng.history = M &&& e.history := by
  cases hr : selectionRun cb b e h with
  | none => rw [step_history_none cb b e h hr]
  | some r =>
    rw [exitedBy_some cb b e h r hr] at hk
    rcases step_history_some cb b e h r hr with ⟨_, h1⟩ | ⟨_, e0, hs, _, hh, h1⟩
    · rw [h1]
    · rw [h1, rememberHistory_keeps _ M e0 (by rw [memoryKept_congr hs]; exact hk), hh]

/-- A set of transitions that gives the exit set a member is not empty. -/
theorem selection_found_of_exit (r : Run H) (j : Nat)
    (hj : BIT_HAS j (exitSetOf cb r) = true) :
    hasFlag (selectionOf cb r).1.eng.flags USCXML_CTX_TRANSITION_FOUND = true := by
  unfold exitSetOf at hj
  rw [BIT_HAS_and] at hj
  simp only [Bool.and_eq_true] at hj
  have hsets := (selectLoop_sets cb r.eng.transitions.length
    (r.setFlags (bitAndNot r.eng.flags USCXML_CTX_STABLE)) j).2
  obtain ⟨i, _, hi, _⟩ := hsets.mp hj.1
  have hne : (selectionOf cb r).2.transSet ≠ 0 := by
    intro h0
    have hi2 : BIT_HAS i (selectionOf cb r).2.transSet = true := hi
    rw [h0, BIT_HAS_zero] at hi2
    cases hi2
  rw [selectionOf_flags, if_neg hne]
  exact hasFlag_or_self _ _ (by decide)

/-- A step that exits the parent of the history state `h` leaves in `_history`, on the
completion of `h`, the configuration it started with. -/
theorem step_records (b : Bool) (e : Engine) (g : H) (h : Nat)
    (hh : h < e.states.length) (hty : isHistoryType (USCXML_GET_STATE e h).type = true)
    (hpar : BIT_HAS (USCXML_GET_STATE e h).parent (exitedBy cb b e g) = true) :
    (USCXML_GET_STATE e h).completion &&& (step cb b e g).2.eng.history =
      (USCXML_GET_STATE e h).completion &&& e.configuration := by
  cases hr : selectionRun cb b e g with
  | none =>
    unfold exitedBy at hpar
    rw [hr, BIT_HAS_zero] at hpar
    cases hpar
  | some r =>
    rw [exitedBy_some cb b e g r hr] at hpar
    have hf := selection_found_of_exit cb r _ hpar
    rcases step_history_some cb b e g r hr with ⟨h0, _⟩ | ⟨_, e0, hs, hc, _, h1⟩
    · rw [hf] at h0
      cases h0
    · have hg := hs.getState
      rw [h1, ← hg, rememberHistory_records _ e0 h (by rw [hs.2.1]; exact hh)
        (by rw [hg]; exact hty) (by rw [hg]; exact hpar), hc]

/-! ### Runs of steps -/

theorem step_static (b : Bool) (e : Engine) (g : H) (hi : e.isInitialized = true) :
    Static e (step cb b e g).2.eng := (step_proper cb b e g hi).1

theorem stepsFrom_static (e : Engine) (l : List (Bool × H)) (hi : e.isInitialized = true) :
    Static e (stepsFrom cb e l) := by
  induction l generalizing e with
  | nil => exact ⟨rfl, rfl, rfl, rfl, rfl⟩
  | cons s l ih =>
    have h1 := step_static cb s.1 e s.2 hi
    exact h1.chain (ih _ (h1.2.2.2.1.trans hi))

/-- Steps whose exit sets have `memoryKept` for `M` leave the bits of `M` in `_history`. -/
theorem stepsFrom_keeps (M : Bitset) (e : Engine) (l : List (Bool × H))
    (hi : e.isInitialized = true) (hk : keptAlong cb M e l = true) :
    M &&& (stepsFrom cb e l).history = M &&& e.history := by
  induction l generalizing e with
  | nil => rfl
  | cons s l ih =>
    simp only [keptAlong, Bool.and_eq_true] at hk
    have h1 := step_static cb s.1 e s.2 hi
    show M &&& (stepsFrom cb (step cb s.1 e s.2).2.eng l).history = _
    rw [ih _ (h1.2.2.2.1.trans hi) hk.2, step_keeps cb s.1 e s.2 M hk.1]

end

section

variable {H : Type} (cb : MicroStepCallbacks H)

/-! ### Entering through a shallow history state -/

/-- What `shallowHistory` says, member by member. -/
theorem shallowHistory_facts {e : Engine} {C h c2 : Nat} (hc : shallowHistory e C h c2 = true) :
    h < e.states.length ∧ c2 < e.states.length ∧ C < e.states.length ∧
    USCXML_STATE_MASK (USCXML_GET_STATE e h).type = USCXML_STATE_HISTORY_SHALLOW ∧
    (USCXML_GET_STATE e h).parent = C ∧
    BIT_HAS C (USCXML_GET_STATE e h).ancestors = true ∧
    BIT_HAS c2 (USCXML_GET_STATE e h).completion = true ∧
    USCXML_STATE_MASK (USCXML_GET_STATE e c2).type = USCXML_STATE_ATOMIC ∧
    (∀ i, i < e.states.length → BIT_HAS i (USCXML_GET_STATE e h).ancestors = true →
      USCXML_STATE_MASK (USCXML_GET_STATE e i).type = USCXML_STATE_COMPOUND ∧
      BIT_HAS h (USCXML_GET_STATE e i).children = true ∧
      ∀ j, BIT_HAS j (USCXML_GET_STATE e i).ancestors = true →
        BIT_HAS j (USCXML_GET_STATE e h).ancestors = true) ∧
    BIT_HAS_AND (USCXML_GET_STATE e h).completion (USCXML_GET_STATE e h).ancestors = false := by
  simp only [shallowHistory, Bool.and_eq_true, decide_eq_true_eq, beq_iff_eq,
    List.all_eq_true, List.mem_range, Bool.or_eq_true, Bool.not_eq_true'] at hc
  obtain ⟨⟨⟨⟨⟨⟨⟨⟨⟨h1, h2⟩, h3⟩, h4⟩, h5⟩, h6⟩, h7⟩, h8⟩, h10⟩, h9⟩ := hc
  refine ⟨h1, h2, h3, h4, h5, h6, h7, h8, ?_, h10⟩
  intro i hi hia
  rcases h9 i hi with q | q
  · rw [hia] at q
    cases q
  · exact ⟨q.1.1, q.1.2, fun j hj => subset_of_and_eq q.2 j hj⟩

theorem shallowHistory_congr {e e0 : Engine} (hs : Static e e0) (C h c2 : Nat) :
    shallowHistory e0 C h c2 = shallowHistory e C h c2 := by
  unfold shallowHistory
  rw [hs.getState, hs.2.1]

theorem isHistoryType_of_shallow {t : Nat}
    (h : USCXML_STATE_MASK t = USCXML_STATE_HISTORY_SHALLOW) : isHistoryType t = true := by
  simp [isHistoryType, h]

theorem isPseudoType_of_shallow {t : Nat}
    (h : USCXML_STATE_MASK t = USCXML_STATE_HISTORY_SHALLOW) : isPseudoType t = true := by
  simp [isPseudoType, h]

/-- The entry set for the single target `h`, a shallow history state with compound
ancestors, when the memory of `h` holds exactly the atomic state `c2`: `h`, its ancestors
and `c2`. -/
theorem entrySet_history (e : Engine) (X ts : Bitset) (C h c2 : Nat)
    (hc : shallowHistory e C h c2 = true)
    (hm : (USCXML_GET_STATE e h).completion &&& e.history = 1 <<< c2) :
    establishEntrySet e (1 <<< h) X ts =
      (1 <<< h ||| (USCXML_GET_STATE e h).ancestors ||| 1 <<< c2, ts) := by
  obtain ⟨hh, _, _, hty, _, _, _, htc, hanc, _⟩ := shallowHistory_facts hc
  have hb1 : ∀ i, BIT_HAS i (1 <<< h ||| (USCXML_GET_STATE e h).ancestors) =
      (decide (h = i) || BIT_HAS i (USCXML_GET_STATE e h).ancestors) := by
    intro i
    rw [BIT_HAS_or, BIT_HAS_one_shiftLeft]
  have hb2 : ∀ i, BIT_HAS i (1 <<< h ||| (USCXML_GET_STATE e h).ancestors ||| 1 <<< c2) =
      (decide (h = i) || BIT_HAS i (USCXML_GET_STATE e h).ancestors || decide (c2 = i)) := by
    intro i
    rw [BIT_HAS_or, hb1, BIT_HAS_one_shiftLeft]
  have hmem : BIT_HAS_AND (USCXML_GET_STATE e h).completion e.history = true := by
    unfold BIT_HAS_AND
    rw [hm, bne_iff_ne]
    intro h0
    have := BIT_HAS_one_shiftLeft c2 c2
    rw [h0, BIT_HAS_zero] at this
    simp at this
  refine establishEntrySet_single e X ts h hh _ ?_ ?_ ?_ ?_
  · intro i hi hin j hj
    rw [hb1] at hin ⊢
    simp only [Bool.or_eq_true, decide_eq_true_eq] at hin ⊢
    rcases hin with hin | hin
    · subst hin
      exact Or.inr hj
    · exact Or.inr ((hanc i hi hin).2.2 j hj)
  · intro i hi hih
    rcases Bool.eq_false_or_eq_true (BIT_HAS i (USCXML_GET_STATE e h).ancestors) with hia | hia
    · apply addDescendants_compound_skip e X _ i (hanc i hi hia).1
      rw [BIT_HAS_AND_iff]
      exact ⟨h, by rw [hb1]; simp, (hanc i hi hia).2.1⟩
    · apply addDescendants_absent
      show BIT_HAS i (1 <<< h ||| (USCXML_GET_STATE e h).ancestors) = false
      rw [hb1, hia]
      simp [Ne.symm hih]
  · rw [addDescendants_shallow e X _ h hty (by rw [hb1]; simp) (Or.inl hmem), hm]
  · intro i hi
    by_cases hic : i = c2
    · subst hic
      exact addDescendants_atomic e X _ i htc
    · by_cases hih : i = h
      · subst hih
        rw [addDescendants_shallow e X _ i hty (by rw [hb2]; simp) (Or.inl hmem), hm]
        congr 1
        apply or_absorb
        intro j hj
        rw [BIT_HAS_or, hj]
        simp
      · rcases Bool.eq_false_or_eq_true (BIT_HAS i (USCXML_GET_STATE e h).ancestors) with
          hia | hia
        · apply addDescendants_compound_skip e X _ i (hanc i hi hia).1
          rw [BIT_HAS_AND_iff]
          exact ⟨h, by rw [hb2]; simp, (hanc i hi hia).2.1⟩
        · apply addDescendants_absent
          show BIT_HAS i (1 <<< h ||| (USCXML_GET_STATE e h).ancestors ||| 1 <<< c2) = false
          rw [hb2, hia]
          simp [Ne.symm hih, Ne.symm hic]

/-- A micro-step whose only target is such a history state: afterwards a state is active
when it was active and is not exited, or is `c2` or an ancestor of `h`. -/
theorem microstep_history (X ts : Bitset) (r : Run H) (C h c2 : Nat)
    (hc : shallowHistory r.eng C h c2 = true)
    (hm : (USCXML_GET_STATE r.eng h).completion &&& r.eng.history = 1 <<< c2) (j : Nat) :
    BIT_HAS j (microstep cb (1 <<< h) X ts r).2.eng.configuration =
      ((BIT_HAS j r.eng.configuration && !(decide (j < r.eng.states.length) && BIT_HAS j X)) ||
        (decide (j < r.eng.states.length) &&
          (decide (j = c2) || BIT_HAS j (USCXML_GET_STATE r.eng h).ancestors))) := by
  have hes := entrySet_history r.eng X ts C h c2 hc hm
  obtain ⟨hh, hc2, _, hty, _, _, _, htc, hanc, _⟩ := shallowHistory_facts hc
  have hb2 : ∀ i, BIT_HAS i (1 <<< h ||| (USCXML_GET_STATE r.eng h).ancestors ||| 1 <<< c2) =
      (decide (h = i) || BIT_HAS i (USCXML_GET_STATE r.eng h).ancestors || decide (c2 = i)) := by
    intro i
    rw [BIT_HAS_or, BIT_HAS_or, BIT_HAS_one_shiftLeft, BIT_HAS_one_shiftLeft]
  rw [microstep_configuration, hes, hb2]
  by_cases hjn : j < r.eng.states.length
  · by_cases hjc : j = c2
    · subst hjc
      simp [USCXML_NUMBER_STATES, hjn, isPseudoType_of_atomic htc]
    · rcases Bool.eq_false_or_eq_true (BIT_HAS j (USCXML_GET_STATE r.eng h).ancestors) with
        hja | hja
      · simp [USCXML_NUMBER_STATES, hjn, hja, isPseudoType_of_compound (hanc j hjn hja).1]
      · by_cases hjh : j = h
        · subst hjh
          simp [USCXML_NUMBER_STATES, hjn, hja, hjc, isPseudoType_of_shallow hty]
        · simp [USCXML_NUMBER_STATES, hjn, hja, hjc, hjh, Ne.symm hjh, Ne.symm hjc]
  · simp [USCXML_NUMBER_STATES, hjn]

/-- The target set of a selection that takes exactly the transition `t`. -/
theorem selection_one_target (r : Run H) (t : Nat) (ht : t < r.eng.transitions.length)
    (h1 : (selectionOf cb r).2.transSet = 1 <<< t) :
    (selectionOf cb r).2.targetSet = (USCXML_GET_TRANS r.eng t).target ∧
    hasFlag (selectionOf cb r).1.eng.flags USCXML_CTX_TRANSITION_FOUND = true := by
  have hne : (selectionOf cb r).2.transSet ≠ 0 := by
    rw [h1]
    intro h0
    have := BIT_HAS_one_shiftLeft t t
    rw [h0, BIT_HAS_zero] at this
    simp at this
  have hfl := selectionOf_flags cb r
  rw [if_neg hne] at hfl
  refine ⟨?_, by rw [hfl]; exact hasFlag_or_self _ _ (by decide)⟩
  have hsets := fun j => (selectLoop_sets cb r.eng.transitions.length
    (r.setFlags (bitAndNot r.eng.flags USCXML_CTX_STABLE)) j).1
  apply bit_eq_of_forall
  intro j
  rw [Bool.eq_iff_iff]
  refine Iff.trans (hsets j) ?_
  constructor
  · rintro ⟨i, _, h2, h3⟩
    have h2b : BIT_HAS i (selectionOf cb r).2.transSet = true := h2
    rw [h1, BIT_HAS_one_shiftLeft] at h2b
    have : t = i := by simpa using h2b
    subst this
    exact h3
  · intro h3
    refine ⟨t, ht, ?_, h3⟩
    show BIT_HAS t (selectionOf cb r).2.transSet = true
    rw [h1, BIT_HAS_one_shiftLeft]
    simp

/-- A step that takes exactly one transition, whose target is the shallow history state `h`,
with an exit set that has `memoryKept` for the completion of `h`, when the memory of `h`
holds exactly the atomic state `c2`. -/
theorem step_restores (b : Bool) (e : Engine) (g : H) (r : Run H) (t C h c2 : Nat)
    (hc : shallowHistory e C h c2 = true)
    (hr : selectionRun cb b e g = some r) (ht : t < e.transitions.length)
    (hone : (selectionOf cb r).2.transSet = 1 <<< t)
    (htarget : (USCXML_GET_TRANS e t).target = 1 <<< h)
    (hk : memoryKept e (exitSetOf cb r) (USCXML_GET_STATE e h).completion = true)
    (hm : (USCXML_GET_STATE e h).completion &&& e.history = 1 <<< c2) :
    (step cb b e g).1 = InterpreterState.USCXML_MICROSTEPPED ∧
    (establishEntrySet (beforeEntrySet cb r).eng (1 <<< h) (exitSetOf cb r) (1 <<< t)).1 =
      1 <<< h ||| (USCXML_GET_STATE e h).ancestors ||| 1 <<< c2 ∧
    (USCXML_GET_STATE e h).completion &&& (beforeEntrySet cb r).eng.history = 1 <<< c2 ∧
    ∀ j, BIT_HAS j (step cb b e g).2.eng.configuration =
      ((BIT_HAS j e.configuration &&
          !(decide (j < e.states.length) && BIT_HAS j (exitSetOf cb r))) ||
        (decide (j < e.states.length) &&
          (decide (j = c2) || BIT_HAS j (USCXML_GET_STATE e h).ancestors))) := by
  have hch := selectionRun_changes cb b e g r hr
  have hs1 : Static e r.eng := hch.static
  have ht2 : t < r.eng.transitions.length := by rw [hs1.2.2.1]; exact ht
  obtain ⟨htg, hf⟩ := selection_one_target cb r t ht2 hone
  have hstep : step cb b e g =
      microstep cb (1 <<< h) (exitSetOf cb r) (1 <<< t) (beforeEntrySet cb r) := by
    rw [selectionRun_step cb b e g r hr, selectTransitions_found cb r hf, htg, hone,
      hs1.getTrans, htarget]
  obtain ⟨e0, h0, h1⟩ := beforeEntrySet_remembers cb r
  have hs0 : Static e e0 := hs1.chain h0.static
  have hsb : Static e (beforeEntrySet cb r).eng := by
    rw [h1]
    exact hs0.chain (rememberHistory_changes _ _).static
  have hmem : (USCXML_GET_STATE e h).completion &&& (beforeEntrySet cb r).eng.history =
      1 <<< c2 := by
    rw [h1, rememberHistory_keeps _ _ e0 (by rw [memoryKept_congr hs0]; exact hk),
      h0.history_eq rfl, hch.history_eq rfl, hm]
  have hcfg : (beforeEntrySet cb r).eng.configuration = e.configuration := by
    rw [h1, (rememberHistory_changes _ _).configuration_eq rfl, h0.configuration_eq rfl,
      hch.configuration_eq rfl]
  have hcb : shallowHistory (beforeEntrySet cb r).eng C h c2 = true := by
    rw [shallowHistory_congr hsb]
    exact hc
  have hmb : (USCXML_GET_STATE (beforeEntrySet cb r).eng h).completion &&&
      (beforeEntrySet cb r).eng.history = 1 <<< c2 := by
    rw [hsb.getState]
    exact hmem
  refine ⟨by rw [hstep]; rfl, ?_, hmem, ?_⟩
  · rw [entrySet_history _ _ _ C h c2 hcb hmb, hsb.getState]
  · intro j
    rw [hstep, microstep_history cb _ _ _ C h c2 hcb hmb j, hcfg, hsb.2.1, hsb.getState]

/-- A step whose selection takes the set `1 <<< t` goes through transition selection. -/
theorem selectedBy_one (b : Bool) (e : Engine) (g : H) (t : Nat)
    (h1 : selectedBy cb b e g = 1 <<< t) :
    ∃ r, selectionRun cb b e g = some r ∧ (selectionOf cb r).2.transSet = 1 <<< t := by
  unfold selectedBy at h1
  cases hr : selectionRun cb b e g with
  | none =>
    rw [hr] at h1
    have := BIT_HAS_one_shiftLeft t t
    rw [← h1, BIT_HAS_zero] at this
    simp at this
  | some r =>
    rw [hr] at h1
    exact ⟨r, rfl, h1⟩

/-- The exit set of a step holds active states only. -/
theorem exitedBy_active (b : Bool) (e : Engine) (g : H) (j : Nat)
    (hj : BIT_HAS j (exitedBy cb b e g) = true) : BIT_HAS j e.configuration = true := by
  cases hr : selectionRun cb b e g with
  | none =>
    unfold exitedBy at hj
    rw [hr, BIT_HAS_zero] at hj
    cases hj
  | some r =>
    rw [exitedBy_some cb b e g r hr] at hj
    unfold exitSetOf at hj
    rw [BIT_HAS_and, (selectionOf_changes cb r).configuration_eq rfl,
      (selectionRun_changes cb b e g r hr).configuration_eq rfl] at hj
    simp only [Bool.and_eq_true] at hj
    exact hj.2

theorem selectionRun_initialized (b : Bool) (e : Engine) (g : H) (r : Run H)
    (hr : selectionRun cb b e g = some r) : e.isInitialized = true := by
  rcases Bool.eq_false_or_eq_true e.isInitialized with hi | hi
  · exact hi
  · simp [selectionRun, hi] at hr

end

/-! ## The claims -/

/-- Claim C1. In every run (calls of `step`, `markAsCancelled` and `reset`, and changes of the
host such as events arriving, from a freshly constructed engine for any index), no state
whose type is HistoryShallow, HistoryDeep or Initial is in the configuration. -/
theorem C1_no_pseudo_state_active {H : Type} (cb : MicroStepCallbacks H) (scxml : Index)
    (h : H) (actions : List (Action H)) (j : Nat) :
    (BIT_HAS j (run cb scxml h actions).1.configuration &&
      isPseudoType (USCXML_GET_STATE (run cb scxml h actions).1 j).type) = false :=
  (Sound.run cb scxml h actions).2 j

set_option maxRecDepth 100000 in
/-- Claim C2 (fails on the code). The chart `chartDeepInitial` is entered by the bootstrap
step: the compound `p` is entered by default and its `initial` attribute names the grandchild
`x`. Line 724 tests the completion against `children`, which holds all descendants, so the
"deep completion" branch is skipped and the ancestor `m` of `x` is not added to the entry set:
afterwards the atomic state `x` (3) is active and its compound ancestor `m` (2) is not. -/
theorem C2_deep_initial_leaves_ancestor_inactive :
    hierarchyConsistent chartDeepInitial = true ∧
    (step queueCallbacks false (init (construct chartDeepInitial)) ⟨[], []⟩).1 =
      InterpreterState.USCXML_MICROSTEPPED ∧
    (run queueCallbacks chartDeepInitial ⟨[], []⟩
      [Action.step false, Action.step false]).1.configuration = 0b1011 ∧
    USCXML_STATE_MASK (USCXML_GET_STATE (init (construct chartDeepInitial)) 3).type =
      USCXML_STATE_ATOMIC ∧
    BIT_HAS 2 (USCXML_GET_STATE (init (construct chartDeepInitial)) 3).ancestors = true ∧
    USCXML_STATE_MASK (USCXML_GET_STATE (init (construct chartDeepInitial)) 2).type =
      USCXML_STATE_COMPOUND ∧
    atomicAncestorsActive (run queueCallbacks chartDeepInitial ⟨[], []⟩
      [Action.step false, Action.step false]).1 = false := by
  decide

set_option maxRecDepth 100000 in
/-- Claim C3 (fails on the code). The chart `chartGrandchild` is entered by the bootstrap
step: `p` names the grandchild `x2` as its initial state, and the step enters `scxml`, `p` and
`x2` only. The compound `p` (1) is then active with none of its direct children `c1` (2) and
`c2` (3) active. -/
theorem C3_compound_without_active_child :
    hierarchyConsistent chartGrandchild = true ∧
    (run queueCallbacks chartGrandchild ⟨[], []⟩
      [Action.step false, Action.step false]).1.configuration = 0b100011 ∧
    directChildren (run queueCallbacks chartGrandchild ⟨[], []⟩
      [Action.step false, Action.step false]).1 1 = [2, 3] ∧
    compoundHasOneChild (run queueCallbacks chartGrandchild ⟨[], []⟩
      [Action.step false, Action.step false]).1 = false := by
  decide

set_option maxRecDepth 100000 in
/-- Claim C4 (fails on the code). The chart `chartParallelRegion` is entered by the bootstrap
step: `c` names the region `A` of the parallel `P` as its initial state. `P` comes into the
entry set only as an ancestor of the target of the initial transition of `A`, after the loop
over the entry set has passed it, so its completion is never added: afterwards `P` (2) is
active and its child `B` (6) is not. -/
theorem C4_parallel_with_inactive_region :
    hierarchyConsistent chartParallelRegion = true ∧
    (run queueCallbacks chartParallelRegion ⟨[], []⟩
      [Action.step false, Action.step false]).1.configuration = 0b00101111 ∧
    directChildren (run queueCallbacks chartParallelRegion ⟨[], []⟩
      [Action.step false, Action.step false]).1 2 = [3, 6] ∧
    isHistoryType (USCXML_GET_STATE (init (construct chartParallelRegion)) 6).type = false ∧
    parallelChildrenActive (run queueCallbacks chartParallelRegion ⟨[], []⟩
      [Action.step false, Action.step false]).1 = false := by
  decide

/-- Claim C5. In the selection loop over the transitions `0 .. n-1`, the transition `i` is
taken (its bit is in the selected set when the loop ends) iff it is not a history or initial
transition, its source is active, it is enabled for the current event when the loop reaches
it (event and descriptor both absent, or both present and matched; guard empty or true), and
no taken transition `j < i` has `i` in its conflicts. Hence an enabled transition below which
none is taken is taken, and a transition in the conflicts of a taken lower one is not. -/
theorem C5_selection_is_greedy {H : Type} (cb : MicroStepCallbacks H) (r : Run H) (n i : Nat)
    (hi : i < n) :
    (BIT_HAS i (selectLoop cb n r).2.transSet = true ↔
      isPseudoTrans (USCXML_GET_TRANS r.eng i).type = false ∧
      BIT_HAS (USCXML_GET_TRANS r.eng i).source r.eng.configuration = true ∧
      enabledFor cb (USCXML_GET_TRANS r.eng i) (selectLoop cb i r).1 = true ∧
      ∀ j, j < i → BIT_HAS j (selectLoop cb n r).2.transSet = true →
        BIT_HAS i (USCXML_GET_TRANS r.eng j).conflicts = false) ∧
    (isPseudoTrans (USCXML_GET_TRANS r.eng i).type = false →
      BIT_HAS (USCXML_GET_TRANS r.eng i).source r.eng.configuration = true →
      enabledFor cb (USCXML_GET_TRANS r.eng i) (selectLoop cb i r).1 = true →
      (∀ j, j < i → BIT_HAS j (selectLoop cb n r).2.transSet = false) →
      BIT_HAS i (selectLoop cb n r).2.transSet = true) ∧
    (∀ j, j < i → BIT_HAS j (selectLoop cb n r).2.transSet = true →
      BIT_HAS i (USCXML_GET_TRANS r.eng j).conflicts = true →
      BIT_HAS i (selectLoop cb n r).2.transSet = false) := by
  have hiff : BIT_HAS i (selectLoop cb n r).2.transSet = true ↔
      isPseudoTrans (USCXML_GET_TRANS r.eng i).type = false ∧
      BIT_HAS (USCXML_GET_TRANS r.eng i).source r.eng.configuration = true ∧
      enabledFor cb (USCXML_GET_TRANS r.eng i) (selectLoop cb i r).1 = true ∧
      ∀ j, j < i → BIT_HAS j (selectLoop cb n r).2.transSet = true →
        BIT_HAS i (USCXML_GET_TRANS r.eng j).conflicts = false := by
    have hstab : ∀ j, j < i → BIT_HAS j (selectLoop cb n r).2.transSet =
        BIT_HAS j (selectLoop cb i r).2.transSet :=
      fun j hj => selectLoop_transSet_stable cb r i n j hj (Nat.le_of_lt hi)
    have hconf : BIT_HAS i (selectLoop cb i r).2.conflicts = false ↔
        ∀ j, j < i → BIT_HAS j (selectLoop cb n r).2.transSet = true →
          BIT_HAS i (USCXML_GET_TRANS r.eng j).conflicts = false := by
      constructor
      · intro hc j hj hjt
        cases hjc : BIT_HAS i (USCXML_GET_TRANS r.eng j).conflicts
        · rfl
        · have := (selectLoop_conflicts cb r i i).mpr ⟨j, hj, by rw [← hstab j hj]; exact hjt, hjc⟩
          rw [hc] at this
          cases this
      · intro hall
        cases hc : BIT_HAS i (selectLoop cb i r).2.conflicts
        · rfl
        · obtain ⟨j, hj, hjt, hjc⟩ := (selectLoop_conflicts cb r i i).mp hc
          rw [hall j hj (by rw [hstab j hj]; exact hjt)] at hjc
          cases hjc
    rw [selectLoop_transSet_at cb r n i hi, ← hconf]
    unfold takes
    rw [(selectLoop_eng cb i r).trans_eq, (selectLoop_eng cb i r).flagsConfiguration]
    simp only [Bool.and_eq_true, Bool.not_eq_true']
    tauto
  refine ⟨hiff, ?_, ?_⟩
  · intro h1 h2 h3 h4
    refine hiff.mpr ⟨h1, h2, h3, ?_⟩
    intro j hj hjt
    rw [h4 j hj] at hjt
    cases hjt
  · intro j hj hjt hjc
    cases ht : BIT_HAS i (selectLoop cb n r).2.transSet
    · rfl
    · have := (hiff.mp ht).2.2.2 j hj hjt
      rw [hjc] at this
      cases this

/-- Witness for C5: two conflicting transitions enabled by the event `e`. -/
theorem C5_selection_is_greedy_witness :
    1 < 2 ∧
    ((BIT_HAS 1 (selectLoop queueCallbacks 2 conflictRun).2.transSet = true ↔
      isPseudoTrans (USCXML_GET_TRANS conflictRun.eng 1).type = false ∧
      BIT_HAS (USCXML_GET_TRANS conflictRun.eng 1).source conflictRun.eng.configuration = true ∧
      enabledFor queueCallbacks (USCXML_GET_TRANS conflictRun.eng 1)
        (selectLoop queueCallbacks 1 conflictRun).1 = true ∧
      ∀ j, j < 1 → BIT_HAS j (selectLoop queueCallbacks 2 conflictRun).2.transSet = true →
        BIT_HAS 1 (USCXML_GET_TRANS conflictRun.eng j).conflicts = false) ∧
    (isPseudoTrans (USCXML_GET_TRANS conflictRun.eng 1).type = false →
      BIT_HAS (USCXML_GET_TRANS conflictRun.eng 1).source conflictRun.eng.configuration = true →
      enabledFor queueCallbacks (USCXML_GET_TRANS conflictRun.eng 1)
        (selectLoop queueCallbacks 1 conflictRun).1 = true →
      (∀ j, j < 1 → BIT_HAS j (selectLoop queueCallbacks 2 conflictRun).2.transSet = false) →
      BIT_HAS 1 (selectLoop queueCallbacks 2 conflictRun).2.transSet = true) ∧
    (∀ j, j < 1 → BIT_HAS j (selectLoop queueCallbacks 2 conflictRun).2.transSet = true →
      BIT_HAS 1 (USCXML_GET_TRANS conflictRun.eng j).conflicts = true →
      BIT_HAS 1 (selectLoop queueCallbacks 2 conflictRun).2.transSet = false)) :=
  ⟨by decide, C5_selection_is_greedy queueCallbacks conflictRun 2 1 (by decide)⟩

/-- Claim C6. The trace of a step that returns Microstepped splits into three parts. The
first holds every `onExit` block that the step runs, in descending state index, and neither
`onEntry` blocks nor content of ordinary transitions; the second holds the executable content
of the ordinary (non-history, non-initial) transitions, in ascending transition index, and no
`onExit` or `onEntry` block; the third holds every `onEntry` block, in ascending state index,
and no `onExit` block or content of an ordinary transition. -/
theorem C6_exit_transition_entry_order {H : Type} (cb : MicroStepCallbacks H)
    (blocking : Bool) (e : Engine) (h : H)
    (hres : (step cb blocking e h).1 = InterpreterState.USCXML_MICROSTEPPED) :
    ∃ tx tt te, (step cb blocking e h).2.trace = tx ++ tt ++ te ∧
      (∀ c ∈ tx, transIndex c = none ∧ entryIndex c = none) ∧
      (∀ c ∈ tt, exitIndex c = none ∧ entryIndex c = none) ∧
      (∀ c ∈ te, exitIndex c = none ∧ transIndex c = none) ∧
      (tx.filterMap exitIndex).Pairwise (fun a b => a ≥ b) ∧
      (tt.filterMap transIndex).Pairwise (fun a b => a < b) ∧
      (te.filterMap entryIndex).Pairwise (fun a b => a ≤ b) := by
  obtain ⟨t, x, ts, r, heq, _, hpre, _, _⟩ := step_microstepped cb blocking e h hres
  obtain ⟨tX, tT, tN, tC, htr, qX, pX, qT, pT, qN, pN, qC⟩ := microstep_trace cb t x ts r
  refine ⟨r.trace ++ tX, tT, tN ++ tC, ?_, ?_, ?_, ?_, ?_, pT, ?_⟩
  · rw [heq, htr]
    simp
  · intro c hc
    rcases List.mem_append.mp hc with h1 | h1
    · exact (isPreludeCall.preludeIndices (hpre c h1)).2
    · obtain ⟨i, hi⟩ := qX c h1
      exact isExitCall.exitIndices hi
  · intro c hc
    obtain ⟨i, hi⟩ := qT c hc
    exact isTakeCall.takeIndices hi
  · intro c hc
    rcases List.mem_append.mp hc with h1 | h1
    · obtain ⟨i, hi⟩ := qN c h1
      exact isEnterCall.enterIndices hi
    · exact ⟨(isClosingCall.closingIndices (qC c h1)).1, (isClosingCall.closingIndices (qC c h1)).2.1⟩
  · rw [List.filterMap_append,
      filterMap_none exitIndex r.trace (fun c hc => (isPreludeCall.preludeIndices (hpre c hc)).1)]
    exact pX
  · rw [List.filterMap_append,
      filterMap_none entryIndex tC (fun c hc => (isClosingCall.closingIndices (qC c hc)).2.2)]
    simpa using pN

/-- Witness for C6: the toggle chart leaves `a` for `b` on the event `t`. -/
theorem C6_exit_transition_entry_order_witness :
    (step queueCallbacks false toggleEngine ⟨[], ["t"]⟩).1 =
        InterpreterState.USCXML_MICROSTEPPED ∧
    ∃ tx tt te, (step queueCallbacks false toggleEngine ⟨[], ["t"]⟩).2.trace = tx ++ tt ++ te ∧
      (∀ c ∈ tx, transIndex c = none ∧ entryIndex c = none) ∧
      (∀ c ∈ tt, exitIndex c = none ∧ entryIndex c = none) ∧
      (∀ c ∈ te, exitIndex c = none ∧ transIndex c = none) ∧
      (tx.filterMap exitIndex).Pairwise (fun a b => a ≥ b) ∧
      (tt.filterMap transIndex).Pairwise (fun a b => a < b) ∧
      (te.filterMap entryIndex).Pairwise (fun a b => a ≤ b) :=
  ⟨by decide, C6_exit_transition_entry_order queueCallbacks false toggleEngine ⟨[], ["t"]⟩
    (by decide)⟩

/-- Claim C7. In a call of `step`: (1) `dequeueExternal` is called only if the Spontaneous
flag is clear and `dequeueInternal`, the first call of the step, returned no event, and
`dequeueExternal` is then the only other call that dequeues; (2) when `dequeueInternal`
yields an event, that event is the current event of the selection (every `isMatched` call is
about it, and it is the engine's event after the step) and `dequeueExternal` is not called;
(3) when the Spontaneous flag is set the step dequeues from neither queue, asks no
`isMatched`, and selects on the null event. -/
theorem C7_event_source {H : Type} (cb : MicroStepCallbacks H) (blocking : Bool) (e : Engine)
    (h : H) :
    (∀ b, Call.dequeueExternal b ∈ (step cb blocking e h).2.trace →
      hasFlag e.flags USCXML_CTX_SPONTANEOUS = false ∧ (cb.dequeueInternal h).1 = none ∧
      ∃ mid rest, (step cb blocking e h).2.trace =
          Call.dequeueInternal :: (mid ++ Call.dequeueExternal blocking :: rest) ∧
        (∀ c ∈ mid, isDequeueCall c = false ∧ isSelectionCall c = false) ∧
        (∀ c ∈ rest, isDequeueCall c = false)) ∧
    (∀ ev, e.isInitialized = true → hasFlag e.flags USCXML_CTX_FINISHED = false →
      hasFlag e.flags USCXML_CTX_TOP_LEVEL_FINAL = false → e.flags ≠ USCXML_CTX_PRISTINE →
      hasFlag e.flags USCXML_CTX_SPONTANEOUS = false → (cb.dequeueInternal h).1 = some ev →
      (step cb blocking e h).2.eng.event = some ev ∧
        (∀ b, Call.dequeueExternal b ∉ (step cb blocking e h).2.trace) ∧
        (∀ e2 d, Call.isMatched e2 d ∈ (step cb blocking e h).2.trace → e2 = ev)) ∧
    (hasFlag e.flags USCXML_CTX_SPONTANEOUS = true →
      (∀ c ∈ (step cb blocking e h).2.trace, isDequeueCall c = false) ∧
      (∀ e2 d, Call.isMatched e2 d ∉ (step cb blocking e h).2.trace) ∧
      (e.isInitialized = true → hasFlag e.flags USCXML_CTX_FINISHED = false →
        hasFlag e.flags USCXML_CTX_TOP_LEVEL_FINAL = false →
        (step cb blocking e h).2.eng.event = none)) := by
  refine ⟨?_, ?_, ?_⟩
  · intro b hmem
    by_cases hc : e.isInitialized = true ∧ hasFlag e.flags USCXML_CTX_FINISHED = false ∧
      hasFlag e.flags USCXML_CTX_TOP_LEVEL_FINAL = false ∧ e.flags ≠ USCXML_CTX_PRISTINE ∧
      hasFlag e.flags USCXML_CTX_SPONTANEOUS = false ∧ (cb.dequeueInternal h).1 = none
    · obtain ⟨hi, hf, ht, hp, hs, hev⟩ := hc
      refine ⟨hs, hev, ?_⟩
      rw [step_external cb blocking e h hi hf ht hp hs hev]
      obtain ⟨mid, rest, htr, hmid, hrest, hmid2⟩ := awaitExternal_trace cb blocking
        (callDequeueInternal cb { eng := e, host := h, trace := [] })
      refine ⟨mid, rest, ?_, fun c hc => ⟨hmid c hc, hmid2 c hc⟩, hrest⟩
      rw [htr, callDequeueInternal_trace]
      rfl
    · exact absurd hmem (step_no_external cb blocking e h hc b)
  · intro ev hi hf ht hp hs hev
    refine ⟨?_, ?_, ?_⟩
    · rw [step_internal cb blocking e h hi hf ht hp hs ev hev, selectTransitions_event]
      exact hev
    · intro b
      exact step_no_external cb blocking e h (fun hc => by rw [hc.2.2.2.2.2] at hev; cases hev) b
    · intro e2 d hmem
      rw [step_internal cb blocking e h hi hf ht hp hs ev hev] at hmem
      rcases (selectTransitions_emits cb _).mem hmem with h1 | h1
      · simp at h1
      · have h2 := h1.matched
        have h3 : (callMonitor cb (MonitorHook.beforeProcessingEvent ev)
            (callDequeueInternal cb { eng := e, host := h, trace := [] })).eng.event =
            some ev := hev
        rw [h3] at h2
        exact (Option.some.inj h2).symm
  · intro hs
    cases hi : e.isInitialized
    · rw [step_uninitialized cb blocking e h hi]
      exact ⟨by simp, by simp, by simp⟩
    cases hf : hasFlag e.flags USCXML_CTX_FINISHED
    swap
    · rw [step_finished cb blocking e h hi hf]
      exact ⟨by simp, by simp, by simp⟩
    cases ht : hasFlag e.flags USCXML_CTX_TOP_LEVEL_FINAL
    swap
    · rw [step_topLevelFinal cb blocking e h hi hf ht]
      refine ⟨?_, ?_, by simp⟩
      · intro c hc
        rcases (completeStep_emits cb _).mem hc with h1 | h1
        · cases h1
        · exact isCompletionCall.completionNotDequeue h1
      · intro e2 d hc
        rcases (completeStep_emits cb _).mem hc with h1 | h1
        · cases h1
        · cases h1
    rw [step_spontaneous cb blocking e h hi hf ht hs]
    refine ⟨?_, ?_, fun _ _ _ => ?_⟩
    · intro c hc
      rcases (selectTransitions_emits cb _).mem hc with h1 | h1
      · cases h1
      · exact h1.stepNotDequeue
    · intro e2 d hc
      rcases (selectTransitions_emits cb _).mem hc with h1 | h1
      · cases h1
      · cases h1.matched
    · rw [selectTransitions_event]

/-- Witness for C7: an engine at rest with an external event queued dequeues it after
`dequeueInternal` returned nothing. -/
theorem C7_event_source_witness :
    Call.dequeueExternal false ∈ (step queueCallbacks false toggleEngine ⟨[], ["t"]⟩).2.trace ∧
    hasFlag toggleEngine.flags USCXML_CTX_SPONTANEOUS = false ∧
    (queueCallbacks.dequeueInternal ⟨[], ["t"]⟩).1 = none ∧
    ∃ mid rest, (step queueCallbacks false toggleEngine ⟨[], ["t"]⟩).2.trace =
        Call.dequeueInternal :: (mid ++ Call.dequeueExternal false :: rest) ∧
      (∀ c ∈ mid, isDequeueCall c = false ∧ isSelectionCall c = false) ∧
      (∀ c ∈ rest, isDequeueCall c = false) :=
  ⟨by decide,
    (C7_event_source queueCallbacks false toggleEngine ⟨[], ["t"]⟩).1 false (by decide)⟩

/-- Claim C8. Once a run has set the Finished flag, then after any further actions other than
`reset` (further steps, `markAsCancelled`, any change of the event queues), a call of `step`
with either value of `blocking` returns Finished and leaves the Finished flag set. -/
theorem C8_finished_is_terminal {H : Type} (cb : MicroStepCallbacks H) (scxml : Index)
    (h0 : H) (actions later : List (Action H)) (blocking : Bool) (h : H)
    (hfin : hasFlag (run cb scxml h0 actions).1.flags USCXML_CTX_FINISHED = true)
    (hlater : ∀ a ∈ later, a ≠ Action.reset) :
    (step cb blocking (later.foldl (applyAction cb) (run cb scxml h0 actions)).1 h).1 =
        InterpreterState.USCXML_FINISHED ∧
      hasFlag (step cb blocking (later.foldl (applyAction cb) (run cb scxml h0 actions)).1 h
        ).2.eng.flags USCXML_CTX_FINISHED = true := by
  have key : ∀ (l : List (Action H)) (p : Engine × H), Sound p.1 →
      hasFlag p.1.flags USCXML_CTX_FINISHED = true → (∀ a ∈ l, a ≠ Action.reset) →
      Sound (l.foldl (applyAction cb) p).1 ∧
        hasFlag (l.foldl (applyAction cb) p).1.flags USCXML_CTX_FINISHED = true := by
    intro l
    induction l with
    | nil => intro p hs hf _; exact ⟨hs, hf⟩
    | cons a l ih =>
      intro p hs hf hl
      have hs2 := Sound.applyAction cb p a hs
      refine ih (applyAction cb p a) hs2 ?_ (fun x hx => hl x (List.mem_cons_of_mem _ hx))
      cases a with
      | step b =>
        show hasFlag (step cb b p.1 p.2).2.eng.flags USCXML_CTX_FINISHED = true
        rw [step_finished cb b p.1 p.2 (hs.initialized _ hf) hf]
        exact hf
      | cancel => exact hf
      | reset => exact absurd rfl (hl Action.reset (List.mem_cons_self _ _))
      | env host => exact hf
  obtain ⟨hs, hf⟩ := key later (run cb scxml h0 actions) (Sound.run cb scxml h0 actions) hfin
    hlater
  rw [step_finished cb blocking _ h (hs.initialized _ hf) hf]
  exact ⟨rfl, hf⟩

set_option maxRecDepth 100000 in
/-- Witness for C8: the chart with a top-level final state is finished after three steps;
after a cancellation and a new external event a step still returns Finished. -/
theorem C8_finished_is_terminal_witness :
    hasFlag (run queueCallbacks chartTopFinal ⟨[], []⟩
        [Action.step false, Action.step false, Action.step false]).1.flags
        USCXML_CTX_FINISHED = true ∧
      (∀ a ∈ [Action.cancel, Action.env (⟨[], ["e"]⟩ : QueueHost), Action.step true],
        a ≠ Action.reset) ∧
      (step queueCallbacks true
          ([Action.cancel, Action.env ⟨[], ["e"]⟩, Action.step true].foldl
            (applyAction queueCallbacks)
            (run queueCallbacks chartTopFinal ⟨[], []⟩
              [Action.step false, Action.step false, Action.step false])).1
          ⟨[], ["e"]⟩).1 = InterpreterState.USCXML_FINISHED ∧
      hasFlag (step queueCallbacks true
          ([Action.cancel, Action.env ⟨[], ["e"]⟩, Action.step true].foldl
            (applyAction queueCallbacks)
            (run queueCallbacks chartTopFinal ⟨[], []⟩
              [Action.step false, Action.step false, Action.step false])).1
          ⟨[], ["e"]⟩).2.eng.flags USCXML_CTX_FINISHED = true :=
  ⟨by decide, by simp,
    C8_finished_is_terminal queueCallbacks chartTopFinal ⟨[], []⟩
      [Action.step false, Action.step false, Action.step false]
      [Action.cancel, Action.env ⟨[], ["e"]⟩, Action.step true] true ⟨[], ["e"]⟩
      (by decide) (by simp)⟩

set_option maxRecDepth 100000 in
/-- Claim C9 (fails on the code). In `chartOneRegion` the event `e` makes the step enter the
final child `Af` (4) of the only region `A` (2) of the parallel `P` (1). Line 885 combines the
ancestors of the active final state by exclusive or instead of removing them, so the bits of
`scxml` and `P` remain in `tmpStates`; the step raises the done event of `A` but none for
`P`. -/
theorem C9_single_region_raises_no_done_event :
    hierarchyConsistent chartOneRegion = true ∧
    (run queueCallbacks chartOneRegion ⟨[], []⟩
      [Action.step false, Action.step false, Action.step false]).1.configuration = 0b01111 ∧
    (step queueCallbacks false
      (run queueCallbacks chartOneRegion ⟨[], []⟩
        [Action.step false, Action.step false, Action.step false]).1 ⟨[], ["e"]⟩).1 =
      InterpreterState.USCXML_MICROSTEPPED ∧
    Call.monitor (MonitorHook.beforeEnteringState 4) ∈
      (step queueCallbacks false
        (run queueCallbacks chartOneRegion ⟨[], []⟩
          [Action.step false, Action.step false, Action.step false]).1 ⟨[], ["e"]⟩).2.trace ∧
    (step queueCallbacks false
      (run queueCallbacks chartOneRegion ⟨[], []⟩
        [Action.step false, Action.step false, Action.step false]).1
      ⟨[], ["e"]⟩).2.eng.configuration = 0b10111 ∧
    parallelRemainder
      (step queueCallbacks false
        (run queueCallbacks chartOneRegion ⟨[], []⟩
          [Action.step false, Action.step false, Action.step false]).1 ⟨[], ["e"]⟩).2.eng 1 =
      0b00011 ∧
    doneEventsFor 2
      (step queueCallbacks false
        (run queueCallbacks chartOneRegion ⟨[], []⟩
          [Action.step false, Action.step false, Action.step false]).1 ⟨[], ["e"]⟩).2.trace =
      [Call.raiseDoneEvent 4 2 none] ∧
    doneEventsFor 1
      (step queueCallbacks false
        (run queueCallbacks chartOneRegion ⟨[], []⟩
          [Action.step false, Action.step false, Action.step false]).1 ⟨[], ["e"]⟩).2.trace =
      [] := by
  decide

/-- Claim C10. In any call of `step`: (1) for every final state `i` that the step enters
(announced by `beforeEnteringState i`): if the only ancestor of `i` is the root, TopLevelFinal
is set after the step and, the root not being a parallel state, no `raiseDoneEvent` is made on
account of `i`; otherwise `raiseDoneEvent(parent of i, doneData of i)` is made; (2) a step that
returns Microstepped leaves TopLevelFinal set only if it entered a final state whose only
ancestor is the root; (3) a step of an initialised engine with TopLevelFinal set returns
Finished and neither dequeues an event nor selects transitions. -/
theorem C10_final_state_entry {H : Type} (cb : MicroStepCallbacks H) (blocking : Bool)
    (e : Engine) (h : H) :
    (∀ i, Call.monitor (MonitorHook.beforeEnteringState i) ∈ (step cb blocking e h).2.trace →
        USCXML_STATE_MASK (USCXML_GET_STATE e i).type = USCXML_STATE_FINAL →
        (isTopLevel e i = true →
          hasFlag (step cb blocking e h).2.eng.flags USCXML_CTX_TOP_LEVEL_FINAL = true ∧
            (USCXML_STATE_MASK (USCXML_GET_STATE e 0).type ≠ USCXML_STATE_PARALLEL →
              ∀ s d, Call.raiseDoneEvent i s d ∉ (step cb blocking e h).2.trace)) ∧
        (isTopLevel e i = false →
          Call.raiseDoneEvent i (USCXML_GET_STATE e i).parent (USCXML_GET_STATE e i).doneData
            ∈ (step cb blocking e h).2.trace)) ∧
      ((step cb blocking e h).1 = InterpreterState.USCXML_MICROSTEPPED →
        hasFlag (step cb blocking e h).2.eng.flags USCXML_CTX_TOP_LEVEL_FINAL = true →
        ∃ i, Call.monitor (MonitorHook.beforeEnteringState i) ∈ (step cb blocking e h).2.trace ∧
          USCXML_STATE_MASK (USCXML_GET_STATE e i).type = USCXML_STATE_FINAL ∧
          isTopLevel e i = true) ∧
      (e.isInitialized = true → hasFlag e.flags USCXML_CTX_TOP_LEVEL_FINAL = true →
        (step cb blocking e h).1 = InterpreterState.USCXML_FINISHED ∧
          ∀ c ∈ (step cb blocking e h).2.trace,
            isDequeueCall c = false ∧ isSelectionCall c = false) := by
  refine ⟨?_, ?_, ?_⟩
  · intro i hi hfin
    by_cases hres : (step cb blocking e h).1 = InterpreterState.USCXML_MICROSTEPPED
    · obtain ⟨t, x, ts, r, heq, hst, hpre, _, _⟩ := step_microstepped cb blocking e h hres
      rw [heq] at hi ⊢
      exact (microstep_finals cb t x ts r e hst hpre).1 i hi hfin
    · rcases step_quiet cb blocking e h hres _ hi with h1 | h1 <;> cases h1
  · intro hres hflag
    obtain ⟨t, x, ts, r, heq, hst, hpre, htlf, _⟩ := step_microstepped cb blocking e h hres
    rw [heq] at hflag ⊢
    rcases (microstep_finals cb t x ts r e hst hpre).2 hflag with h1 | h1
    · rw [htlf] at h1; cases h1
    · exact h1
  · intro hi ht
    cases hf : hasFlag e.flags USCXML_CTX_FINISHED
    · rw [step_topLevelFinal cb blocking e h hi hf ht]
      refine ⟨rfl, ?_⟩
      intro c hc
      rcases (completeStep_emits cb _).mem hc with h1 | h1
      · cases h1
      · exact ⟨isCompletionCall.completionNotDequeue h1,
          isCompletionCall.completionNotSelection h1⟩
    · rw [step_finished cb blocking e h hi hf]
      exact ⟨rfl, by simp⟩

/-- Witness for C10: the bootstrap step of the chart with a top-level final state enters
that state, sets TopLevelFinal and raises no done event. -/
theorem C10_final_state_entry_witness :
    Call.monitor (MonitorHook.beforeEnteringState 1) ∈
        (step queueCallbacks false (init (construct chartTopFinal)) ⟨[], []⟩).2.trace ∧
    USCXML_STATE_MASK (USCXML_GET_STATE (init (construct chartTopFinal)) 1).type =
        USCXML_STATE_FINAL ∧
    isTopLevel (init (construct chartTopFinal)) 1 = true ∧
    USCXML_STATE_MASK (USCXML_GET_STATE (init (construct chartTopFinal)) 0).type ≠
        USCXML_STATE_PARALLEL ∧
    hasFlag (step queueCallbacks false (init (construct chartTopFinal)) ⟨[], []⟩).2.eng.flags
        USCXML_CTX_TOP_LEVEL_FINAL = true ∧
    ∀ s d, Call.raiseDoneEvent 1 s d ∉
        (step queueCallbacks false (init (construct chartTopFinal)) ⟨[], []⟩).2.trace :=
  ⟨by decide, by decide, by decide, by decide,
    (((C10_final_state_entry queueCallbacks false (init (construct chartTopFinal))
      ⟨[], []⟩).1 1 (by decide) (by decide)).1 (by decide)).1,
    (((C10_final_state_entry queueCallbacks false (init (construct chartTopFinal))
      ⟨[], []⟩).1 1 (by decide) (by decide)).1 (by decide)).2 (by decide)⟩

set_option maxRecDepth 100000 in
/-- Claim C11, counterexample. The chart `chartInvoke` at rest is cancelled and stepped; the
next step is a terminal step (TopLevelFinal set, Finished clear, `p` active, `s` marked in
`_invocations`). It calls `uninvoke` for the invoker of `s` before it processes the `onExit`
block of the active state `p`: not all `onExit` blocks come before the `uninvoke` calls. -/
theorem C11_uninvoke_before_onExit :
    hasFlag cancelledInvoke.1.flags USCXML_CTX_TOP_LEVEL_FINAL = true ∧
    hasFlag cancelledInvoke.1.flags USCXML_CTX_FINISHED = false ∧
    BIT_HAS 1 cancelledInvoke.1.configuration = true ∧
    BIT_HAS 2 cancelledInvoke.1.invocations = true ∧
    (step queueCallbacks false cancelledInvoke.1 cancelledInvoke.2).2.trace =
      [Call.monitor MonitorHook.beforeCompletion,
        Call.process (Site.completionExit 2) 12,
        Call.uninvoke 2 21,
        Call.process (Site.completionExit 1) 11,
        Call.monitor MonitorHook.afterCompletion] := by
  decide

/-- Claim C11, amended. The step taken with TopLevelFinal set and Finished clear returns
Finished. Between the monitor calls `beforeCompletion` and `afterCompletion` it goes through
the states by descending index and makes for each state, first, the calls of its `onExit`
blocks if it is in the configuration and, directly after them, `uninvoke` for its invokers if
it is in `_invocations`; it makes no other call. It sets Finished, changes nothing but the
flags and `_invocations`, and clears every bit of `_invocations` below the number of states,
so that a bit set of that size is left empty. -/
theorem C11_terminal_unwinding {H : Type} (cb : MicroStepCallbacks H) (blocking : Bool)
    (e : Engine) (h : H) (hi : e.isInitialized = true)
    (ht : hasFlag e.flags USCXML_CTX_TOP_LEVEL_FINAL = true)
    (hf : hasFlag e.flags USCXML_CTX_FINISHED = false) :
    (step cb blocking e h).1 = InterpreterState.USCXML_FINISHED ∧
    (step cb blocking e h).2.trace =
      Call.monitor MonitorHook.beforeCompletion ::
        ((downRange (USCXML_NUMBER_STATES e)).flatMap (completionCalls e) ++
          [Call.monitor MonitorHook.afterCompletion]) ∧
    (step cb blocking e h).2.eng.flags = e.flags ||| USCXML_CTX_FINISHED ∧
    hasFlag (step cb blocking e h).2.eng.flags USCXML_CTX_FINISHED = true ∧
    Changes { invocations := true, flags := true } e (step cb blocking e h).2.eng ∧
    (∀ j, BIT_HAS j (step cb blocking e h).2.eng.invocations =
      (BIT_HAS j e.invocations && decide (USCXML_NUMBER_STATES e ≤ j))) ∧
    ((∀ j, BIT_HAS j e.invocations = true → j < USCXML_NUMBER_STATES e) →
      (step cb blocking e h).2.eng.invocations = 0) := by
  rw [step_topLevelFinal cb blocking e h hi hf ht]
  obtain ⟨h1, h2⟩ := completeStep_exact cb { eng := e, host := h, trace := [] }
  have hfl := completeStep_flags cb { eng := e, host := h, trace := [] }
  refine ⟨rfl, ?_, hfl, ?_, completeStep_changes cb _, h2, ?_⟩
  · simpa using h1
  · rw [hfl]
    exact hasFlag_or_self _ _ (by decide)
  · intro hb
    apply Nat.eq_of_testBit_eq
    intro j
    have := h2 j
    simp only [BIT_HAS] at this hb
    rw [this]
    by_cases hj : e.invocations.testBit j = true
    · have := hb j hj
      have hn : ¬ USCXML_NUMBER_STATES e ≤ j := by omega
      simp [hn]
    · simp [hj]

set_option maxRecDepth 100000 in
/-- Witness for C11: the terminal step of the cancelled chart `chartInvoke`. -/
theorem C11_terminal_unwinding_witness :
    cancelledInvoke.1.isInitialized = true ∧
    hasFlag cancelledInvoke.1.flags USCXML_CTX_TOP_LEVEL_FINAL = true ∧
    hasFlag cancelledInvoke.1.flags USCXML_CTX_FINISHED = false ∧
    (step queueCallbacks false cancelledInvoke.1 cancelledInvoke.2).1 =
      InterpreterState.USCXML_FINISHED :=
  ⟨by decide, by decide, by decide,
    (C11_terminal_unwinding queueCallbacks false cancelledInvoke.1 cancelledInvoke.2
      (by decide) (by decide) (by decide)).1⟩

/-- Claim C12. A call of `step` returns Cancelled exactly when the engine is initialised,
neither Finished nor TopLevelFinal nor pristine, Spontaneous is clear, `dequeueInternal` and
then `dequeueExternal` yield no event, and the cancellation mark is set; in a run the mark is
set exactly when `markAsCancelled` was called and `reset` was not called after it. A step
that returns Cancelled sets TopLevelFinal and leaves the configuration as it was, and any
following step is the terminal step and returns Finished. When the sync point is reached and
`dequeueExternal` yields an event, the step selects transitions for that event, whether the
engine is cancelled or not, and does not return Cancelled. -/
theorem C12_cancelled_step {H : Type} (cb : MicroStepCallbacks H) (blocking : Bool)
    (e : Engine) (h : H) :
    ((step cb blocking e h).1 = InterpreterState.USCXML_CANCELLED ↔
      e.isInitialized = true ∧ hasFlag e.flags USCXML_CTX_FINISHED = false ∧
      hasFlag e.flags USCXML_CTX_TOP_LEVEL_FINAL = false ∧ e.flags ≠ USCXML_CTX_PRISTINE ∧
      hasFlag e.flags USCXML_CTX_SPONTANEOUS = false ∧ (cb.dequeueInternal h).1 = none ∧
      externalEvent cb blocking e h = none ∧ e.isCancelled = true) ∧
    ((step cb blocking e h).1 = InterpreterState.USCXML_CANCELLED →
      hasFlag (step cb blocking e h).2.eng.flags USCXML_CTX_TOP_LEVEL_FINAL = true ∧
      (step cb blocking e h).2.eng.configuration = e.configuration ∧
      ∀ b2 h2,
        step cb b2 (step cb blocking e h).2.eng h2 =
          completeStep cb { eng := (step cb blocking e h).2.eng, host := h2, trace := [] } ∧
        (step cb b2 (step cb blocking e h).2.eng h2).1 = InterpreterState.USCXML_FINISHED) ∧
    (∀ ev, e.isInitialized = true → hasFlag e.flags USCXML_CTX_FINISHED = false →
      hasFlag e.flags USCXML_CTX_TOP_LEVEL_FINAL = false → e.flags ≠ USCXML_CTX_PRISTINE →
      hasFlag e.flags USCXML_CTX_SPONTANEOUS = false → (cb.dequeueInternal h).1 = none →
      externalEvent cb blocking e h = some ev →
      step cb blocking e h =
        selectTransitions cb (callMonitor cb (MonitorHook.beforeProcessingEvent ev)
          (atExternal cb blocking e h)) ∧
      (step cb blocking e h).1 ≠ InterpreterState.USCXML_CANCELLED ∧
      (step cb blocking e h).2.eng.event = some ev) ∧
    (∀ (scxml : Index) (h0 : H) (actions : List (Action H)),
      (run cb scxml h0 actions).1.isCancelled = true ↔
        ∃ pre post, actions = pre ++ Action.cancel :: post ∧ ∀ a ∈ post, a ≠ Action.reset) := by
  have hiff := (step_result_cases cb blocking e h).1
  refine ⟨?_, ?_, ?_, fun scxml h0 actions => run_isCancelled cb scxml h0 actions⟩
  · rw [hiff, reachesSync_iff]
    tauto
  · intro hres
    obtain ⟨hsync, hx, hc⟩ := hiff.mp hres
    obtain ⟨hi, hf, ht, hp, hs, hev⟩ := (reachesSync_iff cb e h).mp hsync
    have hstep : step cb blocking e h =
        (InterpreterState.USCXML_CANCELLED,
          (atExternal cb blocking e h).setFlags
            ((atExternal cb blocking e h).eng.flags ||| USCXML_CTX_TOP_LEVEL_FINAL)) := by
      rw [step_external cb blocking e h hi hf ht hp hs hev]
      have hcan : (atExternal cb blocking e h).eng.isCancelled = true :=
        ((atExternal_changes cb blocking e h).static.2.2.2.2).trans hc
      exact awaitExternal_cancelled cb blocking _ hx hcan
    have hst := (atExternal_changes cb blocking e h).static
    have hfl : (step cb blocking e h).2.eng.flags =
        e.flags ||| USCXML_CTX_STABLE ||| USCXML_CTX_TOP_LEVEL_FINAL := by
      rw [hstep]
      simp [Run.setFlags, atExternal_flags]
    have htl : hasFlag (step cb blocking e h).2.eng.flags USCXML_CTX_TOP_LEVEL_FINAL = true := by
      rw [hfl]
      exact hasFlag_or_self _ _ (by decide)
    have hfin : hasFlag (step cb blocking e h).2.eng.flags USCXML_CTX_FINISHED = false := by
      rw [hfl, hasFlag_or, hasFlag_or, hf]
      decide
    have hini : (step cb blocking e h).2.eng.isInitialized = true := by
      rw [hstep]
      exact hst.2.2.2.1.trans hi
    refine ⟨htl, ?_, fun b2 h2 => ?_⟩
    · rw [hstep]
      exact (atExternal_changes cb blocking e h).configuration_eq rfl
    · have h3 := step_topLevelFinal cb b2 (step cb blocking e h).2.eng h2 hini hfin htl
      exact ⟨h3, by rw [h3]; rfl⟩
  · intro ev hi hf ht hp hs hev hx
    have hstep : step cb blocking e h =
        selectTransitions cb (callMonitor cb (MonitorHook.beforeProcessingEvent ev)
          (atExternal cb blocking e h)) := by
      rw [step_external cb blocking e h hi hf ht hp hs hev]
      exact awaitExternal_event cb blocking _ ev hx
    refine ⟨hstep, ?_, ?_⟩
    · intro hres
      have := (hiff.mp hres).2.1
      rw [hx] at this
      cases this
    · rw [hstep, selectTransitions_event]
      exact hx

/-- Claim C13. After `reset` the flags are Pristine (no flag set), the configuration, the
history, `_initializedData` and `_invocations` are empty and the cancellation mark is clear,
while the document, the state and transition arrays and the initialisation mark are as
before. The next step of an initialised engine is the bootstrap: it sets Spontaneous and
Initialized, calls `beforeMicroStep` and runs the micro-step whose target set is the
completion of the root with empty exit and transition sets; it returns Microstepped, the
configuration after it holds exactly the proper states of the entry set computed from the
root's completion, and every proper state of the root's completion is among them. -/
theorem C13_reset_returns_to_pristine {H : Type} (cb : MicroStepCallbacks H) (e : Engine) :
    (reset e).flags = USCXML_CTX_PRISTINE ∧ (reset e).configuration = 0 ∧
    (reset e).history = 0 ∧ (reset e).initializedData = 0 ∧ (reset e).invocations = 0 ∧
    (reset e).isCancelled = false ∧ (reset e).scxml = e.scxml ∧ (reset e).states = e.states ∧
    (reset e).transitions = e.transitions ∧ (reset e).isInitialized = e.isInitialized ∧
    (e.isInitialized = true → ∀ (blocking : Bool) (h : H),
      step cb blocking (reset e) h =
        microstep cb (USCXML_GET_STATE e 0).completion 0 0
          (callMonitor cb MonitorHook.beforeMicroStep
            { eng := { reset e with
                flags := USCXML_CTX_SPONTANEOUS ||| USCXML_CTX_INITIALIZED },
              host := h, trace := [] }) ∧
      (step cb blocking (reset e) h).1 = InterpreterState.USCXML_MICROSTEPPED ∧
      (∀ j, BIT_HAS j (step cb blocking (reset e) h).2.eng.configuration =
        (decide (j < USCXML_NUMBER_STATES e) &&
          BIT_HAS j (establishEntrySet
            { reset e with flags := USCXML_CTX_SPONTANEOUS ||| USCXML_CTX_INITIALIZED }
            (USCXML_GET_STATE e 0).completion 0 0).1 &&
          !isPseudoType (USCXML_GET_STATE e j).type)) ∧
      (∀ j, j < USCXML_NUMBER_STATES e → BIT_HAS j (USCXML_GET_STATE e 0).completion = true →
        isPseudoType (USCXML_GET_STATE e j).type = false →
        BIT_HAS j (step cb blocking (reset e) h).2.eng.configuration = true)) := by
  refine ⟨rfl, rfl, rfl, rfl, rfl, rfl, rfl, rfl, rfl, rfl, ?_⟩
  intro hi blocking h
  have hstep := step_pristine cb blocking (reset e) h hi rfl
  have hg : ∀ k, USCXML_GET_STATE (reset e) k = USCXML_GET_STATE e k := fun _ => rfl
  rw [hg] at hstep
  refine ⟨hstep, by rw [hstep]; rfl, ?_, ?_⟩
  · intro j
    rw [hstep, microstep_configuration]
    simp [reset, BIT_HAS_zero, USCXML_NUMBER_STATES, USCXML_GET_STATE]
  · intro j hj hc hp
    rw [hstep]
    exact microstep_enters_targets cb _ _ _ _ j hj hc hp

set_option maxRecDepth 100000 in
/-- Witness for C13: the toggle chart, brought to rest in `b` and reset, enters `a` again
with the next step. -/
theorem C13_reset_returns_to_pristine_witness :
    (run queueCallbacks chartToggle ⟨[], ["t"]⟩
      [Action.step false, Action.step false, Action.step false, Action.step false,
        Action.step false]).1.configuration = 0b101 ∧
    (step queueCallbacks false (reset (run queueCallbacks chartToggle ⟨[], ["t"]⟩
      [Action.step false, Action.step false, Action.step false, Action.step false,
        Action.step false]).1) ⟨[], []⟩).1 = InterpreterState.USCXML_MICROSTEPPED ∧
    BIT_HAS 1 (step queueCallbacks false (reset (run queueCallbacks chartToggle ⟨[], ["t"]⟩
      [Action.step false, Action.step false, Action.step false, Action.step false,
        Action.step false]).1) ⟨[], []⟩).2.eng.configuration = true :=
  ⟨by decide,
    ((C13_reset_returns_to_pristine queueCallbacks (run queueCallbacks chartToggle ⟨[], ["t"]⟩
      [Action.step false, Action.step false, Action.step false, Action.step false,
        Action.step false]).1).2.2.2.2.2.2.2.2.2.2 (by decide) false ⟨[], []⟩).2.1,
    ((C13_reset_returns_to_pristine queueCallbacks (run queueCallbacks chartToggle ⟨[], ["t"]⟩
      [Action.step false, Action.step false, Action.step false, Action.step false,
        Action.step false]).1).2.2.2.2.2.2.2.2.2.2 (by decide) false ⟨[], []⟩).2.2.2 1
      (by decide) (by decide) (by decide)⟩

set_option maxRecDepth 100000 in
/-- Claim C14, which the code violates. `reset` leaves `_microstepConfigurations` as it is;
apart from that member and `_event`, an initialised engine of a run is after `reset` the
freshly initialised engine. In the toggle chart the bootstrap step of the fresh engine makes
no `reportIssue` call, whereas the bootstrap step after `step, step, reset` finds the
configuration of the first bootstrap still recorded and reports "Reentering same
configuration": the trace after `reset` is not the original trace. -/
theorem C14_reset_keeps_seen_configurations :
    (∀ e : Engine, (reset e).microstepConfigurations = e.microstepConfigurations) ∧
    (∀ (H : Type) (cb : MicroStepCallbacks H) (scxml : Index) (h : H)
      (actions : List (Action H)), (run cb scxml h actions).1.isInitialized = true →
      reset (run cb scxml h actions).1 =
        { init (construct scxml) with
          microstepConfigurations := (run cb scxml h actions).1.microstepConfigurations,
          event := (run cb scxml h actions).1.event }) ∧
    (step queueCallbacks false
        (run queueCallbacks chartToggle ⟨[], []⟩ [Action.step false]).1 ⟨[], []⟩).2.trace =
      [Call.monitor MonitorHook.beforeMicroStep,
        Call.monitor (MonitorHook.beforeEnteringState 0),
        Call.monitor (MonitorHook.afterEnteringState 0),
        Call.monitor (MonitorHook.beforeEnteringState 1),
        Call.monitor (MonitorHook.afterEnteringState 1),
        Call.monitor MonitorHook.afterMicroStep] ∧
    (step queueCallbacks false
        (run queueCallbacks chartToggle ⟨[], []⟩
          [Action.step false, Action.step false, Action.reset]).1 ⟨[], []⟩).2.trace =
      [Call.monitor MonitorHook.beforeMicroStep,
        Call.monitor (MonitorHook.beforeEnteringState 0),
        Call.monitor (MonitorHook.afterEnteringState 0),
        Call.monitor (MonitorHook.beforeEnteringState 1),
        Call.monitor (MonitorHook.afterEnteringState 1),
        Call.monitor MonitorHook.afterMicroStep,
        Call.monitor (MonitorHook.reportIssue
          "Reentering same configuration during microstep  - possible endless loop")] :=
  ⟨fun _ => rfl, fun _ cb scxml h actions hi => reset_run cb scxml h actions hi,
    by decide, by decide⟩

/-- Claim C15. Take any run, and after it any sequence of actions without `reset` (steps,
`markAsCancelled`, changes of the host). Over that sequence `_initializedData` only grows:
a bit set before it is set after it. And for every state `i` the calls of the steps of the
sequence hold either no `initData` call for `i`, or exactly one call for each data element
of `i`, in document order, in which case the bit of `i` was clear before the sequence and is
set after it: however often the state is exited and entered again, its data is initialised
at most once. -/
theorem C15_data_initialised_once {H : Type} (cb : MicroStepCallbacks H) (scxml : Index)
    (h0 : H) (before seg : List (Action H)) (i : Nat)
    (hseg : ∀ a ∈ seg, a ≠ Action.reset) :
    (∀ j, BIT_HAS j (run cb scxml h0 before).1.initializedData = true →
      BIT_HAS j (seg.foldl (applyAction cb) (run cb scxml h0 before)).1.initializedData =
        true) ∧
    ((stepsTrace cb (run cb scxml h0 before) seg).filter (isInitDataOf i) = [] ∨
      (BIT_HAS i (run cb scxml h0 before).1.initializedData = false ∧
        BIT_HAS i (seg.foldl (applyAction cb) (run cb scxml h0 before)).1.initializedData =
          true ∧
        (stepsTrace cb (run cb scxml h0 before) seg).filter (isInitDataOf i) =
          (scxml.states.getD i default).data.map (Call.initData i))) :=
  steps_once cb scxml i seg (run cb scxml h0 before) (Indexed.ofRun cb scxml h0 before) hseg

set_option maxRecDepth 100000 in
/-- Witness for C15: in the chart `chartData` the state `a` is entered, left on `t` and
entered again on `u`; the seven steps after `init` enter it twice and initialise its two
data elements once. -/
theorem C15_data_initialised_once_witness :
    (∀ a ∈ sevenSteps, a ≠ Action.reset) ∧
    (stepsTrace queueCallbacks
      (run queueCallbacks chartData ⟨[], ["t", "u"]⟩ [Action.step false]) sevenSteps).count
        (Call.monitor (MonitorHook.beforeEnteringState 1)) = 2 ∧
    (stepsTrace queueCallbacks
      (run queueCallbacks chartData ⟨[], ["t", "u"]⟩ [Action.step false]) sevenSteps).filter
        (isInitDataOf 1) = [Call.initData 1 41, Call.initData 1 42] ∧
    ((stepsTrace queueCallbacks
        (run queueCallbacks chartData ⟨[], ["t", "u"]⟩ [Action.step false]) sevenSteps).filter
          (isInitDataOf 1) = [] ∨
      (BIT_HAS 1 (run queueCallbacks chartData ⟨[], ["t", "u"]⟩
          [Action.step false]).1.initializedData = false ∧
        BIT_HAS 1 (sevenSteps.foldl (applyAction queueCallbacks)
          (run queueCallbacks chartData ⟨[], ["t", "u"]⟩
            [Action.step false])).1.initializedData = true ∧
        (stepsTrace queueCallbacks
          (run queueCallbacks chartData ⟨[], ["t", "u"]⟩ [Action.step false])
            sevenSteps).filter (isInitDataOf 1) =
          (chartData.states.getD 1 default).data.map (Call.initData 1))) :=
  ⟨by simp [sevenSteps], by decide, by decide,
    (C15_data_initialised_once queueCallbacks chartData ⟨[], ["t", "u"]⟩ [Action.step false]
      sevenSteps 1 (by simp [sevenSteps])).2⟩

set_option maxRecDepth 100000 in
/-- Claim C16, counterexample. The toggle chart declares no invoker. Its fourth step reaches
the invocation-sync point and returns Idle; after it `_invocations` is `{scxml, a}`, the
configuration, not the empty set of the active states that declare an invoker. -/
theorem C16_invocations_without_invokers :
    reachesSync queueCallbacks
      (run queueCallbacks chartToggle ⟨[], []⟩
        [Action.step false, Action.step false, Action.step false]).1 ⟨[], []⟩ = true ∧
    (∀ i, i < 3 → (chartToggle.states.getD i default).invoke = []) ∧
    (run queueCallbacks chartToggle ⟨[], []⟩
      [Action.step false, Action.step false, Action.step false,
        Action.step false]).1.invocations = 0b011 ∧
    (run queueCallbacks chartToggle ⟨[], []⟩
      [Action.step false, Action.step false, Action.step false,
        Action.step false]).1.configuration = 0b011 := by
  decide

/-- Claim C16, amended. Let a step reach the invocation-sync point: the engine is
initialised, neither Finished nor TopLevelFinal nor pristine, Spontaneous is clear and
`dequeueInternal` yields no event. After the step the bits of `_invocations` below the
number of states are those of the configuration the step started with, whether the states
declare invokers or not (in a run, where neither set has other bits, `_invocations` is that
configuration); a micro-step taken later in the same step, for an external event, does not
change `_invocations`. The `invoke` and `uninvoke` calls of the step are, by ascending state
index, `invoke` for the invokers of every state that is active and not in `_invocations`
and `uninvoke` for the invokers of every state that is in `_invocations` and not active. -/
theorem C16_invocation_sync {H : Type} (cb : MicroStepCallbacks H) (blocking : Bool)
    (e : Engine) (h : H) (hi : e.isInitialized = true)
    (hf : hasFlag e.flags USCXML_CTX_FINISHED = false)
    (ht : hasFlag e.flags USCXML_CTX_TOP_LEVEL_FINAL = false)
    (hp : e.flags ≠ USCXML_CTX_PRISTINE)
    (hs : hasFlag e.flags USCXML_CTX_SPONTANEOUS = false)
    (hev : (cb.dequeueInternal h).1 = none) :
    (∀ j, BIT_HAS j (step cb blocking e h).2.eng.invocations =
      if j < USCXML_NUMBER_STATES e then BIT_HAS j e.configuration
      else BIT_HAS j e.invocations) ∧
    (InRange e → (step cb blocking e h).2.eng.invocations = e.configuration) ∧
    (step cb blocking e h).2.trace.filter isInvokeCall =
      (List.range (USCXML_NUMBER_STATES e)).flatMap (invocationCalls e) ∧
    (∀ i d, Call.invoke i d ∈ (step cb blocking e h).2.trace ↔
      i < USCXML_NUMBER_STATES e ∧ BIT_HAS i e.configuration = true ∧
        BIT_HAS i e.invocations = false ∧ d ∈ (USCXML_GET_STATE e i).invoke) ∧
    (∀ i d, Call.uninvoke i d ∈ (step cb blocking e h).2.trace ↔
      i < USCXML_NUMBER_STATES e ∧ BIT_HAS i e.configuration = false ∧
        BIT_HAS i e.invocations = true ∧ d ∈ (USCXML_GET_STATE e i).invoke) ∧
    (∀ (scxml : Index) (h0 : H) (actions : List (Action H)),
      InRange (run cb scxml h0 actions).1) := by
  have hsync : reachesSync cb e h = true :=
    (reachesSync_iff cb e h).mpr ⟨hi, hf, ht, hp, hs, hev⟩
  obtain ⟨h1, h2⟩ := step_sync cb blocking e h hsync
  have hbits : ∀ j, BIT_HAS j (step cb blocking e h).2.eng.invocations =
      if j < USCXML_NUMBER_STATES e then BIT_HAS j e.configuration
      else BIT_HAS j e.invocations := by
    intro j
    rw [h1, atExternal_invocations]
  have hcalls : (step cb blocking e h).2.trace.filter isInvokeCall =
      (List.range (USCXML_NUMBER_STATES e)).flatMap (invocationCalls e) := by
    rw [h2, atExternal_invokeCalls]
  have hmem : ∀ c, isInvokeCall c = true →
      (c ∈ (step cb blocking e h).2.trace ↔
        ∃ i, i < USCXML_NUMBER_STATES e ∧ c ∈ invocationCalls e i) := by
    intro c hc
    have : c ∈ (step cb blocking e h).2.trace ↔
        c ∈ (step cb blocking e h).2.trace.filter isInvokeCall := by
      rw [List.mem_filter]
      exact ⟨fun hm => ⟨hm, hc⟩, fun hm => hm.1⟩
    rw [this, hcalls, List.mem_flatMap]
    simp only [List.mem_range]
  refine ⟨hbits, ?_, hcalls, ?_, ?_, fun scxml h0 actions => InRange.ofAnyRun cb scxml h0 actions⟩
  · intro hr
    apply Nat.eq_of_testBit_eq
    intro j
    have hb := hbits j
    simp only [BIT_HAS] at hb
    rw [hb]
    split_ifs with hlt
    · rfl
    · have h3 : e.invocations.testBit j = false := by
        cases hx : e.invocations.testBit j
        · rfl
        · exact absurd (hr.2.2 j hx) hlt
      have h4 : e.configuration.testBit j = false := by
        cases hx : e.configuration.testBit j
        · rfl
        · exact absurd (hr.2.1 j hx) hlt
      rw [h3, h4]
  · intro i d
    rw [hmem (Call.invoke i d) rfl]
    constructor
    · rintro ⟨k, hk, hc⟩
      unfold invocationCalls at hc
      rcases List.mem_append.mp hc with h5 | h5
      · split_ifs at h5
        · obtain ⟨x, _, hx⟩ := List.mem_map.mp h5
          cases hx
        · cases h5
      · split_ifs at h5 with h6
        · obtain ⟨x, hxm, hx⟩ := List.mem_map.mp h5
          cases hx
          simp only [Bool.and_eq_true, Bool.not_eq_true'] at h6
          exact ⟨hk, h6.1, h6.2, hxm⟩
        · cases h5
    · rintro ⟨hk, hc, hv, hd⟩
      refine ⟨i, hk, ?_⟩
      unfold invocationCalls
      apply List.mem_append_right
      simp only [hc, hv, Bool.not_false, Bool.and_self, if_true]
      exact List.mem_map.mpr ⟨d, hd, rfl⟩
  · intro i d
    rw [hmem (Call.uninvoke i d) rfl]
    constructor
    · rintro ⟨k, hk, hc⟩
      unfold invocationCalls at hc
      rcases List.mem_append.mp hc with h5 | h5
      · split_ifs at h5 with h6
        · obtain ⟨x, hxm, hx⟩ := List.mem_map.mp h5
          cases hx
          simp only [Bool.and_eq_true, Bool.not_eq_true'] at h6
          exact ⟨hk, h6.1, h6.2, hxm⟩
        · cases h5
      · split_ifs at h5
        · obtain ⟨x, _, hx⟩ := List.mem_map.mp h5
          cases hx
        · cases h5
    · rintro ⟨hk, hc, hv, hd⟩
      refine ⟨i, hk, ?_⟩
      unfold invocationCalls
      apply List.mem_append_left
      simp only [hc, hv, Bool.not_false, Bool.and_self, if_true]
      exact List.mem_map.mpr ⟨d, hd, rfl⟩

set_option maxRecDepth 100000 in
/-- Witness for C16: the chart `chartInvoke` at rest; the step that reaches the sync point
calls `invoke` for the invoker of `s`. -/
theorem C16_invocation_sync_witness :
    (run queueCallbacks chartInvoke ⟨[], []⟩
      [Action.step false, Action.step false, Action.step false]).1.isInitialized = true ∧
    Call.invoke 2 21 ∈ (step queueCallbacks false
      (run queueCallbacks chartInvoke ⟨[], []⟩
        [Action.step false, Action.step false, Action.step false]).1 ⟨[], []⟩).2.trace :=
  ⟨by decide,
    ((C16_invocation_sync queueCallbacks false
      (run queueCallbacks chartInvoke ⟨[], []⟩
        [Action.step false, Action.step false, Action.step false]).1 ⟨[], []⟩
      (by decide) (by decide) (by decide) (by decide) (by decide) (by decide)).2.2.2.1
        2 21).mpr ⟨by decide, by decide, by decide, by decide⟩⟩

/-- Claim C17. In a call of `step`, `onStableConfiguration` is called at most once, and it is
called exactly when the step reaches the sync point (the engine is initialised, neither
Finished nor TopLevelFinal nor pristine, Spontaneous is clear, `dequeueInternal` yields no
event) with Stable clear. At the call of `dequeueExternal` of such a step Stable is set; it
is still set after the step unless the step went on through transition selection, and every
step that goes through transition selection leaves Stable clear. From an engine with Stable
set, no sequence of actions (steps, `markAsCancelled`, `reset`, changes of the host) in
which no step goes through transition selection makes a call of `onStableConfiguration`. -/
theorem C17_stable_signalled_once {H : Type} (cb : MicroStepCallbacks H) (blocking : Bool)
    (e : Engine) (h : H) :
    (step cb blocking e h).2.trace.count (Call.monitor MonitorHook.onStableConfiguration) ≤ 1 ∧
    (Call.monitor MonitorHook.onStableConfiguration ∈ (step cb blocking e h).2.trace ↔
      (e.isInitialized = true ∧ hasFlag e.flags USCXML_CTX_FINISHED = false ∧
        hasFlag e.flags USCXML_CTX_TOP_LEVEL_FINAL = false ∧ e.flags ≠ USCXML_CTX_PRISTINE ∧
        hasFlag e.flags USCXML_CTX_SPONTANEOUS = false ∧ (cb.dequeueInternal h).1 = none) ∧
      hasFlag e.flags USCXML_CTX_STABLE = false) ∧
    (reachesSync cb e h = true →
      hasFlag (atExternal cb blocking e h).eng.flags USCXML_CTX_STABLE = true) ∧
    (Call.monitor MonitorHook.onStableConfiguration ∈ (step cb blocking e h).2.trace →
      passesSelection cb blocking e h = false →
      hasFlag (step cb blocking e h).2.eng.flags USCXML_CTX_STABLE = true) ∧
    (passesSelection cb blocking e h = true →
      hasFlag (step cb blocking e h).2.eng.flags USCXML_CTX_STABLE = false) ∧
    (∀ (p : Engine × H) (seg : List (Action H)),
      hasFlag p.1.flags USCXML_CTX_STABLE = true → selectionFree cb p seg = true →
      Call.monitor MonitorHook.onStableConfiguration ∉ stepsTrace cb p seg) := by
  have hbeq : ∀ c : Call,
      (c == Call.monitor MonitorHook.onStableConfiguration) = isStableCall c := by
    intro c
    cases c with
    | monitor k => cases k <;> simp [isStableCall]
    | _ => simp [isStableCall]
  have hfilter := step_stableCalls cb blocking e h
  have hmem : Call.monitor MonitorHook.onStableConfiguration ∈ (step cb blocking e h).2.trace ↔
      reachesSync cb e h = true ∧ hasFlag e.flags USCXML_CTX_STABLE = false := by
    have : Call.monitor MonitorHook.onStableConfiguration ∈ (step cb blocking e h).2.trace ↔
        Call.monitor MonitorHook.onStableConfiguration ∈
          (step cb blocking e h).2.trace.filter isStableCall := by
      rw [List.mem_filter]
      exact ⟨fun hm => ⟨hm, rfl⟩, fun hm => hm.1⟩
    rw [this, hfilter]
    rcases Bool.eq_false_or_eq_true (reachesSync cb e h) with hs | hs <;>
      rcases Bool.eq_false_or_eq_true (hasFlag e.flags USCXML_CTX_STABLE) with hst | hst <;>
      simp [hs, hst]
  have hatx : reachesSync cb e h = true →
      hasFlag (atExternal cb blocking e h).eng.flags USCXML_CTX_STABLE = true := by
    intro _
    rw [atExternal_flags]
    exact hasFlag_or_self _ _ (by decide)
  refine ⟨?_, ?_, hatx, ?_, ?_, ?_⟩
  · have hcount : (step cb blocking e h).2.trace.count
        (Call.monitor MonitorHook.onStableConfiguration) =
          ((step cb blocking e h).2.trace.filter isStableCall).length := by
      rw [List.count, List.countP_eq_length_filter]
      congr 1
      apply List.filter_congr
      intro c _
      exact hbeq c
    rw [hcount, hfilter]
    split_ifs <;> simp
  · rw [hmem, reachesSync_iff]
  · intro hm hn
    obtain ⟨hs, _⟩ := hmem.mp hm
    rcases step_cases cb blocking e h with h1 | h1 | h1 | h1 | h1 | h1 | h1 | h1 | h1
    · simp [reachesSync, h1.1] at hs
    · simp [reachesSync, h1.2.1] at hs
    · simp [reachesSync, h1.2.2.1] at hs
    · simp [reachesSync, h1.2.1] at hs
    · rw [h1.1] at hs; cases hs
    · rw [h1.1] at hs; cases hs
    · obtain ⟨hy, ev, hx, _⟩ := h1
      rw [passesSelection_of_sync cb blocking e h hy, hx] at hn
      cases hn
    · rw [h1.2.2.2]
      simp only [Run.setFlags]
      rw [hasFlag_or, hatx hs]
      rfl
    · rw [h1.2.2.2]
      exact hatx hs
  · intro hp
    rcases step_cases cb blocking e h with h1 | h1 | h1 | h1 | h1 | h1 | h1 | h1 | h1
    · simp [passesSelection, h1.1] at hp
    · simp [passesSelection, h1.2.1] at hp
    · simp [passesSelection, h1.2.2.1] at hp
    · simp [passesSelection, h1.2.1] at hp
    · rw [h1.2.2.2.2.2.2]
      exact selectTransitions_stable cb _
    · obtain ⟨_, _, _, _, _, _, ev, _, hs⟩ := h1
      rw [hs]
      exact selectTransitions_stable cb _
    · obtain ⟨_, ev, _, hs⟩ := h1
      rw [hs]
      exact selectTransitions_stable cb _
    · rw [passesSelection_of_sync cb blocking e h h1.1, h1.2.1] at hp
      cases hp
    · rw [passesSelection_of_sync cb blocking e h h1.1, h1.2.1] at hp
      cases hp
  · intro p seg hst hfree hm
    have h0 := steps_settled cb seg p (Or.inl hst) hfree
    have : Call.monitor MonitorHook.onStableConfiguration ∈
        (stepsTrace cb p seg).filter isStableCall := List.mem_filter.mpr ⟨hm, rfl⟩
    rw [h0] at this
    cases this

set_option maxRecDepth 100000 in
/-- Witness for C17: the toggle chart at rest. The first step that finds both queues empty
signals the stable configuration and returns Idle; the two steps after it return Idle
without signalling again. -/
theorem C17_stable_signalled_once_witness :
    Call.monitor MonitorHook.onStableConfiguration ∈
      (step queueCallbacks false
        (run queueCallbacks chartToggle ⟨[], []⟩
          [Action.step false, Action.step false, Action.step false]).1 ⟨[], []⟩).2.trace ∧
    hasFlag (run queueCallbacks chartToggle ⟨[], []⟩
      [Action.step false, Action.step false, Action.step false,
        Action.step false]).1.flags USCXML_CTX_STABLE = true ∧
    selectionFree queueCallbacks
      (run queueCallbacks chartToggle ⟨[], []⟩
        [Action.step false, Action.step false, Action.step false, Action.step false])
      [Action.step false, Action.step false] = true ∧
    Call.monitor MonitorHook.onStableConfiguration ∉
      stepsTrace queueCallbacks
        (run queueCallbacks chartToggle ⟨[], []⟩
          [Action.step false, Action.step false, Action.step false, Action.step false])
        [Action.step false, Action.step false] :=
  ⟨by decide, by decide, by decide,
    (C17_stable_signalled_once queueCallbacks false (construct chartToggle)
      ⟨[], []⟩).2.2.2.2.2
      (run queueCallbacks chartToggle ⟨[], []⟩
        [Action.step false, Action.step false, Action.step false, Action.step false])
      [Action.step false, Action.step false] (by decide) (by decide)⟩

set_option maxRecDepth 100000 in
/-- Claim C18, counterexample. In the witness chart (root with initial `a`, `a` with a
transition on `t` to `b`) the third step returns Macrostepped and leaves the configuration
`{scxml, a}`: the root (state 0) is active besides `a`, so the configuration is not `{a}`;
after the event it is `{scxml, b}`, not `{b}`. -/
theorem C18_root_is_active :
    flatToggle chartToggle 1 2 0 = true ∧
    (step queueCallbacks false
      (run queueCallbacks chartToggle ⟨[], ["t"]⟩ [Action.step false, Action.step false]).1
      ⟨[], ["t"]⟩).1 = InterpreterState.USCXML_MACROSTEPPED ∧
    (run queueCallbacks chartToggle ⟨[], ["t"]⟩
      [Action.step false, Action.step false, Action.step false]).1.configuration = 0b011 ∧
    BIT_HAS 0 (run queueCallbacks chartToggle ⟨[], ["t"]⟩
      [Action.step false, Action.step false, Action.step false]).1.configuration = true ∧
    (run queueCallbacks chartToggle ⟨[], ["t"]⟩
      [Action.step false, Action.step false, Action.step false]).1.configuration ≠ 1 <<< 1 ∧
    (run queueCallbacks chartToggle ⟨[], ["t"]⟩
      [Action.step false, Action.step false, Action.step false,
        Action.step false]).1.configuration = 0b101 ∧
    (run queueCallbacks chartToggle ⟨[], ["t"]⟩
      [Action.step false, Action.step false, Action.step false,
        Action.step false]).1.configuration ≠ 1 <<< 2 := by
  decide

/-- Claim C18, amended. Take an index that is a flat toggle (`flatToggle`: the root is a
compound state whose completion is the atomic state `a`; `a` and `b` are atomic children of
the root; the transition `t` goes from `a` to `b`), any callbacks, and hosts `g1 .. g5` for
five steps from the initialised engine such that: the selection of the second and of the
fourth step takes no transition (no eventless transition is enabled); in the third step
`dequeueInternal` yields nothing, `dequeueExternal` yields an event and the selection for it
takes exactly `t`; in the fifth step both queues yield nothing. Then the steps return
Microstepped and Macrostepped with the configuration `{scxml, a}`, then Microstepped with
the configuration `{scxml, b}`, then Macrostepped and Idle with that configuration. -/
theorem C18_flat_toggle {H : Type} (cb : MicroStepCallbacks H) (scxml : Index) (a b t : Nat)
    (ev : Event) (b1 b2 b3 b4 b5 : Bool) (g1 g2 g3 g4 g5 : H) (e1 e2 e3 e4 e5 : Engine)
    (hchart : flatToggle scxml a b t = true)
    (he1 : e1 = (step cb b1 (init (construct scxml)) g1).2.eng)
    (he2 : e2 = (step cb b2 e1 g2).2.eng)
    (hsel2 : selectedBy cb b2 e1 g2 = 0)
    (he3 : e3 = (step cb b3 e2 g3).2.eng)
    (hint3 : (cb.dequeueInternal g3).1 = none)
    (hext3 : externalEvent cb b3 e2 g3 = some ev)
    (hsel3 : selectedBy cb b3 e2 g3 = 1 <<< t)
    (he4 : e4 = (step cb b4 e3 g4).2.eng)
    (hsel4 : selectedBy cb b4 e3 g4 = 0)
    (he5 : e5 = (step cb b5 e4 g5).2.eng)
    (hint5 : (cb.dequeueInternal g5).1 = none)
    (hext5 : externalEvent cb b5 e4 g5 = none) :
    (step cb b1 (init (construct scxml)) g1).1 = InterpreterState.USCXML_MICROSTEPPED ∧
    e1.configuration = 1 ||| 1 <<< a ∧
    (step cb b2 e1 g2).1 = InterpreterState.USCXML_MACROSTEPPED ∧
    e2.configuration = 1 ||| 1 <<< a ∧
    (step cb b3 e2 g3).1 = InterpreterState.USCXML_MICROSTEPPED ∧
    e3.configuration = 1 ||| 1 <<< b ∧
    (step cb b4 e3 g4).1 = InterpreterState.USCXML_MACROSTEPPED ∧
    e4.configuration = 1 ||| 1 <<< b ∧
    (step cb b5 e4 g5).1 = InterpreterState.USCXML_IDLE ∧
    e5.configuration = 1 ||| 1 <<< b := by
  simp only [flatToggle, Bool.and_eq_true, decide_eq_true_eq, bne_iff_ne, ne_eq, beq_iff_eq,
    Bool.not_eq_true'] at hchart
  obtain ⟨⟨⟨⟨⟨⟨⟨⟨⟨⟨⟨⟨⟨⟨⟨⟨⟨⟨han, hbn⟩, htn⟩, ha0⟩, hb0⟩, hab⟩, hroot⟩, hra⟩, hcompl⟩, hca⟩,
    hcb⟩, hta⟩, haa⟩, htb⟩, hba⟩, _⟩, htarget⟩, hxa⟩, hx0⟩ := hchart
  -- the freshly initialised engine
  have hs0 : (init (construct scxml)).states = scxml.states := rfl
  -- step 1
  obtain ⟨r1, c1, f1, s1⟩ := bootstrap_flat cb b1 (init (construct scxml)) g1 a rfl rfl rfl
    han ha0 hroot hra hcompl hca hta haa
  rw [← he1] at c1 f1 s1
  have i1 : e1.isInitialized = true := s1.2.2.2.1
  -- step 2
  obtain ⟨r2, q2⟩ := step_macro cb b2 e1 g2 i1 (by rw [f1]; decide) (by rw [f1]; decide)
    (by rw [f1]; decide) (by rw [f1]; decide) hsel2
  rw [← he2] at q2
  have c2 : e2.configuration = 1 ||| 1 <<< a := by rw [q2]; exact c1
  have f2 : e2.flags = USCXML_CTX_INITIALIZED := by
    rw [q2]
    show flagsNone e1.flags = USCXML_CTX_INITIALIZED
    rw [f1]
    decide
  have s2 : Static (init (construct scxml)) e2 := by
    rw [q2]
    exact ⟨s1.1, s1.2.1, s1.2.2.1, s1.2.2.2.1, s1.2.2.2.2⟩
  have i2 : e2.isInitialized = true := s2.2.2.2.1
  -- step 3
  obtain ⟨r, hm3, sr, cr, fr⟩ := step_external_one cb b3 e2 g3 ev t i2
    (by rw [f2]; decide) (by rw [f2]; decide) (by rw [f2]; decide) (by rw [f2]; decide)
    hint3 hext3 (by rw [s2.2.2.1]; exact htn) hsel3
  have sr0 : Static (init (construct scxml)) r.eng := s2.chain sr
  have hg : USCXML_GET_STATE r.eng = USCXML_GET_STATE (init (construct scxml)) := sr0.getState
  have ht2 : USCXML_GET_TRANS e2 t = scxml.transitions.getD t default := by
    rw [s2.getTrans]; rfl
  rw [ht2, htarget] at hm3
  obtain ⟨k1, k2⟩ := microstep_flat cb
    ((scxml.transitions.getD t default).exitSet &&& e2.configuration) (1 <<< t) r b
    (by rw [sr0.2.1]; exact hbn) hb0 (by rw [hg]; exact hroot) (by rw [hg]; exact hra)
    (by rw [hg]; exact hcb) (by rw [hg]; exact htb) (by rw [hg]; exact hba)
  rw [← hm3, ← he3] at k1 k2
  have c3 : e3.configuration = 1 ||| 1 <<< b := by
    apply config_pair
    intro j
    have hlen : r.eng.states.length = scxml.states.length := by rw [sr0.2.1, hs0]
    rw [k1 j, cr, c2, BIT_HAS_and, BIT_HAS_pair, hlen]
    by_cases hjb : j = b
    · subst hjb; simp
    · by_cases hj0 : j = 0
      · subst hj0
        rw [hx0]
        simp
      · by_cases hja : j = a
        · rw [hja, hxa]
          simp [han, hab, ha0]
        · simp [hjb, hj0, hja]
  have f3 : e3.flags = USCXML_CTX_SPONTANEOUS ||| USCXML_CTX_INITIALIZED := by
    rw [k2, fr, f2]; decide
  have s3 : Static (init (construct scxml)) e3 := by
    rw [he3, hm3]
    exact sr0.chain (microstep_changes cb _ _ _ _).static
  have i3 : e3.isInitialized = true := s3.2.2.2.1
  -- step 4
  obtain ⟨r4, q4⟩ := step_macro cb b4 e3 g4 i3 (by rw [f3]; decide) (by rw [f3]; decide)
    (by rw [f3]; decide) (by rw [f3]; decide) hsel4
  rw [← he4] at q4
  have c4 : e4.configuration = 1 ||| 1 <<< b := by rw [q4]; exact c3
  have f4 : e4.flags = USCXML_CTX_INITIALIZED := by
    rw [q4]
    show flagsNone e3.flags = USCXML_CTX_INITIALIZED
    rw [f3]
    decide
  have s4 : Static (init (construct scxml)) e4 := by
    rw [q4]
    exact ⟨s3.1, s3.2.1, s3.2.2.1, s3.2.2.2.1, s3.2.2.2.2⟩
  -- step 5
  obtain ⟨r5, c5⟩ := step_idle cb b5 e4 g5 s4.2.2.2.1 (by rw [f4]; decide) (by rw [f4]; decide)
    (by rw [f4]; decide) (by rw [f4]; decide) hint5 hext5 s4.2.2.2.2
  rw [← he5] at c5
  refine ⟨r1, c1, r2, c2, ?_, c3, r4, c4, r5, c5.trans c4⟩
  rw [hm3]
  rfl

set_option maxRecDepth 100000 in
/-- Witness for C18: the chart `chartToggle` with the event `t` in the external queue during
the first three steps. -/
theorem C18_flat_toggle_witness :
    flatToggle chartToggle 1 2 0 = true ∧
    selectedBy queueCallbacks false (engineAfter chartToggle ["t"] 3 1) ⟨[], ["t"]⟩ = 0 ∧
    externalEvent queueCallbacks false (engineAfter chartToggle ["t"] 3 2) ⟨[], ["t"]⟩ =
      some "t" ∧
    selectedBy queueCallbacks false (engineAfter chartToggle ["t"] 3 2) ⟨[], ["t"]⟩ =
      1 <<< 0 ∧
    (engineAfter chartToggle ["t"] 3 2).configuration = 1 ||| 1 <<< 1 ∧
    (step queueCallbacks false (engineAfter chartToggle ["t"] 3 2) ⟨[], ["t"]⟩).1 =
      InterpreterState.USCXML_MICROSTEPPED ∧
    (engineAfter chartToggle ["t"] 3 3).configuration = 1 ||| 1 <<< 2 ∧
    (step queueCallbacks false (engineAfter chartToggle ["t"] 3 4) ⟨[], []⟩).1 =
      InterpreterState.USCXML_IDLE :=
  ⟨by decide, by decide, by decide, by decide,
    (C18_flat_toggle queueCallbacks chartToggle 1 2 0 "t" false false false false false
      ⟨[], ["t"]⟩ ⟨[], ["t"]⟩ ⟨[], ["t"]⟩ ⟨[], []⟩ ⟨[], []⟩
      (engineAfter chartToggle ["t"] 3 1) (engineAfter chartToggle ["t"] 3 2)
      (engineAfter chartToggle ["t"] 3 3) (engineAfter chartToggle ["t"] 3 4)
      (engineAfter chartToggle ["t"] 3 5)
      (by decide) rfl rfl (by decide) rfl (by decide) (by decide) (by decide) rfl (by decide)
      rfl (by decide) (by decide)).2.2.2.1,
    (C18_flat_toggle queueCallbacks chartToggle 1 2 0 "t" false false false false false
      ⟨[], ["t"]⟩ ⟨[], ["t"]⟩ ⟨[], ["t"]⟩ ⟨[], []⟩ ⟨[], []⟩
      (engineAfter chartToggle ["t"] 3 1) (engineAfter chartToggle ["t"] 3 2)
      (engineAfter chartToggle ["t"] 3 3) (engineAfter chartToggle ["t"] 3 4)
      (engineAfter chartToggle ["t"] 3 5)
      (by decide) rfl rfl (by decide) rfl (by decide) (by decide) (by decide) rfl (by decide)
      rfl (by decide) (by decide)).2.2.2.2.1,
    (C18_flat_toggle queueCallbacks chartToggle 1 2 0 "t" false false false false false
      ⟨[], ["t"]⟩ ⟨[], ["t"]⟩ ⟨[], ["t"]⟩ ⟨[], []⟩ ⟨[], []⟩
      (engineAfter chartToggle ["t"] 3 1) (engineAfter chartToggle ["t"] 3 2)
      (engineAfter chartToggle ["t"] 3 3) (engineAfter chartToggle ["t"] 3 4)
      (engineAfter chartToggle ["t"] 3 5)
      (by decide) rfl rfl (by decide) rfl (by decide) (by decide) (by decide) rfl (by decide)
      rfl (by decide) (by decide)).2.2.2.2.2.1,
    (C18_flat_toggle queueCallbacks chartToggle 1 2 0 "t" false false false false false
      ⟨[], ["t"]⟩ ⟨[], ["t"]⟩ ⟨[], ["t"]⟩ ⟨[], []⟩ ⟨[], []⟩
      (engineAfter chartToggle ["t"] 3 1) (engineAfter chartToggle ["t"] 3 2)
      (engineAfter chartToggle ["t"] 3 3) (engineAfter chartToggle ["t"] 3 4)
      (engineAfter chartToggle ["t"] 3 5)
      (by decide) rfl rfl (by decide) rfl (by decide) (by decide) (by decide) rfl (by decide)
      rfl (by decide) (by decide)).2.2.2.2.2.2.2.2.1⟩

set_option maxRecDepth 100000 in
/-- Claim C19, counterexample. In the witness chart (root with initial `p`; `p` with initial
`p2` and the children `p1`, `p2`) the bootstrap step returns Microstepped and the next step
Macrostepped, and the configuration is then `{scxml, p, p2}`: the root (state 0) is active,
so the configuration is not `{p, p2}`. The state `p1` is not active. -/
theorem C19_root_active_beside_default :
    initialNames chartCompoundInitial elementCompoundInitial 1 3 = true ∧
    plainEntry chartCompoundInitial 1 3 = true ∧
    (step queueCallbacks false (init (construct chartCompoundInitial)) ⟨[], []⟩).1 =
      InterpreterState.USCXML_MICROSTEPPED ∧
    (step queueCallbacks false (engineAfter chartCompoundInitial [] 0 1) ⟨[], []⟩).1 =
      InterpreterState.USCXML_MACROSTEPPED ∧
    (engineAfter chartCompoundInitial [] 0 2).configuration = 0b1011 ∧
    BIT_HAS 0 (engineAfter chartCompoundInitial [] 0 2).configuration = true ∧
    BIT_HAS 2 (engineAfter chartCompoundInitial [] 0 2).configuration = false ∧
    (engineAfter chartCompoundInitial [] 0 2).configuration ≠ 1 <<< 1 ||| 1 <<< 3 := by
  decide

/-- Claim C19, amended. Let the state `p` of an index be a compound state whose element is
neither a history nor a parallel element and has an attribute `initial` naming the single
state `c`, a descendant of `p`, the completion of `p` being computed from that element
(`initialNames`). Then:
(1) the completion of `p` is `{c}`, and `getCompletion` with the loop of lines 273-282 gives
`{c}` for every such element, whatever its child nodes and their order are;
(2) when the loop for descendants reaches `p` with `p` in the entry set, no descendant of
`p` in the entry set, and no descendant of `p` active or one of them in the exit set, it
adds exactly `c` to the entry set;
(3) when moreover `c` is atomic and the ancestors of `p` are compound (`plainEntry`), a
micro-step whose only target is `p` leaves active exactly the states that were active and
are not exited, `p`, its ancestors and `c`; a descendant of `p` other than `c` that was not
active is not active afterwards;
(4) and if the root completes to `p`, the bootstrap step from the initialised engine returns
Microstepped with exactly `p`, its ancestors (the root among them) and `c` active, and a
following step whose selection takes no transition returns Macrostepped and leaves that
configuration. -/
theorem C19_initial_attribute {H : Type} (cb : MicroStepCallbacks H) (idx : Index)
    (s : StateElement) (p c : Nat) (hchart : initialNames idx s p c = true) :
    (idx.states.getD p default).completion = 1 <<< c ∧
    (∀ s2 : StateElement, s2.isHistory = false → s2.isParallel = false →
      s2.initialAttr = some [c] →
      completionBits idx.states.length (getCompletion s2) = (1 <<< c, [])) ∧
    (∀ (e : Engine) (X : Bitset) (es : Bitset × Bitset), e.states = idx.states →
      BIT_HAS p es.1 = true →
      BIT_HAS_AND es.1 (idx.states.getD p default).children = false →
      (BIT_HAS_AND e.configuration (idx.states.getD p default).children = false ∨
        BIT_HAS_AND X (idx.states.getD p default).children = true) →
      addDescendants e X es p = (es.1 ||| 1 <<< c, es.2)) ∧
    (plainEntry idx p c = true →
      (∀ (r : Run H) (X ts : Bitset), r.eng.states = idx.states →
        (BIT_HAS_AND r.eng.configuration (idx.states.getD p default).children = false ∨
          BIT_HAS_AND X (idx.states.getD p default).children = true) →
        (∀ j, BIT_HAS j (microstep cb (1 <<< p) X ts r).2.eng.configuration =
          ((BIT_HAS j r.eng.configuration &&
              !(decide (j < idx.states.length) && BIT_HAS j X)) ||
            (decide (j < idx.states.length) &&
              (decide (j = p) || decide (j = c) ||
                BIT_HAS j (idx.states.getD p default).ancestors)))) ∧
        (∀ j, BIT_HAS j (idx.states.getD p default).children = true → j ≠ c →
          BIT_HAS j r.eng.configuration = false →
          BIT_HAS j (microstep cb (1 <<< p) X ts r).2.eng.configuration = false)) ∧
      ((idx.states.getD 0 default).completion = 1 <<< p →
        ∀ (b : Bool) (g : H),
          (step cb b (init (construct idx)) g).1 = InterpreterState.USCXML_MICROSTEPPED ∧
          (∀ j, BIT_HAS j (step cb b (init (construct idx)) g).2.eng.configuration =
            (decide (j < idx.states.length) &&
              (decide (j = p) || decide (j = c) ||
                BIT_HAS j (idx.states.getD p default).ancestors))) ∧
          ∀ (b2 : Bool) (g2 : H),
            selectedBy cb b2 (step cb b (init (construct idx)) g).2.eng g2 = 0 →
            (step cb b2 (step cb b (init (construct idx)) g).2.eng g2).1 =
              InterpreterState.USCXML_MACROSTEPPED ∧
            (step cb b2 (step cb b (init (construct idx)) g).2.eng g2).2.eng.configuration =
              (step cb b (init (construct idx)) g).2.eng.configuration)) := by
  have hcompl := initialNames_completion hchart
  obtain ⟨hp, hc, _, _, _, _, htp, hcp⟩ := initialNames_facts hchart
  refine ⟨hcompl, ?_, ?_, ?_⟩
  · intro s2 hh hpar ha
    rw [getCompletion_attribute s2 [c] hh hpar ha, completionBits_single _ c hc]
  · intro e X es hst hin hnone hact
    have hg : USCXML_GET_STATE e p = idx.states.getD p default := by
      unfold USCXML_GET_STATE
      rw [hst]
    rw [addDescendants_compound_default e X es p (by rw [hg]; exact htp) hin
      (by rw [hg]; exact hnone) (by rw [hg]; exact hact) ?_, hg, hcompl]
    rw [hg, hcompl, BIT_HAS_AND_iff]
    exact ⟨c, by rw [BIT_HAS_one_shiftLeft]; simp, hcp⟩
  · intro hplain
    obtain ⟨htc, hpp, hap, hanc⟩ := plainEntry_facts hplain
    constructor
    · intro r X ts hst hact
      have hg : ∀ i, USCXML_GET_STATE r.eng i = idx.states.getD i default := by
        intro i
        unfold USCXML_GET_STATE
        rw [hst]
      have hm := (microstep_default cb X ts r p c (by rw [hst]; exact hp)
        (by rw [hst]; exact hc) (by rw [hg]; exact htp) (by rw [hg]; exact hcompl)
        (by rw [hg]; exact hcp) (by rw [hg]; exact htc) (by rw [hg]; exact hpp)
        (by rw [hg]; exact hap)
        (by
          intro i hi hia
          rw [hst] at hi
          rw [hg] at hia
          rw [hg i]
          obtain ⟨q1, q2, q3⟩ := hanc i hi hia
          exact ⟨q1, q2, fun j hj => by rw [hg]; exact q3 j hj⟩)
        (by rw [hg]; exact hact)).1
      rw [hst, hg] at hm
      refine ⟨hm, ?_⟩
      intro j hj hjc hjn
      rw [hm j, hjn]
      have hjp : j ≠ p := by
        intro hEq
        rw [hEq, hpp] at hj
        cases hj
      have hja : BIT_HAS j (idx.states.getD p default).ancestors = false := by
        cases hq : BIT_HAS j (idx.states.getD p default).ancestors
        · rfl
        · rw [(BIT_HAS_AND_false _ _).mp hap j hq] at hj
          cases hj
      rw [hja]
      simp [hjp, hjc]
    · intro hroot b g
      obtain ⟨q1, q2, q3, q4⟩ := bootstrap_default cb b (init (construct idx)) g p c rfl rfl rfl
        hroot hp hc htp hcompl hcp htc hpp hap hanc
      refine ⟨q1, q2, ?_⟩
      intro b2 g2 hsel
      obtain ⟨r1, r2⟩ := step_macro cb b2 _ g2 q4.2.2.2.1 (by rw [q3]; decide)
        (by rw [q3]; decide) (by rw [q3]; decide) (by rw [q3]; decide) hsel
      refine ⟨r1, ?_⟩
      rw [r2]

set_option maxRecDepth 100000 in
/-- Witness for C19: the chart `chartCompoundInitial` with the element of `p`, whose
attribute `initial` names `p2` (3) while the first child state is `p1` (2). -/
theorem C19_initial_attribute_witness :
    initialNames chartCompoundInitial elementCompoundInitial 1 3 = true ∧
    (chartCompoundInitial.states.getD 1 default).completion = 1 <<< 3 ∧
    (step queueCallbacks false (init (construct chartCompoundInitial)) ⟨[], []⟩).1 =
      InterpreterState.USCXML_MICROSTEPPED ∧
    (∀ j, BIT_HAS j
      (step queueCallbacks false (init (construct chartCompoundInitial)) ⟨[], []⟩).2.eng.configuration =
        (decide (j < 4) && (decide (j = 1) || decide (j = 3) || BIT_HAS j 0b0001))) :=
  ⟨by decide,
    (C19_initial_attribute queueCallbacks chartCompoundInitial elementCompoundInitial 1 3
      (by decide)).1,
    (((C19_initial_attribute queueCallbacks chartCompoundInitial elementCompoundInitial 1 3
      (by decide)).2.2.2 (by decide)).2 (by decide) false ⟨[], []⟩).1,
    (((C19_initial_attribute queueCallbacks chartCompoundInitial elementCompoundInitial 1 3
      (by decide)).2.2.2 (by decide)).2 (by decide) false ⟨[], []⟩).2.1⟩

set_option maxRecDepth 100000 in
/-- Claim C20 (fails on the code). In the chart `chartNestedHistory` the compound `C` (3)
with the shallow history `h` (4) and the children `c1` (5), `c2` (6) lies in a state `D` that
has a deep history `hd` (2). `getHistoryCompletion` never fills the list `covered` that its
test of lines 973-974 reads, so the completion of `hd` holds `c1` and `c2`, the states of
the region of `h`. The sixth step (event `b`) exits `C` while `c2` is active and records
`{c2}`; the eighth (event `c`) exits `D` while `C` is inactive, and the loop
REMEMBER_HISTORY, for `hd`, clears the bit of `c2` in the one bit set `_history`; the tenth
(event `d`) takes the transition targeting `h` while `C` is inactive, finds no memory, and
enters `C` and `c1`, not `c2`. -/
theorem C20_memory_overwritten :
    hierarchyConsistent chartNestedHistory = true ∧
    (USCXML_GET_STATE (afterSteps chartNestedHistory ["a", "b", "c", "d"] 5).1 2).type =
      USCXML_STATE_HISTORY_DEEP ∧
    BIT_HAS 6 (USCXML_GET_STATE (afterSteps chartNestedHistory ["a", "b", "c", "d"] 5).1
      2).completion = true ∧
    exitedBy queueCallbacks false (afterSteps chartNestedHistory ["a", "b", "c", "d"] 7).1
      (afterSteps chartNestedHistory ["a", "b", "c", "d"] 7).2 = 1 <<< 1 ||| 1 <<< 7 ∧
    (afterSteps chartNestedHistory ["a", "b", "c", "d"] 8).1.history = 1 <<< 7 ∧
    shallowHistory (afterSteps chartNestedHistory ["a", "b", "c", "d"] 5).1 3 4 6 = true ∧
    BIT_HAS 3 (exitedBy queueCallbacks false
      (afterSteps chartNestedHistory ["a", "b", "c", "d"] 5).1
      (afterSteps chartNestedHistory ["a", "b", "c", "d"] 5).2) = true ∧
    (USCXML_GET_STATE (afterSteps chartNestedHistory ["a", "b", "c", "d"] 5).1 4).completion &&&
      (afterSteps chartNestedHistory ["a", "b", "c", "d"] 5).1.configuration = 1 <<< 6 ∧
    (afterSteps chartNestedHistory ["a", "b", "c", "d"] 6).1.history = 1 <<< 6 ∧
    BIT_HAS 3 (afterSteps chartNestedHistory ["a", "b", "c", "d"] 9).1.configuration = false ∧
    selectedBy queueCallbacks false (afterSteps chartNestedHistory ["a", "b", "c", "d"] 9).1
      (afterSteps chartNestedHistory ["a", "b", "c", "d"] 9).2 = 1 <<< 5 ∧
    (USCXML_GET_TRANS (afterSteps chartNestedHistory ["a", "b", "c", "d"] 9).1 5).target =
      1 <<< 4 ∧
    (USCXML_GET_STATE (afterSteps chartNestedHistory ["a", "b", "c", "d"] 9).1 4).completion &&&
      (afterSteps chartNestedHistory ["a", "b", "c", "d"] 9).1.history = 0 ∧
    (afterSteps chartNestedHistory ["a", "b", "c", "d"] 10).1.configuration = 0b000101011 ∧
    BIT_HAS 3 (afterSteps chartNestedHistory ["a", "b", "c", "d"] 10).1.configuration = true ∧
    BIT_HAS 5 (afterSteps chartNestedHistory ["a", "b", "c", "d"] 10).1.configuration = true ∧
    BIT_HAS 6 (afterSteps chartNestedHistory ["a", "b", "c", "d"] 10).1.configuration =
      false := by
  decide

/-- Shallow history where the memory is not overwritten. Let `h` be a shallow history state
with the parent `C`, compound ancestors and an atomic state `c2` in its completion
(`shallowHistory`). Let a step from the engine `eA` exit `C` while, of the completion of `h`,
exactly `c2` is active. Let further steps follow, and then, from the engine `eB`, a step that
takes exactly one transition, with the single target `h`, while `C` is inactive; and let no
step after the exit, this one included, have in its exit set the parent of a history state
whose completion shares a state with the completion of `h` (`keptAlong`, `memoryKept`). Then
the last step returns Microstepped; it does not exit `C`; afterwards `C` and `c2` are active,
and a state of the completion of `h` other than `c2` (such as the default `c1`) that was not
active is not active; the entry set is `h`, its ancestors and the memory; and the memory of
`h` that the step uses is the completion of `h` intersected with the configuration at the
exit of `C`. -/
theorem shallow_history_restored {H : Type} (cb : MicroStepCallbacks H) (eA : Engine)
    (C h c2 : Nat) (hchart : shallowHistory eA C h c2 = true)
    (bA : Bool) (gA : H)
    (hexit : BIT_HAS C (exitedBy cb bA eA gA) = true)
    (hactive : (USCXML_GET_STATE eA h).completion &&& eA.configuration = 1 <<< c2)
    (between : List (Bool × H))
    (hkept : keptAlong cb (USCXML_GET_STATE eA h).completion (step cb bA eA gA).2.eng between =
      true)
    (eB : Engine) (heB : eB = stepsFrom cb (step cb bA eA gA).2.eng between)
    (bB : Bool) (gB : H) (t : Nat) (ht : t < eB.transitions.length)
    (hone : selectedBy cb bB eB gB = 1 <<< t)
    (htarget : (USCXML_GET_TRANS eB t).target = 1 <<< h)
    (hinactive : BIT_HAS C eB.configuration = false)
    (hkeptB : memoryKept eB (exitedBy cb bB eB gB) (USCXML_GET_STATE eA h).completion = true) :
    (step cb bB eB gB).1 = InterpreterState.USCXML_MICROSTEPPED ∧
    BIT_HAS C (exitedBy cb bB eB gB) = false ∧
    BIT_HAS C (step cb bB eB gB).2.eng.configuration = true ∧
    BIT_HAS c2 (step cb bB eB gB).2.eng.configuration = true ∧
    (∀ j, BIT_HAS j (USCXML_GET_STATE eA h).completion = true → j ≠ c2 →
      BIT_HAS j eB.configuration = false →
      BIT_HAS j (step cb bB eB gB).2.eng.configuration = false) ∧
    (∀ r, selectionRun cb bB eB gB = some r →
      (establishEntrySet (beforeEntrySet cb r).eng (1 <<< h) (exitSetOf cb r) (1 <<< t)).1 =
        1 <<< h ||| (USCXML_GET_STATE eA h).ancestors |||
          ((USCXML_GET_STATE eA h).completion &&& eA.configuration) ∧
      (USCXML_GET_STATE eA h).completion &&& (beforeEntrySet cb r).eng.history =
        (USCXML_GET_STATE eA h).completion &&& eA.configuration) ∧
    (USCXML_GET_STATE eA h).completion &&& (step cb bB eB gB).2.eng.history =
      (USCXML_GET_STATE eA h).completion &&& eA.configuration := by
  obtain ⟨hh, hc2, hC, hty, hpar, hCa, hc2c, htc, hanc, hdis⟩ := shallowHistory_facts hchart
  -- the exit of C
  have hiA : eA.isInitialized = true := by
    cases hr : selectionRun cb bA eA gA with
    | none =>
      unfold exitedBy at hexit
      rw [hr, BIT_HAS_zero] at hexit
      cases hexit
    | some r => exact selectionRun_initialized cb bA eA gA r hr
  have hrec := step_records cb bA eA gA h hh (isHistoryType_of_shallow hty)
    (by rw [hpar]; exact hexit)
  have hs1 : Static eA (step cb bA eA gA).2.eng := step_static cb bA eA gA hiA
  have hi1 : (step cb bA eA gA).2.eng.isInitialized = true := hs1.2.2.2.1.trans hiA
  -- the steps in between
  have hs2 : Static eA eB := by
    rw [heB]
    exact hs1.chain (stepsFrom_static cb _ between hi1)
  have hmemB : (USCXML_GET_STATE eA h).completion &&& eB.history = 1 <<< c2 := by
    rw [heB, stepsFrom_keeps cb _ _ between hi1 hkept, hrec, hactive]
  -- the step that takes the transition to h
  obtain ⟨r, hr, hsel⟩ := selectedBy_one cb bB eB gB t hone
  have hgB : USCXML_GET_STATE eB = USCXML_GET_STATE eA := hs2.getState
  have hcB : shallowHistory eB C h c2 = true := by
    rw [shallowHistory_congr hs2]
    exact hchart
  rw [exitedBy_some cb bB eB gB r hr, ← hgB] at hkeptB
  obtain ⟨q1, q2, q3, q4⟩ := step_restores cb bB eB gB r t C h c2 hcB hr ht hsel htarget hkeptB
    (by rw [hgB]; exact hmemB)
  rw [hgB, hs2.2.1] at q4
  rw [hgB] at q2 q3
  have hnex : BIT_HAS C (exitedBy cb bB eB gB) = false := by
    cases hq : BIT_HAS C (exitedBy cb bB eB gB)
    · rfl
    · rw [exitedBy_active cb bB eB gB C hq] at hinactive
      cases hinactive
  have hhist : (USCXML_GET_STATE eA h).completion &&& (step cb bB eB gB).2.eng.history =
      (USCXML_GET_STATE eA h).completion &&& eA.configuration := by
    have := step_keeps cb bB eB gB (USCXML_GET_STATE eA h).completion
      (by rw [exitedBy_some cb bB eB gB r hr, ← hgB]; exact hkeptB)
    rw [this, hmemB, hactive]
  refine ⟨q1, hnex, ?_, ?_, ?_, ?_, hhist⟩
  · rw [q4 C, hCa]
    simp [hC]
  · rw [q4 c2]
    simp [hc2]
  · intro j hj hjc hjn
    rw [q4 j, hjn, (BIT_HAS_AND_false _ _).mp hdis j hj]
    simp [hjc]
  · intro r2 hr2
    rw [hr] at hr2
    cases hr2
    rw [hactive]
    exact ⟨q2, q3⟩

set_option maxRecDepth 100000 in
/-- An instance of `shallow_history_restored`: the chart `chartHistory` with the events `a`,
`out`, `back`. The sixth step (event `out`) exits `C` (1) while `c2` (4) is active, the
seventh returns Macrostepped, and the eighth (event `back`) takes the transition 3 to `h`
(2). -/
theorem shallow_history_restored_example :
    shallowHistory (afterSteps chartHistory ["a", "out", "back"] 5).1 1 2 4 = true ∧
    BIT_HAS 1 (exitedBy queueCallbacks false (afterSteps chartHistory ["a", "out", "back"] 5).1
      ⟨[], ["out", "back"]⟩) = true ∧
    (step queueCallbacks false
      (stepsFrom queueCallbacks
        (step queueCallbacks false (afterSteps chartHistory ["a", "out", "back"] 5).1
          ⟨[], ["out", "back"]⟩).2.eng [(false, ⟨[], ["back"]⟩)])
      ⟨[], ["back"]⟩).1 = InterpreterState.USCXML_MICROSTEPPED ∧
    BIT_HAS 4 (step queueCallbacks false
      (stepsFrom queueCallbacks
        (step queueCallbacks false (afterSteps chartHistory ["a", "out", "back"] 5).1
          ⟨[], ["out", "back"]⟩).2.eng [(false, ⟨[], ["back"]⟩)])
      ⟨[], ["back"]⟩).2.eng.configuration = true :=
  ⟨by decide, by decide,
    (shallow_history_restored queueCallbacks (afterSteps chartHistory ["a", "out", "back"] 5).1
      1 2 4 (by decide) false ⟨[], ["out", "back"]⟩ (by decide) (by decide)
      [(false, ⟨[], ["back"]⟩)] (by decide) _ rfl false ⟨[], ["back"]⟩ 3 (by decide)
      (by decide) (by decide) (by decide) (by decide)).1,
    (shallow_history_restored queueCallbacks (afterSteps chartHistory ["a", "out", "back"] 5).1
      1 2 4 (by decide) false ⟨[], ["out", "back"]⟩ (by decide) (by decide)
      [(false, ⟨[], ["back"]⟩)] (by decide) _ rfl false ⟨[], ["back"]⟩ 3 (by decide)
      (by decide) (by decide) (by decide) (by decide)).2.2.2.1⟩

section

variable {H : Type} (cb : MicroStepCallbacks H)

/-! ### The flag TransitionFound between steps -/

theorem hasFlag_found (f : Nat) : hasFlag f USCXML_CTX_TRANSITION_FOUND = f.testBit 3 :=
  hasFlag_pow f 3

/-- From the label SELECT_TRANSITIONS on, a step leaves TransitionFound clear. -/
theorem selectTransitions_found_clear (r : Run H) :
    hasFlag (selectTransitions cb r).2.eng.flags USCXML_CTX_TRANSITION_FOUND = false := by
  rcases Bool.eq_false_or_eq_true
    (hasFlag (selectionOf cb r).1.eng.flags USCXML_CTX_TRANSITION_FOUND) with h | h
  · rw [hasFlag_found, selectTransitions_found cb r h, microstep_flagBit cb _ _ _ _ 3 (by decide)]
    unfold beforeEntrySet
    simp only []
    rw [(rememberHistory_changes _ _).flags_eq rfl]
    simp only [callMonitor_eng, Run.setFlags]
    rw [testBit_andNot]
    have h1 : USCXML_CTX_TRANSITION_FOUND.testBit 3 = true := by decide
    simp [h1]
  · rw [selectTransitions_none cb r h]
    show hasFlag (bitAndNot (selectionOf cb r).1.eng.flags USCXML_CTX_SPONTANEOUS) _ = false
    rw [hasFlag_andNot _ _ _ (by decide)]
    exact h

/-- A step keeps TransitionFound clear. -/
theorem step_found_clear (b : Bool) (e : Engine) (h : H)
    (hf : hasFlag e.flags USCXML_CTX_TRANSITION_FOUND = false) :
    hasFlag (step cb b e h).2.eng.flags USCXML_CTX_TRANSITION_FOUND = false := by
  rcases step_cases cb b e h with h1 | h1 | h1 | h1 | h1 | h1 | h1 | h1 | h1
  · rw [h1.2]
    exact hf
  · rw [h1.2.2]
    exact hf
  · rw [h1.2.2.2, completeStep_flags, hasFlag_or, hf]
    decide
  · rw [h1.2.2, hasFlag_found, microstep_flagBit cb _ _ _ _ 3 (by decide)]
    show (USCXML_CTX_SPONTANEOUS ||| USCXML_CTX_INITIALIZED).testBit 3 = false
    decide
  · rw [h1.2.2.2.2.2.2]
    exact selectTransitions_found_clear cb _
  · obtain ⟨_, _, _, _, _, _, ev, _, hs⟩ := h1
    rw [hs]
    exact selectTransitions_found_clear cb _
  · obtain ⟨_, ev, _, hs⟩ := h1
    rw [hs]
    exact selectTransitions_found_clear cb _
  · rw [h1.2.2.2]
    show hasFlag ((atExternal cb b e h).eng.flags ||| USCXML_CTX_TOP_LEVEL_FINAL) _ = false
    rw [atExternal_flags, hasFlag_or, hasFlag_or, hf]
    decide
  · rw [h1.2.2.2, atExternal_flags, hasFlag_or, hf]
    decide

theorem applyAction_found_clear (p : Engine × H) (a : Action H)
    (hf : hasFlag p.1.flags USCXML_CTX_TRANSITION_FOUND = false) :
    hasFlag (applyAction cb p a).1.flags USCXML_CTX_TRANSITION_FOUND = false := by
  cases a with
  | step b => exact step_found_clear cb b p.1 p.2 hf
  | cancel => exact hf
  | reset =>
    show hasFlag USCXML_CTX_PRISTINE USCXML_CTX_TRANSITION_FOUND = false
    decide
  | env g => exact hf

/-- In every run TransitionFound is clear between the steps. -/
theorem run_found_clear (scxml : Index) (h : H) (actions : List (Action H)) :
    hasFlag (run cb scxml h actions).1.flags USCXML_CTX_TRANSITION_FOUND = false := by
  unfold uscxml.run
  exact foldl_preserves
    (fun p : Engine × H => hasFlag p.1.flags USCXML_CTX_TRANSITION_FOUND = false)
    (uscxml.applyAction cb) (fun p a hp => applyAction_found_clear cb p a hp) actions _
    (by show hasFlag USCXML_CTX_PRISTINE USCXML_CTX_TRANSITION_FOUND = false; decide)

/-- The calls of a step that finds no transition are those of the selection. -/
theorem selectTransitions_nothing_trace (r : Run H)
    (hf : hasFlag r.eng.flags USCXML_CTX_TRANSITION_FOUND = false)
    (h0 : (selectionOf cb r).2.transSet = 0) :
    Emits (fun c => isSelectCall r.eng.event c = true) r (selectTransitions cb r).2 := by
  have hfl := selectionOf_flags cb r
  rw [if_pos h0] at hfl
  have hnf : hasFlag (selectionOf cb r).1.eng.flags USCXML_CTX_TRANSITION_FOUND = false := by
    rw [hfl, hasFlag_andNot _ _ _ (by decide)]
    exact hf
  rw [selectTransitions_none cb r hnf]
  exact Emits.append (selectionOf_emits cb r) (Emits.of_trace_eq _ rfl)

theorem getConfiguration_congr {e e2 : Engine} (hs : e2.states = e.states)
    (hc : e2.configuration = e.configuration) : getConfiguration e2 = getConfiguration e := by
  unfold getConfiguration USCXML_NUMBER_STATES
  rw [hs, hc]

theorem isInState_congr (stateIds : String → Option Nat) {e e2 : Engine}
    (hc : e2.configuration = e.configuration) (s : String) :
    isInState stateIds e2 s = isInState stateIds e s := by
  unfold isInState
  rw [hc]

/-- The flag TransitionFound at the label SELECT_TRANSITIONS is the one of the engine. -/
theorem selectionRun_found (b : Bool) (e : Engine) (h : H) (r : Run H)
    (hr : selectionRun cb b e h = some r) :
    hasFlag r.eng.flags USCXML_CTX_TRANSITION_FOUND =
      hasFlag e.flags USCXML_CTX_TRANSITION_FOUND := by
  rcases step_cases cb b e h with h1 | h1 | h1 | h1 | h1 | h1 | h1 | h1 | h1
  · simp [selectionRun, h1.1] at hr
  · simp [selectionRun, h1.2.1] at hr
  · simp [selectionRun, h1.2.2.1] at hr
  · simp [selectionRun, h1.2.1] at hr
  · obtain ⟨_, hi, hf, ht, hp, hs, _⟩ := h1
    rw [selectionRun_spontaneous cb b e h hi hf ht hs] at hr
    cases hr
    rfl
  · obtain ⟨_, hi, hf, ht, hp, hs, ev, hev, _⟩ := h1
    rw [selectionRun_internal cb b e h ev hi hf ht hp hs hev] at hr
    cases hr
    rfl
  · obtain ⟨hy, ev, hx, _⟩ := h1
    obtain ⟨hi, hf, ht, hp, hs, hev⟩ := (reachesSync_iff cb e h).mp hy
    rw [selectionRun_external cb b e h ev hi hf ht hp hs hev hx] at hr
    cases hr
    rw [callMonitor_eng, atExternal_flags, hasFlag_or]
    have : hasFlag USCXML_CTX_STABLE USCXML_CTX_TRANSITION_FOUND = false := by decide
    rw [this, Bool.or_false]
  · obtain ⟨hy, hx, _, _⟩ := h1
    obtain ⟨hi, hf, ht, hp, hs, hev⟩ := (reachesSync_iff cb e h).mp hy
    rw [selectionRun_guard cb b e h hi hf ht hp, hs, hev, hx] at hr
    cases hr
  · obtain ⟨hy, hx, _, _⟩ := h1
    obtain ⟨hi, hf, ht, hp, hs, hev⟩ := (reachesSync_iff cb e h).mp hy
    rw [selectionRun_guard cb b e h hi hf ht hp, hs, hev, hx] at hr
    cases hr

end

section

variable {H : Type} (cb : MicroStepCallbacks H)

/-! ### A step that returns Microstepped, with its sets -/

/-- A step that returns Microstepped is the micro-step for the exit set and the entry set of
the step, from a run with the configuration and the index of the engine in which only calls
before the label ESTABLISH_ENTRYSET were made. -/
theorem step_microstep_sets (b : Bool) (e : Engine) (h : H)
    (hres : (step cb b e h).1 = InterpreterState.USCXML_MICROSTEPPED) :
    ∃ t ts r, step cb b e h = microstep cb t (exitedBy cb b e h) ts r ∧
      (establishEntrySet r.eng t (exitedBy cb b e h) ts).1 = entrySetOf cb b e h ∧
      Static e r.eng ∧ r.eng.configuration = e.configuration ∧
      (∀ c ∈ r.trace, isPreludeCall c = true) := by
  cases hr : selectionRun cb b e h with
  | some r =>
    have hst := selectionRun_step cb b e h r hr
    rw [hst] at hres
    have hm := selectTransitions_microstepped cb r hres
    have hch := selectionRun_changes cb b e h r hr
    have hpre : ∀ c ∈ r.trace, isPreludeCall c = true := by
      rcases step_cases cb b e h with h1 | h1 | h1 | h1 | h1 | h1 | h1 | h1 | h1
      · simp [selectionRun, h1.1] at hr
      · simp [selectionRun, h1.2.1] at hr
      · simp [selectionRun, h1.2.2.1] at hr
      · simp [selectionRun, h1.2.1] at hr
      · obtain ⟨_, hi, hf, ht, hp, hs, _⟩ := h1
        rw [selectionRun_spontaneous cb b e h hi hf ht hs] at hr
        cases hr
        intro c hc
        cases hc
      · obtain ⟨_, hi, hf, ht, hp, hs, ev, hev, _⟩ := h1
        rw [selectionRun_internal cb b e h ev hi hf ht hp hs hev] at hr
        cases hr
        intro c hc
        simp only [callMonitor_trace, callDequeueInternal_trace, List.nil_append,
          List.mem_append, List.mem_singleton, List.mem_cons, List.not_mem_nil, or_false] at hc
        rcases hc with hc | hc <;> rw [hc] <;> rfl
      · obtain ⟨hy, ev, hx, _⟩ := h1
        obtain ⟨hi, hf, ht, hp, hs, hev⟩ := (reachesSync_iff cb e h).mp hy
        rw [selectionRun_external cb b e h ev hi hf ht hp hs hev hx] at hr
        cases hr
        intro c hc
        rw [callMonitor_trace] at hc
        rcases List.mem_append.mp hc with hc | hc
        · exact (afterDequeueExternal cb b
            (callDequeueInternal cb { eng := e, host := h, trace := [] })
            (by simp [isPreludeCall])).2.1 c hc
        · simp only [List.mem_singleton] at hc
          rw [hc]
          rfl
      · obtain ⟨hy, hx, _, _⟩ := h1
        obtain ⟨hi, hf, ht, hp, hs, hev⟩ := (reachesSync_iff cb e h).mp hy
        rw [selectionRun_guard cb b e h hi hf ht hp, hs, hev, hx] at hr
        cases hr
      · obtain ⟨hy, hx, _, _⟩ := h1
        obtain ⟨hi, hf, ht, hp, hs, hev⟩ := (reachesSync_iff cb e h).mp hy
        rw [selectionRun_guard cb b e h hi hf ht hp, hs, hev, hx] at hr
        cases hr
    refine ⟨(selectionOf cb r).2.targetSet, (selectionOf cb r).2.transSet, beforeEntrySet cb r,
      ?_, ?_, ?_, ?_, beforeEntrySet_prelude cb r hpre⟩
    · rw [hst, hm, exitedBy_some cb b e h r hr]
    · unfold entrySetOf
      rw [exitedBy_some cb b e h r hr, hr]
    · exact hch.static.chain (beforeEntrySet_changes cb r).static
    · rw [(beforeEntrySet_changes cb r).configuration_eq rfl, hch.configuration_eq rfl]
  | none =>
    have hx : exitedBy cb b e h = 0 := by
      unfold exitedBy
      rw [hr]
    rcases step_cases cb b e h with h1 | h1 | h1 | h1 | h1 | h1 | h1 | h1 | h1
    · rw [h1.2] at hres
      cases hres
    · rw [h1.2.2] at hres
      cases hres
    · rw [h1.2.2.2] at hres
      cases hres
    · refine ⟨(USCXML_GET_STATE e 0).completion, 0, callMonitor cb MonitorHook.beforeMicroStep
        { eng := { e with flags := USCXML_CTX_SPONTANEOUS ||| USCXML_CTX_INITIALIZED },
          host := h, trace := [] }, ?_, ?_, ⟨rfl, rfl, rfl, rfl, rfl⟩, rfl, ?_⟩
      · rw [hx]
        exact h1.2.2
      · unfold entrySetOf
        rw [hx, hr]
        rfl
      · intro c hc
        have : c = Call.monitor MonitorHook.beforeMicroStep := by simpa using hc
        rw [this]
        rfl
    · obtain ⟨_, hi, hf, ht, hp, hs, _⟩ := h1
      rw [selectionRun_spontaneous cb b e h hi hf ht hs] at hr
      cases hr
    · obtain ⟨_, hi, hf, ht, hp, hs, ev, hev, _⟩ := h1
      rw [selectionRun_internal cb b e h ev hi hf ht hp hs hev] at hr
      cases hr
    · obtain ⟨hy, ev, hx2, _⟩ := h1
      obtain ⟨hi, hf, ht, hp, hs, hev⟩ := (reachesSync_iff cb e h).mp hy
      rw [selectionRun_external cb b e h ev hi hf ht hp hs hev hx2] at hr
      cases hr
    · rw [h1.2.2.2] at hres
      cases hres
    · rw [h1.2.2.2] at hres
      cases hres

/-- The exit set of a step holds the active states that are in the exit set of a transition
that the step takes. -/
theorem exitedBy_bit (b : Bool) (e : Engine) (h : H) (j : Nat) :
    BIT_HAS j (exitedBy cb b e h) =
      (BIT_HAS j e.configuration && exitedByTaken e (selectedBy cb b e h) j) := by
  cases hr : selectionRun cb b e h with
  | none =>
    unfold exitedBy selectedBy exitedByTaken
    rw [hr]
    simp [BIT_HAS_zero]
  | some r =>
    have hch := selectionRun_changes cb b e h r hr
    rw [exitedBy_some cb b e h r hr]
    unfold exitSetOf selectedBy exitedByTaken
    rw [hr, BIT_HAS_and, (selectionOf_changes cb r).configuration_eq rfl,
      hch.configuration_eq rfl, Bool.and_comm]
    congr 1
    have hsets := (selectLoop_sets cb r.eng.transitions.length
      (r.setFlags (bitAndNot r.eng.flags USCXML_CTX_STABLE)) j).2
    rw [Bool.eq_iff_iff]
    simp only [List.any_eq_true, List.mem_range, Bool.and_eq_true]
    have hg : USCXML_GET_TRANS (r.setFlags (bitAndNot r.eng.flags USCXML_CTX_STABLE)).eng =
        USCXML_GET_TRANS e := hch.static.getTrans
    have hlen : r.eng.transitions.length = e.transitions.length := by rw [hch.static.2.2.1]
    constructor
    · intro hj
      obtain ⟨i, hi, h1, h2⟩ := hsets.mp hj
      exact ⟨i, by rw [← hlen]; exact hi, h1, by rw [← hg]; exact h2⟩
    · rintro ⟨i, hi, h1, h2⟩
      exact hsets.mpr ⟨i, by rw [hlen]; exact hi, h1, by rw [hg]; exact h2⟩

/-! ### A state that stays active is not entered again -/

theorem isEntryOf_of_enter {i k : Nat} {c : Call} (hk : k ≠ i)
    (h : isEnterCall k c = true) : isEntryOf i c = false := by
  cases c with
  | monitor m =>
    cases m <;> simp_all [isEnterCall, isEntryOf]
  | process s d =>
    cases s <;> simp_all [isEnterCall, isEntryOf]
  | _ => simp_all [isEnterCall, isEntryOf]

theorem isEntryOf_of_exit {i : Nat} {c : Call} (h : ∃ k, isExitCall k c = true) :
    isEntryOf i c = false := by
  obtain ⟨k, hk⟩ := h
  cases c with
  | monitor m =>
    cases m <;> simp_all [isExitCall, isEntryOf]
  | process s d =>
    cases s <;> simp_all [isExitCall, isEntryOf]
  | _ => simp_all [isExitCall, isEntryOf]

theorem isEntryOf_of_take {i : Nat} {c : Call} (h : ∃ k, isTakeCall k c = true) :
    isEntryOf i c = false := by
  obtain ⟨k, hk⟩ := h
  cases c with
  | monitor m =>
    cases m <;> simp_all [isTakeCall, isEntryOf]
  | process s d =>
    cases s <;> simp_all [isTakeCall, isEntryOf]
  | _ => simp_all [isTakeCall, isEntryOf]

theorem isEntryOf_of_closing {i : Nat} {c : Call} (h : isClosingCall c = true) :
    isEntryOf i c = false := by
  cases c with
  | monitor m =>
    cases m <;> simp_all [isClosingCall, isEntryOf]
  | _ => simp_all [isClosingCall, isEntryOf]

theorem isEntryOf_of_prelude {i : Nat} {c : Call} (h : isPreludeCall c = true) :
    isEntryOf i c = false := by
  cases c with
  | monitor m =>
    cases m <;> simp_all [isPreludeCall, isEntryOf]
  | _ => simp_all [isPreludeCall, isEntryOf]

/-- The loop ENTER_STATES makes no call for the entry of a state that is active when the
loop starts. -/
theorem enterStates_not_reentered (es ts : Bitset) (r : Run H) (i : Nat)
    (ha : BIT_HAS i r.eng.configuration = true) :
    (enterStates cb es ts r).trace.filter (isEntryOf i) = r.trace.filter (isEntryOf i) := by
  unfold enterStates
  refine (foldl_preserves
    (fun x : Run H => BIT_HAS i x.eng.configuration = true ∧
      x.trace.filter (isEntryOf i) = r.trace.filter (isEntryOf i))
    (enterState cb es ts) ?_ _ r ⟨ha, rfl⟩).2
  intro x k hx
  by_cases hk : k = i
  · subst hk
    rw [enterState_skip cb es ts x k (by simp [hx.1])]
    exact hx
  · refine ⟨?_, ?_⟩
    · rw [enterState_configuration]
      split_ifs
      · rw [BIT_HAS_set, hx.1]
        simp
      · exact hx.1
    · rw [(enterState_emits cb es ts x k).filter_eq (p := isEntryOf i)
        (fun c hc => isEntryOf_of_enter hk hc)]
      exact hx.2

/-- A micro-step makes no call for the entry of a state that is active and not exited. -/
theorem microstep_not_reentered (t x ts : Bitset) (r : Run H) (i : Nat)
    (ha : (BIT_HAS i r.eng.configuration &&
      !(decide (i < USCXML_NUMBER_STATES r.eng) && BIT_HAS i x)) = true) :
    (microstep cb t x ts r).2.trace.filter (isEntryOf i) = r.trace.filter (isEntryOf i) := by
  unfold microstep
  simp only
  rw [(recordConfiguration_emits cb _).filter_eq (p := isEntryOf i)
    (fun c hc => isEntryOf_of_closing hc), callMonitor_trace, List.filter_append]
  have h1 : [Call.monitor MonitorHook.afterMicroStep].filter (isEntryOf i) = [] := rfl
  rw [h1, List.append_nil, enterStates_not_reentered cb _ _ _ i
    (by rw [takeTransitions_eng, exitStates_configuration]; exact ha),
    (takeTransitions_emits cb _ _).filter_eq (p := isEntryOf i)
      (fun c hc => isEntryOf_of_take hc),
    (exitStates_emits cb _ _).filter_eq (p := isEntryOf i)
      (fun c hc => isEntryOf_of_exit hc)]

end

section

variable {H : Type} (cb : MicroStepCallbacks H)

/-! ### The lines 902-910 -/

/-- After line 910 the seen configurations are the current one and those seen before. -/
theorem recordConfiguration_seen (r : Run H) (c : Bitset) :
    c ∈ (recordConfiguration cb r).eng.microstepConfigurations ↔
      c = r.eng.configuration ∨ c ∈ r.eng.microstepConfigurations := by
  unfold recordConfiguration
  by_cases h : r.eng.configuration ∈ r.eng.microstepConfigurations
  · have h2 : r.eng.microstepConfigurations.contains r.eng.configuration = true := by
      simpa using h
    simp only [h2, if_true, callMonitor_eng]
    constructor
    · exact fun hc => Or.inr hc
    · rintro (hc | hc)
      · rw [hc]
        exact h
      · exact hc
  · have h2 : r.eng.microstepConfigurations.contains r.eng.configuration = false := by
      simpa using h
    simp only [h2, Bool.false_eq_true, if_false, List.mem_cons]

/-- The lines 902-910 report the issue exactly if the configuration was seen. -/
theorem recordConfiguration_trace (r : Run H) :
    (recordConfiguration cb r).trace =
      r.trace ++ (if r.eng.microstepConfigurations.contains r.eng.configuration then
        [Call.monitor (MonitorHook.reportIssue cycleMessage)] else []) := by
  unfold recordConfiguration
  by_cases h : r.eng.configuration ∈ r.eng.microstepConfigurations
  · have h2 : r.eng.microstepConfigurations.contains r.eng.configuration = true := by
      simpa using h
    simp only [h2, if_true, callMonitor_eng, callMonitor_trace]
    rfl
  · have h2 : r.eng.microstepConfigurations.contains r.eng.configuration = false := by
      simpa using h
    simp only [h2, Bool.false_eq_true, if_false, List.append_nil]

theorem recordConfiguration_frame (r : Run H) :
    Changes seenFields r.eng (recordConfiguration cb r).eng :=
  recordConfiguration_changes cb r

theorem isIssueReport_of_exit {c : Call} (h : ∃ k, isExitCall k c = true) :
    isIssueReport c = false := by
  obtain ⟨k, hk⟩ := h
  cases c with
  | monitor m => cases m <;> simp_all [isExitCall, isIssueReport]
  | _ => simp_all [isExitCall, isIssueReport]

theorem isIssueReport_of_take {c : Call} (h : ∃ k, isTakeCall k c = true) :
    isIssueReport c = false := by
  obtain ⟨k, hk⟩ := h
  cases c with
  | monitor m => cases m <;> simp_all [isTakeCall, isIssueReport]
  | _ => simp_all [isTakeCall, isIssueReport]

theorem isIssueReport_of_enter {c : Call} (h : ∃ k, isEnterCall k c = true) :
    isIssueReport c = false := by
  obtain ⟨k, hk⟩ := h
  cases c with
  | monitor m => cases m <;> simp_all [isEnterCall, isIssueReport]
  | _ => simp_all [isEnterCall, isIssueReport]

theorem isIssueReport_of_prelude {c : Call} (h : isPreludeCall c = true) :
    isIssueReport c = false := by
  cases c with
  | monitor m => cases m <;> simp_all [isPreludeCall, isIssueReport]
  | _ => simp_all [isPreludeCall, isIssueReport]

theorem isIssueReport_of_completion {c : Call} (h : isCompletionCall c = true) :
    isIssueReport c = false := by
  cases c with
  | monitor m => cases m <;> simp_all [isCompletionCall, isIssueReport]
  | _ => simp_all [isCompletionCall, isIssueReport]

theorem isIssueReport_of_select {ev : Option Event} {c : Call}
    (h : isSelectCall ev c = true) : isIssueReport c = false := by
  cases c <;> simp_all [isSelectCall, isIssueReport]

/-- A micro-step: the configuration it leaves is recorded with those seen before, and the
issue is reported, once, exactly if that configuration was seen before. -/
theorem microstep_seen (t x ts : Bitset) (r : Run H) :
    (∀ c, c ∈ (microstep cb t x ts r).2.eng.microstepConfigurations ↔
      c = (microstep cb t x ts r).2.eng.configuration ∨ c ∈ r.eng.microstepConfigurations) ∧
    (microstep cb t x ts r).2.trace.filter isIssueReport =
      r.trace.filter isIssueReport ++
        (if r.eng.microstepConfigurations.contains (microstep cb t x ts r).2.eng.configuration
          then [Call.monitor (MonitorHook.reportIssue cycleMessage)] else []) := by
  have hm : (enterStates cb (establishEntrySet r.eng t x ts).1 (establishEntrySet r.eng t x ts).2
      (takeTransitions cb (establishEntrySet r.eng t x ts).2
        (exitStates cb x r))).eng.microstepConfigurations = r.eng.microstepConfigurations := by
    rw [(enterStates_changes cb _ _ _).microstepConfigurations_eq rfl, takeTransitions_eng,
      (exitStates_changes cb x r).microstepConfigurations_eq rfl]
  have hcfg : (microstep cb t x ts r).2.eng.configuration =
      (enterStates cb (establishEntrySet r.eng t x ts).1 (establishEntrySet r.eng t x ts).2
        (takeTransitions cb (establishEntrySet r.eng t x ts).2
          (exitStates cb x r))).eng.configuration := by
    unfold microstep
    simp only
    rw [(recordConfiguration_changes cb _).configuration_eq rfl, callMonitor_eng]
  refine ⟨fun c => ?_, ?_⟩
  · rw [hcfg]
    unfold microstep
    simp only
    rw [recordConfiguration_seen, callMonitor_eng, hm]
  · rw [hcfg]
    unfold microstep
    simp only
    rw [recordConfiguration_trace, callMonitor_eng, hm, List.filter_append, callMonitor_trace,
      List.filter_append,
      (enterStates_emits cb _ _ _).filter_eq (p := isIssueReport)
        (fun c hc => isIssueReport_of_enter hc),
      (takeTransitions_emits cb _ _).filter_eq (p := isIssueReport)
        (fun c hc => isIssueReport_of_take hc),
      (exitStates_emits cb _ _).filter_eq (p := isIssueReport)
        (fun c hc => isIssueReport_of_exit hc)]
    split_ifs <;> simp [isIssueReport]

/-! ### The seen configurations through a step -/

theorem signalsStable_eq (b : Bool) (e : Engine) (h : H) :
    signalsStable cb b e h = (reachesSync cb e h && !hasFlag e.flags USCXML_CTX_STABLE) := by
  unfold signalsStable
  have h1 := step_stableCalls cb b e h
  rcases Bool.eq_false_or_eq_true
    (reachesSync cb e h && !hasFlag e.flags USCXML_CTX_STABLE) with hc | hc
  · rw [hc] at h1 ⊢
    simp only [if_true] at h1
    rw [List.any_eq_true]
    have hm : Call.monitor MonitorHook.onStableConfiguration ∈
        (step cb b e h).2.trace.filter isStableCall := by
      rw [h1]
      exact List.mem_singleton.mpr rfl
    exact ⟨_, (List.mem_filter.mp hm).1, rfl⟩
  · rw [hc] at h1 ⊢
    simp only [Bool.false_eq_true, if_false] at h1
    rw [List.any_eq_false]
    intro c hc2 hs
    have : c ∈ (step cb b e h).2.trace.filter isStableCall := List.mem_filter.mpr ⟨hc2, hs⟩
    rw [h1] at this
    cases this

theorem atExternal_seen (b : Bool) (e : Engine) (h : H) :
    (atExternal cb b e h).eng.microstepConfigurations =
      if hasFlag e.flags USCXML_CTX_STABLE then e.microstepConfigurations else [] := by
  unfold atExternal
  rw [(callDequeueExternal_changes cb b _).microstepConfigurations_eq rfl]
  have hf : (manageInvocations cb
      (callDequeueInternal cb { eng := e, host := h, trace := [] })).eng.flags = e.flags := by
    rw [(manageInvocations_changes cb _).flags_eq rfl,
      (callDequeueInternal_changes cb _).flags_eq rfl]
  have hm : (manageInvocations cb
      (callDequeueInternal cb { eng := e, host := h, trace := [] })).eng.microstepConfigurations =
      e.microstepConfigurations := by
    rw [(manageInvocations_changes cb _).microstepConfigurations_eq rfl,
      (callDequeueInternal_changes cb _).microstepConfigurations_eq rfl]
  unfold signalStable
  rcases Bool.eq_false_or_eq_true (hasFlag e.flags USCXML_CTX_STABLE) with hs | hs
  · simp only [hf, hs, Bool.not_true, Bool.false_eq_true, if_false, if_true]
    exact hm
  · simp [hf, hs]

/-- At the label SELECT_TRANSITIONS the seen configurations are those of `seenAt`, and no
issue was reported. -/
theorem selectionRun_seen (b : Bool) (e : Engine) (h : H) (r : Run H)
    (hr : selectionRun cb b e h = some r) :
    r.eng.microstepConfigurations = seenAt cb b e h e.microstepConfigurations ∧
    r.trace.filter isIssueReport = [] := by
  unfold seenAt
  rw [signalsStable_eq]
  rcases step_cases cb b e h with h1 | h1 | h1 | h1 | h1 | h1 | h1 | h1 | h1
  · simp [selectionRun, h1.1] at hr
  · simp [selectionRun, h1.2.1] at hr
  · simp [selectionRun, h1.2.2.1] at hr
  · simp [selectionRun, h1.2.1] at hr
  · obtain ⟨hn, hi, hf, ht, hp, hs, _⟩ := h1
    rw [selectionRun_spontaneous cb b e h hi hf ht hs] at hr
    cases hr
    rw [hn]
    exact ⟨rfl, rfl⟩
  · obtain ⟨hn, hi, hf, ht, hp, hs, ev, hev, _⟩ := h1
    rw [selectionRun_internal cb b e h ev hi hf ht hp hs hev] at hr
    cases hr
    rw [hn]
    exact ⟨rfl, rfl⟩
  · obtain ⟨hy, ev, hx, _⟩ := h1
    obtain ⟨hi, hf, ht, hp, hs, hev⟩ := (reachesSync_iff cb e h).mp hy
    rw [selectionRun_external cb b e h ev hi hf ht hp hs hev hx] at hr
    cases hr
    rw [hy, callMonitor_eng, atExternal_seen]
    refine ⟨?_, ?_⟩
    · rcases Bool.eq_false_or_eq_true (hasFlag e.flags USCXML_CTX_STABLE) with hst | hst <;>
        simp [hst]
    · rw [List.filter_eq_nil_iff]
      intro c hc
      rw [callMonitor_trace] at hc
      rcases List.mem_append.mp hc with hc | hc
      · rw [isIssueReport_of_prelude ((afterDequeueExternal cb b
          (callDequeueInternal cb { eng := e, host := h, trace := [] })
          (by simp [isPreludeCall])).2.1 c hc)]
        simp
      · simp only [List.mem_singleton] at hc
        rw [hc]
        simp [isIssueReport]
  · obtain ⟨hy, hx, _, _⟩ := h1
    obtain ⟨hi, hf, ht, hp, hs, hev⟩ := (reachesSync_iff cb e h).mp hy
    rw [selectionRun_guard cb b e h hi hf ht hp, hs, hev, hx] at hr
    cases hr
  · obtain ⟨hy, hx, _, _⟩ := h1
    obtain ⟨hi, hf, ht, hp, hs, hev⟩ := (reachesSync_iff cb e h).mp hy
    rw [selectionRun_guard cb b e h hi hf ht hp, hs, hev, hx] at hr
    cases hr

theorem reachesSync_of_none (e : Engine) (h : H)
    (hn : e.isInitialized = false ∨ hasFlag e.flags USCXML_CTX_FINISHED = true ∨
      hasFlag e.flags USCXML_CTX_TOP_LEVEL_FINAL = true ∨ e.flags = USCXML_CTX_PRISTINE) :
    reachesSync cb e h = false := by
  cases hrs : reachesSync cb e h
  · rfl
  · obtain ⟨hi, hf, ht, hp, _, _⟩ := (reachesSync_iff cb e h).mp hrs
    rcases hn with h1 | h1 | h1 | h1
    · rw [hi] at h1; cases h1
    · rw [hf] at h1; cases h1
    · rw [ht] at h1; cases h1
    · exact absurd h1 hp

/-- A step that returns Microstepped: the configuration it leaves is recorded with those of
`seenAt`, and the issue is reported, once, exactly if it is among those. -/
theorem step_seen (b : Bool) (e : Engine) (h : H)
    (hres : (step cb b e h).1 = InterpreterState.USCXML_MICROSTEPPED) :
    (∀ c, c ∈ (step cb b e h).2.eng.microstepConfigurations ↔
      c = (step cb b e h).2.eng.configuration ∨
        c ∈ seenAt cb b e h e.microstepConfigurations) ∧
    (step cb b e h).2.trace.filter isIssueReport =
      (if (seenAt cb b e h e.microstepConfigurations).contains
          (step cb b e h).2.eng.configuration
        then [Call.monitor (MonitorHook.reportIssue cycleMessage)] else []) := by
  cases hr : selectionRun cb b e h with
  | some r =>
    have hst := selectionRun_step cb b e h r hr
    rw [hst] at hres
    have hm := selectTransitions_microstepped cb r hres
    obtain ⟨h1, h2⟩ := selectionRun_seen cb b e h r hr
    have hpre : (beforeEntrySet cb r).trace.filter isIssueReport = [] := by
      rw [(beforeEntrySet_emits cb r).filter_eq (p := isIssueReport)
        (fun c hc => isIssueReport_of_prelude (isPreludeCall_of_select hc))]
      exact h2
    have hmc : (beforeEntrySet cb r).eng.microstepConfigurations =
        seenAt cb b e h e.microstepConfigurations := by
      rw [(beforeEntrySet_changes cb r).microstepConfigurations_eq rfl]
      exact h1
    obtain ⟨q1, q2⟩ := microstep_seen cb (selectionOf cb r).2.targetSet (exitSetOf cb r)
      (selectionOf cb r).2.transSet (beforeEntrySet cb r)
    rw [hst, hm]
    rw [hmc] at q1 q2
    rw [hpre, List.nil_append] at q2
    exact ⟨q1, q2⟩
  | none =>
    rcases step_cases cb b e h with h1 | h1 | h1 | h1 | h1 | h1 | h1 | h1 | h1
    · rw [h1.2] at hres
      cases hres
    · rw [h1.2.2] at hres
      cases hres
    · rw [h1.2.2.2] at hres
      cases hres
    · have hs : seenAt cb b e h e.microstepConfigurations = e.microstepConfigurations := by
        unfold seenAt
        rw [signalsStable_eq, reachesSync_of_none cb e h (Or.inr (Or.inr (Or.inr h1.2.1)))]
        rfl
      obtain ⟨q1, q2⟩ := microstep_seen cb (USCXML_GET_STATE e 0).completion 0 0
        (callMonitor cb MonitorHook.beforeMicroStep
          { eng := { e with flags := USCXML_CTX_SPONTANEOUS ||| USCXML_CTX_INITIALIZED },
            host := h, trace := [] })
      rw [h1.2.2, hs]
      refine ⟨q1, ?_⟩
      rw [q2]
      rfl
    · obtain ⟨_, hi, hf, ht, hp, hs, _⟩ := h1
      rw [selectionRun_spontaneous cb b e h hi hf ht hs] at hr
      cases hr
    · obtain ⟨_, hi, hf, ht, hp, hs, ev, hev, _⟩ := h1
      rw [selectionRun_internal cb b e h ev hi hf ht hp hs hev] at hr
      cases hr
    · obtain ⟨hy, ev, hx2, _⟩ := h1
      obtain ⟨hi, hf, ht, hp, hs, hev⟩ := (reachesSync_iff cb e h).mp hy
      rw [selectionRun_external cb b e h ev hi hf ht hp hs hev hx2] at hr
      cases hr
    · rw [h1.2.2.2] at hres
      cases hres
    · rw [h1.2.2.2] at hres
      cases hres

/-- A step that does not return Microstepped leaves the configurations of `seenAt` and
reports no issue. -/
theorem step_unseen (b : Bool) (e : Engine) (h : H)
    (hres : (step cb b e h).1 ≠ InterpreterState.USCXML_MICROSTEPPED) :
    (step cb b e h).2.eng.microstepConfigurations =
      seenAt cb b e h e.microstepConfigurations ∧
    (step cb b e h).2.trace.filter isIssueReport = [] := by
  cases hr : selectionRun cb b e h with
  | some r =>
    have hst := selectionRun_step cb b e h r hr
    rw [hst] at hres
    obtain ⟨h1, h2⟩ := selectionRun_seen cb b e h r hr
    have hnf : hasFlag (selectionOf cb r).1.eng.flags USCXML_CTX_TRANSITION_FOUND = false := by
      rcases Bool.eq_false_or_eq_true
        (hasFlag (selectionOf cb r).1.eng.flags USCXML_CTX_TRANSITION_FOUND) with hf | hf
      · rw [selectTransitions_found cb r hf] at hres
        exact absurd rfl hres
      · exact hf
    rw [hst, selectTransitions_none cb r hnf]
    refine ⟨?_, ?_⟩
    · show (selectionOf cb r).1.eng.microstepConfigurations = _
      rw [(selectionOf_changes cb r).microstepConfigurations_eq rfl]
      exact h1
    · show (selectionOf cb r).1.trace.filter isIssueReport = []
      rw [(selectionOf_emits cb r).filter_eq (p := isIssueReport)
        (fun c hc => isIssueReport_of_select hc)]
      exact h2
  | none =>
    unfold seenAt
    rw [signalsStable_eq]
    rcases step_cases cb b e h with h1 | h1 | h1 | h1 | h1 | h1 | h1 | h1 | h1
    · rw [h1.2, reachesSync_of_none cb e h (Or.inl h1.1)]
      exact ⟨rfl, rfl⟩
    · rw [h1.2.2, reachesSync_of_none cb e h (Or.inr (Or.inl h1.2.1))]
      exact ⟨rfl, rfl⟩
    · rw [h1.2.2.2, reachesSync_of_none cb e h (Or.inr (Or.inr (Or.inl h1.2.2.1)))]
      refine ⟨(completeStep_changes cb _).microstepConfigurations_eq rfl, ?_⟩
      rw [(completeStep_emits cb _).filter_eq (p := isIssueReport)
        (fun c hc => isIssueReport_of_completion hc)]
      rfl
    · rw [h1.2.2] at hres
      exact absurd rfl hres
    · obtain ⟨_, hi, hf, ht, hp, hs, _⟩ := h1
      rw [selectionRun_spontaneous cb b e h hi hf ht hs] at hr
      cases hr
    · obtain ⟨_, hi, hf, ht, hp, hs, ev, hev, _⟩ := h1
      rw [selectionRun_internal cb b e h ev hi hf ht hp hs hev] at hr
      cases hr
    · obtain ⟨hy, ev, hx2, _⟩ := h1
      obtain ⟨hi, hf, ht, hp, hs, hev⟩ := (reachesSync_iff cb e h).mp hy
      rw [selectionRun_external cb b e h ev hi hf ht hp hs hev hx2] at hr
      cases hr
    · obtain ⟨hy, hx, _, hs⟩ := h1
      rw [hs, hy]
      refine ⟨?_, ?_⟩
      · show (atExternal cb b e h).eng.microstepConfigurations = _
        rw [atExternal_seen]
        rcases Bool.eq_false_or_eq_true (hasFlag e.flags USCXML_CTX_STABLE) with hst | hst <;>
          simp [hst]
      · show (atExternal cb b e h).trace.filter isIssueReport = []
        rw [List.filter_eq_nil_iff]
        intro c hc
        rw [isIssueReport_of_prelude ((afterDequeueExternal cb b
          (callDequeueInternal cb { eng := e, host := h, trace := [] })
          (by simp [isPreludeCall])).2.1 c hc)]
        simp
    · obtain ⟨hy, hx, _, hs⟩ := h1
      rw [hs, hy]
      refine ⟨?_, ?_⟩
      · rw [atExternal_seen]
        rcases Bool.eq_false_or_eq_true (hasFlag e.flags USCXML_CTX_STABLE) with hst | hst <;>
          simp [hst]
      · rw [List.filter_eq_nil_iff]
        intro c hc
        rw [isIssueReport_of_prelude ((afterDequeueExternal cb b
          (callDequeueInternal cb { eng := e, host := h, trace := [] })
          (by simp [isPreludeCall])).2.1 c hc)]
        simp

/-! ### The seen configurations along a run -/

theorem seenAt_members (b : Bool) (e : Engine) (h : H) (s1 s2 : List Bitset)
    (hs : ∀ c, c ∈ s1 ↔ c ∈ s2) (c : Bitset) :
    c ∈ seenAt cb b e h s1 ↔ c ∈ seenAt cb b e h s2 := by
  unfold seenAt
  split_ifs
  · exact Iff.rfl
  · exact hs c

/-- Along any sequence of actions `_microstepConfigurations` holds the configurations
produced by the micro-steps since the last call of `onStableConfiguration`. -/
theorem producedSince_members (actions : List (Action H)) (p : Engine × H)
    (seen : List Bitset) (hs : ∀ c, c ∈ p.1.microstepConfigurations ↔ c ∈ seen) (c : Bitset) :
    c ∈ (actions.foldl (applyAction cb) p).1.microstepConfigurations ↔
      c ∈ producedSince cb seen p actions := by
  induction actions generalizing p seen c with
  | nil => exact hs c
  | cons a rest ih =>
    simp only [List.foldl_cons, producedSince]
    apply ih
    intro d
    cases a with
    | step b =>
      show d ∈ (step cb b p.1 p.2).2.eng.microstepConfigurations ↔ _
      by_cases hres : (step cb b p.1 p.2).1 = InterpreterState.USCXML_MICROSTEPPED
      · simp only [hres, if_true, List.mem_cons]
        rw [(step_seen cb b p.1 p.2 hres).1 d, seenAt_members cb b p.1 p.2 _ _ hs d]
      · simp only [hres, if_false]
        rw [(step_unseen cb b p.1 p.2 hres).1]
        exact seenAt_members cb b p.1 p.2 _ _ hs d
    | cancel => exact hs d
    | reset => exact hs d
    | env g => exact hs d

end

section

variable {H : Type} (cb : MicroStepCallbacks H)

/-! ### The flag Initialized -/

theorem hasFlag_initialized (f : Nat) : hasFlag f USCXML_CTX_INITIALIZED = f.testBit 1 :=
  hasFlag_pow f 1

/-- From the label SELECT_TRANSITIONS on, a step leaves the flag Initialized as it is. -/
theorem selectTransitions_initialized (r : Run H) :
    hasFlag (selectTransitions cb r).2.eng.flags USCXML_CTX_INITIALIZED =
      hasFlag r.eng.flags USCXML_CTX_INITIALIZED := by
  have hsel : (selectionOf cb r).1.eng.flags.testBit 1 = r.eng.flags.testBit 1 := by
    unfold selectionOf
    rw [selectLoop_flags cb _ _ 1 (by decide)]
    simp only [Run.setFlags]
    rw [testBit_andNot]
    have h3 : USCXML_CTX_STABLE.testBit 1 = false := by decide
    simp [h3]
  rw [hasFlag_initialized, hasFlag_initialized]
  rcases Bool.eq_false_or_eq_true
    (hasFlag (selectionOf cb r).1.eng.flags USCXML_CTX_TRANSITION_FOUND) with h | h
  · rw [selectTransitions_found cb r h, microstep_flagBit cb _ _ _ _ 1 (by decide)]
    unfold beforeEntrySet
    simp only []
    rw [(rememberHistory_changes _ _).flags_eq rfl]
    simp only [callMonitor_eng, Run.setFlags]
    rw [testBit_andNot, Nat.testBit_lor, hsel]
    have h1 : USCXML_CTX_SPONTANEOUS.testBit 1 = false := by decide
    have h2 : USCXML_CTX_TRANSITION_FOUND.testBit 1 = false := by decide
    simp [h1, h2]
  · rw [selectTransitions_none cb r h]
    simp only [Run.setFlags]
    rw [testBit_andNot, hsel]
    have h1 : USCXML_CTX_SPONTANEOUS.testBit 1 = false := by decide
    simp [h1]

/-- A step never clears the flag Initialized. -/
theorem step_initialized_kept (b : Bool) (e : Engine) (h : H)
    (hf : hasFlag e.flags USCXML_CTX_INITIALIZED = true) :
    hasFlag (step cb b e h).2.eng.flags USCXML_CTX_INITIALIZED = true := by
  rcases step_cases cb b e h with h1 | h1 | h1 | h1 | h1 | h1 | h1 | h1 | h1
  · rw [h1.2]
    exact hf
  · rw [h1.2.2]
    exact hf
  · rw [h1.2.2.2, completeStep_flags, hasFlag_or, hf]
    rfl
  · rw [h1.2.2, hasFlag_initialized, microstep_flagBit cb _ _ _ _ 1 (by decide)]
    show (USCXML_CTX_SPONTANEOUS ||| USCXML_CTX_INITIALIZED).testBit 1 = true
    decide
  · rw [h1.2.2.2.2.2.2, selectTransitions_initialized]
    exact hf
  · obtain ⟨_, _, _, _, _, _, ev, _, hs⟩ := h1
    rw [hs, selectTransitions_initialized, callMonitor_eng,
      (callDequeueInternal_changes cb _).flags_eq rfl]
    exact hf
  · obtain ⟨_, ev, _, hs⟩ := h1
    rw [hs, selectTransitions_initialized, callMonitor_eng, atExternal_flags, hasFlag_or, hf]
    rfl
  · rw [h1.2.2.2]
    show hasFlag ((atExternal cb b e h).eng.flags ||| USCXML_CTX_TOP_LEVEL_FINAL) _ = true
    rw [atExternal_flags, hasFlag_or, hasFlag_or, hf]
    rfl
  · rw [h1.2.2.2, atExternal_flags, hasFlag_or, hf]
    rfl

/-- Actions other than `reset` never clear the flag Initialized. -/
theorem actions_initialized_kept (actions : List (Action H)) (p : Engine × H)
    (hn : ∀ a ∈ actions, a ≠ Action.reset)
    (hf : hasFlag p.1.flags USCXML_CTX_INITIALIZED = true) :
    hasFlag (actions.foldl (applyAction cb) p).1.flags USCXML_CTX_INITIALIZED = true := by
  induction actions generalizing p with
  | nil => exact hf
  | cons a rest ih =>
    simp only [List.foldl_cons]
    apply ih _ (fun x hx => hn x (List.mem_cons_of_mem _ hx))
    cases a with
    | step b => exact step_initialized_kept cb b p.1 p.2 hf
    | cancel => exact hf
    | reset => exact absurd rfl (hn _ (List.mem_cons_self _ _))
    | env g => exact hf

theorem not_pristine_of_initialized {f : Nat}
    (h : hasFlag f USCXML_CTX_INITIALIZED = true) : f ≠ USCXML_CTX_PRISTINE := by
  intro h0
  rw [h0] at h
  revert h
  decide

/-- An engine of a run is pristine with an empty configuration, or has the flag Initialized
set. -/
theorem run_pristine_or_initialized (scxml : Index) (h : H) (actions : List (Action H)) :
    ((run cb scxml h actions).1.flags = USCXML_CTX_PRISTINE ∧
      (run cb scxml h actions).1.configuration = 0) ∨
    hasFlag (run cb scxml h actions).1.flags USCXML_CTX_INITIALIZED = true := by
  unfold uscxml.run
  refine foldl_preserves
    (fun p : Engine × H => (p.1.flags = USCXML_CTX_PRISTINE ∧ p.1.configuration = 0) ∨
      hasFlag p.1.flags USCXML_CTX_INITIALIZED = true)
    (uscxml.applyAction cb) ?_ actions _ (Or.inl ⟨rfl, rfl⟩)
  intro p a hp
  cases a with
  | step b =>
    rcases hp with hp | hp
    · rcases Bool.eq_false_or_eq_true p.1.isInitialized with hi | hi
      · right
        show hasFlag (step cb b p.1 p.2).2.eng.flags USCXML_CTX_INITIALIZED = true
        rw [step_pristine cb b p.1 p.2 hi hp.1, hasFlag_initialized,
          microstep_flagBit cb _ _ _ _ 1 (by decide)]
        show (USCXML_CTX_SPONTANEOUS ||| USCXML_CTX_INITIALIZED).testBit 1 = true
        decide
      · left
        show (step cb b p.1 p.2).2.eng.flags = _ ∧ (step cb b p.1 p.2).2.eng.configuration = 0
        rw [step_uninitialized cb b p.1 p.2 hi]
        exact hp
    · exact Or.inr (step_initialized_kept cb b p.1 p.2 hp)
  | cancel => exact hp
  | reset => exact Or.inl ⟨rfl, rfl⟩
  | env g => exact hp

/-! ### The root in the entry set of the bootstrap -/

/-- In an index with `hierarchyConsistent` the root is an ancestor of every other state. -/
theorem hierarchy_root (idx : Index) (hh : hierarchyConsistent idx = true) (j : Nat)
    (hj : j < idx.states.length) (h0 : 0 < j) :
    BIT_HAS 0 (idx.states.getD j default).ancestors = true := by
  simp only [hierarchyConsistent, List.all_eq_true, List.mem_range, Bool.and_eq_true] at hh
  induction j using Nat.strong_induction_on with
  | _ j ih =>
    have hj0 : (j == 0) = false := by simpa using Nat.pos_iff_ne_zero.mp h0
    have h1 := (hh j hj).1
    simp only [hj0, Bool.false_eq_true, if_false, Bool.and_eq_true, decide_eq_true_eq,
      beq_iff_eq] at h1
    obtain ⟨hlt, hanc⟩ := h1
    rw [hanc, BIT_HAS_set]
    by_cases hp : (idx.states.getD j default).parent = 0
    · rw [hp]
      rfl
    · have := ih _ hlt (Nat.lt_trans hlt hj) (Nat.pos_of_ne_zero hp)
      rw [this, Bool.or_true]

/-- The loop for ancestors adds the ancestors of every state of the target set. -/
theorem addAncestors_fold_adds (e : Engine) (t : Bitset) (k j : Nat)
    (hk : k < e.states.length) (hkt : BIT_HAS k t = true)
    (hj : BIT_HAS j (USCXML_GET_STATE e k).ancestors = true) :
    BIT_HAS j ((List.range e.states.length).foldl (addAncestors e) t) = true := by
  refine foldl_establish (addAncestors e) (List.range e.states.length) k
    (fun x => BIT_HAS k x = true) (fun x => BIT_HAS j x = true) (List.mem_range.mpr hk)
    ?_ ?_ ?_ t hkt
  · intro x i hx
    exact addAncestors_keeps e x i k hx
  · intro x hx
    unfold addAncestors
    rw [if_pos hx]
    exact BIT_HAS_or_right _ hj
  · intro x i _ hq
    exact addAncestors_keeps e x i j hq

/-- The entry set holds the ancestors of the states of the target set, but for initial
pseudo-states. -/
theorem establishEntrySet_ancestors (e : Engine) (t x ts : Bitset) (k j : Nat)
    (hk : k < e.states.length) (hkt : BIT_HAS k t = true)
    (hj : BIT_HAS j (USCXML_GET_STATE e k).ancestors = true)
    (hty : USCXML_STATE_MASK (USCXML_GET_STATE e j).type ≠ USCXML_STATE_INITIAL) :
    BIT_HAS j (establishEntrySet e t x ts).1 = true := by
  unfold establishEntrySet
  exact foldl_preserves (fun q : Bitset × Bitset => BIT_HAS j q.1 = true) _
    (fun a b ha => addDescendants_keeps e x a b j hty ha) _ _
    (addAncestors_fold_adds e t k j hk hkt hj)

/-- The flags after the bootstrap step: Spontaneous and Initialized, and TopLevelFinal or
not. -/
theorem bootstrap_flags (t x ts : Bitset) (r : Run H)
    (hf : r.eng.flags = USCXML_CTX_SPONTANEOUS ||| USCXML_CTX_INITIALIZED) :
    (microstep cb t x ts r).2.eng.flags = USCXML_CTX_SPONTANEOUS ||| USCXML_CTX_INITIALIZED ∨
    (microstep cb t x ts r).2.eng.flags =
      USCXML_CTX_SPONTANEOUS ||| USCXML_CTX_INITIALIZED ||| USCXML_CTX_TOP_LEVEL_FINAL := by
  have hbits : ∀ k, k ≠ 2 → (microstep cb t x ts r).2.eng.flags.testBit k =
      (USCXML_CTX_SPONTANEOUS ||| USCXML_CTX_INITIALIZED).testBit k := by
    intro k hk
    rw [microstep_flagBit cb t x ts r k hk, hf]
  rcases Bool.eq_false_or_eq_true ((microstep cb t x ts r).2.eng.flags.testBit 2) with h2 | h2
  · right
    apply Nat.eq_of_testBit_eq
    intro k
    by_cases hk : k = 2
    · subst hk
      rw [h2]
      decide
    · rw [hbits k hk, Nat.testBit_lor (USCXML_CTX_SPONTANEOUS ||| USCXML_CTX_INITIALIZED)]
      have : USCXML_CTX_TOP_LEVEL_FINAL.testBit k = false := by
        rw [show USCXML_CTX_TOP_LEVEL_FINAL = 2 ^ 2 from rfl, Nat.testBit_two_pow]
        simp [Ne.symm hk]
      rw [this, Bool.or_false]
  · left
    apply Nat.eq_of_testBit_eq
    intro k
    by_cases hk : k = 2
    · subst hk
      rw [h2]
      decide
    · exact hbits k hk

end

section

variable {H : Type} (cb : MicroStepCallbacks H)

/-! ### A history state without default transition -/

theorem historyDefault_none (e : Engine) (i : Nat) (p : Bitset × Bitset)
    (hno : noTransitionFrom e i = true) : historyDefault e i p = p := by
  unfold historyDefault
  have hf : (List.range e.transitions.length).find?
      (fun j => (USCXML_GET_TRANS e j).source == i) = none := by
    rw [List.find?_eq_none]
    intro j hj
    simp only [noTransitionFrom, List.all_eq_true] at hno
    have := hno j hj
    simpa using this
  rw [hf]

/-- The iteration of the loop "iterate for descendants" for a history state with an empty
memory, an inactive parent and no default transition leaves both sets. -/
theorem addDescendants_no_default (e : Engine) (x : Bitset) (p : Bitset × Bitset) (i : Nat)
    (hty : isHistoryType (USCXML_GET_STATE e i).type = true)
    (hm : BIT_HAS_AND (USCXML_GET_STATE e i).completion e.history = false)
    (hp : BIT_HAS (USCXML_GET_STATE e i).parent e.configuration = false)
    (hno : noTransitionFrom e i = true) : addDescendants e x p i = p := by
  by_cases hi : BIT_HAS i p.1 = true
  · have hh : USCXML_STATE_MASK (USCXML_GET_STATE e i).type = USCXML_STATE_HISTORY_SHALLOW ∨
        USCXML_STATE_MASK (USCXML_GET_STATE e i).type = USCXML_STATE_HISTORY_DEEP := by
      simpa [isHistoryType] using hty
    unfold addDescendants
    rcases hh with hh | hh
    · simp only [hi, if_true, hh, hm, hp]
      exact historyDefault_none e i p hno
    · simp only [hi, if_true, hh, hm, hp]
      exact historyDefault_none e i p hno
  · unfold addDescendants
    rw [if_neg hi]

/-- A loop whose body does nothing for the index `i` runs as if it skipped `i`. -/
theorem foldl_skip {α : Type} (f : α → Nat → α) (i : Nat) (hf : ∀ a, f a i = a)
    (l : List Nat) (a : α) : l.foldl f a = (l.filter fun j => j != i).foldl f a := by
  induction l generalizing a with
  | nil => rfl
  | cons j l ih =>
    by_cases hj : j = i
    · subst hj
      simp [hf, ih]
    · have : (j != i) = true := by simpa using hj
      simp [List.filter_cons, this, ih]

/-- The engine on which ESTABLISH_ENTRYSET runs has the index and the configuration of the
engine of the step. -/
theorem entryEngine_static (b : Bool) (e : Engine) (h : H) :
    Static e (entryEngine cb b e h) ∧ (entryEngine cb b e h).configuration = e.configuration := by
  unfold entryEngine
  cases hr : selectionRun cb b e h with
  | some r =>
    have hch := selectionRun_changes cb b e h r hr
    exact ⟨hch.static.chain (beforeEntrySet_changes cb r).static,
      by rw [(beforeEntrySet_changes cb r).configuration_eq rfl, hch.configuration_eq rfl]⟩
  | none => exact ⟨⟨rfl, rfl, rfl, rfl, rfl⟩, rfl⟩

theorem entrySetOf_entryEngine (b : Bool) (e : Engine) (h : H) :
    ∃ t ts, entrySetOf cb b e h =
      (establishEntrySet (entryEngine cb b e h) t (exitedBy cb b e h) ts).1 := by
  unfold entrySetOf entryEngine exitedBy
  cases hr : selectionRun cb b e h with
  | some r => exact ⟨_, _, rfl⟩
  | none => exact ⟨_, _, rfl⟩

theorem noTransitionFrom_congr {e e0 : Engine} (hs : Static e e0) (i : Nat) :
    noTransitionFrom e0 i = noTransitionFrom e i := by
  unfold noTransitionFrom
  rw [hs.getTrans, hs.2.2.1]

end

section

/-! ### The flag HasHistory is never set -/

/-- The user data that `getHistoryCompletion` leaves on the element of a history state is
never the state of that element. -/
theorem historyUserData_other (isDescendant : Nat → Option Nat → Bool)
    (els : List ElementFacts) (i : Nat) : historyUserData isDescendant els i ≠ some i := by
  unfold historyUserData
  refine foldl_preserves (fun u : Option Nat => u ≠ some i) _ ?_ _ none (by simp)
  intro u j hu
  dsimp only
  split_ifs with h1 h2
  · exact hu
  · intro h
    have : j = i := by simpa using h
    rw [this] at h1
    simp at h1
  · exact hu

theorem hasHistoryChildData_other (isDescendant : Nat → Option Nat → Bool)
    (els : List ElementFacts) (i : Nat) :
    (hasHistoryChildData isDescendant els i == some i) = false := by
  unfold hasHistoryChildData
  split_ifs
  · have := historyUserData_other isDescendant els i
    simpa using this
  · rfl

/-- The type that `init` sets is one of the seven kinds, without the flag. -/
theorem stateType_kind (isDescendant : Nat → Option Nat → Bool) (els : List ElementFacts)
    (i : Nat) :
    stateType isDescendant els i =
      (if (els.getD i default).isInitialTag then USCXML_STATE_INITIAL
      else if (els.getD i default).isFinal then USCXML_STATE_FINAL
      else if (els.getD i default).isHistory then
        if (els.getD i default).deep then USCXML_STATE_HISTORY_DEEP
        else USCXML_STATE_HISTORY_SHALLOW
      else if (els.getD i default).isAtomic then USCXML_STATE_ATOMIC
      else if (els.getD i default).isParallel then USCXML_STATE_PARALLEL
      else USCXML_STATE_COMPOUND) := by
  unfold stateType
  simp only [hasHistoryChildData_other, Bool.false_eq_true, if_false, ite_self]

theorem stateType_flag (isDescendant : Nat → Option Nat → Bool) (els : List ElementFacts)
    (i : Nat) :
    hasFlag (stateType isDescendant els i) USCXML_STATE_HAS_HISTORY = false ∧
    USCXML_STATE_MASK (stateType isDescendant els i) = stateType isDescendant els i := by
  rw [stateType_kind]
  split_ifs <;> exact ⟨by decide, by decide⟩

end

section

/-! ### The loops of `resortStates` -/

theorem resortPass_fold (resort : DOMNode → DOMNode) (moves : DOMNode → Bool)
    (cs : List DOMNode) (p : List DOMNode × List DOMNode) :
    cs.foldl
      (fun (p : List DOMNode × List DOMNode) child =>
        if moves (resort child) then (resort child :: p.1, p.2)
        else (p.1, p.2 ++ [resort child])) p =
      (((cs.map resort).filter moves).reverse ++ p.1,
        p.2 ++ (cs.map resort).filter fun c => !moves c) := by
  induction cs generalizing p with
  | nil => simp
  | cons c cs ih =>
    rw [List.foldl_cons, ih]
    by_cases h : moves (resort c) = true
    · simp [h]
    · simp [h]

/-- A loop of `resortStates` leaves the resorted children that pass its test in front, in
the reverse of their order, and the other resorted children behind them in their order. -/
theorem resortPass_eq (resort : DOMNode → DOMNode) (moves : DOMNode → Bool)
    (cs : List DOMNode) :
    resortPass resort moves cs =
      ((cs.map resort).filter moves).reverse ++ (cs.map resort).filter fun c => !moves c := by
  unfold resortPass
  rw [resortPass_fold]
  simp

/-- A loop of `resortStates` permutes the resorted children. -/
theorem resortPass_perm (resort : DOMNode → DOMNode) (moves : DOMNode → Bool)
    (cs : List DOMNode) : (resortPass resort moves cs).Perm (cs.map resort) := by
  rw [resortPass_eq]
  refine (List.Perm.append_right _ (List.reverse_perm _)).trans ?_
  exact List.filter_append_perm moves (cs.map resort)

/-- An element without children is left as it is, whatever the depth allowed. -/
theorem resortStates_leaf (iequals : String → String → Bool) (xmlPrefix : String) (fuel : Nat)
    (tagName localName id : String) (type : Option String) :
    resortStates iequals xmlPrefix fuel (DOMNode.element tagName localName id type []) =
      DOMNode.element tagName localName id type [] := by
  cases fuel <;> rfl

/-- The state `stateDeepShallow` after `resortStates`, for every depth allowed. -/
theorem resortStates_stateDeepShallow (iequals : String → String → Bool) (k : Nat) :
    resortStates iequals "" (k + 1) stateDeepShallow =
      DOMNode.element "state" "state" "s" none
        [ DOMNode.element "history" "history" "hs" (some "shallow") [],
          DOMNode.element "history" "history" "hd" (some "deep") [],
          DOMNode.element "state" "state" "c" none [] ] := by
  unfold stateDeepShallow
  rw [resortStates]
  simp only [resortPass_eq, List.map, resortStates_leaf]
  rfl

/-- Three runs of `resortStates` on the state `stateDeepShallow`, as the three loops over
the children of its parent make them, leave what one run leaves. -/
theorem resortStates_thrice (iequals : String → String → Bool) (k : Nat) :
    resortStates iequals "" (k + 1) (resortStates iequals "" (k + 1)
      (resortStates iequals "" (k + 1) stateDeepShallow)) =
      resortStates iequals "" (k + 1) stateDeepShallow := by
  rw [resortStates_stateDeepShallow]
  rw [resortStates]
  simp only [resortPass_eq, List.map, resortStates_leaf]
  rw [resortStates]
  simp only [resortPass_eq, List.map, resortStates_leaf]
  rfl

/-- The state `stateTwoHistories` after `resortStates`: the children in the order `h1`,
`h2`, `c1`, in which `docTwoHistories` lists them. -/
theorem resortStates_stateTwoHistories (iequals : String → String → Bool) (k : Nat) :
    childIds (resortStates iequals "" (k + 1) stateTwoHistories) = ["h1", "h2", "c1"] := by
  unfold stateTwoHistories
  rw [resortStates]
  simp only [resortPass_eq, List.map, resortStates_leaf]
  rfl

end

section

variable {H : Type} (cb : MicroStepCallbacks H)

/-! ### Entering through a deep history state -/

/-- What `deepHistory` says, member by member. -/
theorem deepHistory_facts {e : Engine} {C h c2 x2 : Nat}
    (hc : deepHistory e C h c2 x2 = true) :
    h < e.states.length ∧ c2 < e.states.length ∧ x2 < e.states.length ∧
    C < e.states.length ∧
    (USCXML_GET_STATE e h).type = USCXML_STATE_HISTORY_DEEP ∧
    (USCXML_GET_STATE e h).parent = C ∧
    BIT_HAS C (USCXML_GET_STATE e h).ancestors = true ∧
    BIT_HAS c2 (USCXML_GET_STATE e h).completion = true ∧
    BIT_HAS x2 (USCXML_GET_STATE e h).completion = true ∧
    USCXML_STATE_MASK (USCXML_GET_STATE e c2).type = USCXML_STATE_COMPOUND ∧
    BIT_HAS x2 (USCXML_GET_STATE e c2).children = true ∧
    USCXML_STATE_MASK (USCXML_GET_STATE e x2).type = USCXML_STATE_ATOMIC ∧
    (∀ i, i < e.states.length → BIT_HAS i (USCXML_GET_STATE e h).ancestors = true →
      USCXML_STATE_MASK (USCXML_GET_STATE e i).type = USCXML_STATE_COMPOUND ∧
      BIT_HAS h (USCXML_GET_STATE e i).children = true ∧
      ∀ j, BIT_HAS j (USCXML_GET_STATE e i).ancestors = true →
        BIT_HAS j (USCXML_GET_STATE e h).ancestors = true) ∧
    BIT_HAS_AND (USCXML_GET_STATE e h).completion (USCXML_GET_STATE e h).ancestors = false := by
  simp only [deepHistory, Bool.and_eq_true, decide_eq_true_eq, beq_iff_eq,
    List.all_eq_true, List.mem_range, Bool.or_eq_true, Bool.not_eq_true'] at hc
  obtain ⟨⟨⟨⟨⟨⟨⟨⟨⟨⟨⟨⟨⟨h1, h2⟩, h3⟩, h4⟩, h5⟩, h6⟩, h7⟩, h8⟩, h9⟩, h10⟩, h11⟩, h12⟩, h13⟩, h14⟩ :=
    hc
  refine ⟨h1, h2, h3, h4, h5, h6, h7, h8, h9, h10, h11, h12, ?_, h13⟩
  intro i hi hia
  rcases h14 i hi with q | q
  · rw [hia] at q
    cases q
  · exact ⟨q.1.1, q.1.2, fun j hj => subset_of_and_eq q.2 j hj⟩

theorem deepHistory_congr {e e0 : Engine} (hs : Static e e0) (C h c2 x2 : Nat) :
    deepHistory e0 C h c2 x2 = deepHistory e C h c2 x2 := by
  unfold deepHistory
  rw [hs.getState, hs.2.1]

theorem mask_of_deep {t : Nat} (h : t = USCXML_STATE_HISTORY_DEEP) :
    USCXML_STATE_MASK t = USCXML_STATE_HISTORY_DEEP := by
  rw [h]
  decide

theorem isHistoryType_of_deep {t : Nat} (h : t = USCXML_STATE_HISTORY_DEEP) :
    isHistoryType t = true := by
  rw [h]
  decide

theorem isPseudoType_of_deep {t : Nat} (h : t = USCXML_STATE_HISTORY_DEEP) :
    isPseudoType t = true := by
  rw [h]
  decide

/-- A deep history state, of the type that `init` sets, with a remembered configuration or
an active parent: the remembered states of its completion are added. -/
theorem addDescendants_deep (e : Engine) (x : Bitset) (p : Bitset × Bitset) (i : Nat)
    (h : (USCXML_GET_STATE e i).type = USCXML_STATE_HISTORY_DEEP)
    (hi : BIT_HAS i p.1 = true)
    (hm : BIT_HAS_AND (USCXML_GET_STATE e i).completion e.history = true ∨
      BIT_HAS (USCXML_GET_STATE e i).parent e.configuration = true) :
    addDescendants e x p i =
      (p.1 ||| ((USCXML_GET_STATE e i).completion &&& e.history), p.2) := by
  have hty : (USCXML_GET_STATE e i).type ≠
      (USCXML_STATE_HAS_HISTORY ||| USCXML_STATE_HISTORY_DEEP) := by
    rw [h]
    decide
  unfold addDescendants
  simp only [hi, if_true, mask_of_deep h]
  unfold historyRestore
  rcases hm with hm | hm <;> simp [hm, hty] <;> rfl

/-- The entry set for the single target `h`, a deep history state with compound ancestors,
when the memory of `h` holds exactly the compound `c2` and the atomic state `x2` below it:
`h`, its ancestors, `c2` and `x2`. -/
theorem entrySet_deep (e : Engine) (X ts : Bitset) (C h c2 x2 : Nat)
    (hc : deepHistory e C h c2 x2 = true)
    (hm : (USCXML_GET_STATE e h).completion &&& e.history = 1 <<< c2 ||| 1 <<< x2) :
    establishEntrySet e (1 <<< h) X ts =
      (1 <<< h ||| (USCXML_GET_STATE e h).ancestors ||| (1 <<< c2 ||| 1 <<< x2), ts) := by
  obtain ⟨hh, _, _, _, hty, _, _, _, _, htc, hxc, htx, hanc, _⟩ := deepHistory_facts hc
  have hb1 : ∀ i, BIT_HAS i (1 <<< h ||| (USCXML_GET_STATE e h).ancestors) =
      (decide (h = i) || BIT_HAS i (USCXML_GET_STATE e h).ancestors) := by
    intro i
    rw [BIT_HAS_or, BIT_HAS_one_shiftLeft]
  have hb2 : ∀ i, BIT_HAS i (1 <<< h ||| (USCXML_GET_STATE e h).ancestors |||
        (1 <<< c2 ||| 1 <<< x2)) =
      (decide (h = i) || BIT_HAS i (USCXML_GET_STATE e h).ancestors ||
        (decide (c2 = i) || decide (x2 = i))) := by
    intro i
    rw [BIT_HAS_or, hb1, BIT_HAS_or, BIT_HAS_one_shiftLeft, BIT_HAS_one_shiftLeft]
  have hmem : BIT_HAS_AND (USCXML_GET_STATE e h).completion e.history = true := by
    unfold BIT_HAS_AND
    rw [hm, bne_iff_ne]
    intro h0
    have : BIT_HAS c2 (1 <<< c2 ||| 1 <<< x2) = true := by
      rw [BIT_HAS_or, BIT_HAS_one_shiftLeft]
      simp
    rw [h0, BIT_HAS_zero] at this
    cases this
  refine establishEntrySet_single e X ts h hh _ ?_ ?_ ?_ ?_
  · intro i hi hin j hj
    rw [hb1] at hin ⊢
    simp only [Bool.or_eq_true, decide_eq_true_eq] at hin ⊢
    rcases hin with hin | hin
    · subst hin
      exact Or.inr hj
    · exact Or.inr ((hanc i hi hin).2.2 j hj)
  · intro i hi hih
    rcases Bool.eq_false_or_eq_true (BIT_HAS i (USCXML_GET_STATE e h).ancestors) with hia | hia
    · apply addDescendants_compound_skip e X _ i (hanc i hi hia).1
      rw [BIT_HAS_AND_iff]
      exact ⟨h, by rw [hb1]; simp, (hanc i hi hia).2.1⟩
    · apply addDescendants_absent
      show BIT_HAS i (1 <<< h ||| (USCXML_GET_STATE e h).ancestors) = false
      rw [hb1, hia]
      simp [Ne.symm hih]
  · rw [addDescendants_deep e X _ h hty (by rw [hb1]; simp) (Or.inl hmem), hm]
  · intro i hi
    by_cases hix : i = x2
    · subst hix
      exact addDescendants_atomic e X _ i htx
    · by_cases hic : i = c2
      · subst hic
        apply addDescendants_compound_skip e X _ i htc
        rw [BIT_HAS_AND_iff]
        exact ⟨x2, by rw [hb2]; simp, hxc⟩
      · by_cases hih : i = h
        · subst hih
          rw [addDescendants_deep e X _ i hty (by rw [hb2]; simp) (Or.inl hmem), hm]
          congr 1
          apply or_absorb
          intro j hj
          rw [BIT_HAS_or, hj]
          simp
        · rcases Bool.eq_false_or_eq_true (BIT_HAS i (USCXML_GET_STATE e h).ancestors) with
            hia | hia
          · apply addDescendants_compound_skip e X _ i (hanc i hi hia).1
            rw [BIT_HAS_AND_iff]
            exact ⟨h, by rw [hb2]; simp, (hanc i hi hia).2.1⟩
          · apply addDescendants_absent
            show BIT_HAS i (1 <<< h ||| (USCXML_GET_STATE e h).ancestors |||
              (1 <<< c2 ||| 1 <<< x2)) = false
            rw [hb2, hia]
            simp [Ne.symm hih, Ne.symm hic, Ne.symm hix]

/-- A micro-step whose only target is such a history state: afterwards a state is active
when it was active and is not exited, or is `c2`, `x2` or an ancestor of `h`. -/
theorem microstep_deep (X ts : Bitset) (r : Run H) (C h c2 x2 : Nat)
    (hc : deepHistory r.eng C h c2 x2 = true)
    (hm : (USCXML_GET_STATE r.eng h).completion &&& r.eng.history = 1 <<< c2 ||| 1 <<< x2)
    (j : Nat) :
    BIT_HAS j (microstep cb (1 <<< h) X ts r).2.eng.configuration =
      ((BIT_HAS j r.eng.configuration && !(decide (j < r.eng.states.length) && BIT_HAS j X)) ||
        (decide (j < r.eng.states.length) &&
          (decide (j = c2) || decide (j = x2) ||
            BIT_HAS j (USCXML_GET_STATE r.eng h).ancestors))) := by
  have hes := entrySet_deep r.eng X ts C h c2 x2 hc hm
  obtain ⟨hh, hc2, hx2, _, hty, _, _, _, _, htc, _, htx, hanc, _⟩ := deepHistory_facts hc
  have hb2 : ∀ i, BIT_HAS i (1 <<< h ||| (USCXML_GET_STATE r.eng h).ancestors |||
        (1 <<< c2 ||| 1 <<< x2)) =
      (decide (h = i) || BIT_HAS i (USCXML_GET_STATE r.eng h).ancestors ||
        (decide (c2 = i) || decide (x2 = i))) := by
    intro i
    rw [BIT_HAS_or, BIT_HAS_or, BIT_HAS_or, BIT_HAS_one_shiftLeft, BIT_HAS_one_shiftLeft,
      BIT_HAS_one_shiftLeft]
  rw [microstep_configuration, hes, hb2]
  by_cases hjn : j < r.eng.states.length
  · by_cases hjc : j = c2
    · subst hjc
      simp [USCXML_NUMBER_STATES, hjn, isPseudoType_of_compound htc]
    · by_cases hjx : j = x2
      · subst hjx
        simp [USCXML_NUMBER_STATES, hjn, isPseudoType_of_atomic htx]
      · rcases Bool.eq_false_or_eq_true (BIT_HAS j (USCXML_GET_STATE r.eng h).ancestors) with
          hja | hja
        · simp [USCXML_NUMBER_STATES, hjn, hja, isPseudoType_of_compound (hanc j hjn hja).1]
        · by_cases hjh : j = h
          · subst hjh
            simp [USCXML_NUMBER_STATES, hjn, hja, hjc, hjx, isPseudoType_of_deep hty]
          · simp [USCXML_NUMBER_STATES, hjn, hja, hjc, hjx, hjh, Ne.symm hjh, Ne.symm hjc,
              Ne.symm hjx]
  · simp [USCXML_NUMBER_STATES, hjn]

/-- A step that takes exactly one transition, whose target is the deep history state `h`,
with an exit set that has `memoryKept` for the completion of `h`, when the memory of `h`
holds exactly `c2` and `x2`. -/
theorem step_restores_deep (b : Bool) (e : Engine) (g : H) (r : Run H) (t C h c2 x2 : Nat)
    (hc : deepHistory e C h c2 x2 = true)
    (hr : selectionRun cb b e g = some r) (ht : t < e.transitions.length)
    (hone : (selectionOf cb r).2.transSet = 1 <<< t)
    (htarget : (USCXML_GET_TRANS e t).target = 1 <<< h)
    (hk : memoryKept e (exitSetOf cb r) (USCXML_GET_STATE e h).completion = true)
    (hm : (USCXML_GET_STATE e h).completion &&& e.history = 1 <<< c2 ||| 1 <<< x2) :
    (step cb b e g).1 = InterpreterState.USCXML_MICROSTEPPED ∧
    (establishEntrySet (beforeEntrySet cb r).eng (1 <<< h) (exitSetOf cb r) (1 <<< t)).1 =
      1 <<< h ||| (USCXML_GET_STATE e h).ancestors ||| (1 <<< c2 ||| 1 <<< x2) ∧
    (USCXML_GET_STATE e h).completion &&& (beforeEntrySet cb r).eng.history =
      1 <<< c2 ||| 1 <<< x2 ∧
    ∀ j, BIT_HAS j (step cb b e g).2.eng.configuration =
      ((BIT_HAS j e.configuration &&
          !(decide (j < e.states.length) && BIT_HAS j (exitSetOf cb r))) ||
        (decide (j < e.states.length) &&
          (decide (j = c2) || decide (j = x2) ||
            BIT_HAS j (USCXML_GET_STATE e h).ancestors))) := by
  have hch := selectionRun_changes cb b e g r hr
  have hs1 : Static e r.eng := hch.static
  have ht2 : t < r.eng.transitions.length := by rw [hs1.2.2.1]; exact ht
  obtain ⟨htg, hf⟩ := selection_one_target cb r t ht2 hone
  have hstep : step cb b e g =
      microstep cb (1 <<< h) (exitSetOf cb r) (1 <<< t) (beforeEntrySet cb r) := by
    rw [selectionRun_step cb b e g r hr, selectTransitions_found cb r hf, htg, hone,
      hs1.getTrans, htarget]
  obtain ⟨e0, h0, h1⟩ := beforeEntrySet_remembers cb r
  have hs0 : Static e e0 := hs1.chain h0.static
  have hsb : Static e (beforeEntrySet cb r).eng := by
    rw [h1]
    exact hs0.chain (rememberHistory_changes _ _).static
  have hmem : (USCXML_GET_STATE e h).completion &&& (beforeEntrySet cb r).eng.history =
      1 <<< c2 ||| 1 <<< x2 := by
    rw [h1, rememberHistory_keeps _ _ e0 (by rw [memoryKept_congr hs0]; exact hk),
      h0.history_eq rfl, hch.history_eq rfl, hm]
  have hcfg : (beforeEntrySet cb r).eng.configuration = e.configuration := by
    rw [h1, (rememberHistory_changes _ _).configuration_eq rfl, h0.configuration_eq rfl,
      hch.configuration_eq rfl]
  have hcb : deepHistory (beforeEntrySet cb r).eng C h c2 x2 = true := by
    rw [deepHistory_congr hsb]
    exact hc
  have hmb : (USCXML_GET_STATE (beforeEntrySet cb r).eng h).completion &&&
      (beforeEntrySet cb r).eng.history = 1 <<< c2 ||| 1 <<< x2 := by
    rw [hsb.getState]
    exact hmem
  refine ⟨by rw [hstep]; rfl, ?_, hmem, ?_⟩
  · rw [entrySet_deep _ _ _ C h c2 x2 hcb hmb, hsb.getState]
  · intro j
    rw [hstep, microstep_deep cb _ _ _ C h c2 x2 hcb hmb j, hcfg, hsb.2.1, hsb.getState]

end

/-! ## The claims C21 to C30 -/

/-- Claim C22. Let a step go through transition selection (on the null event, or on an
event taken from the internal or the external queue), `r` being its run at the label
SELECT_TRANSITIONS, and let the selection take no transition, TransitionFound being clear
as it is between the steps of every run. Then the step returns Macrostepped with Spontaneous
clear; the engine it leaves is the one at the label with Stable and Spontaneous cleared, so
configuration, history, initializedData and invocations are those before the selection, the
first three also those before the step; and the calls after the label are calls of
`isMatched` and `isTrue` only. -/
theorem C22_no_transition_enabled {H : Type} (cb : MicroStepCallbacks H) (b : Bool)
    (e : Engine) (g : H) (r : Run H) (hr : selectionRun cb b e g = some r)
    (hfound : hasFlag e.flags USCXML_CTX_TRANSITION_FOUND = false)
    (hnone : selectedBy cb b e g = 0) :
    (step cb b e g).1 = InterpreterState.USCXML_MACROSTEPPED ∧
    hasFlag (step cb b e g).2.eng.flags USCXML_CTX_SPONTANEOUS = false ∧
    (step cb b e g).2.eng = { r.eng with flags := flagsNone r.eng.flags } ∧
    (step cb b e g).2.eng.configuration = r.eng.configuration ∧
    (step cb b e g).2.eng.history = r.eng.history ∧
    (step cb b e g).2.eng.initializedData = r.eng.initializedData ∧
    (step cb b e g).2.eng.invocations = r.eng.invocations ∧
    (step cb b e g).2.eng.configuration = e.configuration ∧
    (step cb b e g).2.eng.history = e.history ∧
    (step cb b e g).2.eng.initializedData = e.initializedData ∧
    (∃ t, (step cb b e g).2.trace = r.trace ++ t ∧
      ∀ c ∈ t, isSelectCall r.eng.event c = true) ∧
    ∀ (scxml : Index) (h : H) (actions : List (Action H)),
      hasFlag (run cb scxml h actions).1.flags USCXML_CTX_TRANSITION_FOUND = false := by
  have hf : hasFlag r.eng.flags USCXML_CTX_TRANSITION_FOUND = false := by
    rw [selectionRun_found cb b e g r hr]
    exact hfound
  have h0 : (selectionOf cb r).2.transSet = 0 := by
    unfold selectedBy at hnone
    rw [hr] at hnone
    exact hnone
  have hch := selectionRun_changes cb b e g r hr
  obtain ⟨h1, h2⟩ := selectTransitions_nothing cb r hf h0
  have htr := selectTransitions_nothing_trace cb r hf h0
  rw [← selectionRun_step cb b e g r hr] at h1 h2 htr
  refine ⟨h1, ?_, h2, ?_, ?_, ?_, ?_, ?_, ?_, ?_, htr, fun scxml h actions =>
    run_found_clear cb scxml h actions⟩
  · rw [h2]
    show hasFlag (bitAndNot (bitAndNot r.eng.flags USCXML_CTX_STABLE) USCXML_CTX_SPONTANEOUS)
      USCXML_CTX_SPONTANEOUS = false
    rw [hasFlag_spontaneous, testBit_andNot]
    have : USCXML_CTX_SPONTANEOUS.testBit 0 = true := by decide
    simp [this]
  · rw [h2]
  · rw [h2]
  · rw [h2]
  · rw [h2]
  · rw [h2]
    exact hch.configuration_eq rfl
  · rw [h2]
    exact hch.history_eq rfl
  · rw [h2]
    exact hch.initializedData_eq rfl

set_option maxRecDepth 100000 in
/-- Witness for C22: the toggle chart at rest in `scxml`, `a` with the event `x` in the
external queue, which no transition matches. -/
theorem C22_no_transition_enabled_witness :
    selectedBy queueCallbacks false toggleEngine ⟨[], ["x"]⟩ = 0 ∧
    (step queueCallbacks false toggleEngine ⟨[], ["x"]⟩).1 =
      InterpreterState.USCXML_MACROSTEPPED ∧
    (step queueCallbacks false toggleEngine ⟨[], ["x"]⟩).2.eng.configuration =
      toggleEngine.configuration ∧
    (step queueCallbacks false toggleEngine ⟨[], ["x"]⟩).2.host = ⟨[], []⟩ :=
  ⟨by decide,
    (C22_no_transition_enabled queueCallbacks false toggleEngine ⟨[], ["x"]⟩ _ rfl (by decide)
      (by decide)).1,
    (C22_no_transition_enabled queueCallbacks false toggleEngine ⟨[], ["x"]⟩ _ rfl (by decide)
      (by decide)).2.2.2.2.2.2.2.1,
    by decide⟩

/-- Claim C29. The terminal step (the engine is initialised, TopLevelFinal is set and
Finished is clear) returns Finished and changes only invocations and the flags, to which it
adds Finished: configuration, history and initializedData are what they were, and
`getConfiguration` and `isInState` answer after the step as before it. -/
theorem C29_terminal_step_frame {H : Type} (cb : MicroStepCallbacks H) (b : Bool)
    (e : Engine) (g : H) (stateIds : String → Option Nat)
    (hi : e.isInitialized = true)
    (hf : hasFlag e.flags USCXML_CTX_FINISHED = false)
    (ht : hasFlag e.flags USCXML_CTX_TOP_LEVEL_FINAL = true) :
    (step cb b e g).1 = InterpreterState.USCXML_FINISHED ∧
    Changes terminalFields e (step cb b e g).2.eng ∧
    (step cb b e g).2.eng.flags = e.flags ||| USCXML_CTX_FINISHED ∧
    (step cb b e g).2.eng.configuration = e.configuration ∧
    (step cb b e g).2.eng.history = e.history ∧
    (step cb b e g).2.eng.initializedData = e.initializedData ∧
    getConfiguration (step cb b e g).2.eng = getConfiguration e ∧
    ∀ s, isInState stateIds (step cb b e g).2.eng s = isInState stateIds e s := by
  rw [step_topLevelFinal cb b e g hi hf ht]
  have hc := completeStep_changes cb { eng := e, host := g, trace := [] }
  refine ⟨rfl, hc, completeStep_flags cb _, hc.configuration_eq rfl, hc.history_eq rfl,
    hc.initializedData_eq rfl, ?_, fun s => ?_⟩
  · exact getConfiguration_congr hc.static.2.1 (hc.configuration_eq rfl)
  · exact isInState_congr stateIds (hc.configuration_eq rfl) s

set_option maxRecDepth 100000 in
/-- Witness for C29: the chart with a top-level final state `f` after `init` and the
bootstrap step; the terminal step leaves `scxml` and `f` in the configuration. -/
theorem C29_terminal_step_frame_witness :
    hasFlag (afterSteps chartTopFinal [] 2).1.flags USCXML_CTX_TOP_LEVEL_FINAL = true ∧
    (step queueCallbacks false (afterSteps chartTopFinal [] 2).1 ⟨[], []⟩).1 =
      InterpreterState.USCXML_FINISHED ∧
    getConfiguration (step queueCallbacks false (afterSteps chartTopFinal [] 2).1
      ⟨[], []⟩).2.eng = getConfiguration (afterSteps chartTopFinal [] 2).1 ∧
    getConfiguration (afterSteps chartTopFinal [] 2).1 = [0, 1] :=
  ⟨by decide,
    (C29_terminal_step_frame queueCallbacks false (afterSteps chartTopFinal [] 2).1 ⟨[], []⟩
      (fun _ => none) (by decide) (by decide) (by decide)).1,
    (C29_terminal_step_frame queueCallbacks false (afterSteps chartTopFinal [] 2).1 ⟨[], []⟩
      (fun _ => none) (by decide) (by decide) (by decide)).2.2.2.2.2.2.1,
    by decide⟩

/-- Claim C23. For every step that returns Microstepped: (1) the exit set of the step holds
the active states that are in the exit set of a transition taken; (2) a state is in the new
configuration exactly if it was active and is not in the exit set, or is a state of the
entry set whose type is none of HistoryShallow, HistoryDeep and Initial; (3) when every bit
of the old configuration is a state index, as in every run, the new configuration is the old
one minus the union of the exit sets of the transitions taken, united with the proper states
of the entry set; (4) a state in neither set keeps its membership; (5) for a state that is
active and not exited the step makes no entry call: no monitor hook around its entry, no
`initData`, no `onEntry` block, no content of a history or initial transition below it and
no done event. -/
theorem C23_microstep_configuration {H : Type} (cb : MicroStepCallbacks H) (b : Bool)
    (e : Engine) (g : H)
    (hres : (step cb b e g).1 = InterpreterState.USCXML_MICROSTEPPED) :
    (∀ j, BIT_HAS j (exitedBy cb b e g) =
      (BIT_HAS j e.configuration && exitedByTaken e (selectedBy cb b e g) j)) ∧
    (∀ j, BIT_HAS j (step cb b e g).2.eng.configuration =
      ((BIT_HAS j e.configuration &&
          !(decide (j < e.states.length) && BIT_HAS j (exitedBy cb b e g))) ||
        (decide (j < e.states.length) && BIT_HAS j (entrySetOf cb b e g) &&
          !isPseudoType (USCXML_GET_STATE e j).type))) ∧
    (InRange e → ∀ j, BIT_HAS j (step cb b e g).2.eng.configuration =
      ((BIT_HAS j e.configuration && !exitedByTaken e (selectedBy cb b e g) j) ||
        (decide (j < e.states.length) && BIT_HAS j (entrySetOf cb b e g) &&
          !isPseudoType (USCXML_GET_STATE e j).type))) ∧
    (∀ j, BIT_HAS j (exitedBy cb b e g) = false → BIT_HAS j (entrySetOf cb b e g) = false →
      BIT_HAS j (step cb b e g).2.eng.configuration = BIT_HAS j e.configuration) ∧
    (∀ i, BIT_HAS i e.configuration = true →
      (decide (i < e.states.length) && BIT_HAS i (exitedBy cb b e g)) = false →
      (step cb b e g).2.trace.filter (isEntryOf i) = []) := by
  obtain ⟨t, ts, r, hstep, hes, hst, hcfg, hpre⟩ := step_microstep_sets cb b e g hres
  have hn : USCXML_NUMBER_STATES r.eng = e.states.length := by
    unfold USCXML_NUMBER_STATES
    rw [hst.2.1]
  have hbit : ∀ j, BIT_HAS j (step cb b e g).2.eng.configuration =
      ((BIT_HAS j e.configuration &&
          !(decide (j < e.states.length) && BIT_HAS j (exitedBy cb b e g))) ||
        (decide (j < e.states.length) && BIT_HAS j (entrySetOf cb b e g) &&
          !isPseudoType (USCXML_GET_STATE e j).type)) := by
    intro j
    rw [hstep, microstep_configuration, hes, hcfg, hn, hst.getState]
  refine ⟨exitedBy_bit cb b e g, hbit, ?_, ?_, ?_⟩
  · intro hr j
    rw [hbit j, exitedBy_bit]
    rcases Bool.eq_false_or_eq_true (BIT_HAS j e.configuration) with hj | hj
    · have hjn : j < e.states.length := hr.2.1 j hj
      simp [hj, hjn]
    · simp [hj]
  · intro j hx hen
    rw [hbit j, hx, hen]
    simp
  · intro i hi hx
    rw [hstep, microstep_not_reentered cb t _ ts r i (by rw [hcfg, hn, hi, hx]; rfl)]
    rw [List.filter_eq_nil_iff]
    intro c hc
    rw [isEntryOf_of_prelude (hpre c hc)]
    simp

set_option maxRecDepth 100000 in
/-- Witness for C23: the toggle chart in `scxml`, `a` takes the transition on `t`: `a` is
exited, `b` is entered, and the root, active and in the entry set, is not entered again. -/
theorem C23_microstep_configuration_witness :
    (step queueCallbacks false (engineAfter chartToggle ["t"] 3 2) ⟨[], ["t"]⟩).1 =
      InterpreterState.USCXML_MICROSTEPPED ∧
    exitedBy queueCallbacks false (engineAfter chartToggle ["t"] 3 2) ⟨[], ["t"]⟩ = 0b010 ∧
    entrySetOf queueCallbacks false (engineAfter chartToggle ["t"] 3 2) ⟨[], ["t"]⟩ = 0b101 ∧
    (step queueCallbacks false (engineAfter chartToggle ["t"] 3 2)
      ⟨[], ["t"]⟩).2.trace.filter (isEntryOf 0) = [] :=
  ⟨by decide, by decide, by decide,
    (C23_microstep_configuration queueCallbacks false (engineAfter chartToggle ["t"] 3 2)
      ⟨[], ["t"]⟩ (by decide)).2.2.2.2 0 (by decide) (by decide)⟩

/-- Claim C26. Let the engine `e` and the host `g` be reached from an engine and host `p0`
by any sequence of actions, and let a step from there return Microstepped. Then: (1) the
step reports an issue at most once, and only the one with the message of line 905; (2) it
reports it exactly if the configuration it leaves is among those seen when line 902 is
reached, which are the ones in `_microstepConfigurations` at the start of the step, or none
when the step has called `onStableConfiguration`; (3) when nothing was recorded in `p0`, as
in a freshly constructed engine, those are the configurations produced by the earlier
micro-steps since the last call of `onStableConfiguration` (`producedSince`); (4) in both
cases the configuration is recorded with the ones seen; (5) the lines 902-910 change no
member of the engine but `_microstepConfigurations`. -/
theorem C26_cycle_report {H : Type} (cb : MicroStepCallbacks H) (p0 : Engine × H)
    (actions : List (Action H)) (e : Engine) (g : H) (b : Bool)
    (hp : actions.foldl (applyAction cb) p0 = (e, g))
    (hres : (step cb b e g).1 = InterpreterState.USCXML_MICROSTEPPED) :
    (step cb b e g).2.trace.filter isIssueReport =
      (if (seenAt cb b e g e.microstepConfigurations).contains
          (step cb b e g).2.eng.configuration
        then [Call.monitor (MonitorHook.reportIssue cycleMessage)] else []) ∧
    (Call.monitor (MonitorHook.reportIssue cycleMessage) ∈ (step cb b e g).2.trace ↔
      (step cb b e g).2.eng.configuration ∈ seenAt cb b e g e.microstepConfigurations) ∧
    (p0.1.microstepConfigurations = [] →
      (Call.monitor (MonitorHook.reportIssue cycleMessage) ∈ (step cb b e g).2.trace ↔
        (step cb b e g).2.eng.configuration ∈
          seenAt cb b e g (producedSince cb [] p0 actions))) ∧
    (∀ c, c ∈ (step cb b e g).2.eng.microstepConfigurations ↔
      c = (step cb b e g).2.eng.configuration ∨
        c ∈ seenAt cb b e g e.microstepConfigurations) ∧
    (∀ r : Run H, Changes seenFields r.eng (recordConfiguration cb r).eng ∧
      r.eng.configuration ∈ (recordConfiguration cb r).eng.microstepConfigurations) := by
  obtain ⟨h1, h2⟩ := step_seen cb b e g hres
  have hiff : Call.monitor (MonitorHook.reportIssue cycleMessage) ∈ (step cb b e g).2.trace ↔
      (step cb b e g).2.eng.configuration ∈ seenAt cb b e g e.microstepConfigurations := by
    constructor
    · intro hm
      have hm2 : Call.monitor (MonitorHook.reportIssue cycleMessage) ∈
          (step cb b e g).2.trace.filter isIssueReport := List.mem_filter.mpr ⟨hm, rfl⟩
      rw [h2] at hm2
      split_ifs at hm2 with hc
      · simpa using hc
      · cases hm2
    · intro hm
      have hc : (seenAt cb b e g e.microstepConfigurations).contains
          (step cb b e g).2.eng.configuration = true := by simpa using hm
      have hm2 : Call.monitor (MonitorHook.reportIssue cycleMessage) ∈
          (step cb b e g).2.trace.filter isIssueReport := by
        rw [h2, if_pos hc]
        exact List.mem_singleton.mpr rfl
      exact (List.mem_filter.mp hm2).1
  refine ⟨h2, hiff, ?_, h1, fun r => ⟨recordConfiguration_frame cb r, ?_⟩⟩
  · intro h0
    rw [hiff]
    apply seenAt_members
    intro c
    have := producedSince_members cb actions p0 [] (by rw [h0]; exact fun _ => Iff.rfl) c
    rw [hp] at this
    exact this
  · exact (recordConfiguration_seen cb r _).mpr (Or.inl rfl)

set_option maxRecDepth 100000 in
/-- Witness for C26: the toggle chart, `init`, the bootstrap step, `reset` and the bootstrap
step again, which produces the configuration `scxml`, `a` of the first one with no stable
point in between. -/
theorem C26_cycle_report_witness :
    producedSince queueCallbacks [] (construct chartToggle, (⟨[], []⟩ : QueueHost))
      [Action.step false, Action.step false, Action.reset] = [0b011] ∧
    (step queueCallbacks false
      (run queueCallbacks chartToggle ⟨[], []⟩
        [Action.step false, Action.step false, Action.reset]).1 ⟨[], []⟩).2.eng.configuration =
      0b011 ∧
    Call.monitor (MonitorHook.reportIssue cycleMessage) ∈
      (step queueCallbacks false
        (run queueCallbacks chartToggle ⟨[], []⟩
          [Action.step false, Action.step false, Action.reset]).1 ⟨[], []⟩).2.trace :=
  ⟨by decide, by decide,
    ((C26_cycle_report queueCallbacks (construct chartToggle, ⟨[], []⟩)
      [Action.step false, Action.step false, Action.reset] _ _ false rfl
      (by decide)).2.2.1 rfl).mpr (by decide)⟩

/-- The bootstrap step, for every chart. Let an initialised engine be pristine (flags =
Pristine) with an empty configuration, as every pristine engine of a run is; let its index
have `hierarchyConsistent` and a root that is no pseudo-state, and let the completion of the
root hold a state `k`. Then the step (1) returns Microstepped; (2) leaves the root (index 0)
active; (3) leaves active exactly the states of its entry set that are no pseudo-states,
among them the states of the completion of the root and their ancestors; (4) leaves the
flags Spontaneous and Initialized, with TopLevelFinal or without, and (5) with TopLevelFinal
exactly if it has entered a final state whose only ancestor is the root; (6) no sequence of
actions without `reset` clears Initialized afterwards, so the engine is not pristine again
before a `reset`; (7) in every run a pristine engine has an empty configuration. -/
theorem bootstrap_step_effect {H : Type} (cb : MicroStepCallbacks H) (b : Bool) (e : Engine)
    (g : H)
    (k : Nat) (hi : e.isInitialized = true) (hp : e.flags = USCXML_CTX_PRISTINE)
    (hc : e.configuration = 0)
    (hh : hierarchyConsistent { states := e.states, transitions := e.transitions } = true)
    (hroot : isPseudoType (USCXML_GET_STATE e 0).type = false)
    (hk : k < e.states.length) (hkc : BIT_HAS k (USCXML_GET_STATE e 0).completion = true) :
    (step cb b e g).1 = InterpreterState.USCXML_MICROSTEPPED ∧
    BIT_HAS 0 (step cb b e g).2.eng.configuration = true ∧
    (∀ j, BIT_HAS j (step cb b e g).2.eng.configuration =
      (decide (j < e.states.length) && BIT_HAS j (entrySetOf cb b e g) &&
        !isPseudoType (USCXML_GET_STATE e j).type)) ∧
    (∀ j, j < e.states.length → BIT_HAS j (USCXML_GET_STATE e 0).completion = true →
      isPseudoType (USCXML_GET_STATE e j).type = false →
      BIT_HAS j (step cb b e g).2.eng.configuration = true) ∧
    (∀ i j, i < e.states.length → BIT_HAS i (USCXML_GET_STATE e 0).completion = true →
      j < e.states.length → BIT_HAS j (USCXML_GET_STATE e i).ancestors = true →
      isPseudoType (USCXML_GET_STATE e j).type = false →
      BIT_HAS j (step cb b e g).2.eng.configuration = true) ∧
    ((step cb b e g).2.eng.flags = USCXML_CTX_SPONTANEOUS ||| USCXML_CTX_INITIALIZED ∨
      (step cb b e g).2.eng.flags =
        USCXML_CTX_SPONTANEOUS ||| USCXML_CTX_INITIALIZED ||| USCXML_CTX_TOP_LEVEL_FINAL) ∧
    (hasFlag (step cb b e g).2.eng.flags USCXML_CTX_TOP_LEVEL_FINAL = true ↔
      ∃ i, Call.monitor (MonitorHook.beforeEnteringState i) ∈ (step cb b e g).2.trace ∧
        USCXML_STATE_MASK (USCXML_GET_STATE e i).type = USCXML_STATE_FINAL ∧
        isTopLevel e i = true) ∧
    (∀ (actions : List (Action H)) (g2 : H), (∀ a ∈ actions, a ≠ Action.reset) →
      hasFlag (actions.foldl (applyAction cb) ((step cb b e g).2.eng, g2)).1.flags
        USCXML_CTX_INITIALIZED = true ∧
      (actions.foldl (applyAction cb) ((step cb b e g).2.eng, g2)).1.flags ≠
        USCXML_CTX_PRISTINE) ∧
    (∀ (scxml : Index) (h : H) (actions : List (Action H)),
      (run cb scxml h actions).1.flags = USCXML_CTX_PRISTINE →
      (run cb scxml h actions).1.configuration = 0) := by
  have hstep := step_pristine cb b e g hi hp
  have hnone : selectionRun cb b e g = none := by
    unfold selectionRun
    simp [hp]
  have hes : entrySetOf cb b e g =
      (establishEntrySet { e with flags := USCXML_CTX_SPONTANEOUS ||| USCXML_CTX_INITIALIZED }
        (USCXML_GET_STATE e 0).completion 0 0).1 := by
    unfold entrySetOf
    rw [hnone]
  have hbit : ∀ j, BIT_HAS j (step cb b e g).2.eng.configuration =
      (decide (j < e.states.length) && BIT_HAS j (entrySetOf cb b e g) &&
        !isPseudoType (USCXML_GET_STATE e j).type) := by
    intro j
    rw [hstep, microstep_configuration, hes]
    show ((BIT_HAS j e.configuration && _) || _) = _
    rw [hc, BIT_HAS_zero]
    simp
    rfl
  have hmem : ∀ j, j < e.states.length → isPseudoType (USCXML_GET_STATE e j).type = false →
      BIT_HAS j (establishEntrySet
        { e with flags := USCXML_CTX_SPONTANEOUS ||| USCXML_CTX_INITIALIZED }
        (USCXML_GET_STATE e 0).completion 0 0).1 = true →
      BIT_HAS j (step cb b e g).2.eng.configuration = true := by
    intro j hj hps hin
    rw [hbit j, hes, hin, hps]
    simp [hj]
  have hanc : ∀ i j, i < e.states.length → BIT_HAS i (USCXML_GET_STATE e 0).completion = true →
      j < e.states.length → BIT_HAS j (USCXML_GET_STATE e i).ancestors = true →
      isPseudoType (USCXML_GET_STATE e j).type = false →
      BIT_HAS j (step cb b e g).2.eng.configuration = true := by
    intro i j hi2 hic hj hja hps
    exact hmem j hj hps (establishEntrySet_ancestors
      { e with flags := USCXML_CTX_SPONTANEOUS ||| USCXML_CTX_INITIALIZED }
      _ 0 0 i j hi2 hic hja (isPseudoType_initial hps))
  have hcompl : ∀ j, j < e.states.length → BIT_HAS j (USCXML_GET_STATE e 0).completion = true →
      isPseudoType (USCXML_GET_STATE e j).type = false →
      BIT_HAS j (step cb b e g).2.eng.configuration = true := by
    intro j hj hjc hps
    exact hmem j hj hps (establishEntrySet_keeps
      { e with flags := USCXML_CTX_SPONTANEOUS ||| USCXML_CTX_INITIALIZED }
      _ 0 0 j (isPseudoType_initial hps) hjc)
  have h0 : BIT_HAS 0 (step cb b e g).2.eng.configuration = true := by
    by_cases hk0 : k = 0
    · subst hk0
      exact hcompl 0 hk hkc hroot
    · exact hanc k 0 hk hkc (by omega)
        (hierarchy_root _ hh k hk (Nat.pos_of_ne_zero hk0)) hroot
  obtain ⟨hf1, hf2⟩ := microstep_finals cb (USCXML_GET_STATE e 0).completion 0 0
    (callMonitor cb MonitorHook.beforeMicroStep
      { eng := { e with flags := USCXML_CTX_SPONTANEOUS ||| USCXML_CTX_INITIALIZED },
        host := g, trace := [] }) e ⟨rfl, rfl, rfl, rfl, rfl⟩
    (by
      intro c hc2
      have : c = Call.monitor MonitorHook.beforeMicroStep := by simpa using hc2
      rw [this]
      rfl)
  have hfl := bootstrap_flags cb (USCXML_GET_STATE e 0).completion 0 0
    (callMonitor cb MonitorHook.beforeMicroStep
      { eng := { e with flags := USCXML_CTX_SPONTANEOUS ||| USCXML_CTX_INITIALIZED },
        host := g, trace := [] }) rfl
  rw [← hstep] at hf1 hf2 hfl
  have hinit : hasFlag (step cb b e g).2.eng.flags USCXML_CTX_INITIALIZED = true := by
    rcases hfl with hfl | hfl <;> rw [hfl] <;> decide
  refine ⟨by rw [hstep]; rfl, h0, hbit, hcompl, hanc, hfl, ⟨?_, ?_⟩, ?_, ?_⟩
  · intro htl
    rcases hf2 htl with h1 | h1
    · have h2 : hasFlag (USCXML_CTX_SPONTANEOUS ||| USCXML_CTX_INITIALIZED)
          USCXML_CTX_TOP_LEVEL_FINAL = true := h1
      exact absurd h2 (by decide)
    · exact h1
  · rintro ⟨i, hin, hfin, htop⟩
    exact ((hf1 i hin hfin).1 htop).1
  · intro actions g2 hn
    have := actions_initialized_kept cb actions ((step cb b e g).2.eng, g2) hn hinit
    exact ⟨this, not_pristine_of_initialized this⟩
  · intro scxml h actions hpr
    rcases run_pristine_or_initialized cb scxml h actions with h1 | h1
    · exact h1.2
    · exact absurd hpr (not_pristine_of_initialized h1)

set_option maxRecDepth 100000 in
/-- An instance of `bootstrap_step_effect`: the chart with a top-level final state `f`; the
bootstrap step enters the root and `f` and sets TopLevelFinal besides Spontaneous and
Initialized. -/
theorem bootstrap_step_effect_example :
    (step queueCallbacks false (init (construct chartTopFinal)) ⟨[], []⟩).1 =
      InterpreterState.USCXML_MICROSTEPPED ∧
    BIT_HAS 0 (step queueCallbacks false (init (construct chartTopFinal))
      ⟨[], []⟩).2.eng.configuration = true ∧
    (step queueCallbacks false (init (construct chartTopFinal)) ⟨[], []⟩).2.eng.flags =
      USCXML_CTX_SPONTANEOUS ||| USCXML_CTX_INITIALIZED ||| USCXML_CTX_TOP_LEVEL_FINAL :=
  ⟨(bootstrap_step_effect queueCallbacks false (init (construct chartTopFinal)) ⟨[], []⟩ 1
      (by decide) (by decide) (by decide) (by decide) (by decide) (by decide) (by decide)).1,
    (bootstrap_step_effect queueCallbacks false (init (construct chartTopFinal)) ⟨[], []⟩ 1
      (by decide) (by decide) (by decide) (by decide) (by decide) (by decide) (by decide)).2.1,
    by decide⟩

set_option maxRecDepth 100000 in
/-- Claim C30 (fails on the code). The engine of `chartDeepInitial` after `init` is pristine
and the completion of its root is not empty: it holds `p` (1). The compound `p` is entered
by default; its completion names `x` (3), a grandchild whose parent `m` (2) is a child of
`p`, so the completion closure of the root is `p`, `m` and `x`. The bootstrap step returns
Microstepped and leaves exactly the flags Spontaneous and Initialized, and the root is
active; but the branch "deep completion" of lines 723-732 does not run, the entry set is
`scxml`, `p` and `x`, and the configuration afterwards holds the root with `p` and `x` and
without `m`: the state `x` is active while `m`, on the ancestor chain between `x` and `p`,
is not. -/
theorem C30_bootstrap_misses_closure :
    hierarchyConsistent chartDeepInitial = true ∧
    (init (construct chartDeepInitial)).flags = USCXML_CTX_PRISTINE ∧
    (init (construct chartDeepInitial)).configuration = 0 ∧
    (USCXML_GET_STATE (init (construct chartDeepInitial)) 0).completion = 1 <<< 1 ∧
    USCXML_STATE_MASK (USCXML_GET_STATE (init (construct chartDeepInitial)) 1).type =
      USCXML_STATE_COMPOUND ∧
    (USCXML_GET_STATE (init (construct chartDeepInitial)) 1).completion = 1 <<< 3 ∧
    (USCXML_GET_STATE (init (construct chartDeepInitial)) 3).parent = 2 ∧
    (USCXML_GET_STATE (init (construct chartDeepInitial)) 2).parent = 1 ∧
    BIT_HAS 2 (USCXML_GET_STATE (init (construct chartDeepInitial)) 3).ancestors = true ∧
    BIT_HAS 2 (USCXML_GET_STATE (init (construct chartDeepInitial)) 1).children = true ∧
    (step queueCallbacks false (init (construct chartDeepInitial)) ⟨[], []⟩).1 =
      InterpreterState.USCXML_MICROSTEPPED ∧
    (step queueCallbacks false (init (construct chartDeepInitial)) ⟨[], []⟩).2.eng.flags =
      USCXML_CTX_SPONTANEOUS ||| USCXML_CTX_INITIALIZED ∧
    entrySetOf queueCallbacks false (init (construct chartDeepInitial)) ⟨[], []⟩ = 0b1011 ∧
    getConfiguration
      (step queueCallbacks false (init (construct chartDeepInitial)) ⟨[], []⟩).2.eng =
      [0, 1, 3] ∧
    BIT_HAS 3 (step queueCallbacks false (init (construct chartDeepInitial))
      ⟨[], []⟩).2.eng.configuration = true ∧
    BIT_HAS 2 (step queueCallbacks false (init (construct chartDeepInitial))
      ⟨[], []⟩).2.eng.configuration = false := by
  decide

set_option maxRecDepth 100000 in
/-- Claim C24 (fails on the code). The chart `chartGrandchild`: the compound `p` (1) has the
children `c1` (2) and `c2` (3), `c2` holds `x1` (4) and `x2` (5), and the completion of `p`
names the grandchild `x2`, whose ancestor chain passes through `c2`. The bootstrap step enters
`p` by default; its entry set is `scxml`, `p` and `x2` without `c2`, and so is the
configuration afterwards. The branch "deep completion" of lines 723-732 is guarded by a test
of the completion against `children`, which holds all descendants: whenever the completion
names a descendant, the compound case adds the completion alone. -/
theorem C24_deep_completion_skips_chain :
    hierarchyConsistent chartGrandchild = true ∧
    USCXML_STATE_MASK (USCXML_GET_STATE (init (construct chartGrandchild)) 1).type =
      USCXML_STATE_COMPOUND ∧
    (USCXML_GET_STATE (init (construct chartGrandchild)) 1).completion = 0b100000 ∧
    (USCXML_GET_STATE (init (construct chartGrandchild)) 5).parent = 3 ∧
    (USCXML_GET_STATE (init (construct chartGrandchild)) 3).parent = 1 ∧
    BIT_HAS 3 (USCXML_GET_STATE (init (construct chartGrandchild)) 5).ancestors = true ∧
    entrySetOf queueCallbacks false (init (construct chartGrandchild)) ⟨[], []⟩ = 0b100011 ∧
    BIT_HAS 3 (entrySetOf queueCallbacks false (init (construct chartGrandchild)) ⟨[], []⟩) =
      false ∧
    (step queueCallbacks false (init (construct chartGrandchild)) ⟨[], []⟩).1 =
      InterpreterState.USCXML_MICROSTEPPED ∧
    getConfiguration
      (step queueCallbacks false (init (construct chartGrandchild)) ⟨[], []⟩).2.eng = [0, 1, 5] ∧
    (∀ (e : Engine) (exitSet : Bitset) (i : Nat) (entrySet : Bitset),
      BIT_HAS_AND (USCXML_GET_STATE e i).completion (USCXML_GET_STATE e i).children = false ∨
      compoundCompletion e exitSet i entrySet = entrySet ∨
      compoundCompletion e exitSet i entrySet =
        entrySet ||| (USCXML_GET_STATE e i).completion) := by
  refine ⟨by decide, by decide, by decide, by decide, by decide, by decide, by decide,
    by decide, by decide, by decide, ?_⟩
  intro e exitSet i entrySet
  rcases Bool.eq_false_or_eq_true
    (BIT_HAS_AND (USCXML_GET_STATE e i).completion (USCXML_GET_STATE e i).children) with h | h
  · right
    unfold compoundCompletion
    split
    · right
      simp [h]
    · left
      rfl
  · exact Or.inl h

set_option maxRecDepth 100000 in
/-- Claim C25 as stated fails: in the chart `chartNoDefault` the state `O` is active and the
event `back` takes the transition to the history state `h` (2), which has nothing stored,
an inactive parent `C` and no default transition. The history state is in the entry set, the
step returns Microstepped, and no call of `reportIssue` is made. -/
theorem C25_no_issue_reported :
    (step queueCallbacks false (engineAfter chartNoDefault ["back"] 3 2) ⟨[], ["back"]⟩).1 =
      InterpreterState.USCXML_MICROSTEPPED ∧
    isHistoryType (USCXML_GET_STATE (engineAfter chartNoDefault ["back"] 3 2) 2).type = true ∧
    BIT_HAS 2 (entrySetOf queueCallbacks false (engineAfter chartNoDefault ["back"] 3 2)
      ⟨[], ["back"]⟩) = true ∧
    (entryEngine queueCallbacks false (engineAfter chartNoDefault ["back"] 3 2)
      ⟨[], ["back"]⟩).history = 0 ∧
    BIT_HAS (USCXML_GET_STATE (engineAfter chartNoDefault ["back"] 3 2) 2).parent
      (engineAfter chartNoDefault ["back"] 3 2).configuration = false ∧
    noTransitionFrom (engineAfter chartNoDefault ["back"] 3 2) 2 = true ∧
    (step queueCallbacks false (engineAfter chartNoDefault ["back"] 3 2)
      ⟨[], ["back"]⟩).2.trace.any isIssueReport = false := by
  decide

/-- Claim C25, amended. Let a step return Microstepped, and let `i` be a history state with
nothing stored for its region when the entry set is computed, an inactive parent and no
default transition. Then: (1) the only issue the step can report is the re-entered
configuration of lines 902-906, at most once and exactly if the configuration it leaves was
seen, so nothing is reported for the history state; (2) the iteration of the loop over the
entry set for `i` leaves the entry set and the transition set as they are; (3) the entry set
is the one of a loop that skips `i`: no state is entered on behalf of the history state;
(4) the micro-step proceeds: the new configuration is the old one without the exit set,
together with the proper states of the entry set, and `i` is active afterwards only if it
was before. -/
theorem C25_history_without_default {H : Type} (cb : MicroStepCallbacks H) (b : Bool)
    (e : Engine) (g : H) (i : Nat)
    (hres : (step cb b e g).1 = InterpreterState.USCXML_MICROSTEPPED)
    (hty : isHistoryType (USCXML_GET_STATE e i).type = true)
    (hmem : BIT_HAS_AND (USCXML_GET_STATE e i).completion (entryEngine cb b e g).history = false)
    (hpar : BIT_HAS (USCXML_GET_STATE e i).parent e.configuration = false)
    (hno : noTransitionFrom e i = true) :
    (step cb b e g).2.trace.filter isIssueReport =
      (if (seenAt cb b e g e.microstepConfigurations).contains
          (step cb b e g).2.eng.configuration
        then [Call.monitor (MonitorHook.reportIssue cycleMessage)] else []) ∧
    (∀ (x : Bitset) (p : Bitset × Bitset), addDescendants (entryEngine cb b e g) x p i = p) ∧
    (∀ t x ts : Bitset, establishEntrySet (entryEngine cb b e g) t x ts =
      ((List.range e.states.length).filter fun j => j != i).foldl
        (addDescendants (entryEngine cb b e g) x)
        ((List.range e.states.length).foldl (addAncestors (entryEngine cb b e g)) t, ts)) ∧
    (∃ t ts : Bitset, entrySetOf cb b e g =
      (establishEntrySet (entryEngine cb b e g) t (exitedBy cb b e g) ts).1) ∧
    (∀ j, BIT_HAS j (step cb b e g).2.eng.configuration =
      ((BIT_HAS j e.configuration &&
          !(decide (j < e.states.length) && BIT_HAS j (exitedBy cb b e g))) ||
        (decide (j < e.states.length) && BIT_HAS j (entrySetOf cb b e g) &&
          !isPseudoType (USCXML_GET_STATE e j).type))) ∧
    (BIT_HAS i (step cb b e g).2.eng.configuration = true → BIT_HAS i e.configuration = true) := by
  obtain ⟨hst, hcfg⟩ := entryEngine_static cb b e g
  have hskip : ∀ (x : Bitset) (p : Bitset × Bitset),
      addDescendants (entryEngine cb b e g) x p i = p := by
    intro x p
    refine addDescendants_no_default _ x p i ?_ ?_ ?_ ?_
    · rw [hst.getState]
      exact hty
    · rw [hst.getState]
      exact hmem
    · rw [hst.getState, hcfg]
      exact hpar
    · rw [noTransitionFrom_congr hst]
      exact hno
  obtain ⟨t, ts, r, hstep, hes, hsr, hcr, _⟩ := step_microstep_sets cb b e g hres
  have hn : USCXML_NUMBER_STATES r.eng = e.states.length := by
    unfold USCXML_NUMBER_STATES
    rw [hsr.2.1]
  have hbit : ∀ j, BIT_HAS j (step cb b e g).2.eng.configuration =
      ((BIT_HAS j e.configuration &&
          !(decide (j < e.states.length) && BIT_HAS j (exitedBy cb b e g))) ||
        (decide (j < e.states.length) && BIT_HAS j (entrySetOf cb b e g) &&
          !isPseudoType (USCXML_GET_STATE e j).type)) := by
    intro j
    rw [hstep, microstep_configuration, hes, hcr, hn, hsr.getState]
  refine ⟨(step_seen cb b e g hres).2, hskip, ?_, entrySetOf_entryEngine cb b e g, hbit, ?_⟩
  · intro t x ts
    unfold establishEntrySet
    rw [hst.2.1]
    exact foldl_skip _ i (hskip x) _ _
  · intro hi
    rw [hbit i] at hi
    have hps : isPseudoType (USCXML_GET_STATE e i).type = true := by
      simp only [isHistoryType, Bool.or_eq_true, beq_iff_eq] at hty
      simp only [isPseudoType, Bool.or_eq_true, beq_iff_eq]
      tauto
    rw [hps] at hi
    simp only [Bool.not_true, Bool.and_false, Bool.or_false, Bool.and_eq_true] at hi
    exact hi.1

set_option maxRecDepth 100000 in
/-- Witness for C25: the step of `chartNoDefault` on the event `back`; the entry set is
`scxml`, `C` and `h`, and the configuration afterwards `scxml` and `C`. -/
theorem C25_history_without_default_witness :
    entrySetOf queueCallbacks false (engineAfter chartNoDefault ["back"] 3 2)
      ⟨[], ["back"]⟩ = 0b00111 ∧
    getConfiguration (step queueCallbacks false (engineAfter chartNoDefault ["back"] 3 2)
      ⟨[], ["back"]⟩).2.eng = [0, 1] ∧
    (step queueCallbacks false (engineAfter chartNoDefault ["back"] 3 2)
      ⟨[], ["back"]⟩).2.trace.filter isIssueReport =
      (if (seenAt queueCallbacks false (engineAfter chartNoDefault ["back"] 3 2) ⟨[], ["back"]⟩
          (engineAfter chartNoDefault ["back"] 3 2).microstepConfigurations).contains
          (step queueCallbacks false (engineAfter chartNoDefault ["back"] 3 2)
            ⟨[], ["back"]⟩).2.eng.configuration
        then [Call.monitor (MonitorHook.reportIssue cycleMessage)] else []) :=
  ⟨by decide, by decide,
    (C25_history_without_default queueCallbacks false (engineAfter chartNoDefault ["back"] 3 2)
      ⟨[], ["back"]⟩ 2 (by decide) (by decide) (by decide) (by decide) (by decide)).1⟩

/-- Claim C28 (fails on the code). In the document `docHistoryChild` the state `C` (1) has
the history child `h` (2), and `init` gives `C` the type Compound without the flag
HasHistory. `getHistoryCompletion` stores the user data on the history element itself, with
another state as its value, and line 284 compares the user data of the element of a state
with that state: for every document and every state the flag stays clear, whether or not a
direct child is a history pseudo-state. The other part of the claim holds: the low seven
bits of the type are the kind of the state. -/
theorem C28_has_history_never_set :
    hasHistoryChild docHistoryChild 1 = true ∧
    stateType docHistoryChildDescendant docHistoryChild 1 = USCXML_STATE_COMPOUND ∧
    hasFlag (stateType docHistoryChildDescendant docHistoryChild 1) USCXML_STATE_HAS_HISTORY =
      false ∧
    hasHistoryChild docTwoHistories 1 = true ∧
    hasHistoryChildData docTwoHistoriesDescendant docTwoHistories 2 = some 3 ∧
    (List.range 5).map (stateType docTwoHistoriesDescendant docTwoHistories) =
      [USCXML_STATE_COMPOUND, USCXML_STATE_COMPOUND, USCXML_STATE_HISTORY_DEEP,
        USCXML_STATE_HISTORY_SHALLOW, USCXML_STATE_ATOMIC] ∧
    (∀ (isDescendant : Nat → Option Nat → Bool) (els : List ElementFacts) (i : Nat),
      hasFlag (stateType isDescendant els i) USCXML_STATE_HAS_HISTORY = false ∧
      USCXML_STATE_MASK (stateType isDescendant els i) = stateType isDescendant els i ∧
      USCXML_STATE_MASK (stateType isDescendant els i) =
        (if (els.getD i default).isInitialTag then USCXML_STATE_INITIAL
        else if (els.getD i default).isFinal then USCXML_STATE_FINAL
        else if (els.getD i default).isHistory then
          if (els.getD i default).deep then USCXML_STATE_HISTORY_DEEP
          else USCXML_STATE_HISTORY_SHALLOW
        else if (els.getD i default).isAtomic then USCXML_STATE_ATOMIC
        else if (els.getD i default).isParallel then USCXML_STATE_PARALLEL
        else USCXML_STATE_COMPOUND)) := by
  refine ⟨by decide, by decide, by decide, by decide, by decide, by decide, ?_⟩
  intro isDescendant els i
  obtain ⟨h1, h2⟩ := stateType_flag isDescendant els i
  refine ⟨h1, h2, ?_⟩
  rw [h2]
  exact stateType_kind isDescendant els i

/-- Claim C27 (fails on the code). The state `s` of `docDeepShallow` has the children, in
document order, the deep history `hd`, the shallow history `hs` and the state `c`. The first
loop of `resortStates` reads the attribute `type` of the element `s` itself, which has none,
and not the one of the child: it moves both history children to the front, each in front of
the one before, and the second loop moves nothing. Whatever the comparison `iequals` and
whatever depth is allowed beyond that of the document, `resortStates` leaves the children of
`s` in the order `hs`, `hd`, `c`: the shallow history before the deep one. Every loop leaves
in front, in the reverse of their order, the resorted children that pass its test, followed
by the others in their order, and so permutes the children. -/
theorem C27_shallow_history_before_deep :
    childIds stateDeepShallow = ["hd", "hs", "c"] ∧
    (∀ (iequals : String → String → Bool) (k : Nat),
      resortStates iequals "" (k + 2) docDeepShallow =
        DOMNode.element "scxml" "scxml" "" none
          [ DOMNode.element "state" "state" "s" none
              [ DOMNode.element "history" "history" "hs" (some "shallow") [],
                DOMNode.element "history" "history" "hd" (some "deep") [],
                DOMNode.element "state" "state" "c" none [] ] ]) ∧
    (∀ (iequals : String → String → Bool) (k : Nat),
      childIds (resortStates iequals "" (k + 1) stateDeepShallow) = ["hs", "hd", "c"]) ∧
    (∀ (resort : DOMNode → DOMNode) (moves : DOMNode → Bool) (cs : List DOMNode),
      resortPass resort moves cs =
        ((cs.map resort).filter moves).reverse ++ (cs.map resort).filter (fun c => !moves c) ∧
      (resortPass resort moves cs).Perm (cs.map resort)) := by
  refine ⟨by decide, ?_, ?_, fun resort moves cs =>
    ⟨resortPass_eq resort moves cs, resortPass_perm resort moves cs⟩⟩
  · intro iequals k
    unfold docDeepShallow
    rw [resortStates]
    simp only [resortPass_eq, List.map, List.filter, List.reverse_cons, List.reverse_nil,
      List.nil_append, List.append_nil, List.cons_append]
    rw [resortStates_thrice, resortStates_stateDeepShallow]
    rfl
  · intro iequals k
    rw [resortStates_stateDeepShallow]
    rfl

set_option maxRecDepth 100000 in
/-- Claim C21 (fails on the code). In the chart `chartNestedDeepHistory` the compound `C` (3)
with the deep history `h` (4), the child `c1` (5) and the compound `c2` (6) holding `x1` (7)
and `x2` (8) lies in a state `D` that has a deep history `hd` (2) of its own.
`getHistoryCompletion` never fills the list `covered` that its test of lines 973-974 reads,
so the completion of `hd` holds the states below `C` too. The sixth step (event `b`) exits
`C` while `c2` and `x2` are active and records them; the eighth (event `c`) exits `D` while
`C` is inactive, and the loop REMEMBER_HISTORY, for `hd`, clears the bits of `c2` and `x2`
in the one bit set `_history`; the tenth (event `d`) takes the transition targeting `h`
while `C` is inactive, finds no memory, and enters `C` and `c1`, not `c2` and `x2`. -/
theorem C21_deep_memory_overwritten :
    hierarchyConsistent chartNestedDeepHistory = true ∧
    (USCXML_GET_STATE (afterSteps chartNestedDeepHistory ["a", "b", "c", "d"] 5).1 2).type =
      USCXML_STATE_HISTORY_DEEP ∧
    BIT_HAS 6 (USCXML_GET_STATE (afterSteps chartNestedDeepHistory ["a", "b", "c", "d"] 5).1
      2).completion = true ∧
    BIT_HAS 8 (USCXML_GET_STATE (afterSteps chartNestedDeepHistory ["a", "b", "c", "d"] 5).1
      2).completion = true ∧
    exitedBy queueCallbacks false (afterSteps chartNestedDeepHistory ["a", "b", "c", "d"] 7).1
      (afterSteps chartNestedDeepHistory ["a", "b", "c", "d"] 7).2 = 1 <<< 1 ||| 1 <<< 9 ∧
    (afterSteps chartNestedDeepHistory ["a", "b", "c", "d"] 8).1.history = 1 <<< 9 ∧
    deepHistory (afterSteps chartNestedDeepHistory ["a", "b", "c", "d"] 5).1 3 4 6 8 = true ∧
    BIT_HAS 3 (exitedBy queueCallbacks false
      (afterSteps chartNestedDeepHistory ["a", "b", "c", "d"] 5).1
      (afterSteps chartNestedDeepHistory ["a", "b", "c", "d"] 5).2) = true ∧
    BIT_HAS 6 (afterSteps chartNestedDeepHistory ["a", "b", "c", "d"] 5).1.configuration =
      true ∧
    BIT_HAS 8 (afterSteps chartNestedDeepHistory ["a", "b", "c", "d"] 5).1.configuration =
      true ∧
    (afterSteps chartNestedDeepHistory ["a", "b", "c", "d"] 6).1.history =
      1 <<< 6 ||| 1 <<< 8 ∧
    BIT_HAS 3 (afterSteps chartNestedDeepHistory ["a", "b", "c", "d"] 9).1.configuration =
      false ∧
    selectedBy queueCallbacks false (afterSteps chartNestedDeepHistory ["a", "b", "c", "d"] 9).1
      (afterSteps chartNestedDeepHistory ["a", "b", "c", "d"] 9).2 = 1 <<< 5 ∧
    (USCXML_GET_TRANS (afterSteps chartNestedDeepHistory ["a", "b", "c", "d"] 9).1 5).target =
      1 <<< 4 ∧
    (USCXML_GET_STATE (afterSteps chartNestedDeepHistory ["a", "b", "c", "d"] 9).1
        4).completion &&&
      (afterSteps chartNestedDeepHistory ["a", "b", "c", "d"] 9).1.history = 0 ∧
    getConfiguration (afterSteps chartNestedDeepHistory ["a", "b", "c", "d"] 10).1 =
      [0, 1, 3, 5] ∧
    BIT_HAS 5 (afterSteps chartNestedDeepHistory ["a", "b", "c", "d"] 10).1.configuration =
      true ∧
    BIT_HAS 6 (afterSteps chartNestedDeepHistory ["a", "b", "c", "d"] 10).1.configuration =
      false ∧
    BIT_HAS 8 (afterSteps chartNestedDeepHistory ["a", "b", "c", "d"] 10).1.configuration =
      false := by
  decide

/-- Deep history where the memory is not overwritten. Let `h` be a deep history state with
the parent `C`, compound ancestors, and in its completion a compound `c2` with an atomic
state `x2` below it (`deepHistory`). Let a step from the engine `eA` exit `C` while, of the
completion of `h`, exactly `c2` and `x2` are active. Let further steps follow, and then, from
the engine `eB`, a step that takes exactly one transition, with the single target `h`, while
`C` is inactive; and let no step after the exit, this one included, have in its exit set the
parent of a history state whose completion shares a state with the completion of `h`
(`keptAlong`, `memoryKept`). Then the last step returns Microstepped; it does not exit `C`;
afterwards `C`, `c2` and `x2` are active, and a state of the completion of `h` other than
`c2` and `x2` (such as `c1` and `x1`) that was not active is not active; the entry set is
`h`, its ancestors and the memory; and the memory of `h` that the step uses is the
completion of `h` intersected with the configuration at the exit of `C`. -/
theorem deep_history_restored {H : Type} (cb : MicroStepCallbacks H) (eA : Engine)
    (C h c2 x2 : Nat) (hchart : deepHistory eA C h c2 x2 = true)
    (bA : Bool) (gA : H)
    (hexit : BIT_HAS C (exitedBy cb bA eA gA) = true)
    (hactive : (USCXML_GET_STATE eA h).completion &&& eA.configuration =
      1 <<< c2 ||| 1 <<< x2)
    (between : List (Bool × H))
    (hkept : keptAlong cb (USCXML_GET_STATE eA h).completion (step cb bA eA gA).2.eng between =
      true)
    (eB : Engine) (heB : eB = stepsFrom cb (step cb bA eA gA).2.eng between)
    (bB : Bool) (gB : H) (t : Nat) (ht : t < eB.transitions.length)
    (hone : selectedBy cb bB eB gB = 1 <<< t)
    (htarget : (USCXML_GET_TRANS eB t).target = 1 <<< h)
    (hinactive : BIT_HAS C eB.configuration = false)
    (hkeptB : memoryKept eB (exitedBy cb bB eB gB) (USCXML_GET_STATE eA h).completion = true) :
    (step cb bB eB gB).1 = InterpreterState.USCXML_MICROSTEPPED ∧
    BIT_HAS C (exitedBy cb bB eB gB) = false ∧
    BIT_HAS C (step cb bB eB gB).2.eng.configuration = true ∧
    BIT_HAS c2 (step cb bB eB gB).2.eng.configuration = true ∧
    BIT_HAS x2 (step cb bB eB gB).2.eng.configuration = true ∧
    (∀ j, BIT_HAS j (USCXML_GET_STATE eA h).completion = true → j ≠ c2 → j ≠ x2 →
      BIT_HAS j eB.configuration = false →
      BIT_HAS j (step cb bB eB gB).2.eng.configuration = false) ∧
    (∀ r, selectionRun cb bB eB gB = some r →
      (establishEntrySet (beforeEntrySet cb r).eng (1 <<< h) (exitSetOf cb r) (1 <<< t)).1 =
        1 <<< h ||| (USCXML_GET_STATE eA h).ancestors |||
          ((USCXML_GET_STATE eA h).completion &&& eA.configuration) ∧
      (USCXML_GET_STATE eA h).completion &&& (beforeEntrySet cb r).eng.history =
        (USCXML_GET_STATE eA h).completion &&& eA.configuration) ∧
    (USCXML_GET_STATE eA h).completion &&& (step cb bB eB gB).2.eng.history =
      (USCXML_GET_STATE eA h).completion &&& eA.configuration := by
  obtain ⟨hh, hc2, hx2, hC, hty, hpar, hCa, hc2c, hx2c, htc, hxc, htx, hanc, hdis⟩ :=
    deepHistory_facts hchart
  -- the exit of C
  have hiA : eA.isInitialized = true := by
    cases hr : selectionRun cb bA eA gA with
    | none =>
      unfold exitedBy at hexit
      rw [hr, BIT_HAS_zero] at hexit
      cases hexit
    | some r => exact selectionRun_initialized cb bA eA gA r hr
  have hrec := step_records cb bA eA gA h hh (isHistoryType_of_deep hty)
    (by rw [hpar]; exact hexit)
  have hs1 : Static eA (step cb bA eA gA).2.eng := step_static cb bA eA gA hiA
  have hi1 : (step cb bA eA gA).2.eng.isInitialized = true := hs1.2.2.2.1.trans hiA
  -- the steps in between
  have hs2 : Static eA eB := by
    rw [heB]
    exact hs1.chain (stepsFrom_static cb _ between hi1)
  have hmemB : (USCXML_GET_STATE eA h).completion &&& eB.history = 1 <<< c2 ||| 1 <<< x2 := by
    rw [heB, stepsFrom_keeps cb _ _ between hi1 hkept, hrec, hactive]
  -- the step that takes the transition to h
  obtain ⟨r, hr, hsel⟩ := selectedBy_one cb bB eB gB t hone
  have hgB : USCXML_GET_STATE eB = USCXML_GET_STATE eA := hs2.getState
  have hcB : deepHistory eB C h c2 x2 = true := by
    rw [deepHistory_congr hs2]
    exact hchart
  rw [exitedBy_some cb bB eB gB r hr, ← hgB] at hkeptB
  obtain ⟨q1, q2, q3, q4⟩ := step_restores_deep cb bB eB gB r t C h c2 x2 hcB hr ht hsel
    htarget hkeptB (by rw [hgB]; exact hmemB)
  rw [hgB, hs2.2.1] at q4
  rw [hgB] at q2 q3
  have hnex : BIT_HAS C (exitedBy cb bB eB gB) = false := by
    cases hq : BIT_HAS C (exitedBy cb bB eB gB)
    · rfl
    · rw [exitedBy_active cb bB eB gB C hq] at hinactive
      cases hinactive
  have hhist : (USCXML_GET_STATE eA h).completion &&& (step cb bB eB gB).2.eng.history =
      (USCXML_GET_STATE eA h).completion &&& eA.configuration := by
    have := step_keeps cb bB eB gB (USCXML_GET_STATE eA h).completion
      (by rw [exitedBy_some cb bB eB gB r hr, ← hgB]; exact hkeptB)
    rw [this, hmemB, hactive]
  refine ⟨q1, hnex, ?_, ?_, ?_, ?_, ?_, hhist⟩
  · rw [q4 C, hCa]
    simp [hC]
  · rw [q4 c2]
    simp [hc2]
  · rw [q4 x2]
    simp [hx2]
  · intro j hj hjc hjx hjn
    rw [q4 j, hjn, (BIT_HAS_AND_false _ _).mp hdis j hj]
    simp [hjc, hjx]
  · intro r2 hr2
    rw [hr] at hr2
    cases hr2
    rw [hactive]
    exact ⟨q2, q3⟩

set_option maxRecDepth 100000 in
/-- An instance of `deep_history_restored`: the chart `chartDeepHistory` with the events `a`,
`out`, `back`. The sixth step (event `out`) exits `C` (1) while `c2` (4) and `x2` (6) are
active, the seventh returns Macrostepped, and the eighth (event `back`) takes the transition
3 to `h` (2): afterwards `scxml`, `C`, `c2` and `x2` are active, `c1` (3) and `x1` (5) are
not. -/
theorem deep_history_restored_example :
    deepHistory (afterSteps chartDeepHistory ["a", "out", "back"] 5).1 1 2 4 6 = true ∧
    BIT_HAS 1 (exitedBy queueCallbacks false
      (afterSteps chartDeepHistory ["a", "out", "back"] 5).1 ⟨[], ["out", "back"]⟩) = true ∧
    getConfiguration (step queueCallbacks false
      (stepsFrom queueCallbacks
        (step queueCallbacks false (afterSteps chartDeepHistory ["a", "out", "back"] 5).1
          ⟨[], ["out", "back"]⟩).2.eng [(false, ⟨[], ["back"]⟩)])
      ⟨[], ["back"]⟩).2.eng = [0, 1, 4, 6] ∧
    (step queueCallbacks false
      (stepsFrom queueCallbacks
        (step queueCallbacks false (afterSteps chartDeepHistory ["a", "out", "back"] 5).1
          ⟨[], ["out", "back"]⟩).2.eng [(false, ⟨[], ["back"]⟩)])
      ⟨[], ["back"]⟩).1 = InterpreterState.USCXML_MICROSTEPPED ∧
    BIT_HAS 6 (step queueCallbacks false
      (stepsFrom queueCallbacks
        (step queueCallbacks false (afterSteps chartDeepHistory ["a", "out", "back"] 5).1
          ⟨[], ["out", "back"]⟩).2.eng [(false, ⟨[], ["back"]⟩)])
      ⟨[], ["back"]⟩).2.eng.configuration = true :=
  ⟨by decide, by decide, by decide,
    (deep_history_restored queueCallbacks (afterSteps chartDeepHistory ["a", "out", "back"] 5).1
      1 2 4 6 (by decide) false ⟨[], ["out", "back"]⟩ (by decide) (by decide)
      [(false, ⟨[], ["back"]⟩)] (by decide) _ rfl false ⟨[], ["back"]⟩ 3 (by decide)
      (by decide) (by decide) (by decide) (by decide)).1,
    (deep_history_restored queueCallbacks (afterSteps chartDeepHistory ["a", "out", "back"] 5).1
      1 2 4 6 (by decide) false ⟨[], ["out", "back"]⟩ (by decide) (by decide)
      [(false, ⟨[], ["back"]⟩)] (by decide) _ rfl false ⟨[], ["back"]⟩ 3 (by decide)
      (by decide) (by decide) (by decide) (by decide)).2.2.2.2.1⟩

end uscxml
